import Mathlib

/-!
statsd_exporter: a shallow embedding of the line parser, the identity hasher, the mapping
engine, the containers of the accumulators and the event pipeline, with the properties proved
of them.

Go strings are byte sequences; they are modelled as lists of byte values (`Nat`, each below 256
for a real string).  Go maps `map[string]string` are modelled as association lists with `set`
(insert or overwrite) and `get` (zero value when absent); a real map has unique keys, which the
theorems state as `Labels.NodupKeys` where they need it.  A function that can panic at run time
returns an `Option`, `none` being the panic.  The arithmetic of `float64` and `strconv.ParseFloat`
are parameters of the embedding (`FloatOps`, `FloatArith` for the sums and comparisons of the
pipeline, and `FloatCount` for the conversions of the counter); `decOps`, `decArith` and
`decCount` are an exact decimal instance on which the embedding is run, the conversion of a
`uint64` to `float64` rounding to 53 bits in it.  The methods of an accumulator are modelled
for one writer at a time.  Of package `regexp` a fragment of the syntax is modelled, with Go's
leftmost-first matching.  Time stamps (`time.Now()`), logging and the mutex of the mapper are
left out of the model; the bulk processor of the exporter is the list of the documents added to
it.
-/

namespace StatsdExporter

/-! ## Go strings and maps -/

/-- A Go string: its bytes. -/
abbrev GoString := List Nat

/-- The bytes of an ASCII string literal. -/
def ascii (s : String) : GoString := s.toList.map Char.toNat

/-- The type `metrics.Labels`, a `map[string]string`, as an association list. -/
abbrev Labels := List (GoString × GoString)

/-- The keys of a map, in the order a `range` loop happens to visit them. -/
def Labels.keys (m : Labels) : List GoString := m.map Prod.fst

/-- A real Go map holds each key once. -/
def Labels.NodupKeys (m : Labels) : Prop := m.keys.Nodup

/-- The map read `m[k]`: the stored value, or the zero value `""` when `k` is absent. -/
def Labels.get : Labels → GoString → GoString
  | [], _ => []
  | (k', v) :: rest, k => if k' = k then v else Labels.get rest k

/-- The map write `m[k] = v`: overwrite the entry of `k`, or add one. -/
def Labels.set : Labels → GoString → GoString → Labels
  | [], k, v => [(k, v)]
  | (k', v') :: rest, k, v => if k' = k then (k', v) :: rest else (k', v') :: Labels.set rest k v

/-- Go's `<=` on strings: bytewise lexicographic order. -/
def strLe : GoString → GoString → Bool
  | [], _ => true
  | _ :: _, [] => false
  | a :: as, b :: bs => if a < b then true else if b < a then false else strLe as bs

/-- The function `sort.Strings`: the ascending rearrangement of the slice. -/
def sortStrings (l : List GoString) : List GoString :=
  l.insertionSort (fun a b => strLe a b = true)

/-! ## hash.go -/

def offset64 : Nat := 14695981039346656037

def prime64 : Nat := 1099511628211

def separatorByte : Nat := 255

/-- Initial value of a fnv64a hash. -/
def hashNew : Nat := offset64

/-- Add one byte to a fnv64a hash value: `h ^= b; h *= prime64` on `uint64`. -/
def hashAddByte (h : Nat) (b : Nat) : Nat := ((h ^^^ b) * prime64) % 2 ^ 64

/-- Add the bytes of a string to a fnv64a hash value. -/
def hashAdd (h : Nat) (s : GoString) : Nat := s.foldl hashAddByte h

/-- The cached signature of an empty label set. -/
def emptyLabelSignature : Nat := hashNew

/-! ## exporter.go: identities -/

/-- One round of the loop of `labelsToSignature` for the label name `labelName`. -/
def signatureStep (labels : Labels) (sum : Nat) (labelName : GoString) : Nat :=
  hashAddByte (hashAdd (hashAddByte (hashAdd sum labelName) separatorByte)
    (labels.get labelName)) separatorByte

def labelsToSignature (labels : Labels) : Nat :=
  if labels.length = 0 then emptyLabelSignature
  else (sortStrings labels.keys).foldl (signatureStep labels) hashNew

/-- The call `binary.BigEndian.PutUint64`: the eight bytes of a `uint64`, most significant
first. -/
def bigEndianPutUint64 (v : Nat) : GoString :=
  [v / 2 ^ 56 % 256, v / 2 ^ 48 % 256, v / 2 ^ 40 % 256, v / 2 ^ 32 % 256,
   v / 2 ^ 24 % 256, v / 2 ^ 16 % 256, v / 2 ^ 8 % 256, v % 256]

/-- The `Write` method of the `hash/fnv` 64-bit FNV-1a hash: per byte, xor then multiply. -/
def fnv64aWrite (h : Nat) (data : GoString) : Nat :=
  data.foldl (fun acc b => ((acc ^^^ b) * prime64) % 2 ^ 64) h

/-- The identity of (name, labels): `hash.Reset`, two `hash.Write` calls, `hash.Sum64`. -/
def hashNameAndLabels (name : GoString) (labels : Labels) : Nat :=
  fnv64aWrite (fnv64aWrite offset64 name) (bigEndianPutUint64 (labelsToSignature labels))

/-! ## Go standard library: strings and utf8 -/

/-- The call `strings.Split(s, sep)` for a one-byte separator `sep`. -/
def splitByte (sep : Nat) : GoString → List GoString
  | [] => [[]]
  | b :: rest =>
    if b = sep then [] :: splitByte sep rest
    else match splitByte sep rest with
      | [] => [[b]]
      | h :: t => (b :: h) :: t

/-- The call `strings.Cut(s, sep)` for a one-byte separator: the text before and after the first
`sep`, if there is one. -/
def stringsCut (sep : Nat) : GoString → Option (GoString × GoString)
  | [] => none
  | b :: rest =>
    if b = sep then some ([], rest)
    else (stringsCut sep rest).map (fun p => (b :: p.1, p.2))

/-- The call `strings.SplitN(s, sep, 2)` for a one-byte separator. -/
def splitN2 (sep : Nat) (s : GoString) : List GoString :=
  match stringsCut sep s with
  | none => [s]
  | some (a, b) => [a, b]

/-- The call `strings.Contains(s, substr)`. -/
def stringsContains : GoString → GoString → Bool
  | [], sub => sub.isEmpty
  | b :: rest, sub => sub.isPrefixOf (b :: rest) || stringsContains rest sub

/-- The call `strings.Index(s, sep)` for a one-byte `sep`: the first position, or -1. -/
def stringsIndexByte (sep : Nat) : GoString → Int
  | [] => -1
  | b :: rest =>
    if b = sep then 0
    else if stringsIndexByte sep rest = -1 then -1 else stringsIndexByte sep rest + 1

/-- The call `strings.TrimPrefix(s, p)` for a one-byte `p`. -/
def trimPrefixByte (p : Nat) : GoString → GoString
  | [] => []
  | b :: rest => if b = p then rest else b :: rest

/-- A UTF-8 continuation byte. -/
def isCont (b : Nat) : Bool := 0x80 ≤ b && b ≤ 0xBF

/-- The size `utf8.DecodeRuneInString` reports for the first rune of a string: 2, 3 or 4 for a
well-formed multi-byte encoding, 1 for an ASCII byte and for a byte that starts no well-formed
encoding, 0 for the empty string.  A byte past the end reads as 0, which continues nothing. -/
def runeWidth : GoString → Nat
  | [] => 0
  | b0 :: rest =>
    if b0 < 0x80 then 1
    else if 0xC2 ≤ b0 ∧ b0 ≤ 0xDF then
      if isCont (rest.getD 0 0) then 2 else 1
    else if 0xE0 ≤ b0 ∧ b0 ≤ 0xEF then
      if (if b0 = 0xE0 then 0xA0 ≤ rest.getD 0 0 ∧ rest.getD 0 0 ≤ 0xBF
          else if b0 = 0xED then 0x80 ≤ rest.getD 0 0 ∧ rest.getD 0 0 ≤ 0x9F
          else isCont (rest.getD 0 0) = true) ∧ isCont (rest.getD 1 0) = true then 3 else 1
    else if 0xF0 ≤ b0 ∧ b0 ≤ 0xF4 then
      if (if b0 = 0xF0 then 0x90 ≤ rest.getD 0 0 ∧ rest.getD 0 0 ≤ 0xBF
          else if b0 = 0xF4 then 0x80 ≤ rest.getD 0 0 ∧ rest.getD 0 0 ≤ 0x8F
          else isCont (rest.getD 0 0) = true) ∧ isCont (rest.getD 1 0) = true ∧
          isCont (rest.getD 2 0) = true then 4 else 1
    else 1

/-- The loop of `utf8.ValidString`; `skip` counts the bytes of the current rune still to pass. -/
def validFrom : Nat → GoString → Bool
  | _, [] => true
  | skip + 1, _ :: rest => validFrom skip rest
  | 0, b :: rest =>
    if b < 0x80 then validFrom 0 rest
    else if 1 < runeWidth (b :: rest) then validFrom (runeWidth (b :: rest) - 1) rest
    else false

/-- The call `utf8.ValidString(s)`. -/
def utf8ValidString (s : GoString) : Bool := validFrom 0 s

/-! ## Go's float64, as far as the program uses it -/

/-- The operations on `float64` the program uses, over a carrier `F`.  The embedding is
parametric in them, so that it does not fix a model of IEEE arithmetic. -/
structure FloatOps (F : Type) where
  /-- The call `strconv.ParseFloat(s, 64)`: the returned number and whether `err == nil`. -/
  parseFloat : GoString → F × Bool
  /-- The constant `1`. -/
  one : F
  /-- The test `x == 0`. -/
  isZero : F → Bool
  /-- The quotient `x / y`. -/
  div : F → F → F
  /-- The conversion `int(x)`, which drops the fraction of `x`. -/
  toInt : F → Int
  /-- Dividing by one changes nothing. -/
  div_one : ∀ x, div x one = x
  /-- No text that `ParseFloat` accepts holds a `:` or a `|`. -/
  parse_no_sep : ∀ s, (parseFloat s).2 = true → 58 ∉ s ∧ 124 ∉ s

/-! ## metrics/metrics.go and metrics/events.go -/

/-- The type `MetricType`, a string. -/
abbrev MetricType := GoString

def metricTypeCounter : MetricType := ascii "counter"

def metricTypeGauge : MetricType := ascii "gauge"

def metricTypeTimer : MetricType := ascii "timer"

/-- The characters `illegalCharsRE` does not match: `a-z`, `A-Z`, `0-9` and `_`. -/
def isLegalChar (b : Nat) : Bool :=
  (97 ≤ b && b ≤ 122) || (65 ≤ b && b ≤ 90) || (48 ≤ b && b ≤ 57) || b = 95

/-- The call `illegalCharsRE.ReplaceAllString(s, "_")`: every rune outside the legal set becomes
one underscore; `skip` counts the bytes of a replaced multi-byte rune still to pass. -/
def replaceIllegalChars : Nat → GoString → GoString
  | _, [] => []
  | skip + 1, _ :: rest => replaceIllegalChars skip rest
  | 0, b :: rest =>
    if isLegalChar b then b :: replaceIllegalChars 0 rest
    else 95 :: replaceIllegalChars (runeWidth (b :: rest) - 1) rest

/-- The function `EscapeMetricName`; `none` is the run-time panic of `metricName[0]` on the
empty string. -/
def EscapeMetricName (metricName : GoString) : Option GoString :=
  match metricName with
  | [] => none
  | b :: _ =>
    if 48 ≤ b ∧ b ≤ 57 then some (replaceIllegalChars 0 (95 :: metricName))
    else some (replaceIllegalChars 0 metricName)

/-- The three event types behind the `Event` interface (time stamps left out). -/
inductive Event (F : Type) where
  | counter (metricName : GoString) (value : F) (labels : Labels)
  | gauge (metricName : GoString) (value : F) (relative : Bool) (labels : Labels)
  | timer (metricName : GoString) (value : F) (labels : Labels)
  deriving DecidableEq

def Event.MetricName {F : Type} : Event F → GoString
  | .counter n _ _ => n
  | .gauge n _ _ _ => n
  | .timer n _ _ => n

def Event.Value {F : Type} : Event F → F
  | .counter _ v _ => v
  | .gauge _ v _ _ => v
  | .timer _ v _ => v

def Event.Labels {F : Type} : Event F → Labels
  | .counter _ _ l => l
  | .gauge _ _ _ l => l
  | .timer _ _ l => l

def Event.MetricType {F : Type} : Event F → MetricType
  | .counter _ _ _ => metricTypeCounter
  | .gauge _ _ _ _ => metricTypeGauge
  | .timer _ _ _ => metricTypeTimer

/-- The event with its label set replaced by `labels`. -/
def Event.withLabels {F : Type} (labels : StatsdExporter.Labels) : Event F → Event F
  | .counter n v _ => .counter n v labels
  | .gauge n v r _ => .gauge n v r labels
  | .timer n v _ => .timer n v labels

/-- The function `NewEvent`; the error carries its message. -/
def NewEvent {F : Type} (statType metric : GoString) (value : F) (relative : Bool)
    (labels : Labels) : Except GoString (Event F) :=
  if statType = ascii "c" then .ok (.counter metric value labels)
  else if statType = ascii "g" then .ok (.gauge metric value relative labels)
  else if statType = ascii "ms" ∨ statType = ascii "h" then .ok (.timer metric value labels)
  else if statType = ascii "s" then .error (ascii "no support for StatsD sets")
  else .error (ascii "bad stat type " ++ statType)

/-! ## statsd/statsd.go -/

/-- One round of the loop of `parseDogStatsDTagsToLabels`, for the tag `t`; `none` is the panic
of `EscapeMetricName` on an empty key. -/
def tagStep (labels : Labels) (t : GoString) : Option Labels :=
  match splitN2 58 (trimPrefixByte 35 t) with
  | [k, v] =>
    if v.length = 0 then some labels
    else (EscapeMetricName k).map (fun key => labels.set key v)
  | _ => some labels

def parseDogStatsDTagsToLabels (component : GoString) : Option Labels :=
  (splitByte 44 component).foldlM tagStep []

/-- What the modifier loop of `lineToEvents` updates. -/
structure SampleState (F : Type) where
  value : F
  multiplyEvents : Int
  labels : Labels

/-- One round of the second loop over `components[2:]`: the `switch component[0]`. -/
def applyModifier {F : Type} (fl : FloatOps F) (statType : GoString) (st : SampleState F)
    (component : GoString) : Option (SampleState F) :=
  match component with
  | [] => none
  | c0 :: factorStr =>
    if c0 = 64 then
      if statType ≠ ascii "c" ∧ statType ≠ ascii "ms" then some st
      else
        let samplingFactor :=
          if fl.isZero (fl.parseFloat factorStr).1 then fl.one else (fl.parseFloat factorStr).1
        if statType = ascii "c" then some { st with value := fl.div st.value samplingFactor }
        else if statType = ascii "ms" then
          some { st with multiplyEvents := fl.toInt (fl.div fl.one samplingFactor) }
        else some st
    else if c0 = 35 then
      (parseDogStatsDTagsToLabels component).map (fun l => { st with labels := l })
    else some st

/-- The final loop of a sample, `for i := 0; i < multiplyEvents; i++`, run `n` times: the events
it appends. -/
def emitEvents {F : Type} (statType metric : GoString) (value : F) (relative : Bool)
    (labels : Labels) : Nat → List (Event F)
  | 0 => []
  | n + 1 =>
    match NewEvent statType metric value relative labels with
    | .ok event => event :: emitEvents statType metric value relative labels n
    | .error _ => emitEvents statType metric value relative labels n

/-- The body of the `samples` loop of `lineToEvents`: the events one sample appends (`continue`
appends none); `none` is a run-time panic. -/
def sampleToEvents {F : Type} (fl : FloatOps F) (metric sample : GoString) :
    Option (List (Event F)) :=
  match splitByte 124 sample with
  | valueStr :: statType :: modifiers =>
    if 2 < modifiers.length then some []
    else if (fl.parseFloat valueStr).2 = false then some []
    else if modifiers.any (fun component => component.length = 0) then some []
    else
      (modifiers.foldlM (applyModifier fl statType)
          { value := (fl.parseFloat valueStr).1, multiplyEvents := 1, labels := [] }).map
        (fun st => emitEvents statType metric st.value
          (stringsIndexByte 43 valueStr = 0 || stringsIndexByte 45 valueStr = 0)
          st.labels st.multiplyEvents.toNat)
  | _ => some []

/-- The function `lineToEvents`; `none` is a run-time panic. -/
def lineToEvents {F : Type} (fl : FloatOps F) (line : GoString) : Option (List (Event F)) :=
  if line = [] then some []
  else
    match splitN2 58 line with
    | [metric, rest] =>
      if metric.length = 0 ∨ utf8ValidString line = false then some []
      else
        (if stringsContains rest (ascii "|#") then [rest] else splitByte 58 rest).foldlM
          (fun events sample => (sampleToEvents fl metric sample).map (fun evs => events ++ evs))
          []
    | _ => some []

/-! ## The label set of a tag section, in words

Two readings of the tag section `#t1,t2,...` as a fold over the tags `t1, t2, ...`, to compare
`parseDogStatsDTagsToLabels` with. -/

/-- Fold step: a tag `key:value` with a non-empty value sets `key` to `value`; any other tag
changes nothing. -/
def claimedTagStep (labels : Labels) (t : GoString) : Labels :=
  match splitN2 58 t with
  | [k, v] => if v = [] then labels else labels.set k v
  | _ => labels

/-- The label set when every tag contributes its key as written. -/
def claimedTagLabels (tags : List GoString) : Labels := tags.foldl claimedTagStep []

/-- Fold step: a tag `key:value` with a non-empty value sets the escaped `key` to `value`; any
other tag changes nothing. -/
def escapedTagStep (labels : Labels) (t : GoString) : Labels :=
  match splitN2 58 t with
  | [k, v] => if v = [] then labels else labels.set ((EscapeMetricName k).getD []) v
  | _ => labels

/-- The label set when every tag contributes its escaped key, a tag after the first being read
without one leading `#`. -/
def escapedTagLabels (tags : List GoString) : Labels :=
  match tags with
  | [] => []
  | t1 :: rest => (t1 :: rest.map (trimPrefixByte 35)).foldl escapedTagStep []

/-- A modifier that the `switch` of `lineToEvents` has a case for: it starts with `@` or `#`. -/
def startsModifier (m : GoString) : Bool := decide (m.head? = some 64 ∨ m.head? = some 35)

/-- No empty key stands before a non-empty value: a tag that starts with a colon is the colon
alone. -/
def TagKeyed (t : GoString) : Prop := t.head? = some 58 → t.tail = []

instance TagKeyed.decidable (t : GoString) : Decidable (TagKeyed t) := by
  unfold TagKeyed
  exact inferInstance

/-! ## An exact decimal instance of the float operations

Used to run the embedding on concrete lines.  It reads plain decimal numerals and computes with
unreduced fractions; rounding, infinities and NaN are not part of it. -/

/-- A fraction `num / den`, not reduced. -/
structure Dec where
  num : Int
  den : Nat
  deriving DecidableEq

/-- The number a string of decimal digits denotes (0 for the empty string). -/
def parseDigits (s : GoString) : Option Nat :=
  s.foldlM (fun acc b => if 48 ≤ b ∧ b ≤ 57 then some (acc * 10 + (b - 48)) else none) 0

/-- Read `digits`, `digits.digits`, `digits.` or `.digits`. -/
def Dec.parseUnsigned (s : GoString) : Option Dec :=
  match splitByte 46 s with
  | [ip] => if ip = [] then none else (parseDigits ip).map (fun n => ⟨n, 1⟩)
  | [ip, fp] =>
    if ip = [] ∧ fp = [] then none
    else
      match parseDigits ip, parseDigits fp with
      | some a, some b => some ⟨(a * 10 ^ fp.length + b : Nat), 10 ^ fp.length⟩
      | _, _ => none
  | _ => none

/-- The bytes of a decimal numeral: digits, `+`, `-` and `.`. -/
def isNumeralByte (b : Nat) : Bool := (48 ≤ b && b ≤ 57) || b = 43 || b = 45 || b = 46

/-- Read an optional sign and an unsigned numeral; a text that is no numeral gives `(0, false)`. -/
def Dec.parse (s : GoString) : Dec × Bool :=
  if s.all isNumeralByte then
    match s with
    | [] => (⟨0, 1⟩, false)
    | b :: rest =>
      if b = 45 then
        match Dec.parseUnsigned rest with
        | some d => (⟨-d.num, d.den⟩, true)
        | none => (⟨0, 1⟩, false)
      else
        match Dec.parseUnsigned (if b = 43 then rest else b :: rest) with
        | some d => (d, true)
        | none => (⟨0, 1⟩, false)
  else (⟨0, 1⟩, false)

def Dec.div (a b : Dec) : Dec := ⟨a.num * b.den * Int.sign b.num, a.den * b.num.natAbs⟩

/-- The integer part, rounding toward zero. -/
def Dec.toInt (a : Dec) : Int := Int.tdiv a.num a.den

/-- The nearest integer, halves away from zero (`math.Round`). -/
def Dec.round (a : Dec) : Int :=
  Int.sign a.num * ((2 * a.num.natAbs + a.den) / (2 * a.den) : Nat)

/-- The exact decimal instance. -/
def decOps : FloatOps Dec where
  parseFloat := Dec.parse
  one := ⟨1, 1⟩
  isZero := fun x => x.num = 0
  div := Dec.div
  toInt := Dec.toInt
  div_one := by
    intro x
    simp [Dec.div]
  parse_no_sep := by
    intro s h
    unfold Dec.parse at h
    by_cases hc : s.all isNumeralByte = true
    · constructor
      · intro hm
        exact absurd (List.all_eq_true.1 hc 58 hm) (by decide)
      · intro hm
        exact absurd (List.all_eq_true.1 hc 124 hm) (by decide)
    · rw [if_neg hc] at h
      exact absurd h (by simp)

/-! ## Go standard library: regexp, for a fragment of its syntax

The fragment: ASCII literals, `\` before a punctuation character, `\d`, `.`, bracket classes of
ASCII characters and ranges with or without `^`, capturing groups, `|`, the greedy `*`, `+` and
`?`, and the anchors `^` and `$`.  `regexpCompile` gives `none` both for what Go rejects and for
what the fragment leaves out (flags and named groups `(?...)`, counted repetition `{n,m}`,
non-greedy operators, Perl and POSIX classes other than `\d`, non-ASCII pattern text).  Matching
follows Go's leftmost-first rule; a round of `*` or `+` that matches the empty string is not
taken.  In a template, the names of `$name` and `${name}` are read as ASCII.  The matcher and
the expansion are those of Go where no round of a repetition can match the empty string and the
template is ASCII; the lookup is stated of such rules (`MetricMapping.inFragment`). -/

/-- A parsed regular expression. -/
inductive Node where
  | empty
  | lit (b : Nat)
  | cls (neg : Bool) (ranges : List (Nat × Nat))
  | any
  | bol
  | eol
  | cat (a b : Node)
  | alt (a b : Node)
  | star (a : Node)
  | plus (a : Node)
  | quest (a : Node)
  | cap (i : Nat) (a : Node)
  deriving DecidableEq

/-- The concatenation of a list of pieces. -/
def Node.seq : List Node → Node
  | [] => .empty
  | [a] => a
  | a :: rest => .cat a (Node.seq rest)

/-- The alternation of a list of alternatives. -/
def Node.alts : List Node → Node
  | [] => .empty
  | [a] => a
  | a :: rest => .alt a (Node.alts rest)

/-- A group the parser has open: its number, its closed alternatives (last first) and the pieces
of its current alternative (last first), each with a mark telling whether it is a repetition. -/
structure Frame where
  index : Nat
  alts : List Node
  pieces : List (Node × Bool)

def Frame.seq (f : Frame) : Node := Node.seq (f.pieces.reverse.map Prod.fst)

def Frame.node (f : Frame) : Node := Node.alts (f.seq :: f.alts).reverse

def Frame.push (f : Frame) (a : Node) : Frame := { f with pieces := (a, false) :: f.pieces }

/-- The ASCII punctuation characters, which `\` may precede. -/
def isPunct (b : Nat) : Bool :=
  (33 ≤ b && b ≤ 47) || (58 ≤ b && b ≤ 64) || (91 ≤ b && b ≤ 96) || (123 ≤ b && b ≤ 126)

/-- What the parser is in the middle of. -/
inductive Mode where
  /-- Between pieces. -/
  | normal
  /-- Just after `(`. -/
  | groupOpen
  /-- Just after `\`, outside a class. -/
  | escape
  /-- Just after `[`. -/
  | clsStart
  /-- In a class, before an item or the closing `]`. -/
  | cls (neg : Bool) (ranges : List (Nat × Nat))
  /-- Just after `\`, in a class. -/
  | clsEscape (neg : Bool) (ranges : List (Nat × Nat))
  /-- In a class, just after an escaped item. -/
  | clsAfterEscape (neg : Bool) (ranges : List (Nat × Nat))
  /-- In a class, just after the item `lo`, which may start a range. -/
  | clsItem (neg : Bool) (ranges : List (Nat × Nat)) (lo : Nat)
  /-- In a class, just after `lo-`. -/
  | clsDash (neg : Bool) (ranges : List (Nat × Nat)) (lo : Nat)

/-- The state of the parser: the enclosing open groups, the innermost one, the number of groups
seen, and the mode. -/
structure ParserState where
  stack : List Frame
  cur : Frame
  ncap : Nat
  mode : Mode

/-- Add a piece to the innermost group and go on between pieces. -/
def ParserState.push (p : ParserState) (a : Node) : ParserState :=
  { p with cur := p.cur.push a, mode := .normal }

/-- Read the byte `b` between pieces. -/
def normalStep (p : ParserState) (b : Nat) : Option ParserState :=
  if b = 40 then
    some { stack := p.cur :: p.stack, cur := ⟨p.ncap + 1, [], []⟩, ncap := p.ncap + 1,
           mode := .groupOpen }
  else if b = 41 then
    match p.stack with
    | [] => none
    | parent :: stack2 =>
      some { stack := stack2, cur := parent.push (.cap p.cur.index p.cur.node), ncap := p.ncap,
             mode := .normal }
  else if b = 124 then
    some { p with cur := { p.cur with alts := p.cur.seq :: p.cur.alts, pieces := [] },
                  mode := .normal }
  else if b = 42 ∨ b = 43 ∨ b = 63 then
    match p.cur.pieces with
    | (a, false) :: ps =>
      some { p with cur := { p.cur with pieces :=
        ((if b = 42 then .star a else if b = 43 then .plus a else .quest a), true) :: ps },
                    mode := .normal }
    | _ => none
  else if b = 46 then some (p.push .any)
  else if b = 94 then some (p.push .bol)
  else if b = 36 then some (p.push .eol)
  else if b = 92 then some { p with mode := .escape }
  else if b = 91 then some { p with mode := .clsStart }
  else if b = 123 ∨ b = 125 ∨ 128 ≤ b then none
  else some (p.push (.lit b))

/-- Read the byte `b` in a class, before an item or the closing `]`. -/
def clsStep (p : ParserState) (neg : Bool) (ranges : List (Nat × Nat)) (b : Nat) :
    Option ParserState :=
  if b = 93 then
    if ranges.isEmpty then none else some (p.push (.cls neg ranges.reverse))
  else if b = 92 then some { p with mode := .clsEscape neg ranges }
  else if b = 91 ∨ 128 ≤ b then none
  else some { p with mode := .clsItem neg ranges b }

/-- Read one byte of the pattern. -/
def parseStep (p : ParserState) (b : Nat) : Option ParserState :=
  match p.mode with
  | .normal => normalStep p b
  | .groupOpen => if b = 63 then none else normalStep p b
  | .escape =>
    if b = 100 then some (p.push (.cls false [(48, 57)]))
    else if isPunct b then some (p.push (.lit b))
    else none
  | .clsStart => if b = 94 then some { p with mode := .cls true [] } else clsStep p false [] b
  | .cls neg ranges => clsStep p neg ranges b
  | .clsEscape neg ranges =>
    if isPunct b then some { p with mode := .clsAfterEscape neg ((b, b) :: ranges) } else none
  | .clsAfterEscape neg ranges => if b = 45 then none else clsStep p neg ranges b
  | .clsItem neg ranges lo =>
    if b = 45 then some { p with mode := .clsDash neg ranges lo }
    else clsStep p neg ((lo, lo) :: ranges) b
  | .clsDash neg ranges lo =>
    if b = 93 then some (p.push (.cls neg ((45, 45) :: (lo, lo) :: ranges).reverse))
    else if b = 92 ∨ b = 91 ∨ 128 ≤ b ∨ b < lo then none
    else some { p with mode := .cls neg ((lo, b) :: ranges) }

/-- The end of the pattern: no group and no class may be open. -/
def parseFinish (p : ParserState) : Option (Node × Nat) :=
  match p.mode, p.stack with
  | .normal, [] => some (p.cur.node, p.ncap)
  | _, _ => none

/-- A compiled regular expression: its tree and the number of its capturing groups. -/
structure Regexp where
  expr : Node
  numSubexp : Nat
  deriving DecidableEq

/-- The call `regexp.Compile(src)`, on the fragment. -/
def regexpCompile (src : GoString) : Option Regexp :=
  ((src.foldlM parseStep ⟨[], ⟨0, [], []⟩, 0, .normal⟩).bind parseFinish).map
    (fun p => ⟨p.1, p.2⟩)

/-- The submatches found so far: for each group, where it started and ended. -/
abbrev Caps := List (Option (Nat × Nat))

/-- Where the matcher stands: the position in the text, the text from there on, the groups. -/
structure MatchState where
  pos : Nat
  rest : GoString
  caps : Caps

/-- Pass the first rune of the rest of the text if its first byte satisfies `p`. -/
def stepRune (p : Nat → Bool) (st : MatchState) (k : MatchState → Option Caps) : Option Caps :=
  match st.rest with
  | [] => none
  | b :: _ =>
    if p b then
      k { st with pos := st.pos + runeWidth st.rest, rest := st.rest.drop (runeWidth st.rest) }
    else none

/-- Membership of a rune, given by its first byte, in a class of ASCII ranges: a rune beyond
ASCII is in the class exactly when the class is negated. -/
def classMatches (neg : Bool) (ranges : List (Nat × Nat)) (b : Nat) : Bool :=
  if b < 128 then (ranges.any (fun r => r.1 ≤ b && b ≤ r.2)) != neg else neg

/-- Greedy repetition of `step`, each round passing at least one byte; `fuel` bounds the number
of rounds and is taken larger than the length of the text. -/
def starLoop (step : MatchState → (MatchState → Option Caps) → Option Caps) :
    Nat → MatchState → (MatchState → Option Caps) → Option Caps
  | 0, st, k => k st
  | fuel + 1, st, k =>
    match step st (fun st2 =>
        if st2.rest.length < st.rest.length then starLoop step fuel st2 k else none) with
    | some r => some r
    | none => k st

/-- Backtracking match of a tree at a state; `k` is what has to match after it.  The first
success in the order of preference is the result. -/
def Node.run : Node → MatchState → (MatchState → Option Caps) → Option Caps
  | .empty, st, k => k st
  | .lit b, st, k => stepRune (fun c => c = b) st k
  | .cls neg ranges, st, k => stepRune (classMatches neg ranges) st k
  | .any, st, k => stepRune (fun c => c ≠ 10) st k
  | .bol, st, k => if st.pos = 0 then k st else none
  | .eol, st, k => if st.rest.isEmpty then k st else none
  | .cat a b, st, k => a.run st (fun st2 => b.run st2 k)
  | .alt a b, st, k =>
    match a.run st k with
    | some r => some r
    | none => b.run st k
  | .star a, st, k => starLoop (fun s k2 => a.run s k2) (st.rest.length + 1) st k
  | .plus a, st, k =>
    a.run st (fun st2 => starLoop (fun s k2 => a.run s k2) (st2.rest.length + 1) st2 k)
  | .quest a, st, k =>
    match a.run st k with
    | some r => some r
    | none => k st
  | .cap i a, st, k =>
    a.run st (fun st2 => k { st2 with caps := st2.caps.set i (some (st.pos, st2.pos)) })

/-- Try to match the whole expression from position `pos`. -/
def Regexp.matchAt (re : Regexp) (pos : Nat) (rest : GoString) : Option Caps :=
  re.expr.run ⟨pos, rest, List.replicate (re.numSubexp + 1) none⟩
    (fun st => some (st.caps.set 0 (some (pos, st.pos))))

/-- The leftmost match: try every rune boundary from left to right; `skip` counts the bytes of
the current rune still to pass. -/
def Regexp.search (re : Regexp) : Nat → Nat → GoString → Option Caps
  | _, pos, [] => re.matchAt pos []
  | skip + 1, pos, _ :: rest => re.search skip (pos + 1) rest
  | 0, pos, b :: rest =>
    match re.matchAt pos (b :: rest) with
    | some caps => some caps
    | none => re.search (runeWidth (b :: rest) - 1) (pos + 1) rest

/-- The method `FindStringSubmatchIndex`: start and end of the match and of each group, -1 for
a group that took no part; the empty slice when there is no match. -/
def Regexp.FindStringSubmatchIndex (re : Regexp) (s : GoString) : List Int :=
  match re.search 0 0 s with
  | none => []
  | some caps =>
    (caps.map (fun c => match c with
      | some (a, b) => [(a : Int), (b : Int)]
      | none => [-1, -1])).flatten

/-- The method `MatchString`. -/
def Regexp.MatchString (re : Regexp) (s : GoString) : Bool := (re.search 0 0 s).isSome

/-- The bytes of a variable name in a template: ASCII letters, digits and `_`. -/
def isNameByte (b : Nat) : Bool :=
  (97 ≤ b && b ≤ 122) || (65 ≤ b && b ≤ 90) || (48 ≤ b && b ≤ 57) || b = 95

/-- The number a name denotes in `extract`: -1 unless it is a decimal numeral without a leading
zero. -/
def nameNumberLoop : Nat → GoString → Int
  | num, [] => num
  | num, b :: rest =>
    if b < 48 ∨ 57 < b ∨ 100000000 ≤ num then -1 else nameNumberLoop (num * 10 + (b - 48)) rest

def nameNumber (name : GoString) : Int :=
  if name.head? = some 48 ∧ 1 < name.length then -1 else nameNumberLoop 0 name

/-- The function `extract` of package regexp: the leading `name` or `{name}` of `str`, its
number, and the text after it; `none` when there is no well-formed name. -/
def extract (str : GoString) : Option (GoString × Int × GoString) :=
  match str with
  | [] => none
  | c :: tl =>
    if c = 123 then
      if (tl.takeWhile isNameByte).length = 0 then none
      else if (tl.dropWhile isNameByte).head? ≠ some 125 then none
      else some (tl.takeWhile isNameByte, nameNumber (tl.takeWhile isNameByte),
        (tl.dropWhile isNameByte).tail)
    else
      if (str.takeWhile isNameByte).length = 0 then none
      else some (str.takeWhile isNameByte, nameNumber (str.takeWhile isNameByte),
        str.dropWhile isNameByte)

/-- The text of submatch `num`: `src[match[2*num]:match[2*num+1]]`, or nothing when the index
is out of range or the group took no part. -/
def submatch (src : GoString) (m : List Int) (num : Nat) : GoString :=
  if 2 * num + 1 < m.length ∧ 0 ≤ m.getD (2 * num) 0 then
    (src.drop (m.getD (2 * num) 0).toNat).take
      ((m.getD (2 * num + 1) 0).toNat - (m.getD (2 * num) 0).toNat)
  else []

/-- The loop of `expand`: copy the template, replacing `$name` and `${name}`; a name that is no
number refers to a named group, of which the fragment has none. -/
def expandLoop (src : GoString) (m : List Int) : Nat → GoString → GoString
  | 0, template => template
  | fuel + 1, template =>
    match stringsCut 36 template with
    | none => template
    | some (before, after) =>
      before ++
        (if after.head? = some 36 then 36 :: expandLoop src m fuel after.tail
         else
          match extract after with
          | none => 36 :: expandLoop src m fuel after
          | some (_, num, rest) =>
            (if 0 ≤ num then submatch src m num.toNat else []) ++ expandLoop src m fuel rest)

/-- The method `ExpandString` with an empty `dst`. -/
def Regexp.ExpandString (_re : Regexp) (template src : GoString) (m : List Int) : GoString :=
  expandLoop src m (template.length + 1) template

/-! ## mappings/mapper.go and mappings/action.go -/

/-- The type `actionType`, a string. -/
abbrev actionType := GoString

def ActionTypeMap : actionType := ascii "map"

def ActionTypeDrop : actionType := ascii "drop"

def ActionTypeDefault : actionType := []

/-- Modelled from the spec: the declaration of `matchType` and of its constants is not among the
sources.  The spec gives `match_type: glob|regex`, an unset match type being the empty string. -/
abbrev matchType := GoString

/-- Modelled from the spec: see `matchType`. -/
def matchTypeGlob : matchType := ascii "glob"

/-- Modelled from the spec: see `matchType`. -/
def matchTypeDefault : matchType := []

/-- Modelled from the spec: the declaration of `timerType` is not among the sources; it is a
string, the unset timer type being the empty string. -/
abbrev timerType := GoString

/-- The call `regexp.MustCompile(src)`; the three patterns of the package compile. -/
def regexpMustCompile (src : GoString) : Regexp := (regexpCompile src).getD ⟨.empty, 0⟩

def statsdMetricRE : GoString := ascii "[a-zA-Z_](-?[a-zA-Z0-9_])+"

def templateReplaceRE : GoString := ascii "(\\$\\\x7b?\\d+\\\x7d?)"

def metricLineRE : Regexp :=
  regexpMustCompile
    (ascii "^(\\*\\.|" ++ statsdMetricRE ++ ascii "\\.)+(\\*|" ++ statsdMetricRE ++ ascii ")$")

def metricNameRE : Regexp :=
  regexpMustCompile
    (ascii "^([a-zA-Z_]|" ++ templateReplaceRE ++ ascii ")([a-zA-Z0-9_]|" ++ templateReplaceRE
      ++ ascii ")*$")

def labelNameRE : Regexp := regexpMustCompile (ascii "^[a-zA-Z_][a-zA-Z0-9_]+$")

structure mapperConfigDefaults where
  TimerType : timerType
  MatchType : matchType
  deriving DecidableEq

/-- The struct `MetricMapping`; `regex` is `none` for the nil pointer. -/
structure MetricMapping where
  Match : GoString
  Name : GoString
  regex : Option Regexp
  Labels : Labels
  TimerType : timerType
  MatchType : matchType
  HelpText : GoString
  Action : actionType
  MatchMetricType : MetricType
  deriving DecidableEq

/-- The struct `MetricMapper` (its mutex left out). -/
structure MetricMapper where
  Defaults : mapperConfigDefaults
  Mappings : List MetricMapping
  deriving DecidableEq

/-- The errors `InitFromYAMLString` returns, by the statement that returns them. -/
inductive InitError where
  /-- The error of `yaml.Unmarshal`. -/
  | yaml (msg : GoString)
  /-- The error `invalid label key: %s`. -/
  | invalidLabelKey (k : GoString)
  /-- The error `line %d: metric mapping didn't set a metric name`. -/
  | noMetricName (i : Nat)
  /-- The error `metric name '%s' doesn't match regex '%s'`. -/
  | badMetricName (name : GoString)
  /-- The error `invalid match: %s`. -/
  | invalidMatch (pattern : GoString)
  /-- The error `invalid match %s. cannot compile regex in mapping: %v`. -/
  | uncompilableGlob (pattern : GoString)
  /-- The error `invalid regex %s in mapping: %v`. -/
  | invalidRegex (pattern : GoString)
  deriving DecidableEq

deriving instance DecidableEq for Except

/-- The call `strings.Replace(s, old, new, -1)` for a one-byte `old`. -/
def replaceByte (old : Nat) (new : GoString) (s : GoString) : GoString :=
  (s.map (fun b => if b = old then new else [b])).flatten

/-- One round of the loop of `InitFromYAMLString`, for the rule `currentMapping` at index `i`:
the rule as the round leaves it, or the error it returns. -/
def compileMapping (defaults : mapperConfigDefaults) (i : Nat) (currentMapping : MetricMapping) :
    Except InitError MetricMapping :=
  match currentMapping.Labels.keys.find? (fun k => !labelNameRE.MatchString k) with
  | some k => .error (.invalidLabelKey k)
  | none =>
    if currentMapping.Name = [] then .error (.noMetricName i)
    else if !metricNameRE.MatchString currentMapping.Name then
      .error (.badMetricName currentMapping.Name)
    else
      let mt := if currentMapping.MatchType = [] then defaults.MatchType
        else currentMapping.MatchType
      let action := if currentMapping.Action = [] then ActionTypeMap else currentMapping.Action
      let tt := if currentMapping.TimerType = [] then defaults.TimerType
        else currentMapping.TimerType
      if mt = matchTypeGlob then
        if !metricLineRE.MatchString currentMapping.Match then
          .error (.invalidMatch currentMapping.Match)
        else
          match regexpCompile (ascii "^" ++
              replaceByte 42 (ascii "([^.]*)") (replaceByte 46 (ascii "\\.") currentMapping.Match)
              ++ ascii "$") with
          | none => .error (.uncompilableGlob currentMapping.Match)
          | some regex =>
            .ok { currentMapping with
              MatchType := mt, Action := action, regex := some regex, TimerType := tt }
      else
        match regexpCompile currentMapping.Match with
        | none => .error (.invalidRegex currentMapping.Match)
        | some regex =>
          .ok { currentMapping with
            MatchType := mt, Action := action, regex := some regex, TimerType := tt }

/-- The loop of `InitFromYAMLString` from index `i` on: all rules compiled, or the first
error. -/
def compileMappings (defaults : mapperConfigDefaults) :
    Nat → List MetricMapping → Except InitError (List MetricMapping)
  | _, [] => .ok []
  | i, currentMapping :: rest =>
    match compileMapping defaults i currentMapping with
    | .error e => .error e
    | .ok compiled =>
      match compileMappings defaults (i + 1) rest with
      | .error e => .error e
      | .ok others => .ok (compiled :: others)

/-- The part of `InitFromYAMLString` after `yaml.Unmarshal`, for the unmarshalled document `n`:
the mapper afterwards and the returned error, if any. -/
def loadDocument (m : MetricMapper) (n : MetricMapper) : MetricMapper × Option InitError :=
  let defaults : mapperConfigDefaults :=
    { n.Defaults with
      MatchType := if n.Defaults.MatchType = matchTypeDefault then matchTypeGlob
        else n.Defaults.MatchType }
  match compileMappings defaults 0 n.Mappings with
  | .error e => (m, some e)
  | .ok mappings => ({ Defaults := defaults, Mappings := mappings }, none)

/-- The method `InitFromYAMLString`; `unmarshal` stands for `yaml.Unmarshal` into a fresh
`MetricMapper`, with the `UnmarshalYAML` methods of the field types. -/
def InitFromYAMLString (unmarshal : GoString → Except GoString MetricMapper) (m : MetricMapper)
    (fileContents : GoString) : MetricMapper × Option InitError :=
  match unmarshal fileContents with
  | .error msg => (m, some (.yaml msg))
  | .ok n => loadDocument m n

/-- The labels loop of `GetMapping`: every value template of the rule, expanded. -/
def expandLabels (re : Regexp) (statsdMetric : GoString) (m : List Int) (ruleLabels : Labels) :
    Labels :=
  ruleLabels.foldl (fun labels p => labels.set p.1 (re.ExpandString p.2 statsdMetric m)) []

/-- The loop of `GetMapping` over the rules; the outer `none` is the panic of a rule whose
`regex` is nil, `(none, [], false)` the result `nil, nil, false`. -/
def getMappingLoop (statsdMetric : GoString) (statsdMetricType : MetricType) :
    List MetricMapping → Option (Option MetricMapping × Labels × Bool)
  | [] => some (none, [], false)
  | mapping :: rest =>
    match mapping.regex with
    | none => none
    | some re =>
      if (re.FindStringSubmatchIndex statsdMetric).length = 0 then
        getMappingLoop statsdMetric statsdMetricType rest
      else if mapping.MatchMetricType ≠ [] ∧ mapping.MatchMetricType ≠ statsdMetricType then
        getMappingLoop statsdMetric statsdMetricType rest
      else
        some (some { mapping with
                Name := re.ExpandString mapping.Name statsdMetric
                  (re.FindStringSubmatchIndex statsdMetric) },
              expandLabels re statsdMetric (re.FindStringSubmatchIndex statsdMetric)
                mapping.Labels,
              true)

/-- The method `GetMapping`. -/
def GetMapping (m : MetricMapper) (statsdMetric : GoString) (statsdMetricType : MetricType) :
    Option (Option MetricMapping × Labels × Bool) :=
  getMappingLoop statsdMetric statsdMetricType m.Mappings

/-- The errors `actionType.UnmarshalYAML` returns, by the statement that returns them. -/
inductive ActionError where
  /-- The error of the call `unmarshal(&v)`. -/
  | unmarshal (msg : GoString)
  /-- The error `invalid action type %q`. -/
  | invalidActionType (v : GoString)
  deriving DecidableEq

/-- The method `actionType.UnmarshalYAML`: `unmarshal` is the outcome of the call
`unmarshal(&v)`, an error or the string read; the result is the new `*t`, or the error. -/
def actionType.UnmarshalYAML (unmarshal : Except GoString GoString) :
    Except ActionError actionType :=
  match unmarshal with
  | .error msg => .error (.unmarshal msg)
  | .ok v =>
    if v = ActionTypeDrop then .ok ActionTypeDrop
    else if v = ActionTypeMap ∨ v = ActionTypeDefault then .ok ActionTypeMap
    else .error (.invalidActionType v)

/-- The defaults of the unmarshalled document `n` after the first statement of
`InitFromYAMLString`: an unset default match type has become glob. -/
def effectiveDefaults (n : MetricMapper) : mapperConfigDefaults :=
  { n.Defaults with
    MatchType := if n.Defaults.MatchType = matchTypeDefault then matchTypeGlob
      else n.Defaults.MatchType }

/-- The loop of `GetMapping` with the mapper `m` as state: `for _, mapping := range m.Mappings`
copies each rule into the loop variable `mapping`, the assignment `mapping.Name = ...` writes
that copy, and no statement writes `m`.  The result is the mapper when the method returns and
what it returns; `none` is the panic of a rule whose `regex` is nil. -/
def getMappingRange (m : MetricMapper) (statsdMetric : GoString) (statsdMetricType : MetricType) :
    List MetricMapping → Option (MetricMapper × Option MetricMapping × Labels × Bool)
  | [] => some (m, none, [], false)
  | mapping :: rest =>
    match mapping.regex with
    | none => none
    | some re =>
      if (re.FindStringSubmatchIndex statsdMetric).length = 0 then
        getMappingRange m statsdMetric statsdMetricType rest
      else if mapping.MatchMetricType ≠ [] ∧ mapping.MatchMetricType ≠ statsdMetricType then
        getMappingRange m statsdMetric statsdMetricType rest
      else
        some (m,
              some { mapping with
                Name := re.ExpandString mapping.Name statsdMetric
                  (re.FindStringSubmatchIndex statsdMetric) },
              expandLabels re statsdMetric (re.FindStringSubmatchIndex statsdMetric)
                mapping.Labels,
              true)

/-- The operations on a mapper: a reload and a lookup. -/
inductive MapperOp where
  | load (fileContents : GoString)
  | lookup (statsdMetric : GoString) (statsdMetricType : MetricType)

/-- The mapper after one operation; `none` is a panic. -/
def MapperOp.run (unmarshal : GoString → Except GoString MetricMapper) (m : MetricMapper) :
    MapperOp → Option MetricMapper
  | .load fileContents => some (InitFromYAMLString unmarshal m fileContents).1
  | .lookup statsdMetric statsdMetricType =>
    (getMappingRange m statsdMetric statsdMetricType m.Mappings).map Prod.fst

/-- The mapper after a sequence of operations. -/
def runOps (unmarshal : GoString → Except GoString MetricMapper) (m : MetricMapper)
    (ops : List MapperOp) : Option MetricMapper :=
  ops.foldlM (MapperOp.run unmarshal) m

/-! ## Go's float64: the arithmetic of the pipeline and of the accumulators -/

/-- The further operations on `float64` that the exporter and the accumulators use. -/
structure FloatArith (F : Type) extends FloatOps F where
  /-- The number `0`, the value of a `float64` whose bits are all zero. -/
  zero : F
  /-- The sum `x + y`. -/
  add : F → F → F
  /-- The test `x < 0.0`. -/
  ltZero : F → Bool

/-- The sum of two fractions. -/
def Dec.add (a b : Dec) : Dec := ⟨a.num * b.den + b.num * a.den, a.den * b.den⟩

/-- The exact decimal instance, with its arithmetic. -/
def decArith : FloatArith Dec :=
  { decOps with
    zero := ⟨0, 1⟩
    add := Dec.add
    ltZero := fun x => decide (x.num < 0) }

/-- The conversions between `float64` and `uint64` and the comparison of two `float64`, which
`counter.go` uses on top of the arithmetic. -/
structure FloatCount (F : Type) extends FloatArith F where
  /-- The conversion `uint64(x)` of a `float64`, which drops the fraction of `x`. -/
  toUint64 : F → Nat
  /-- The conversion `float64(n)` of a `uint64`, which rounds to the nearest `float64`. -/
  ofUint64 : Nat → F
  /-- The test `x == y`. -/
  eq : F → F → Bool
  /-- A `uint64` is below `2 ^ 64`. -/
  toUint64_lt : ∀ x, toUint64 x < 2 ^ 64
  /-- The number `1` is not below `0`. -/
  one_nonneg : ltZero one = false
  /-- The conversion `uint64(1.0)` gives `1`. -/
  toUint64_one : toUint64 one = 1
  /-- The test `float64(1) == 1.0` holds. -/
  ofUint64_one : eq (ofUint64 1) one = true

/-- How many low bits the conversion to `float64` drops from `n`: the least `s` with
`n / 2 ^ s < 2 ^ 53`, searched up to `fuel`. -/
def droppedBits : Nat → Nat → Nat
  | 0, _ => 0
  | fuel + 1, n => if n < 2 ^ 53 then 0 else droppedBits fuel (n / 2) + 1

/-- The value of `float64(n)` for a `uint64` `n`: `n` rounded to 53 significant bits, to the
nearest such number and, half way between two, to the one whose last bit is `0`. -/
def float64OfNat (n : Nat) : Nat :=
  let s := droppedBits 11 n
  let q := n / 2 ^ s
  let r := n % 2 ^ s
  if 2 * r < 2 ^ s ∨ (2 * r = 2 ^ s ∧ q % 2 = 0) then q * 2 ^ s else (q + 1) * 2 ^ s

/-- The decimal instance with the conversions: fractions are exact, and `float64(n)` rounds as
`float64OfNat` says. -/
def decCount : FloatCount Dec :=
  { decArith with
    toUint64 := fun x => (Dec.toInt x).toNat % 2 ^ 64
    ofUint64 := fun n => ⟨float64OfNat n, 1⟩
    eq := fun x y => decide (x.num * y.den = y.num * x.den)
    toUint64_lt := fun _ => Nat.mod_lt _ (by decide)
    one_nonneg := by decide
    toUint64_one := by decide
    ofUint64_one := by decide }

/-! ## metrics/counter.go, metrics/gauge.go and metrics/histogram.go -/

/-- The struct `counter`; `valBits` holds the bits of a `float64` and is modelled by that number,
`valInt` is a `uint64`. -/
structure counter (F : Type) where
  valBits : F
  valInt : Nat
  labels : Labels
  name : GoString
  description : GoString
  deriving DecidableEq

/-- The function `NewCounter`: the other fields have their zero value. -/
def NewCounter {F : Type} (fl : FloatArith F) (name description : GoString) (labels : Labels) :
    counter F :=
  { valBits := fl.zero, valInt := 0, labels := labels, name := name, description := description }

/-- The method `counter.Value`: the sum of the floating part and the converted integer part. -/
def counter.Value {F : Type} (fl : FloatCount F) (c : counter F) : F :=
  fl.add c.valBits (fl.ofUint64 c.valInt)

/-- The method `counter.Add`, run without another writer of the counter: the compare-and-swap
succeeds in the first round.  The result `none` is the panic on a negative value. -/
def counter.Add {F : Type} (fl : FloatCount F) (c : counter F) (v : F) : Option (counter F) :=
  if fl.ltZero v then none
  else
    let ival := fl.toUint64 v
    if fl.eq (fl.ofUint64 ival) v then some { c with valInt := (c.valInt + ival) % 2 ^ 64 }
    else some { c with valBits := fl.add c.valBits v }

/-- The method `counter.Inc`. -/
def counter.Inc {F : Type} (c : counter F) : counter F :=
  { c with valInt := (c.valInt + 1) % 2 ^ 64 }

/-- The struct `gauge`; `valBits` holds the bits of a `float64` and is modelled by that number. -/
structure gauge (F : Type) where
  valBits : F
  labels : Labels
  name : GoString
  description : GoString
  deriving DecidableEq

/-- The function `NewGauge`: `valBits` has its zero value. -/
def NewGauge {F : Type} (fl : FloatArith F) (name description : GoString) (labels : Labels) :
    gauge F :=
  { valBits := fl.zero, labels := labels, name := name, description := description }

def gauge.Value {F : Type} (g : gauge F) : F := g.valBits

def gauge.Set {F : Type} (g : gauge F) (val : F) : gauge F := { g with valBits := val }

/-- The method `Add`, run without another writer of the gauge: the compare-and-swap succeeds in
the first round. -/
def gauge.Add {F : Type} (fl : FloatArith F) (g : gauge F) (val : F) : gauge F :=
  { g with valBits := fl.add g.valBits val }

/-- The struct `histogram`. -/
structure histogram (F : Type) where
  valBits : List F
  labels : Labels
  name : GoString
  description : GoString
  deriving DecidableEq

/-- The function `NewHistogram`: `valBits` is the nil slice. -/
def NewHistogram {F : Type} (name description : GoString) (labels : Labels) : histogram F :=
  { valBits := [], labels := labels, name := name, description := description }

/-! ## exporter.go: the containers and the event pipeline -/

/-- The map read `v, ok := m[k]` of a map with `uint64` keys, held as an association list. -/
def mapGet {α : Type} : List (Nat × α) → Nat → Option α
  | [], _ => none
  | (k2, v) :: rest, k => if k2 = k then some v else mapGet rest k

/-- The map write `m[k] = v`: overwrite the entry of `k`, or add one. -/
def mapSet {α : Type} : List (Nat × α) → Nat → α → List (Nat × α)
  | [], k, v => [(k, v)]
  | (k2, v2) :: rest, k, v => if k2 = k then (k2, v) :: rest else (k2, v2) :: mapSet rest k v

structure CounterContainer (F : Type) where
  Elements : List (Nat × counter F)
  deriving DecidableEq

structure GaugeContainer (F : Type) where
  Elements : List (Nat × gauge F)
  deriving DecidableEq

structure HistogramContainer (F : Type) where
  Elements : List (Nat × histogram F)
  deriving DecidableEq

/-- The method `CounterContainer.Get`: the container afterwards, and the returned counter, which
is the one stored under the key `hashNameAndLabels metricName labels`. -/
def CounterContainer.Get {F : Type} (fl : FloatArith F) (c : CounterContainer F)
    (metricName : GoString) (labels : Labels) (help : GoString) :
    CounterContainer F × counter F :=
  match mapGet c.Elements (hashNameAndLabels metricName labels) with
  | some counter => (c, counter)
  | none =>
    (⟨mapSet c.Elements (hashNameAndLabels metricName labels)
        (NewCounter fl metricName help labels)⟩,
      NewCounter fl metricName help labels)

/-- The method `GaugeContainer.Get`: the container afterwards, and the returned gauge, which is
the one stored under the key `hashNameAndLabels metricName labels`. -/
def GaugeContainer.Get {F : Type} (fl : FloatArith F) (c : GaugeContainer F)
    (metricName : GoString) (labels : Labels) (help : GoString) : GaugeContainer F × gauge F :=
  match mapGet c.Elements (hashNameAndLabels metricName labels) with
  | some gauge => (c, gauge)
  | none =>
    (⟨mapSet c.Elements (hashNameAndLabels metricName labels)
        (NewGauge fl metricName help labels)⟩,
      NewGauge fl metricName help labels)

/-- The method `HistogramContainer.Get`: the container afterwards, and the returned histogram,
which is the one stored under the key `hashNameAndLabels metricName labels`. -/
def HistogramContainer.Get {F : Type} (c : HistogramContainer F)
    (metricName : GoString) (labels : Labels) (help : GoString) :
    HistogramContainer F × histogram F :=
  match mapGet c.Elements (hashNameAndLabels metricName labels) with
  | some histogram => (c, histogram)
  | none =>
    (⟨mapSet c.Elements (hashNameAndLabels metricName labels)
        (NewHistogram metricName help labels)⟩,
      NewHistogram metricName help labels)

def defaultHelp : GoString := ascii "Metric autogenerated by statsd_exporter."

/-- Modelled from the spec: the constants of `timerType` are not among the sources.  The spec
names the subtypes "raw" and "default", the latter being the unset timer type. -/
def TimerTypeDefault : timerType := []

/-- Modelled from the spec: see `TimerTypeDefault`. -/
def TimerTypeRaw : timerType := ascii "raw"

/-- The struct `MetricDocument` (its time stamp left out). -/
structure MetricDocument (F : Type) where
  Name : GoString
  Description : GoString
  Value : F
  Labels : Labels
  MetricType : GoString
  deriving DecidableEq

/-- The struct `Exporter`.  In place of the bulk processor stand the documents added to it so
far, in order; the index of a request, which holds the date, is left out. -/
structure Exporter (F : Type) where
  Counters : CounterContainer F
  Gauges : GaugeContainer F
  Histograms : HistogramContainer F
  mapper : MetricMapper
  elasticBulkProcessor : List (MetricDocument F)
  elasticIndex : GoString
  deriving DecidableEq

/-- The value `&mappings.MetricMapping{}`: every field has its zero value. -/
def zeroMapping : MetricMapping :=
  { Match := [], Name := [], regex := none, Labels := [], TimerType := [], MatchType := [],
    HelpText := [], Action := [], MatchMetricType := [] }

/-- The loop `for label, value := range labels { eventLabels[label] = value }`. -/
def mergeLabels (eventLabels labels : Labels) : Labels :=
  labels.foldl (fun acc p => acc.set p.1 p.2) eventLabels

/-- One round of the loop of `processHierarchicalEvents`: the exporter after the event; `none`
is a run-time panic.  An event owns its label map here; in the program the events of one
sample share theirs, into which each round writes the same labels. -/
def processHierarchicalEvent {F : Type} (fl : FloatArith F) (b : Exporter F)
    (hierarchicalEvent : Event F) : Option (Exporter F) :=
  match GetMapping b.mapper hierarchicalEvent.MetricName hierarchicalEvent.MetricType with
  | none => none
  | some (found, labels, present) =>
    let mapping := found.getD zeroMapping
    if mapping.Action = ActionTypeDrop then some b
    else
      let help := if mapping.HelpText = [] then defaultHelp else mapping.HelpText
      match (if present then EscapeMetricName mapping.Name
             else EscapeMetricName hierarchicalEvent.MetricName) with
      | none => none
      | some metricName =>
        let eventLabels :=
          if present then mergeLabels hierarchicalEvent.Labels labels
          else hierarchicalEvent.Labels
        match hierarchicalEvent with
        | .counter _ value _ =>
          if fl.ltZero value then some b
          else
            some { b with elasticBulkProcessor := b.elasticBulkProcessor ++
              [{ Name := metricName, Description := help, MetricType := ascii "counter",
                 Value := value, Labels := eventLabels }] }
        | .gauge _ value relative _ =>
          let got := b.Gauges.Get fl metricName labels help
          let gauge := if relative then got.2.Add fl value else got.2.Set value
          some { b with
            Gauges := ⟨mapSet got.1.Elements (hashNameAndLabels metricName labels) gauge⟩,
            elasticBulkProcessor := b.elasticBulkProcessor ++
              [{ Name := metricName, Description := help, MetricType := ascii "gauge",
                 Value := gauge.Value, Labels := eventLabels }] }
        | .timer _ value _ =>
          let t := if mapping.TimerType = TimerTypeDefault then b.mapper.Defaults.TimerType
            else mapping.TimerType
          if t = TimerTypeDefault ∨ t = TimerTypeRaw then
            some { b with elasticBulkProcessor := b.elasticBulkProcessor ++
              [{ Name := metricName, Description := help, MetricType := ascii "raw_timer",
                 Value := value, Labels := eventLabels }] }
          else none

/-- The method `processHierarchicalEvents`: the exporter after the batch. -/
def processHierarchicalEvents {F : Type} (fl : FloatArith F) (b : Exporter F)
    (hierarchicalEvents : List (Event F)) : Option (Exporter F) :=
  hierarchicalEvents.foldlM (processHierarchicalEvent fl) b

/-! ## The language of a pattern, in words -/

/-- Zero or more rounds of a relation between texts, each round passing at least one byte. -/
inductive StarL (R : GoString → GoString → Prop) : GoString → GoString → Prop where
  | refl (r : GoString) : StarL R r r
  | step {r m r2 : GoString} : R r m → m.length < r.length → StarL R m r2 → StarL R r r2

/-- The language of a pattern without `^`, in words: `a.lang r r2` says that `a` matches a front
part of the text `r` and leaves `r2`. -/
def Node.lang : Node → GoString → GoString → Prop
  | .empty, r, r2 => r2 = r
  | .lit b, r, r2 => r.head? = some b ∧ r2 = r.drop (runeWidth r)
  | .cls neg ranges, r, r2 =>
    (∃ c, r.head? = some c ∧ classMatches neg ranges c = true) ∧ r2 = r.drop (runeWidth r)
  | .any, r, r2 => (∃ c, r.head? = some c ∧ c ≠ 10) ∧ r2 = r.drop (runeWidth r)
  | .bol, _, _ => False
  | .eol, r, r2 => r = [] ∧ r2 = []
  | .cat a b, r, r2 => ∃ m, a.lang r m ∧ b.lang m r2
  | .alt a b, r, r2 => a.lang r r2 ∨ b.lang r r2
  | .star a, r, r2 => StarL a.lang r r2
  | .plus a, r, r2 => ∃ m, a.lang r m ∧ StarL a.lang m r2
  | .quest a, r, r2 => a.lang r r2 ∨ r2 = r
  | .cap _ a, r, r2 => a.lang r r2

/-- Whether a pattern is free of `^`. -/
def Node.noBol : Node → Bool
  | .bol => false
  | .cat a b => a.noBol && b.noBol
  | .alt a b => a.noBol && b.noBol
  | .star a => a.noBol
  | .plus a => a.noBol
  | .quest a => a.noBol
  | .cap _ a => a.noBol
  | _ => true

/-- A continuation whose success depends on the rest of the text alone. -/
def RestOnly (k : MatchState → Option Caps) : Prop :=
  ∀ st st2 : MatchState, st.rest = st2.rest → (k st).isSome = (k st2).isSome

/-! ## The glob grammar, in words -/

/-- The bytes of the class `[a-zA-Z_]`. -/
def isIdentStart (b : Nat) : Bool := (97 ≤ b && b ≤ 122) || (65 ≤ b && b ≤ 90) || b = 95

/-- The bytes of the class `[a-zA-Z0-9_]`. -/
def isIdentByte (b : Nat) : Bool :=
  (97 ≤ b && b ≤ 122) || (65 ≤ b && b ≤ 90) || (48 ≤ b && b ≤ 57) || b = 95

/-- The texts of the form `(-?[a-zA-Z0-9_])*`: letters, digits and underscores, each of which
may have one hyphen before it. -/
def identUnits : GoString → Bool
  | [] => true
  | [c] => isIdentByte c
  | c :: d :: rest =>
    if c = 45 then isIdentByte d && identUnits rest
    else isIdentByte c && identUnits (d :: rest)

/-- A StatsD identifier token, in words: the texts `statsdMetricRE` describes, a letter or an
underscore followed by one or more letters, digits and underscores, each of which may have one
hyphen before it. -/
def isIdentToken (s : GoString) : Bool :=
  match s with
  | [] => false
  | c :: rest => isIdentStart c && !rest.isEmpty && identUnits rest

/-- A segment of a glob pattern: `*` or an identifier token. -/
def isGlobSegment (s : GoString) : Bool := s = ascii "*" || isIdentToken s

/-- The glob patterns as the specification words them: one or more segments with dots between
them. -/
def claimedGlobPattern (g : GoString) : Bool := (splitByte 46 g).all isGlobSegment

/-- The glob patterns `metricLineRE` describes: two or more segments with dots between them. -/
def isGlobPattern (g : GoString) : Bool :=
  decide (2 ≤ (splitByte 46 g).length) && (splitByte 46 g).all isGlobSegment

/-- The pattern `statsdMetricRE` as compiled, with `i` the number of its group. -/
def identNode (i : Nat) : Node :=
  .cat (.cls false [(97, 122), (65, 90), (95, 95)])
    (.plus (.cap i (.cat (.quest (.lit 45)) (.cls false [(97, 122), (65, 90), (48, 57), (95, 95)]))))

/-- The part of `metricLineRE` after its `^`, as compiled. -/
def metricLineBody : Node :=
  .cat
    (.plus (.cap 1 (.alt (.cat (.lit 42) (.lit 46))
      (.cat (.cls false [(97, 122), (65, 90), (95, 95)])
        (.cat
          (.plus (.cap 2 (.cat (.quest (.lit 45))
            (.cls false [(97, 122), (65, 90), (48, 57), (95, 95)]))))
          (.lit 46))))))
    (.cat (.cap 3 (.alt (.lit 42) (identNode 4))) .eol)

/-- The pieces of the pattern a glob is translated to, byte by byte of the glob: a group around
`[^.]*` for `*`, the byte itself for any other; `k` is the number of groups before. -/
def globNodes : Nat → GoString → List Node
  | _, [] => []
  | k, c :: rest =>
    if c = 42 then .cap (k + 1) (.star (.cls true [(46, 46)])) :: globNodes (k + 1) rest
    else .lit c :: globNodes k rest

/-- The compiled form of the pattern the glob `g` is translated to. -/
def globRegexp (g : GoString) : Regexp :=
  ⟨Node.seq (.bol :: globNodes 0 g ++ [.eol]), g.count 42⟩

/-- A name matches a glob, in words, both given by their segments: there are as many segments,
and each segment of the glob is `*` or is the segment of the name at its place. -/
def globSegmentsMatch : List GoString → List GoString → Bool
  | [], [] => true
  | g :: gs, s :: ns => (g = ascii "*" || g = s) && globSegmentsMatch gs ns
  | _, _ => false

/-- The segments of a name at the places of the `*` segments of a glob, in order. -/
def starSegments : List GoString → List GoString → List GoString
  | g :: gs, s :: ns => if g = ascii "*" then s :: starSegments gs ns else starSegments gs ns
  | _, _ => []

/-- The submatches after a glob has matched a name, both given by their segments: the group of
each `*` holds the span of the segment at its place; `k` is the number of groups before, `pos`
the position of the first segment. -/
def globCaps : Nat → Nat → List GoString → List GoString → Caps → Caps
  | k, pos, g :: gs, s :: ns, caps =>
    if g = ascii "*" then
      globCaps (k + 1) (pos + s.length + 1) gs ns (caps.set (k + 1) (some (pos, pos + s.length)))
    else globCaps k (pos + s.length + 1) gs ns caps
  | _, _, _, _, caps => caps

/-- The text of a submatch. -/
def capText (src : GoString) : Option (Nat × Nat) → GoString
  | some (a, b) => (src.drop a).take (b - a)
  | none => []

/-- The parser after the pieces `nodes`, of which `n` are groups. -/
def pushAll (p : ParserState) (nodes : List Node) (n : Nat) : ParserState :=
  { p with
    cur := { p.cur with pieces := nodes.reverse.map (fun a => (a, false)) ++ p.cur.pieces },
    ncap := p.ncap + n, mode := .normal }

/-! ## The identity hash, in words -/

/-- The 64-bit FNV-1a hash of a text, in words: from the offset basis 14695981039346656037, per
byte `b` the step `h := (h xor b) * 1099511628211 mod 2^64`. -/
def fnv1a64 (data : GoString) : Nat :=
  data.foldl (fun h b => ((h ^^^ b) * 1099511628211) % 2 ^ 64) 14695981039346656037

/-- The text of a label set over the keys `keys`, in words: for each key in turn the bytes of the
key, the byte 255, the bytes of its value, the byte 255. -/
def signatureText (labels : Labels) (keys : List GoString) : GoString :=
  (keys.map (fun k => k ++ [255] ++ labels.get k ++ [255])).flatten

/-- The number that bytes denote, most significant first. -/
def bigEndianValue (bytes : GoString) : Nat := bytes.foldl (fun acc b => acc * 256 + b) 0

/-! ## Get-or-create, in words -/

/-- What a `Get` of a container has to do, in words, for the entries `elements` before the call,
the identity `h`, the accumulator `new` it would create, the entries `after` the call and the
accumulator `returned`: an absent identity gets the one new entry, which is returned; the
accumulator of a present identity is returned and nothing changes; in both cases the returned
accumulator is the one stored under `h`, every other identity keeps its entry, and no identity is
stored twice. -/
def GetContract {α : Type} (elements : List (Nat × α)) (h : Nat) (new : α)
    (after : List (Nat × α)) (returned : α) : Prop :=
  (mapGet elements h = none → after = elements ++ [(h, new)] ∧ returned = new) ∧
  (∀ g, mapGet elements h = some g → after = elements ∧ returned = g) ∧
  mapGet after h = some returned ∧
  (∀ h2, h2 ≠ h → mapGet after h2 = mapGet elements h2) ∧
  ((elements.map Prod.fst).Nodup → (after.map Prod.fst).Nodup)

/-- The arguments of a `Get`: name, labels, help. -/
abbrev GetArgs := GoString × Labels × GoString

/-- The identity of the arguments of a `Get`. -/
def GetArgs.hash (a : GetArgs) : Nat := hashNameAndLabels a.1 a.2.1

/-! ## Calls on a counter, in words -/

/-- A call of `Inc()` or of `Add(v)` on a counter. -/
inductive CounterCall (F : Type) where
  | Inc
  | Add (v : F)
  deriving DecidableEq

/-- The counter after a call; `none` is a panic. -/
def counter.call {F : Type} (fl : FloatCount F) (c : counter F) :
    CounterCall F → Option (counter F)
  | .Inc => some c.Inc
  | .Add v => c.Add fl v

/-- Whether the call adds a non-negative integer value: `Inc()`, or `Add(v)` with `v` not below
`0` and equal to its own integer part. -/
def CounterCall.isIntegral {F : Type} (fl : FloatCount F) : CounterCall F → Bool
  | .Inc => true
  | .Add v => !fl.ltZero v && fl.eq (fl.ofUint64 (fl.toUint64 v)) v

/-- The integer an integral call adds. -/
def CounterCall.amount {F : Type} (fl : FloatCount F) : CounterCall F → Nat
  | .Inc => 1
  | .Add v => fl.toUint64 v

/-! ## An escaped name, in words -/

/-- Whether a text begins with one of the digits `0` to `9`. -/
def startsWithDigit (s : GoString) : Bool :=
  match s with
  | [] => false
  | d :: _ => 48 ≤ d && d ≤ 57

/-! ## A lookup, in words -/

/-- A rule applies to a lookup, in words: it has a compiled pattern that matches the name, and its
metric-type filter is unset or equal to the type of the lookup. -/
def ruleApplies (rule : MetricMapping) (statsdMetric : GoString) (statsdMetricType : MetricType) :
    Bool :=
  match rule.regex with
  | none => false
  | some re =>
    re.MatchString statsdMetric &&
      (rule.MatchMetricType = [] || rule.MatchMetricType = statsdMetricType)

/-- Whether a pattern can match without passing a byte of the text. -/
def Node.nullable : Node → Bool
  | .empty => true
  | .lit _ => false
  | .cls _ _ => false
  | .any => false
  | .bol => true
  | .eol => true
  | .cat a b => a.nullable && b.nullable
  | .alt a b => a.nullable || b.nullable
  | .star _ => true
  | .plus a => a.nullable
  | .quest _ => true
  | .cap _ a => a.nullable

/-- Whether every `*` and `+` of a pattern repeats a piece that passes at least one byte, so that
no round of a repetition matches the empty string. -/
def Node.loopsConsume : Node → Bool
  | .cat a b => a.loopsConsume && b.loopsConsume
  | .alt a b => a.loopsConsume && b.loopsConsume
  | .star a => !a.nullable && a.loopsConsume
  | .plus a => !a.nullable && a.loopsConsume
  | .quest a => a.loopsConsume
  | .cap _ a => a.loopsConsume
  | _ => true

/-- Whether a text is ASCII. -/
def isAsciiText (s : GoString) : Bool := s.all (fun b => decide (b < 128))

/-- The rules of which the lookup is stated: the rule has a compiled pattern in which no round of
a repetition matches the empty string, and its name template and the value templates of its
labels are ASCII.  These are the patterns and templates that do not reach the two points the
model of package regexp leaves open, the round of a repetition that matches the empty string and
a letter or digit beyond ASCII in the `$name` of a template. -/
def MetricMapping.inFragment (rule : MetricMapping) : Bool :=
  (rule.regex.map (fun re => re.expr.loopsConsume)).getD false &&
    isAsciiText rule.Name && rule.Labels.all (fun p => isAsciiText p.2)

/-! ## The rule of the round-trip example -/

/-- A document with the one rule `match: app.*.latency` and the given name template, all other
fields unset. -/
def latencyDocument (nameTemplate : GoString) : MetricMapper :=
  { Defaults := ⟨[], []⟩,
    Mappings := [{ Match := ascii "app.*.latency", Name := nameTemplate, regex := none,
                   Labels := [], TimerType := [], MatchType := [], HelpText := [], Action := [],
                   MatchMetricType := [] }] }

/-- The compiled form of `^app\.([^.]*)\.latency$`. -/
def latencyRegexp : Regexp :=
  ⟨Node.seq [.bol, .lit 97, .lit 112, .lit 112, .lit 46, .cap 1 (.star (.cls true [(46, 46)])),
     .lit 46, .lit 108, .lit 97, .lit 116, .lit 101, .lit 110, .lit 99, .lit 121, .eol], 1⟩

/-- The rule of `latencyDocument` as `InitFromYAMLString` installs it. -/
def latencyRule (nameTemplate : GoString) : MetricMapping :=
  { Match := ascii "app.*.latency", Name := nameTemplate, regex := some latencyRegexp,
    Labels := [], TimerType := [], MatchType := matchTypeGlob, HelpText := [],
    Action := ActionTypeMap, MatchMetricType := [] }

/-- A document with four glob rules, all other fields unset: one for another name, one for
counters only, one with two labels, and one that the third shadows. -/
def lookupDocument : MetricMapper :=
  { Defaults := ⟨[], []⟩,
    Mappings :=
      [{ Match := ascii "web.*.hits", Name := ascii "web_hits", regex := none, Labels := [],
         TimerType := [], MatchType := [], HelpText := [], Action := [], MatchMetricType := [] },
       { Match := ascii "app.*.latency", Name := ascii "counter_only", regex := none,
         Labels := [], TimerType := [], MatchType := [], HelpText := [], Action := [],
         MatchMetricType := metricTypeCounter },
       { Match := ascii "app.*.*", Name := ascii "app_$\x7b1\x7d", regex := none,
         Labels := [(ascii "op", ascii "$2"), (ascii "svc", ascii "$\x7b1\x7d_svc")],
         TimerType := [], MatchType := [], HelpText := [], Action := [], MatchMetricType := [] },
       { Match := ascii "app.checkout.latency", Name := ascii "shadowed", regex := none,
         Labels := [], TimerType := [], MatchType := [], HelpText := [], Action := [],
         MatchMetricType := [] }] }

/-! ## Theorems -/

/-! ### Go strings and maps -/

theorem strLe_refl (a : GoString) : strLe a a = true := by
  induction a with
  | nil => rfl
  | cons x xs ih => simp [strLe, ih]

theorem strLe_total (a b : GoString) : strLe a b = true ∨ strLe b a = true := by
  induction a generalizing b with
  | nil => exact Or.inl rfl
  | cons x xs ih =>
    cases b with
    | nil => exact Or.inr rfl
    | cons y ys =>
      rcases Nat.lt_trichotomy x y with h | h | h
      · left; simp [strLe, h]
      · subst h; simpa [strLe] using ih ys
      · right; simp [strLe, h]

theorem strLe_antisymm (a b : GoString) (h1 : strLe a b = true) (h2 : strLe b a = true) :
    a = b := by
  induction a generalizing b with
  | nil => cases b with
    | nil => rfl
    | cons y ys => simp [strLe] at h2
  | cons x xs ih =>
    cases b with
    | nil => simp [strLe] at h1
    | cons y ys =>
      rcases Nat.lt_trichotomy x y with h | h | h
      · simp [strLe, h, Nat.lt_asymm h] at h2
      · subst h
        simp only [strLe, Nat.lt_irrefl, if_false] at h1 h2
        rw [ih ys h1 h2]
      · simp [strLe, h, Nat.lt_asymm h] at h1

theorem strLe_trans (a b c : GoString) (h1 : strLe a b = true) (h2 : strLe b c = true) :
    strLe a c = true := by
  induction a generalizing b c with
  | nil => rfl
  | cons x xs ih =>
    cases b with
    | nil => simp [strLe] at h1
    | cons y ys =>
      cases c with
      | nil => simp [strLe] at h2
      | cons z zs =>
        simp only [strLe] at h1 h2 ⊢
        by_cases hxy : x < y
        · by_cases hyz : y < z
          · simp [Nat.lt_trans hxy hyz]
          · by_cases hzy : z < y
            · simp [hyz, hzy] at h2
            · have : y = z := by omega
              subst this; simp [hxy]
        · by_cases hyx : y < x
          · simp [hxy, hyx] at h1
          · have hxy2 : x = y := by omega
            subst hxy2
            simp only [Nat.lt_irrefl, if_false] at h1
            by_cases hxz : x < z
            · simp [hxz]
            · by_cases hzx : z < x
              · simp [hxz, hzx] at h2
              · simp only [hxz, hzx, if_false] at h2 ⊢
                exact ih ys zs h1 h2

/-- Sorting forgets the order of the input. -/
theorem sortStrings_perm_eq {l1 l2 : List GoString} (h : l1.Perm l2) :
    sortStrings l1 = sortStrings l2 := by
  haveI : IsTotal GoString (fun a b => strLe a b = true) := ⟨strLe_total⟩
  haveI : IsTrans GoString (fun a b => strLe a b = true) := ⟨strLe_trans⟩
  haveI : IsAntisymm GoString (fun a b => strLe a b = true) := ⟨strLe_antisymm⟩
  unfold sortStrings
  apply List.eq_of_perm_of_sorted (r := fun a b => strLe a b = true)
  · exact ((List.perm_insertionSort _ l1).trans h).trans (List.perm_insertionSort _ l2).symm
  · exact List.sorted_insertionSort _ l1
  · exact List.sorted_insertionSort _ l2

theorem Labels.get_of_not_mem_keys {m : Labels} {k : GoString} (h : k ∉ m.keys) :
    m.get k = [] := by
  induction m with
  | nil => rfl
  | cons p rest ih =>
    obtain ⟨k', v⟩ := p
    simp only [Labels.keys, List.map_cons, List.mem_cons, not_or] at h
    simp only [Labels.get]
    rw [if_neg (fun e => h.1 e.symm)]
    exact ih h.2

/-- Reading a map does not depend on the order of its entries. -/
theorem Labels.get_perm {m1 m2 : Labels} (h : m1.Perm m2) (nd : m1.NodupKeys) (k : GoString) :
    m1.get k = m2.get k := by
  induction h with
  | nil => rfl
  | cons p _ ih =>
    obtain ⟨k', v⟩ := p
    simp only [Labels.get]
    split
    · rfl
    · exact ih (List.nodup_cons.1 nd).2
  | swap p q l =>
    obtain ⟨k1, v1⟩ := p
    obtain ⟨k2, v2⟩ := q
    simp only [Labels.NodupKeys, Labels.keys, List.map_cons, List.nodup_cons, List.mem_cons,
      not_or] at nd
    simp only [Labels.get]
    by_cases h1 : k1 = k
    · by_cases h2 : k2 = k
      · exact absurd (h2.trans h1.symm) nd.1.1
      · simp [h1, h2]
    · by_cases h2 : k2 = k
      · simp [h1, h2]
      · simp [h1, h2]
  | trans h1 _ ih1 ih2 =>
    exact (ih1 nd).trans (ih2 ((h1.map Prod.fst).nodup_iff.1 nd))

theorem signatureStep_perm {m1 m2 : Labels} (h : m1.Perm m2) (nd : m1.NodupKeys) :
    signatureStep m1 = signatureStep m2 := by
  funext sum k
  simp only [signatureStep, Labels.get_perm h nd k]

/-! ### C1 -/

/-- C1: two label sets holding the same key-value pairs (keys unique) in a different order have
the same signature, and with any metric name the same identity hash. -/
theorem labels_hash_order_independent (name : GoString) (L1 L2 : Labels)
    (nd : L1.NodupKeys) (h : L1.Perm L2) :
    hashNameAndLabels name L1 = hashNameAndLabels name L2 ∧
      labelsToSignature L1 = labelsToSignature L2 := by
  have hsig : labelsToSignature L1 = labelsToSignature L2 := by
    unfold labelsToSignature
    rw [h.length_eq, signatureStep_perm h nd,
      sortStrings_perm_eq (show L1.keys.Perm L2.keys from h.map Prod.fst)]
  exact ⟨by unfold hashNameAndLabels; rw [hsig], hsig⟩

theorem labels_hash_order_independent_witness :
    Labels.NodupKeys [(ascii "host", ascii "web-1"), (ascii "env", ascii "prod")] ∧
      List.Perm [(ascii "host", ascii "web-1"), (ascii "env", ascii "prod")]
        [(ascii "env", ascii "prod"), (ascii "host", ascii "web-1")] ∧
      hashNameAndLabels (ascii "foo") [(ascii "host", ascii "web-1"), (ascii "env", ascii "prod")]
        = hashNameAndLabels (ascii "foo")
            [(ascii "env", ascii "prod"), (ascii "host", ascii "web-1")] ∧
      labelsToSignature [(ascii "host", ascii "web-1"), (ascii "env", ascii "prod")]
        = labelsToSignature [(ascii "env", ascii "prod"), (ascii "host", ascii "web-1")] :=
  have nd : Labels.NodupKeys [(ascii "host", ascii "web-1"), (ascii "env", ascii "prod")] := by
    unfold Labels.NodupKeys; decide
  have hp : List.Perm [(ascii "host", ascii "web-1"), (ascii "env", ascii "prod")]
      [(ascii "env", ascii "prod"), (ascii "host", ascii "web-1")] := List.Perm.swap _ _ _
  ⟨nd, hp, labels_hash_order_independent (ascii "foo") _ _ nd hp⟩


/-! ### Splitting -/

theorem ascii_colon : ascii ":" = [58] := rfl

theorem ascii_bar : ascii "|" = [124] := rfl

theorem ascii_at : ascii "@" = [64] := rfl

theorem ascii_hash : ascii "#" = [35] := rfl

theorem ascii_comma : ascii "," = [44] := rfl

theorem ascii_barHash : ascii "|#" = [124, 35] := rfl

theorem ascii_c : ascii "c" = [99] := rfl

theorem ascii_g : ascii "g" = [103] := rfl

theorem ascii_ms : ascii "ms" = [109, 115] := rfl

theorem ascii_h : ascii "h" = [104] := rfl

theorem ascii_s : ascii "s" = [115] := rfl

theorem stringsCut_of_not_mem {sep : Nat} {a : GoString} (h : sep ∉ a) :
    stringsCut sep a = none := by
  induction a with
  | nil => rfl
  | cons x xs ih =>
    simp only [List.mem_cons, not_or] at h
    have hx : ¬ x = sep := fun e => h.1 e.symm
    simp [stringsCut, hx, ih h.2]

theorem stringsCut_append {sep : Nat} {a : GoString} (b : GoString) (h : sep ∉ a) :
    stringsCut sep (a ++ sep :: b) = some (a, b) := by
  induction a with
  | nil => simp [stringsCut]
  | cons x xs ih =>
    simp only [List.mem_cons, not_or] at h
    have hx : ¬ x = sep := fun e => h.1 e.symm
    simp [stringsCut, hx, ih h.2]

theorem splitByte_of_not_mem {sep : Nat} {a : GoString} (h : sep ∉ a) :
    splitByte sep a = [a] := by
  induction a with
  | nil => rfl
  | cons x xs ih =>
    simp only [List.mem_cons, not_or] at h
    have hx : ¬ x = sep := fun e => h.1 e.symm
    simp [splitByte, hx, ih h.2]

theorem splitByte_append {sep : Nat} {a : GoString} (b : GoString) (h : sep ∉ a) :
    splitByte sep (a ++ sep :: b) = a :: splitByte sep b := by
  induction a with
  | nil => simp [splitByte]
  | cons x xs ih =>
    simp only [List.mem_cons, not_or] at h
    have hx : ¬ x = sep := fun e => h.1 e.symm
    simp [splitByte, hx, ih h.2]

theorem splitN2_of_not_mem {sep : Nat} {a : GoString} (h : sep ∉ a) : splitN2 sep a = [a] := by
  simp [splitN2, stringsCut_of_not_mem h]

theorem splitN2_append {sep : Nat} {a : GoString} (b : GoString) (h : sep ∉ a) :
    splitN2 sep (a ++ sep :: b) = [a, b] := by
  simp [splitN2, stringsCut_append b h]

/-- The test `strings.Index(s, sep) == 0` asks whether `s` starts with `sep`. -/
theorem stringsIndexByte_eq_zero (sep : Nat) (s : GoString) :
    stringsIndexByte sep s = 0 ↔ s.head? = some sep := by
  cases s with
  | nil => simp [stringsIndexByte]
  | cons x xs =>
    by_cases h : x = sep
    · simp [stringsIndexByte, h]
    · have hnn : ∀ t : GoString, -1 ≤ stringsIndexByte sep t := by
        intro t
        induction t with
        | nil => simp [stringsIndexByte]
        | cons y ys ih =>
          simp only [stringsIndexByte]
          split
          · omega
          · split <;> omega
      have := hnn xs
      simp only [stringsIndexByte, h, if_false, List.head?_cons, Option.some.injEq, iff_false]
      split <;> omega

theorem intercalate_singleton (sep x : GoString) : List.intercalate sep [x] = x := by
  simp [List.intercalate, List.intersperse]

theorem intercalate_cons_cons (sep x y : GoString) (zs : List GoString) :
    List.intercalate sep (x :: y :: zs) = x ++ (sep ++ List.intercalate sep (y :: zs)) := by
  simp [List.intercalate, List.intersperse]

/-- Splitting undoes joining, for parts that do not hold the separator. -/
theorem splitByte_intercalate (sep : Nat) (parts : List GoString) (hne : parts ≠ [])
    (h : ∀ c ∈ parts, sep ∉ c) : splitByte sep (List.intercalate [sep] parts) = parts := by
  induction parts with
  | nil => exact absurd rfl hne
  | cons x rest ih =>
    cases rest with
    | nil =>
      rw [intercalate_singleton]
      exact splitByte_of_not_mem (h x (List.mem_cons_self _ _))
    | cons y zs =>
      rw [intercalate_cons_cons, List.singleton_append,
        splitByte_append _ (h x (List.mem_cons_self _ _)),
        ih (by simp) (fun c hc => h c (List.mem_cons_of_mem _ hc))]

theorem infix_intercalate_of_mem (sep : GoString) {parts : List GoString} {x : GoString}
    (h : x ∈ parts) : x <:+: List.intercalate sep parts := by
  induction parts with
  | nil => cases h
  | cons y rest ih =>
    cases rest with
    | nil =>
      rw [intercalate_singleton]
      simp only [List.mem_singleton] at h
      rw [h]
    | cons z zs =>
      rw [intercalate_cons_cons]
      rcases List.mem_cons.1 h with h | h
      · rw [h]
        exact (List.prefix_append _ _).isInfix
      · exact (ih h).trans ((List.suffix_append _ _).trans (List.suffix_append _ _)).isInfix

theorem splitByte_ne_nil (sep : Nat) (s : GoString) : splitByte sep s ≠ [] := by
  cases s with
  | nil => simp [splitByte]
  | cons b rest =>
    simp only [splitByte]
    split
    · simp
    · split <;> simp

/-- The first part of a split starts as the text does. -/
theorem splitByte_head (sep : Nat) (s h : GoString) (t : List GoString) (x : Nat)
    (hs : splitByte sep s = h :: t) (hx : h.head? = some x) : s.head? = some x := by
  cases s with
  | nil =>
    simp only [splitByte, List.cons.injEq] at hs
    rw [← hs.1] at hx
    cases hx
  | cons b rest =>
    simp only [splitByte] at hs
    split at hs
    · simp only [List.cons.injEq] at hs
      rw [← hs.1] at hx
      cases hx
    · split at hs
      · simp only [List.cons.injEq] at hs
        rw [← hs.1] at hx
        simpa using hx
      · simp only [List.cons.injEq] at hs
        rw [← hs.1] at hx
        simpa using hx

theorem stringsContains_iff (s sub : GoString) :
    stringsContains s sub = true ↔ sub <:+: s := by
  induction s with
  | nil => simp [stringsContains, List.isEmpty_iff]
  | cons b rest ih =>
    rw [List.infix_cons_iff, ← ih]
    simp [stringsContains]

/-- Without the tag marker `|#` in a sample, no part after the first starts with `#`. -/
theorem no_tag_part (s : GoString) (h : ¬ [124, 35] <:+: s) :
    ∀ c ∈ (splitByte 124 s).tail, c.head? ≠ some 35 := by
  induction s with
  | nil => simp [splitByte]
  | cons b rest ih =>
    have hrest : ¬ [124, 35] <:+: rest := fun hr => h (List.infix_cons_iff.2 (Or.inr hr))
    intro c hc
    simp only [splitByte] at hc
    split at hc
    · rename_i hb
      simp only [List.tail_cons] at hc
      obtain ⟨hd, tl, hsplit⟩ := List.exists_cons_of_ne_nil (splitByte_ne_nil 124 rest)
      rw [hsplit] at hc
      rcases List.mem_cons.1 hc with hc | hc
      · intro hx
        rw [hc] at hx
        have hh := splitByte_head 124 rest hd tl 35 hsplit hx
        cases rest with
        | nil => cases hh
        | cons r rs =>
          simp only [List.head?_cons, Option.some.injEq] at hh
          apply h
          rw [hb, hh]
          exact ⟨[], rs, rfl⟩
      · apply ih hrest
        rw [hsplit]
        exact hc
    · obtain ⟨hd, tl, hsplit⟩ := List.exists_cons_of_ne_nil (splitByte_ne_nil 124 rest)
      rw [hsplit] at hc
      simp only [List.tail_cons] at hc
      apply ih hrest
      rw [hsplit]
      exact hc

/-! ### UTF-8 -/

theorem isCont_ascii {c : Nat} (hc : c < 128) : isCont c = false := by
  simp only [isCont, Bool.and_eq_false_imp, decide_eq_true_eq, decide_eq_false_iff_not]
  omega

theorem isCont_range {c : Nat} (h : isCont c = true) : 128 ≤ c ∧ c ≤ 191 := by
  simpa [isCont] using h

/-- The width of a rune is decided by the bytes that are there and continue it. -/
theorem runeWidth_append_ascii (x : Nat) (a b : GoString) (c : Nat) (hc : c < 128) :
    runeWidth (x :: (a ++ c :: b)) = runeWidth (x :: a) := by
  have h := isCont_ascii hc
  have h0 : isCont 0 = false := by decide
  rcases a with _ | ⟨y, _ | ⟨z, _ | ⟨w, r⟩⟩⟩
  all_goals simp only [runeWidth, List.nil_append, List.cons_append, List.getD_cons_zero,
    List.getD_cons_succ, List.getD_nil, h, h0, Bool.false_eq_true, and_false, false_and,
    if_false]
  all_goals try split_ifs
  all_goals first | rfl | omega | (exfalso; simp_all)

theorem runeWidth_le (x : Nat) (a : GoString) : runeWidth (x :: a) ≤ a.length + 1 := by
  have h0 : isCont 0 = false := by decide
  rcases a with _ | ⟨y, _ | ⟨z, _ | ⟨w, r⟩⟩⟩ <;>
    simp only [runeWidth, List.getD_cons_zero, List.getD_cons_succ, List.getD_nil, h0,
      Bool.false_eq_true, and_false, false_and, if_false, List.length_cons, List.length_nil] <;>
    split_ifs <;> omega

theorem validFrom_append_ascii (a b : GoString) (c : Nat) (hc : c < 128) :
    ∀ k, k ≤ a.length → validFrom k (a ++ c :: b) = (validFrom k a && validFrom 0 b) := by
  induction a with
  | nil =>
    intro k hk
    have : k = 0 := by simpa using hk
    subst this
    simp [validFrom, hc]
  | cons x a ih =>
    intro k hk
    cases k with
    | succ k =>
      show validFrom (k + 1) (x :: (a ++ c :: b)) = _
      simp only [validFrom]
      exact ih k (by simpa using hk)
    | zero =>
      show validFrom 0 (x :: (a ++ c :: b)) = _
      simp only [validFrom, runeWidth_append_ascii x a b c hc]
      by_cases hx : x < 128
      · simp only [hx, if_true]
        exact ih 0 (Nat.zero_le _)
      · simp only [hx, if_false]
        by_cases hw : 1 < runeWidth (x :: a)
        · simp only [hw, if_true]
          have := runeWidth_le x a
          exact ih _ (by omega)
        · simp only [hw, if_false, Bool.false_and]

/-- Cutting a text at an ASCII byte: the text is valid UTF-8 exactly when both sides are. -/
theorem utf8ValidString_append_ascii (a b : GoString) (c : Nat) (hc : c < 128) :
    utf8ValidString (a ++ c :: b) = (utf8ValidString a && utf8ValidString b) :=
  validFrom_append_ascii a b c hc 0 (Nat.zero_le _)

theorem utf8ValidString_of_mem_intercalate (c : Nat) (hc : c < 128) (parts : List GoString)
    (h : utf8ValidString (List.intercalate [c] parts) = true) :
    ∀ s ∈ parts, utf8ValidString s = true := by
  induction parts with
  | nil => intro s hs; cases hs
  | cons x rest ih =>
    cases rest with
    | nil =>
      intro s hs
      rw [intercalate_singleton] at h
      simp only [List.mem_singleton] at hs
      rw [hs]; exact h
    | cons y zs =>
      rw [intercalate_cons_cons, List.singleton_append, utf8ValidString_append_ascii _ _ _ hc,
        Bool.and_eq_true] at h
      intro s hs
      rcases List.mem_cons.1 hs with hs | hs
      · rw [hs]; exact h.1
      · exact ih h.2 s hs

theorem utf8ValidString_intercalate (c : Nat) (hc : c < 128) (parts : List GoString)
    (h : ∀ s ∈ parts, utf8ValidString s = true) :
    utf8ValidString (List.intercalate [c] parts) = true := by
  induction parts with
  | nil => rfl
  | cons x rest ih =>
    cases rest with
    | nil =>
      rw [intercalate_singleton]
      exact h x (List.mem_cons_self _ _)
    | cons y zs =>
      rw [intercalate_cons_cons, List.singleton_append, utf8ValidString_append_ascii _ _ _ hc,
        h x (List.mem_cons_self _ _), ih (fun s hs => h s (List.mem_cons_of_mem _ hs))]
      rfl

/-! ### The line and its samples -/

theorem exists_forall₂ {α β : Type} (R : α → β → Prop) (l : List α)
    (h : ∀ a ∈ l, ∃ b, R a b) : ∃ bs, List.Forall₂ R l bs := by
  induction l with
  | nil => exact ⟨[], List.Forall₂.nil⟩
  | cons a l ih =>
    obtain ⟨b, hb⟩ := h a (List.mem_cons_self _ _)
    obtain ⟨bs, hbs⟩ := ih (fun x hx => h x (List.mem_cons_of_mem _ hx))
    exact ⟨b :: bs, List.Forall₂.cons hb hbs⟩

section Parser

variable {F : Type} (fl : FloatOps F)

/-- The events of a line are those of its samples, in order. -/
theorem foldlM_samples (f : GoString → Option (List (Event F))) (samples : List GoString)
    (evs : List (List (Event F))) (acc : List (Event F))
    (h : List.Forall₂ (fun s e => f s = some e) samples evs) :
    samples.foldlM (fun events sample => (f sample).map (fun e => events ++ e)) acc
      = some (acc ++ evs.flatten) := by
  induction h generalizing acc with
  | nil => simp
  | cons hse _ ih =>
    simp only [List.foldlM_cons, hse, Option.map_some', Option.bind_eq_bind, Option.some_bind]
    rw [ih]
    simp

/-- A line `name:rest` whose `rest` holds no further colon is one sample. -/
theorem lineToEvents_single (name rest : GoString) (hname : name ≠ []) (hcolon : 58 ∉ name)
    (hutf : utf8ValidString (name ++ 58 :: rest) = true) (hrest : 58 ∉ rest) :
    lineToEvents fl (name ++ 58 :: rest) = sampleToEvents fl name rest := by
  have hlen : name.length ≠ 0 := fun h => hname (List.length_eq_zero.1 h)
  unfold lineToEvents
  rw [if_neg (by simp), splitN2_append rest hcolon]
  simp only [hlen, hutf, false_or, Bool.true_eq_false, if_false, splitByte_of_not_mem hrest,
    ite_self, List.foldlM_cons, List.foldlM_nil, List.nil_append]
  cases sampleToEvents fl name rest <;> simp

/-- A line `name:rest` whose `rest` holds the tag marker is one sample. -/
theorem lineToEvents_tagged (name rest : GoString) (hname : name ≠ []) (hcolon : 58 ∉ name)
    (hutf : utf8ValidString (name ++ 58 :: rest) = true)
    (hrest : stringsContains rest (ascii "|#") = true) :
    lineToEvents fl (name ++ 58 :: rest) = sampleToEvents fl name rest := by
  have hlen : name.length ≠ 0 := fun h => hname (List.length_eq_zero.1 h)
  unfold lineToEvents
  rw [if_neg (by simp), splitN2_append rest hcolon]
  simp only [hlen, hutf, hrest, false_or, Bool.true_eq_false, if_false, if_true,
    List.foldlM_cons, List.foldlM_nil, List.nil_append]
  cases sampleToEvents fl name rest <;> simp

/-- A sample `value|statType` without modifiers runs `NewEvent` once. -/
theorem sampleToEvents_plain (metric value statType : GoString) (v : F)
    (hv : fl.parseFloat value = (v, true)) (ht : 124 ∉ statType) :
    sampleToEvents fl metric (value ++ 124 :: statType)
      = some (emitEvents statType metric v
          (stringsIndexByte 43 value = 0 || stringsIndexByte 45 value = 0) [] 1) := by
  have hv2 : 124 ∉ value := (fl.parse_no_sep value (by rw [hv])).2
  unfold sampleToEvents
  rw [splitByte_append _ hv2, splitByte_of_not_mem ht]
  simp [hv]

theorem emitEvents_ok {statType metric : GoString} {value : F} {relative : Bool}
    {labels : Labels} {e : Event F} (h : NewEvent statType metric value relative labels = .ok e)
    (n : Nat) : emitEvents statType metric value relative labels n = List.replicate n e := by
  induction n with
  | zero => rfl
  | succ n ih => simp [emitEvents, h, ih, List.replicate_succ]

theorem emitEvents_error {statType metric : GoString} {value : F} {relative : Bool}
    {labels : Labels} {msg : GoString}
    (h : NewEvent statType metric value relative labels = .error msg) (n : Nat) :
    emitEvents statType metric value relative labels n = [] := by
  induction n with
  | zero => rfl
  | succ n ih => simp [emitEvents, h, ih]

/-- A sample `value|statType|modifier` with one non-empty modifier. -/
theorem sampleToEvents_one_modifier (metric value statType m : GoString) (v : F)
    (hv : fl.parseFloat value = (v, true)) (ht : 124 ∉ statType) (hm : 124 ∉ m)
    (hne : m ≠ []) :
    sampleToEvents fl metric (value ++ 124 :: (statType ++ 124 :: m))
      = (applyModifier fl statType { value := v, multiplyEvents := 1, labels := [] } m).map
          (fun st => emitEvents statType metric st.value
            (stringsIndexByte 43 value = 0 || stringsIndexByte 45 value = 0)
            st.labels st.multiplyEvents.toNat) := by
  have hv2 : 124 ∉ value := (fl.parse_no_sep value (by rw [hv])).2
  unfold sampleToEvents
  rw [splitByte_append _ hv2, splitByte_append _ ht, splitByte_of_not_mem hm]
  simp only [List.length_singleton, hv, Bool.true_eq_false, if_false, List.any_cons,
    List.any_nil, Bool.or_false, List.length_eq_zero, decide_eq_true_eq, hne,
    List.foldlM_cons, List.foldlM_nil]
  rw [if_neg (by decide)]
  cases applyModifier fl statType { value := v, multiplyEvents := 1, labels := [] } m <;> rfl

/-- The sampling factor in effect: the parsed number, or 1 when that is 0. -/
theorem applyModifier_timer_factor (st : SampleState F) (f : GoString) :
    applyModifier fl (ascii "ms") st (64 :: f)
      = some { st with multiplyEvents := fl.toInt (fl.div fl.one
          (if fl.isZero (fl.parseFloat f).1 then fl.one else (fl.parseFloat f).1)) } := by
  have h1 : ascii "ms" ≠ ascii "c" := by decide
  simp [applyModifier, h1]

theorem applyModifier_counter_factor (st : SampleState F) (f : GoString) :
    applyModifier fl (ascii "c") st (64 :: f)
      = some { st with value := (fl.div st.value
          (if fl.isZero (fl.parseFloat f).1 then fl.one else (fl.parseFloat f).1)) } := by
  simp [applyModifier]

/-- The events of a sampled timer line `name:value|ms|@f`. -/
theorem lineToEvents_sampled_timer (name value f : GoString) (v : F)
    (hname : name ≠ []) (hcolon : 58 ∉ name)
    (hutf : utf8ValidString (name ++ ascii ":" ++ value ++ ascii "|ms|@" ++ f) = true)
    (hv : fl.parseFloat value = (v, true)) (hf : 58 ∉ f ∧ 124 ∉ f) :
    lineToEvents fl (name ++ ascii ":" ++ value ++ ascii "|ms|@" ++ f)
      = some (List.replicate (fl.toInt (fl.div fl.one
          (if fl.isZero (fl.parseFloat f).1 then fl.one else (fl.parseFloat f).1))).toNat
            (Event.timer name v [])) := by
  have hv1 : 58 ∉ value := (fl.parse_no_sep value (by rw [hv])).1
  have hl : name ++ ascii ":" ++ value ++ ascii "|ms|@" ++ f
      = name ++ 58 :: (value ++ 124 :: (ascii "ms" ++ 124 :: (64 :: f))) := by
    rw [ascii_colon, show ascii "|ms|@" = 124 :: (ascii "ms" ++ [124, 64]) from rfl]; simp
  have hrest : 58 ∉ value ++ 124 :: (ascii "ms" ++ 124 :: (64 :: f)) := by
    simp only [List.mem_append, List.mem_cons, not_or]
    exact ⟨hv1, by decide, by decide, by decide, by decide, hf.1⟩
  have hm : 124 ∉ 64 :: f := by
    simp only [List.mem_cons, not_or]
    exact ⟨by decide, hf.2⟩
  rw [hl] at hutf ⊢
  rw [lineToEvents_single fl name _ hname hcolon hutf hrest,
    sampleToEvents_one_modifier fl name value (ascii "ms") (64 :: f) v hv (by decide) hm
      (by simp),
    applyModifier_timer_factor]
  simp only [Option.map_some']
  rw [emitEvents_ok (e := Event.timer name v []) (by
    have h1 : ascii "ms" ≠ ascii "c" := by decide
    have h2 : ascii "ms" ≠ ascii "g" := by decide
    simp [NewEvent, h1, h2])]

/-- The event of a sampled counter line `name:value|c|@f`. -/
theorem lineToEvents_sampled_counter (name value f : GoString) (v : F)
    (hname : name ≠ []) (hcolon : 58 ∉ name)
    (hutf : utf8ValidString (name ++ ascii ":" ++ value ++ ascii "|c|@" ++ f) = true)
    (hv : fl.parseFloat value = (v, true)) (hf : 58 ∉ f ∧ 124 ∉ f) :
    lineToEvents fl (name ++ ascii ":" ++ value ++ ascii "|c|@" ++ f)
      = some [Event.counter name (fl.div v
          (if fl.isZero (fl.parseFloat f).1 then fl.one else (fl.parseFloat f).1)) []] := by
  have hv1 : 58 ∉ value := (fl.parse_no_sep value (by rw [hv])).1
  have hl : name ++ ascii ":" ++ value ++ ascii "|c|@" ++ f
      = name ++ 58 :: (value ++ 124 :: (ascii "c" ++ 124 :: (64 :: f))) := by
    rw [ascii_colon, show ascii "|c|@" = 124 :: (ascii "c" ++ [124, 64]) from rfl]; simp
  have hrest : 58 ∉ value ++ 124 :: (ascii "c" ++ 124 :: (64 :: f)) := by
    simp only [List.mem_append, List.mem_cons, not_or]
    exact ⟨hv1, by decide, by decide, by decide, by decide, hf.1⟩
  have hm : 124 ∉ 64 :: f := by
    simp only [List.mem_cons, not_or]
    exact ⟨by decide, hf.2⟩
  rw [hl] at hutf ⊢
  rw [lineToEvents_single fl name _ hname hcolon hutf hrest,
    sampleToEvents_one_modifier fl name value (ascii "c") (64 :: f) v hv (by decide) hm
      (by simp),
    applyModifier_counter_factor]
  simp [emitEvents, NewEvent]

theorem applyModifier_isSome (statType : GoString) (st : SampleState F) (m : GoString)
    (hne : m ≠ []) (hh : m.head? ≠ some 35) :
    ∃ st', applyModifier fl statType st m = some st' := by
  cases m with
  | nil => exact absurd rfl hne
  | cons c0 r =>
    simp only [List.head?_cons, ne_eq, Option.some.injEq] at hh
    simp only [applyModifier, hh, if_false]
    split_ifs <;> exact ⟨_, rfl⟩

theorem foldlM_applyModifier_isSome (statType : GoString) (mods : List GoString)
    (h : ∀ m ∈ mods, m ≠ [] ∧ m.head? ≠ some 35) :
    ∀ st : SampleState F, ∃ st', mods.foldlM (applyModifier fl statType) st = some st' := by
  induction mods with
  | nil => intro st; exact ⟨st, rfl⟩
  | cons m rest ih =>
    intro st
    obtain ⟨st1, h1⟩ := applyModifier_isSome fl statType st m
      (h m (List.mem_cons_self _ _)).1 (h m (List.mem_cons_self _ _)).2
    obtain ⟨st2, h2⟩ := ih (fun x hx => h x (List.mem_cons_of_mem _ hx)) st1
    exact ⟨st2, by simp [List.foldlM_cons, h1, h2]⟩

/-- A sample without the tag marker `|#` never panics. -/
theorem sampleToEvents_isSome (metric s : GoString)
    (h : stringsContains s (ascii "|#") = false) : ∃ e, sampleToEvents fl metric s = some e := by
  have hinf : ¬ [124, 35] <:+: s := by
    rw [← ascii_barHash, ← stringsContains_iff, h]; simp
  have htag := no_tag_part s hinf
  unfold sampleToEvents
  cases hsplit : splitByte 124 s with
  | nil => exact ⟨_, rfl⟩
  | cons valueStr t =>
    cases t with
    | nil => exact ⟨_, rfl⟩
    | cons statType modifiers =>
      rw [hsplit] at htag
      simp only []
      split_ifs with h1 h2 h3
      · exact ⟨_, rfl⟩
      · exact ⟨_, rfl⟩
      · exact ⟨_, rfl⟩
      · have hmods : ∀ m ∈ modifiers, m ≠ [] ∧ m.head? ≠ some 35 := by
          intro m hm
          constructor
          · intro he
            apply h3
            rw [List.any_eq_true]
            exact ⟨m, hm, by simp [he]⟩
          · exact htag m (by simp [hm])
        obtain ⟨st', hst⟩ := foldlM_applyModifier_isSome fl statType modifiers hmods
          { value := (fl.parseFloat valueStr).1, multiplyEvents := 1, labels := [] }
        rw [hst]
        exact ⟨_, rfl⟩

/-- A sample with too few or too many parts, or with an empty modifier, gives no event. -/
theorem sampleToEvents_bad (metric s : GoString)
    (h : (splitByte 124 s).length < 2 ∨ 4 < (splitByte 124 s).length ∨
      [] ∈ (splitByte 124 s).drop 2) : sampleToEvents fl metric s = some [] := by
  unfold sampleToEvents
  cases hsplit : splitByte 124 s with
  | nil => rfl
  | cons valueStr t =>
    cases t with
    | nil => rfl
    | cons statType modifiers =>
      rw [hsplit] at h
      simp only [List.length_cons, List.drop_succ_cons, List.drop_zero] at h
      simp only []
      split_ifs with h1 h2 h3
      · rfl
      · rfl
      · rfl
      · exfalso
        rcases h with h | h | h
        · omega
        · omega
        · apply h3
          rw [List.any_eq_true]
          exact ⟨[], h, by simp⟩

/-- A line of several colon-separated samples without the tag marker: its events are those of
its samples, each taken as a line of its own, in order. -/
theorem lineToEvents_multi (name : GoString) (samples : List GoString)
    (hname : name ≠ []) (hcolon : 58 ∉ name) (hne : samples ≠ [])
    (hs : ∀ s ∈ samples, 58 ∉ s)
    (hno : stringsContains (List.intercalate (ascii ":") samples) (ascii "|#") = false)
    (hutf : utf8ValidString (name ++ ascii ":" ++ List.intercalate (ascii ":") samples)
      = true) :
    ∃ evs, List.Forall₂ (fun s e => sampleToEvents fl name s = some e ∧
        utf8ValidString s = true ∧ 58 ∉ s ∧
        lineToEvents fl (name ++ ascii ":" ++ s) = some e) samples evs ∧
      lineToEvents fl (name ++ ascii ":" ++ List.intercalate (ascii ":") samples)
        = some evs.flatten := by
  have hlen : name.length ≠ 0 := fun h => hname (List.length_eq_zero.1 h)
  rw [ascii_colon] at hno hutf ⊢
  simp only [List.append_assoc, List.singleton_append] at hutf ⊢
  have hval := hutf
  rw [utf8ValidString_append_ascii _ _ _ (by decide), Bool.and_eq_true] at hval
  have hvs := utf8ValidString_of_mem_intercalate 58 (by decide) samples hval.2
  have hex : ∀ s ∈ samples, ∃ e, sampleToEvents fl name s = some e ∧
      utf8ValidString s = true ∧ 58 ∉ s ∧ lineToEvents fl (name ++ 58 :: s) = some e := by
    intro s hmem
    have hns : stringsContains s (ascii "|#") = false := by
      rw [Bool.eq_false_iff, ne_eq, stringsContains_iff] at hno ⊢
      exact fun hi => hno (hi.trans (infix_intercalate_of_mem _ hmem))
    obtain ⟨e, he⟩ := sampleToEvents_isSome fl name s hns
    refine ⟨e, he, hvs s hmem, hs s hmem, ?_⟩
    rw [lineToEvents_single fl name s hname hcolon ?_ (hs s hmem), he]
    rw [utf8ValidString_append_ascii _ _ _ (by decide), hval.1, hvs s hmem]
    rfl
  obtain ⟨evs, hevs⟩ := exists_forall₂ _ samples hex
  refine ⟨evs, hevs, ?_⟩
  unfold lineToEvents
  rw [if_neg (by simp), splitN2_append _ hcolon]
  simp only [hlen, hutf, hno, false_or, Bool.true_eq_false, Bool.false_eq_true, if_false,
    splitByte_intercalate 58 samples hne hs]
  rw [foldlM_samples (sampleToEvents fl name) samples evs [] (hevs.imp (fun _ _ h => h.1))]
  simp

/-! ### C3 -/

/-- C3: a line `name:value|type` without modifiers, with a non-empty colon-free name, valid
UTF-8 and a value that parses, gives exactly one event with that name, the parsed value and no
labels: a counter event for `c`, a gauge event for `g`, a timer event for `ms` and `h`; for `s`
and for every other type it gives no event, `NewEvent` failing with the message
`no support for StatsD sets` for `s` and with another message otherwise. -/
theorem lineToEvents_plain (name value statType line : GoString) (v : F)
    (hline : line = name ++ ascii ":" ++ value ++ ascii "|" ++ statType)
    (hname : name ≠ []) (hcolon : 58 ∉ name) (hutf : utf8ValidString line = true)
    (hv : fl.parseFloat value = (v, true)) (ht : 58 ∉ statType ∧ 124 ∉ statType) :
    (statType = ascii "c" → lineToEvents fl line = some [Event.counter name v []]) ∧
    (statType = ascii "g" → lineToEvents fl line
      = some [Event.gauge name v (decide (value.head? = some 43 ∨ value.head? = some 45)) []]) ∧
    (statType = ascii "ms" ∨ statType = ascii "h" →
      lineToEvents fl line = some [Event.timer name v []]) ∧
    (statType = ascii "s" → lineToEvents fl line = some [] ∧
      ∀ (relative : Bool) (labels : Labels), NewEvent statType name v relative labels
        = Except.error (ascii "no support for StatsD sets")) ∧
    (statType ≠ ascii "c" ∧ statType ≠ ascii "g" ∧ statType ≠ ascii "ms" ∧
        statType ≠ ascii "h" ∧ statType ≠ ascii "s" →
      lineToEvents fl line = some [] ∧
      ∀ (relative : Bool) (labels : Labels), ∃ msg,
        NewEvent statType name v relative labels = Except.error msg ∧
        msg ≠ ascii "no support for StatsD sets") := by
  have hv1 : 58 ∉ value := (fl.parse_no_sep value (by rw [hv])).1
  have hrest : 58 ∉ value ++ 124 :: statType := by
    simp only [List.mem_append, List.mem_cons, not_or]
    exact ⟨hv1, by decide, ht.1⟩
  have hl : line = name ++ 58 :: (value ++ 124 :: statType) := by
    rw [hline, ascii_colon, ascii_bar]; simp
  have key : lineToEvents fl line = some (emitEvents statType name v
      (stringsIndexByte 43 value = 0 || stringsIndexByte 45 value = 0) [] 1) := by
    rw [hl, lineToEvents_single fl name _ hname hcolon (hl ▸ hutf) hrest,
      sampleToEvents_plain fl name value statType v hv ht.2]
  have hrel : (decide (stringsIndexByte 43 value = 0) || decide (stringsIndexByte 45 value = 0))
      = decide (value.head? = some 43 ∨ value.head? = some 45) := by
    simp only [stringsIndexByte_eq_zero, Bool.decide_or]
  rw [key]
  refine ⟨?_, ?_, ?_, ?_, ?_⟩
  · intro h
    subst h
    simp [emitEvents, NewEvent]
  · intro h
    subst h
    have hne : ascii "g" ≠ ascii "c" := by decide
    simp [emitEvents, NewEvent, hne, hrel]
  · intro h
    rcases h with h | h
    · subst h
      have h1 : ascii "ms" ≠ ascii "c" := by decide
      have h2 : ascii "ms" ≠ ascii "g" := by decide
      simp [emitEvents, NewEvent, h1, h2]
    · subst h
      have h1 : ascii "h" ≠ ascii "c" := by decide
      have h2 : ascii "h" ≠ ascii "g" := by decide
      simp [emitEvents, NewEvent, h1, h2]
  · intro h
    subst h
    have h1 : ascii "s" ≠ ascii "c" := by decide
    have h2 : ascii "s" ≠ ascii "g" := by decide
    have h3 : ascii "s" ≠ ascii "ms" := by decide
    have h4 : ascii "s" ≠ ascii "h" := by decide
    simp [emitEvents, NewEvent, h1, h2, h3, h4]
  · rintro ⟨h1, h2, h3, h4, h5⟩
    constructor
    · simp [emitEvents, NewEvent, h1, h2, h3, h4, h5]
    · intro relative labels
      refine ⟨ascii "bad stat type " ++ statType, by simp [NewEvent, h1, h2, h3, h4, h5], ?_⟩
      intro h
      have := congrArg List.head? h
      revert this
      rw [show ascii "bad stat type " = 98 :: ascii "ad stat type " from rfl,
        show ascii "no support for StatsD sets" = 110 :: ascii "o support for StatsD sets"
          from rfl]
      simp

theorem lineToEvents_plain_witness :
    lineToEvents decOps (ascii "foo:1|c") = some [Event.counter (ascii "foo") ⟨1, 1⟩ []] :=
  (lineToEvents_plain decOps (ascii "foo") (ascii "1") (ascii "c") (ascii "foo:1|c") ⟨1, 1⟩
    (by decide) (by decide) (by decide) (by decide) (by decide) (by decide)).1 rfl

/-! ### C4 -/

/-- C4, as stated, fails: for `foo:1|ms|@0.625` the quotient 1/f is 1.6, which rounds to 2,
and the line gives one event. -/
theorem sampled_timer_count_not_round :
    (lineToEvents decOps (ascii "foo:1|ms|@0.625")).map List.length = some 1 ∧
      Dec.round (decOps.div decOps.one (decOps.parseFloat (ascii "0.625")).1) = 2 := by
  decide

/-- C4, amended: a timer sample `value|ms|@f` whose factor parses gives exactly `int(1/f)` timer
events (f = 0 counting as 1): the integer part of 1/f, and none when that is not positive. -/
theorem sampled_timer_count (name value f : GoString) (v x : F)
    (hname : name ≠ []) (hcolon : 58 ∉ name)
    (hutf : utf8ValidString (name ++ ascii ":" ++ value ++ ascii "|ms|@" ++ f) = true)
    (hv : fl.parseFloat value = (v, true)) (hf : fl.parseFloat f = (x, true)) :
    ∃ evs, lineToEvents fl (name ++ ascii ":" ++ value ++ ascii "|ms|@" ++ f) = some evs ∧
      evs.length = (fl.toInt (fl.div fl.one (if fl.isZero x then fl.one else x))).toNat ∧
      ∀ e ∈ evs, e.MetricType = metricTypeTimer := by
  refine ⟨_, lineToEvents_sampled_timer fl name value f v hname hcolon hutf hv
    (fl.parse_no_sep f (by rw [hf])), ?_, ?_⟩
  · simp [hf]
  · intro e he
    rw [List.eq_of_mem_replicate he]
    rfl

theorem sampled_timer_count_witness :
    ∃ evs, lineToEvents decOps (ascii "foo:7|ms|@0.3") = some evs ∧ evs.length = 3 ∧
      ∀ e ∈ evs, e.MetricType = metricTypeTimer :=
  sampled_timer_count decOps (ascii "foo") (ascii "7") (ascii "0.3") ⟨7, 1⟩ ⟨3, 10⟩
    (by decide) (by decide) (by decide) (by decide) (by decide)

/-! ### C5 -/

/-- C5: every event of a timer sample `value|ms|@f` is a timer event with the metric name, the
unscaled parsed value and no labels; and `foo:200|ms|@0.1` gives exactly 10 such events of
value 200, given that `int(1/0.1)` is 10 in the float arithmetic. -/
theorem sampled_timer_events :
    (∀ (name value f : GoString) (v : F), name ≠ [] → 58 ∉ name →
      utf8ValidString (name ++ ascii ":" ++ value ++ ascii "|ms|@" ++ f) = true →
      fl.parseFloat value = (v, true) → 58 ∉ f ∧ 124 ∉ f →
      ∃ n, lineToEvents fl (name ++ ascii ":" ++ value ++ ascii "|ms|@" ++ f)
        = some (List.replicate n (Event.timer name v []))) ∧
    (∀ v x : F, fl.parseFloat (ascii "200") = (v, true) →
      fl.parseFloat (ascii "0.1") = (x, true) → fl.isZero x = false →
      fl.toInt (fl.div fl.one x) = 10 →
      lineToEvents fl (ascii "foo:200|ms|@0.1")
        = some (List.replicate 10 (Event.timer (ascii "foo") v []))) := by
  constructor
  · intro name value f v hname hcolon hutf hv hf
    exact ⟨_, lineToEvents_sampled_timer fl name value f v hname hcolon hutf hv hf⟩
  · intro v x hv hx hz hten
    have h := lineToEvents_sampled_timer fl (ascii "foo") (ascii "200") (ascii "0.1") v
      (by decide) (by decide) (by decide) hv (by decide)
    rw [hx] at h
    simp only [hz, Bool.false_eq_true, if_false, hten] at h
    exact h

theorem sampled_timer_events_witness :
    lineToEvents decOps (ascii "foo:200|ms|@0.1")
      = some (List.replicate 10 (Event.timer (ascii "foo") ⟨200, 1⟩ [])) :=
  (sampled_timer_events decOps).2 ⟨200, 1⟩ ⟨1, 10⟩ (by decide) (by decide) (by decide)
    (by decide)

/-! ### C6 -/

/-- C6: a counter sample `value|c|@f` whose factor parses gives one counter event, of value
`value / f` when f is not 0 and of value `value` when f is 0. -/
theorem sampled_counter_value (name value f : GoString) (v x : F)
    (hname : name ≠ []) (hcolon : 58 ∉ name)
    (hutf : utf8ValidString (name ++ ascii ":" ++ value ++ ascii "|c|@" ++ f) = true)
    (hv : fl.parseFloat value = (v, true)) (hf : fl.parseFloat f = (x, true)) :
    (fl.isZero x = false → lineToEvents fl (name ++ ascii ":" ++ value ++ ascii "|c|@" ++ f)
      = some [Event.counter name (fl.div v x) []]) ∧
    (fl.isZero x = true → lineToEvents fl (name ++ ascii ":" ++ value ++ ascii "|c|@" ++ f)
      = some [Event.counter name v []]) := by
  have h := lineToEvents_sampled_counter fl name value f v hname hcolon hutf hv
    (fl.parse_no_sep f (by rw [hf]))
  rw [hf] at h
  constructor
  · intro hz
    rw [h]
    simp [hz]
  · intro hz
    rw [h]
    simp [hz, fl.div_one]

theorem sampled_counter_value_witness :
    lineToEvents decOps (ascii "foo:3|c|@0.5")
        = some [Event.counter (ascii "foo") (Dec.div ⟨3, 1⟩ ⟨5, 10⟩) []] ∧
      lineToEvents decOps (ascii "foo:3|c|@0") = some [Event.counter (ascii "foo") ⟨3, 1⟩ []] :=
  ⟨(sampled_counter_value decOps (ascii "foo") (ascii "3") (ascii "0.5") ⟨3, 1⟩ ⟨5, 10⟩
      (by decide) (by decide) (by decide) (by decide) (by decide)).1 (by decide),
   (sampled_counter_value decOps (ascii "foo") (ascii "3") (ascii "0") ⟨3, 1⟩ ⟨0, 1⟩
      (by decide) (by decide) (by decide) (by decide) (by decide)).2 (by decide)⟩

/-! ### C7 -/

theorem intercalate_append_cons (sep : GoString) (pre : List GoString) (hpre : pre ≠ [])
    (y : GoString) (post : List GoString) :
    List.intercalate sep (pre ++ y :: post)
      = List.intercalate sep pre ++ (sep ++ List.intercalate sep (y :: post)) := by
  induction pre with
  | nil => exact absurd rfl hpre
  | cons x rest ih =>
    cases rest with
    | nil => simp [intercalate_singleton, intercalate_cons_cons]
    | cons x2 r2 =>
      rw [List.cons_append, List.cons_append, intercalate_cons_cons, ← List.cons_append,
        ih (by simp), intercalate_cons_cons]
      simp

theorem not_mem_intercalate (x sep : Nat) (hx : x ≠ sep) (parts : List GoString)
    (h : ∀ c ∈ parts, x ∉ c) : x ∉ List.intercalate [sep] parts := by
  induction parts with
  | nil => simp [List.intercalate]
  | cons y rest ih =>
    cases rest with
    | nil =>
      rw [intercalate_singleton]
      exact h y (List.mem_cons_self _ _)
    | cons z zs =>
      rw [intercalate_cons_cons]
      simp only [List.mem_append, List.mem_singleton, not_or]
      exact ⟨h y (List.mem_cons_self _ _), hx, ih (fun c hc => h c (List.mem_cons_of_mem _ hc))⟩

theorem cons_intercalate (b : Nat) (sep x : GoString) (rest : List GoString) :
    b :: List.intercalate sep (x :: rest) = List.intercalate sep ((b :: x) :: rest) := by
  cases rest with
  | nil => simp [intercalate_singleton]
  | cons y zs => simp [intercalate_cons_cons]

theorem tagStep_eq (labels : Labels) (t : GoString) (h : TagKeyed (trimPrefixByte 35 t)) :
    tagStep labels t = some (escapedTagStep labels (trimPrefixByte 35 t)) := by
  unfold tagStep escapedTagStep
  unfold TagKeyed at h
  unfold splitN2
  cases hc : stringsCut 58 (trimPrefixByte 35 t) with
  | none => rfl
  | some p =>
    obtain ⟨k, v⟩ := p
    simp only [List.length_eq_zero]
    by_cases hv : v = []
    · simp [hv]
    · have hk : k ≠ [] := by
        intro hk
        subst hk
        cases ht : trimPrefixByte 35 t with
        | nil => rw [ht] at hc; simp [stringsCut] at hc
        | cons b r =>
          rw [ht] at hc h
          simp only [stringsCut] at hc
          split at hc
          · rename_i hb
            simp only [Option.some.injEq, Prod.mk.injEq, true_and] at hc
            simp only [hb, List.head?_cons, List.tail_cons, true_implies] at h
            exact hv (hc ▸ h)
          · cases hr : stringsCut 58 r with
            | none => rw [hr] at hc; simp at hc
            | some q => rw [hr] at hc; simp at hc
      obtain ⟨b, r, rfl⟩ := List.exists_cons_of_ne_nil hk
      simp only [hv, if_false, EscapeMetricName]
      split_ifs <;> rfl

theorem foldlM_tagStep (tags : List GoString)
    (h : ∀ t ∈ tags, TagKeyed (trimPrefixByte 35 t)) (acc : Labels) :
    tags.foldlM tagStep acc = some ((tags.map (trimPrefixByte 35)).foldl escapedTagStep acc) := by
  induction tags generalizing acc with
  | nil => rfl
  | cons t rest ih =>
    simp only [List.foldlM_cons, tagStep_eq acc t (h t (List.mem_cons_self _ _)),
      Option.bind_eq_bind, Option.some_bind, List.map_cons, List.foldl_cons]
    exact ih (fun x hx => h x (List.mem_cons_of_mem _ hx)) _

/-- The label set `parseDogStatsDTagsToLabels` builds from the tag section `#t1,t2,...`. -/
theorem parseDogStatsDTagsToLabels_eq (t1 : GoString) (rest : List GoString)
    (hcomma : ∀ t ∈ t1 :: rest, 44 ∉ t) (hk : TagKeyed t1)
    (hks : ∀ t ∈ rest, TagKeyed (trimPrefixByte 35 t)) :
    parseDogStatsDTagsToLabels (35 :: List.intercalate [44] (t1 :: rest))
      = some (escapedTagLabels (t1 :: rest)) := by
  unfold parseDogStatsDTagsToLabels
  rw [cons_intercalate, splitByte_intercalate 44 _ (by simp)]
  · rw [foldlM_tagStep]
    · simp [escapedTagLabels, trimPrefixByte]
    · intro t ht
      rcases List.mem_cons.1 ht with ht | ht
      · rw [ht]
        simpa [trimPrefixByte] using hk
      · exact hks t ht
  · intro c hc
    rcases List.mem_cons.1 hc with hc | hc
    · rw [hc]
      simp only [List.mem_cons, not_or]
      exact ⟨by decide, hcomma t1 (List.mem_cons_self _ _)⟩
    · exact hcomma c (List.mem_cons_of_mem _ hc)

/-- A sample with a tag section holds the tag marker `|#`. -/
theorem barHash_infix (value statType tag : GoString) (pre post : List GoString) :
    [124, 35] <:+:
      List.intercalate [124] (value :: statType :: (pre ++ (35 :: tag) :: post)) := by
  rw [show value :: statType :: (pre ++ (35 :: tag) :: post)
      = (value :: statType :: pre) ++ (35 :: tag) :: post from rfl,
    intercalate_append_cons _ _ (by simp), ← cons_intercalate]
  exact ⟨List.intercalate [124] (value :: statType :: pre),
    List.intercalate [124] (tag :: post), by simp⟩

theorem applyModifier_setLabels (statType : GoString) (st : SampleState F) (labels : Labels)
    (m : GoString) (hh : m.head? ≠ some 35) :
    applyModifier fl statType { st with labels := labels } m
      = (applyModifier fl statType st m).map (fun s => { s with labels := labels }) := by
  cases m with
  | nil => rfl
  | cons c0 r =>
    simp only [List.head?_cons, ne_eq, Option.some.injEq] at hh
    simp only [applyModifier, hh, if_false]
    split_ifs <;> rfl

theorem foldlM_applyModifier_setLabels (statType : GoString) (labels : Labels)
    (mods : List GoString) (h : ∀ m ∈ mods, m.head? ≠ some 35) :
    ∀ st : SampleState F, mods.foldlM (applyModifier fl statType) { st with labels := labels }
      = (mods.foldlM (applyModifier fl statType) st).map
          (fun s => { s with labels := labels }) := by
  induction mods with
  | nil => intro st; rfl
  | cons m rest ih =>
    intro st
    simp only [List.foldlM_cons, applyModifier_setLabels fl statType st labels m
      (h m (List.mem_cons_self _ _))]
    cases applyModifier fl statType st m with
    | none => rfl
    | some st1 => exact ih (fun x hx => h x (List.mem_cons_of_mem _ hx)) st1

theorem withLabels_comp (l1 l2 : Labels) :
    (Event.withLabels l1 ∘ Event.withLabels l2 : Event F → Event F) = Event.withLabels l1 := by
  funext e
  cases e <;> rfl

theorem NewEvent_withLabels (statType metric : GoString) (value : F) (relative : Bool)
    (labels : Labels) :
    NewEvent statType metric value relative labels
      = (NewEvent statType metric value relative []).map (Event.withLabels labels) := by
  unfold NewEvent
  split_ifs <;> rfl

theorem emitEvents_withLabels (statType metric : GoString) (value : F) (relative : Bool)
    (labels : Labels) (n : Nat) :
    emitEvents statType metric value relative labels n
      = (emitEvents statType metric value relative [] n).map (Event.withLabels labels) := by
  induction n with
  | zero => rfl
  | succ n ih =>
    simp only [emitEvents, NewEvent_withLabels statType metric value relative labels]
    cases NewEvent statType metric value relative ([] : Labels) with
    | error e => simpa [Except.map] using ih
    | ok e => simpa [Except.map] using ih

/-- In a sample, a tag section sets the labels of the events and nothing else. -/
theorem sampleToEvents_tag_section (metric value statType t1 : GoString)
    (pre post rest : List GoString) (hv : 124 ∉ value) (ht : 124 ∉ statType)
    (hmods : ∀ m ∈ pre ++ post, 124 ∉ m ∧ m ≠ [] ∧ m.head? ≠ some 35)
    (hlen : pre.length + post.length ≤ 1)
    (htags : ∀ t ∈ t1 :: rest, 44 ∉ t ∧ 124 ∉ t) (hk : TagKeyed t1)
    (hks : ∀ t ∈ rest, TagKeyed (trimPrefixByte 35 t)) :
    sampleToEvents fl metric (List.intercalate [124]
        (value :: statType :: (pre ++ (35 :: List.intercalate [44] (t1 :: rest)) :: post)))
      = (sampleToEvents fl metric
          (List.intercalate [124] (value :: statType :: (pre ++ post)))).map
          (List.map (Event.withLabels (escapedTagLabels (t1 :: rest)))) := by
  have htag : 124 ∉ 35 :: List.intercalate [44] (t1 :: rest) := by
    simp only [List.mem_cons, not_or]
    exact ⟨by decide, not_mem_intercalate 124 44 (by decide) _ (fun c hc => (htags c hc).2)⟩
  have hpre : ∀ m ∈ pre, 124 ∉ m ∧ m ≠ [] ∧ m.head? ≠ some 35 :=
    fun m hm => hmods m (List.mem_append_left _ hm)
  have hpost : ∀ m ∈ post, 124 ∉ m ∧ m ≠ [] ∧ m.head? ≠ some 35 :=
    fun m hm => hmods m (List.mem_append_right _ hm)
  unfold sampleToEvents
  rw [splitByte_intercalate 124 _ (by simp), splitByte_intercalate 124 _ (by simp)]
  · simp only []
    have h1 : ¬ 2 < (pre ++ (35 :: List.intercalate [44] (t1 :: rest)) :: post).length := by
      simp only [List.length_append, List.length_cons]; omega
    have h2 : ¬ 2 < (pre ++ post).length := by
      simp only [List.length_append]; omega
    rw [if_neg h1, if_neg h2]
    by_cases hp : (fl.parseFloat value).2 = false
    · simp [hp]
    · rw [if_neg hp, if_neg hp]
      have h3 : (pre ++ (35 :: List.intercalate [44] (t1 :: rest)) :: post).any
          (fun component => decide (component.length = 0)) = false := by
        rw [Bool.eq_false_iff, ne_eq, List.any_eq_true]
        rintro ⟨m, hm, hz⟩
        simp only [List.length_eq_zero, decide_eq_true_eq] at hz
        rcases List.mem_append.1 hm with hm | hm
        · exact (hpre m hm).2.1 hz
        · rcases List.mem_cons.1 hm with hm | hm
          · rw [hm] at hz; cases hz
          · exact (hpost m hm).2.1 hz
      have h4 : (pre ++ post).any (fun component => decide (component.length = 0)) = false := by
        rw [Bool.eq_false_iff, ne_eq, List.any_eq_true]
        rintro ⟨m, hm, hz⟩
        simp only [List.length_eq_zero, decide_eq_true_eq] at hz
        exact (hmods m hm).2.1 hz
      rw [h3, h4]
      simp only [Bool.false_eq_true, if_false, List.foldlM_append, List.foldlM_cons]
      obtain ⟨st1, hst1⟩ := foldlM_applyModifier_isSome fl statType pre
        (fun m hm => ⟨(hpre m hm).2.1, (hpre m hm).2.2⟩)
        { value := (fl.parseFloat value).1, multiplyEvents := 1, labels := [] }
      rw [hst1]
      simp only [Option.bind_eq_bind, Option.some_bind, applyModifier,
        if_neg (show ¬ (35 : Nat) = 64 by decide), if_true,
        parseDogStatsDTagsToLabels_eq t1 rest (fun t h => (htags t h).1) hk hks,
        Option.map_some']
      rw [foldlM_applyModifier_setLabels fl statType _ post (fun m hm => (hpost m hm).2.2)]
      cases post.foldlM (applyModifier fl statType) st1 with
      | none => rfl
      | some st2 =>
        simp only [Option.map_some']
        rw [emitEvents_withLabels,
          emitEvents_withLabels statType metric st2.value _ st2.labels, List.map_map,
          withLabels_comp]
  · intro c hc
    rcases List.mem_cons.1 hc with hc | hc
    · rw [hc]; exact hv
    · rcases List.mem_cons.1 hc with hc | hc
      · rw [hc]; exact ht
      · exact (hmods c hc).1
  · intro c hc
    rcases List.mem_cons.1 hc with hc | hc
    · rw [hc]; exact hv
    · rcases List.mem_cons.1 hc with hc | hc
      · rw [hc]; exact ht
      · rcases List.mem_append.1 hc with hc | hc
        · exact (hpre c hc).1
        · rcases List.mem_cons.1 hc with hc | hc
          · rw [hc]; exact htag
          · exact (hpost c hc).1

/-- The events of a tagged line `name:value|type|#t1,t2,...`. -/
theorem lineToEvents_tags (name value statType t1 : GoString) (rest : List GoString) (v : F)
    (hname : name ≠ []) (hcolon : 58 ∉ name)
    (hutf : utf8ValidString (name ++ ascii ":" ++ value ++ ascii "|" ++ statType ++ ascii "|#"
      ++ List.intercalate (ascii ",") (t1 :: rest)) = true)
    (hv : fl.parseFloat value = (v, true)) (ht : 124 ∉ statType)
    (htags : ∀ t ∈ t1 :: rest, 44 ∉ t ∧ 124 ∉ t) (hk : TagKeyed t1)
    (hks : ∀ t ∈ rest, TagKeyed (trimPrefixByte 35 t)) :
    lineToEvents fl (name ++ ascii ":" ++ value ++ ascii "|" ++ statType ++ ascii "|#"
        ++ List.intercalate (ascii ",") (t1 :: rest))
      = some (emitEvents statType name v
          (stringsIndexByte 43 value = 0 || stringsIndexByte 45 value = 0)
          (escapedTagLabels (t1 :: rest)) 1) := by
  have hl : name ++ ascii ":" ++ value ++ ascii "|" ++ statType ++ ascii "|#"
        ++ List.intercalate (ascii ",") (t1 :: rest)
      = name ++ 58 :: (value ++ 124 :: (statType ++ 124 ::
          (35 :: List.intercalate [44] (t1 :: rest)))) := by
    rw [ascii_colon, ascii_bar, ascii_barHash, ascii_comma]; simp
  have hm : 124 ∉ 35 :: List.intercalate [44] (t1 :: rest) := by
    simp only [List.mem_cons, not_or]
    exact ⟨by decide, not_mem_intercalate 124 44 (by decide) _ (fun c hc => (htags c hc).2)⟩
  have hcont : stringsContains
      (value ++ 124 :: (statType ++ 124 :: (35 :: List.intercalate [44] (t1 :: rest))))
      (ascii "|#") = true := by
    rw [stringsContains_iff, ascii_barHash]
    exact ⟨value ++ 124 :: statType, List.intercalate [44] (t1 :: rest), by simp⟩
  rw [hl] at hutf ⊢
  rw [lineToEvents_tagged fl name _ hname hcolon hutf hcont,
    sampleToEvents_one_modifier fl name value statType _ v hv ht hm (by simp)]
  simp only [applyModifier, if_true, if_neg (show ¬ (35 : Nat) = 64 by decide),
    parseDogStatsDTagsToLabels_eq t1 rest (fun t h => (htags t h).1) hk hks, Option.map_some']
  rfl

/-- C7, as stated, fails: the tag `a-b:x` of `foo:1|c|#a-b:x` contributes the key `a_b`, not the
key `a-b`. -/
theorem tag_key_not_verbatim :
    lineToEvents decOps (ascii "foo:1|c|#a-b:x")
        = some [Event.counter (ascii "foo") ⟨1, 1⟩ [(ascii "a_b", ascii "x")]] ∧
      lineToEvents decOps (ascii "foo:1|c|#a-b:x")
        ≠ some [Event.counter (ascii "foo") ⟨1, 1⟩ (claimedTagLabels [ascii "a-b:x"])] := by
  decide

/-- In a line, a tag section sets the labels of the events and nothing else. -/
theorem lineToEvents_tag_section (name value statType t1 : GoString)
    (pre post rest : List GoString) (hname : name ≠ []) (hcolon : 58 ∉ name)
    (hutf : utf8ValidString (name ++ ascii ":" ++ List.intercalate (ascii "|")
      (value :: statType ::
        (pre ++ (ascii "#" ++ List.intercalate (ascii ",") (t1 :: rest)) :: post))) = true)
    (hv : 58 ∉ value ∧ 124 ∉ value) (ht : 58 ∉ statType ∧ 124 ∉ statType)
    (hmods : ∀ m ∈ pre ++ post, 58 ∉ m ∧ 124 ∉ m ∧ m ≠ [] ∧ m.head? ≠ some 35)
    (hlen : pre.length + post.length ≤ 1)
    (htags : ∀ t ∈ t1 :: rest, 44 ∉ t ∧ 124 ∉ t) (hk : TagKeyed t1)
    (hks : ∀ t ∈ rest, TagKeyed (trimPrefixByte 35 t)) :
    lineToEvents fl (name ++ ascii ":" ++ List.intercalate (ascii "|")
        (value :: statType ::
          (pre ++ (ascii "#" ++ List.intercalate (ascii ",") (t1 :: rest)) :: post)))
      = (lineToEvents fl (name ++ ascii ":" ++ List.intercalate (ascii "|")
          (value :: statType :: (pre ++ post)))).map
          (List.map (Event.withLabels (escapedTagLabels (t1 :: rest)))) := by
  rw [ascii_colon, ascii_bar, ascii_hash, ascii_comma] at hutf ⊢
  simp only [List.append_assoc, List.singleton_append] at hutf ⊢
  have hval := hutf
  rw [utf8ValidString_append_ascii _ _ _ (by decide), Bool.and_eq_true] at hval
  have hparts := utf8ValidString_of_mem_intercalate 124 (by decide) _ hval.2
  have hv2 : utf8ValidString (name ++ 58 ::
      List.intercalate [124] (value :: statType :: (pre ++ post))) = true := by
    rw [utf8ValidString_append_ascii _ _ _ (by decide), hval.1,
      utf8ValidString_intercalate 124 (by decide)]
    · rfl
    · intro c hc
      apply hparts
      simp only [List.mem_cons, List.mem_append] at hc ⊢
      tauto
  have hc2 : 58 ∉ List.intercalate [124] (value :: statType :: (pre ++ post)) := by
    apply not_mem_intercalate 58 124 (by decide)
    intro c hc
    rcases List.mem_cons.1 hc with hc | hc
    · rw [hc]; exact hv.1
    · rcases List.mem_cons.1 hc with hc | hc
      · rw [hc]; exact ht.1
      · exact (hmods c hc).1
  rw [lineToEvents_tagged fl name _ hname hcolon hutf
      (by rw [stringsContains_iff, ascii_barHash]; exact barHash_infix _ _ _ _ _),
    lineToEvents_single fl name _ hname hcolon hv2 hc2,
    sampleToEvents_tag_section fl name value statType t1 pre post rest hv.2 ht.2
      (fun m hm => (hmods m hm).2) hlen htags hk hks]

/-- C7, amended: a sample with a tag section `#t1,t2,...`, in which no tag has an empty key
before a non-empty value, still gives its event, the line being read as one sample whatever
colons the tags hold; the label set is the fold of the tags from left to right, where a tag
`key:value` (cut at its first colon; a tag after the first read without one leading `#`) with a
non-empty value sets `EscapeMetricName(key)` to `value`, overwriting an earlier entry of that
key, and any other tag is passed over.  First for a sample `value|type|#tags`; then for a sample
with one more modifier before or after the tag section, whose events are those of the sample
without the tag section, with that label set; last, `foo:1|c|#host:web-1,env:prod` gives one
counter event with the labels host = web-1 and env = prod. -/
theorem tagged_sample_labels :
    (∀ (name value statType t1 : GoString) (rest : List GoString) (v : F) (e : Event F),
      name ≠ [] → 58 ∉ name →
      utf8ValidString (name ++ ascii ":" ++ value ++ ascii "|" ++ statType ++ ascii "|#"
        ++ List.intercalate (ascii ",") (t1 :: rest)) = true →
      fl.parseFloat value = (v, true) → 124 ∉ statType →
      (∀ t ∈ t1 :: rest, 44 ∉ t ∧ 124 ∉ t) → TagKeyed t1 →
      (∀ t ∈ rest, TagKeyed (trimPrefixByte 35 t)) →
      NewEvent statType name v (decide (value.head? = some 43 ∨ value.head? = some 45))
        (escapedTagLabels (t1 :: rest)) = .ok e →
      lineToEvents fl (name ++ ascii ":" ++ value ++ ascii "|" ++ statType ++ ascii "|#"
        ++ List.intercalate (ascii ",") (t1 :: rest)) = some [e]) ∧
    (∀ (name value statType t1 : GoString) (pre post rest : List GoString),
      name ≠ [] → 58 ∉ name →
      utf8ValidString (name ++ ascii ":" ++ List.intercalate (ascii "|")
        (value :: statType ::
          (pre ++ (ascii "#" ++ List.intercalate (ascii ",") (t1 :: rest)) :: post))) = true →
      58 ∉ value ∧ 124 ∉ value → 58 ∉ statType ∧ 124 ∉ statType →
      (∀ m ∈ pre ++ post, 58 ∉ m ∧ 124 ∉ m ∧ m ≠ [] ∧ m.head? ≠ some 35) →
      pre.length + post.length ≤ 1 →
      (∀ t ∈ t1 :: rest, 44 ∉ t ∧ 124 ∉ t) → TagKeyed t1 →
      (∀ t ∈ rest, TagKeyed (trimPrefixByte 35 t)) →
      lineToEvents fl (name ++ ascii ":" ++ List.intercalate (ascii "|")
          (value :: statType ::
            (pre ++ (ascii "#" ++ List.intercalate (ascii ",") (t1 :: rest)) :: post)))
        = (lineToEvents fl (name ++ ascii ":" ++ List.intercalate (ascii "|")
            (value :: statType :: (pre ++ post)))).map
            (List.map (Event.withLabels (escapedTagLabels (t1 :: rest))))) ∧
    (∀ v : F, fl.parseFloat (ascii "1") = (v, true) →
      lineToEvents fl (ascii "foo:1|c|#host:web-1,env:prod")
        = some [Event.counter (ascii "foo") v
            [(ascii "host", ascii "web-1"), (ascii "env", ascii "prod")]]) := by
  have hrel : ∀ value : GoString,
      (decide (stringsIndexByte 43 value = 0) || decide (stringsIndexByte 45 value = 0))
      = decide (value.head? = some 43 ∨ value.head? = some 45) := by
    intro value
    simp only [stringsIndexByte_eq_zero, Bool.decide_or]
  refine ⟨?_, ?_, ?_⟩
  · intro name value statType t1 rest v e hname hcolon hutf hv ht htags hk hks hnew
    rw [lineToEvents_tags fl name value statType t1 rest v hname hcolon hutf hv ht htags hk hks,
      hrel, emitEvents_ok hnew]
    rfl
  · intro name value statType t1 pre post rest hname hcolon hutf hv ht hmods hlen htags hk hks
    exact lineToEvents_tag_section fl name value statType t1 pre post rest hname hcolon hutf
      hv ht hmods hlen htags hk hks
  · intro v hv
    have h := lineToEvents_tags fl (ascii "foo") (ascii "1") (ascii "c")
      (ascii "host:web-1") [ascii "env:prod"] v (by decide) (by decide) (by decide) hv
      (by decide) (by decide) (by decide) (by decide)
    have hlab : escapedTagLabels [ascii "host:web-1", ascii "env:prod"]
        = [(ascii "host", ascii "web-1"), (ascii "env", ascii "prod")] := by decide
    rw [show ascii "foo:1|c|#host:web-1,env:prod" = ascii "foo" ++ ascii ":" ++ ascii "1"
      ++ ascii "|" ++ ascii "c" ++ ascii "|#"
      ++ List.intercalate (ascii ",") [ascii "host:web-1", ascii "env:prod"] from by decide,
      h, hlab]
    simp [emitEvents, NewEvent]

theorem tagged_sample_labels_witness :
    lineToEvents decOps (ascii "foo:1|c|#host:web-1,env:prod")
      = some [Event.counter (ascii "foo") ⟨1, 1⟩
          [(ascii "host", ascii "web-1"), (ascii "env", ascii "prod")]] :=
  (tagged_sample_labels decOps).2.2 ⟨1, 1⟩ (by decide)

/-! ### C8 -/

/-- A modifier that starts with neither `@` nor `#` changes nothing. -/
theorem sampleToEvents_unknown_modifier (metric value statType m : GoString)
    (hv : 124 ∉ value) (ht : 124 ∉ statType) (hm : 124 ∉ m) (hne : m ≠ [])
    (h64 : m.head? ≠ some 64) (h35 : m.head? ≠ some 35) :
    sampleToEvents fl metric (value ++ 124 :: (statType ++ 124 :: m))
      = sampleToEvents fl metric (value ++ 124 :: statType) := by
  unfold sampleToEvents
  rw [splitByte_append _ hv, splitByte_append _ ht, splitByte_of_not_mem hm,
    splitByte_append _ hv, splitByte_of_not_mem ht]
  cases m with
  | nil => exact absurd rfl hne
  | cons c0 r =>
    simp only [List.head?_cons, ne_eq, Option.some.injEq] at h64 h35
    simp [applyModifier, h64, h35]

/-- C8, as stated, fails: the sample `1|c|x` of the line `foo:1|c|x` is not skipped, its
counter event is emitted. -/
theorem unknown_modifier_not_skipped :
    lineToEvents decOps (ascii "foo:1|c|x") = some [Event.counter (ascii "foo") ⟨1, 1⟩ []] ∧
      lineToEvents decOps (ascii "foo:1|c|x") ≠ some [] := by
  decide

theorem applyModifier_unknown (statType : GoString) (st : SampleState F) (m : GoString)
    (hne : m ≠ []) (h : ¬ (m.head? = some 64 ∨ m.head? = some 35)) :
    applyModifier fl statType st m = some st := by
  cases m with
  | nil => exact absurd rfl hne
  | cons c0 r =>
    simp only [List.head?_cons, Option.some.injEq, not_or] at h
    simp [applyModifier, h.1, h.2]

theorem foldlM_applyModifier_filter (statType : GoString) (mods : List GoString)
    (hne : ∀ m ∈ mods, m ≠ []) :
    ∀ st : SampleState F, mods.foldlM (applyModifier fl statType) st
      = (mods.filter startsModifier).foldlM
          (applyModifier fl statType) st := by
  induction mods with
  | nil => intro st; rfl
  | cons m rest ih =>
    intro st
    have ih2 := ih (fun x hx => hne x (List.mem_cons_of_mem _ hx))
    by_cases hk : m.head? = some 64 ∨ m.head? = some 35
    · rw [List.filter_cons_of_pos (by simpa [startsModifier] using hk)]
      simp only [List.foldlM_cons]
      cases applyModifier fl statType st m with
      | none => rfl
      | some st1 => exact ih2 st1
    · rw [List.filter_cons_of_neg (by simpa [startsModifier] using hk)]
      simp only [List.foldlM_cons,
        applyModifier_unknown fl statType st m (hne m (List.mem_cons_self _ _)) hk]
      exact ih2 st

/-- In a sample, the modifiers that start with neither `@` nor `#` can be left out. -/
theorem sampleToEvents_filter_unknown (metric value statType : GoString)
    (mods : List GoString) (hv : 124 ∉ value) (ht : 124 ∉ statType)
    (hmods : ∀ m ∈ mods, 124 ∉ m ∧ m ≠ []) (hlen : mods.length ≤ 2) :
    sampleToEvents fl metric (List.intercalate [124] (value :: statType :: mods))
      = sampleToEvents fl metric (List.intercalate [124] (value :: statType ::
          mods.filter startsModifier)) := by
  have hsub : ∀ m ∈ mods.filter startsModifier,
      m ∈ mods := fun m hm => (List.mem_filter.1 hm).1
  have hflen := List.length_filter_le
    startsModifier mods
  unfold sampleToEvents
  rw [splitByte_intercalate 124 _ (by simp), splitByte_intercalate 124 _ (by simp)]
  · simp only []
    have h1 : ¬ 2 < mods.length := by omega
    have h2 : ¬ 2 < (mods.filter startsModifier).length := by omega
    rw [if_neg h1, if_neg h2]
    by_cases hp : (fl.parseFloat value).2 = false
    · simp [hp]
    · rw [if_neg hp, if_neg hp]
      have h3 : mods.any (fun component => decide (component.length = 0)) = false := by
        rw [Bool.eq_false_iff, ne_eq, List.any_eq_true]
        rintro ⟨m, hm, hz⟩
        simp only [List.length_eq_zero, decide_eq_true_eq] at hz
        exact (hmods m hm).2 hz
      have h4 : (mods.filter startsModifier).any
          (fun component => decide (component.length = 0)) = false := by
        rw [Bool.eq_false_iff, ne_eq, List.any_eq_true]
        rintro ⟨m, hm, hz⟩
        simp only [List.length_eq_zero, decide_eq_true_eq] at hz
        exact (hmods m (hsub m hm)).2 hz
      rw [h3, h4, foldlM_applyModifier_filter fl statType mods (fun m hm => (hmods m hm).2)]
  · intro c hc
    rcases List.mem_cons.1 hc with hc | hc
    · rw [hc]; exact hv
    · rcases List.mem_cons.1 hc with hc | hc
      · rw [hc]; exact ht
      · exact (hmods c (hsub c hc)).1
  · intro c hc
    rcases List.mem_cons.1 hc with hc | hc
    · rw [hc]; exact hv
    · rcases List.mem_cons.1 hc with hc | hc
      · rw [hc]; exact ht
      · exact (hmods c hc).1

/-- A sample one of whose modifiers is a tag section holds the tag marker `|#`. -/
theorem barHash_infix_of_mem (value statType : GoString) (mods : List GoString)
    (h : ∃ m ∈ mods, m.head? = some 35) :
    [124, 35] <:+: List.intercalate [124] (value :: statType :: mods) := by
  obtain ⟨m, hm, hh⟩ := h
  obtain ⟨l1, l2, rfl⟩ := List.append_of_mem hm
  cases m with
  | nil => cases hh
  | cons c0 tag =>
    simp only [List.head?_cons, Option.some.injEq] at hh
    subst hh
    exact barHash_infix value statType tag l1 l2

/-- In a line of one sample, the modifiers that start with neither `@` nor `#` can be left
out. -/
theorem lineToEvents_filter_unknown (name value statType : GoString) (mods : List GoString)
    (hname : name ≠ []) (hcolon : 58 ∉ name)
    (hutf : utf8ValidString (name ++ ascii ":" ++
      List.intercalate (ascii "|") (value :: statType :: mods)) = true)
    (hv : 124 ∉ value) (ht : 124 ∉ statType) (hmods : ∀ m ∈ mods, 124 ∉ m ∧ m ≠ [])
    (hlen : mods.length ≤ 2)
    (hone : (58 ∉ value ∧ 58 ∉ statType ∧ ∀ m ∈ mods, 58 ∉ m) ∨
      ∃ m ∈ mods, m.head? = some 35) :
    lineToEvents fl (name ++ ascii ":" ++
        List.intercalate (ascii "|") (value :: statType :: mods))
      = lineToEvents fl (name ++ ascii ":" ++ List.intercalate (ascii "|")
          (value :: statType ::
            mods.filter startsModifier)) := by
  have hsub : ∀ m ∈ mods.filter startsModifier,
      m ∈ mods := fun m hm => (List.mem_filter.1 hm).1
  rw [ascii_colon, ascii_bar] at hutf ⊢
  simp only [List.append_assoc, List.singleton_append] at hutf ⊢
  have hval := hutf
  rw [utf8ValidString_append_ascii _ _ _ (by decide), Bool.and_eq_true] at hval
  have hparts := utf8ValidString_of_mem_intercalate 124 (by decide) _ hval.2
  have hv2 : utf8ValidString (name ++ 58 :: List.intercalate [124] (value :: statType ::
      mods.filter startsModifier)) = true := by
    rw [utf8ValidString_append_ascii _ _ _ (by decide), hval.1,
      utf8ValidString_intercalate 124 (by decide)]
    · rfl
    · intro c hc
      apply hparts
      rcases List.mem_cons.1 hc with hc | hc
      · rw [hc]; exact List.mem_cons_self _ _
      · rcases List.mem_cons.1 hc with hc | hc
        · rw [hc]; exact List.mem_cons_of_mem _ (List.mem_cons_self _ _)
        · exact List.mem_cons_of_mem _ (List.mem_cons_of_mem _ (hsub c hc))
  rcases hone with ⟨h1, h2, h3⟩ | htag
  · rw [lineToEvents_single fl name _ hname hcolon hutf, lineToEvents_single fl name _ hname
      hcolon hv2, sampleToEvents_filter_unknown fl name value statType mods hv ht hmods hlen]
    · apply not_mem_intercalate 58 124 (by decide)
      intro c hc
      rcases List.mem_cons.1 hc with hc | hc
      · rw [hc]; exact h1
      · rcases List.mem_cons.1 hc with hc | hc
        · rw [hc]; exact h2
        · exact h3 c (hsub c hc)
    · apply not_mem_intercalate 58 124 (by decide)
      intro c hc
      rcases List.mem_cons.1 hc with hc | hc
      · rw [hc]; exact h1
      · rcases List.mem_cons.1 hc with hc | hc
        · rw [hc]; exact h2
        · exact h3 c hc
  · have htag2 : ∃ m ∈ mods.filter
        startsModifier, m.head? = some 35 := by
      obtain ⟨m, hm, hh⟩ := htag
      exact ⟨m, List.mem_filter.2 ⟨hm, by simp [startsModifier, hh]⟩, hh⟩
    rw [lineToEvents_tagged fl name _ hname hcolon hutf
        (by rw [stringsContains_iff, ascii_barHash]; exact barHash_infix_of_mem _ _ _ htag),
      lineToEvents_tagged fl name _ hname hcolon hv2
        (by rw [stringsContains_iff, ascii_barHash]; exact barHash_infix_of_mem _ _ _ htag2),
      sampleToEvents_filter_unknown fl name value statType mods hv ht hmods hlen]

/-- A line of several colon-separated samples without the tag marker gives, in order, the events
each sample gives as a line of its own. -/
theorem lineToEvents_samples (name : GoString) (samples : List GoString)
    (hname : name ≠ []) (hcolon : 58 ∉ name) (hne : samples ≠ [])
    (hs : ∀ s ∈ samples, 58 ∉ s)
    (hno : stringsContains (List.intercalate (ascii ":") samples) (ascii "|#") = false)
    (hutf : utf8ValidString (name ++ ascii ":" ++ List.intercalate (ascii ":") samples)
      = true) :
    ∃ evs, List.Forall₂ (fun s e => lineToEvents fl (name ++ ascii ":" ++ s) = some e)
        samples evs ∧
      lineToEvents fl (name ++ ascii ":" ++ List.intercalate (ascii ":") samples)
        = some evs.flatten := by
  obtain ⟨evs, hevs, hline⟩ := lineToEvents_multi fl name samples hname hcolon hne hs hno hutf
  exact ⟨evs, hevs.imp (fun _ _ h => h.2.2.2), hline⟩

/-- C8, amended: a sample's modifiers that start with neither `@` nor `#` are passed over: the
line of a sample `value|type|modifiers` gives the events of the line without those modifiers;
and a line of several colon-separated samples gives, in order, the events each sample gives as
a line of its own, so the other samples are still parsed and emitted. -/
theorem unknown_modifier_ignored (name : GoString) (hname : name ≠ []) (hcolon : 58 ∉ name) :
    (∀ (value statType : GoString) (mods : List GoString),
      utf8ValidString (name ++ ascii ":" ++
        List.intercalate (ascii "|") (value :: statType :: mods)) = true →
      124 ∉ value → 124 ∉ statType → (∀ m ∈ mods, 124 ∉ m ∧ m ≠ []) → mods.length ≤ 2 →
      ((58 ∉ value ∧ 58 ∉ statType ∧ ∀ m ∈ mods, 58 ∉ m) ∨ ∃ m ∈ mods, m.head? = some 35) →
      lineToEvents fl (name ++ ascii ":" ++
          List.intercalate (ascii "|") (value :: statType :: mods))
        = lineToEvents fl (name ++ ascii ":" ++ List.intercalate (ascii "|")
            (value :: statType ::
              mods.filter startsModifier))) ∧
    (∀ samples : List GoString, samples ≠ [] → (∀ s ∈ samples, 58 ∉ s) →
      stringsContains (List.intercalate (ascii ":") samples) (ascii "|#") = false →
      utf8ValidString (name ++ ascii ":" ++ List.intercalate (ascii ":") samples) = true →
      ∃ evs, List.Forall₂ (fun s e => lineToEvents fl (name ++ ascii ":" ++ s) = some e)
          samples evs ∧
        lineToEvents fl (name ++ ascii ":" ++ List.intercalate (ascii ":") samples)
          = some evs.flatten) :=
  ⟨fun value statType mods hutf hv ht hmods hlen hone =>
      lineToEvents_filter_unknown fl name value statType mods hname hcolon hutf hv ht hmods
        hlen hone,
   fun samples hne hs hno hutf =>
      lineToEvents_samples fl name samples hname hcolon hne hs hno hutf⟩

theorem unknown_modifier_ignored_witness :
    lineToEvents decOps (ascii "foo" ++ ascii ":" ++
        List.intercalate (ascii "|") [ascii "1", ascii "c", ascii "x", ascii "@0.5"])
      = lineToEvents decOps (ascii "foo" ++ ascii ":" ++
        List.intercalate (ascii "|") [ascii "1", ascii "c", ascii "@0.5"]) :=
  (unknown_modifier_ignored decOps (ascii "foo") (by decide) (by decide)).1
    (ascii "1") (ascii "c") [ascii "x", ascii "@0.5"] (by decide) (by decide) (by decide)
    (by decide) (by decide) (Or.inl (by decide))

/-! ### C9 -/

/-- C9: a sample with an empty modifier, or with fewer than 2 or more than 4 parts between `|`,
gives no event: the line of that one sample gives none, and a line of several colon-separated
samples gives, in order, the events each sample gives as a line of its own, which for such a
sample are none. -/
theorem malformed_sample_skipped (name : GoString) (hname : name ≠ []) (hcolon : 58 ∉ name) :
    (∀ sample : GoString, utf8ValidString (name ++ ascii ":" ++ sample) = true →
      58 ∉ sample ∨ stringsContains sample (ascii "|#") = true →
      (splitByte 124 sample).length < 2 ∨ 4 < (splitByte 124 sample).length ∨
        [] ∈ (splitByte 124 sample).drop 2 →
      lineToEvents fl (name ++ ascii ":" ++ sample) = some []) ∧
    (∀ samples : List GoString, samples ≠ [] → (∀ s ∈ samples, 58 ∉ s) →
      stringsContains (List.intercalate (ascii ":") samples) (ascii "|#") = false →
      utf8ValidString (name ++ ascii ":" ++ List.intercalate (ascii ":") samples) = true →
      ∃ evs, List.Forall₂ (fun s e => lineToEvents fl (name ++ ascii ":" ++ s) = some e ∧
          ((splitByte 124 s).length < 2 ∨ 4 < (splitByte 124 s).length ∨
            [] ∈ (splitByte 124 s).drop 2 → e = [])) samples evs ∧
        lineToEvents fl (name ++ ascii ":" ++ List.intercalate (ascii ":") samples)
          = some evs.flatten) := by
  constructor
  · intro sample hutf hone hbad
    rw [ascii_colon] at hutf ⊢
    simp only [List.append_assoc, List.singleton_append] at hutf ⊢
    rcases hone with h | h
    · rw [lineToEvents_single fl name sample hname hcolon hutf h,
        sampleToEvents_bad fl name sample hbad]
    · rw [lineToEvents_tagged fl name sample hname hcolon hutf h,
        sampleToEvents_bad fl name sample hbad]
  · intro samples hne hs hno hutf
    obtain ⟨evs, hevs, hline⟩ :=
      lineToEvents_multi fl name samples hname hcolon hne hs hno hutf
    refine ⟨evs, hevs.imp ?_, hline⟩
    rintro s e ⟨hse, _, _, hle⟩
    refine ⟨hle, fun hbad => ?_⟩
    rw [sampleToEvents_bad fl name s hbad] at hse
    exact (Option.some.inj hse).symm

theorem malformed_sample_skipped_witness :
    ∃ evs, List.Forall₂ (fun s e => lineToEvents decOps (ascii "foo" ++ ascii ":" ++ s) = some e ∧
        ((splitByte 124 s).length < 2 ∨ 4 < (splitByte 124 s).length ∨
          [] ∈ (splitByte 124 s).drop 2 → e = []))
        [ascii "1|c|", ascii "2|g", ascii "3", ascii "4|ms|a|b|c"] evs ∧
      lineToEvents decOps (ascii "foo" ++ ascii ":" ++
          List.intercalate (ascii ":") [ascii "1|c|", ascii "2|g", ascii "3", ascii "4|ms|a|b|c"])
        = some evs.flatten :=
  (malformed_sample_skipped decOps (ascii "foo") (by decide) (by decide)).2
    [ascii "1|c|", ascii "2|g", ascii "3", ascii "4|ms|a|b|c"]
    (by decide) (by decide) (by decide) (by decide)

/-! ### C10 -/

/-- C10: `lineToEvents` returns the empty event list for the empty line, for a line without a
colon, for a line with nothing before its first colon, and for a line that is not valid
UTF-8. -/
theorem lineToEvents_malformed_line (line : GoString)
    (h : line = [] ∨ 58 ∉ line ∨ line.head? = some 58 ∨ utf8ValidString line = false) :
    lineToEvents fl line = some [] := by
  unfold lineToEvents
  by_cases he : line = []
  · simp [he]
  · rw [if_neg he]
    rcases h with h | h | h | h
    · exact absurd h he
    · rw [splitN2_of_not_mem h]
    · obtain ⟨x, xs, rfl⟩ := List.exists_cons_of_ne_nil he
      simp only [List.head?_cons, Option.some.injEq] at h
      subst h
      simp [splitN2, stringsCut]
    · cases hs : splitN2 58 line with
      | nil => rfl
      | cons a t =>
        cases t with
        | nil => rfl
        | cons b t2 =>
          cases t2 with
          | nil => simp [h]
          | cons c t3 => rfl

theorem lineToEvents_malformed_line_witness :
    lineToEvents decOps (ascii "foo") = some [] ∧
      lineToEvents decOps (ascii ":1|c") = some [] ∧
      lineToEvents decOps ([102, 111, 111, 58, 49, 124, 99, 0xC3]) = some [] ∧
      lineToEvents decOps [] = some [] :=
  ⟨lineToEvents_malformed_line decOps (ascii "foo") (Or.inr (Or.inl (by decide))),
   lineToEvents_malformed_line decOps (ascii ":1|c") (Or.inr (Or.inr (Or.inl (by decide)))),
   lineToEvents_malformed_line decOps [102, 111, 111, 58, 49, 124, 99, 0xC3]
     (Or.inr (Or.inr (Or.inr (by decide)))),
   lineToEvents_malformed_line decOps [] (Or.inl rfl)⟩

/-! ### C11 -/

/-- C11: a gauge sample `value|g` whose value text parses gives one gauge event that is relative
exactly when the text begins with `+` or `-`, with the parsed number, sign included, as its
value; so `-3|g` gives a relative event of the number `-3` reads as, `+3|g` a relative event
and `3|g` an event that is not relative; and a counter sample `-5|c` is emitted with the number
`-5` reads as. -/
theorem gauge_relative_sign :
    (∀ (name value : GoString) (v : F), name ≠ [] → 58 ∉ name →
      utf8ValidString (name ++ ascii ":" ++ value ++ ascii "|g") = true →
      fl.parseFloat value = (v, true) →
      ∃ relative, lineToEvents fl (name ++ ascii ":" ++ value ++ ascii "|g")
          = some [Event.gauge name v relative []] ∧
        (relative = true ↔ value.head? = some 43 ∨ value.head? = some 45)) ∧
    (∀ v : F, fl.parseFloat (ascii "-3") = (v, true) →
      lineToEvents fl (ascii "foo:-3|g") = some [Event.gauge (ascii "foo") v true []]) ∧
    (∀ v : F, fl.parseFloat (ascii "+3") = (v, true) →
      lineToEvents fl (ascii "foo:+3|g") = some [Event.gauge (ascii "foo") v true []]) ∧
    (∀ v : F, fl.parseFloat (ascii "3") = (v, true) →
      lineToEvents fl (ascii "foo:3|g") = some [Event.gauge (ascii "foo") v false []]) ∧
    (∀ v : F, fl.parseFloat (ascii "-5") = (v, true) →
      lineToEvents fl (ascii "foo:-5|c") = some [Event.counter (ascii "foo") v []]) := by
  have key : ∀ (name value statType : GoString) (v : F), name ≠ [] → 58 ∉ name →
      utf8ValidString (name ++ ascii ":" ++ value ++ ascii "|" ++ statType) = true →
      fl.parseFloat value = (v, true) → 58 ∉ statType → 124 ∉ statType →
      lineToEvents fl (name ++ ascii ":" ++ value ++ ascii "|" ++ statType)
        = some (emitEvents statType name v
            (decide (value.head? = some 43 ∨ value.head? = some 45)) [] 1) := by
    intro name value statType v hname hcolon hutf hv ht1 ht2
    have hv1 : 58 ∉ value := (fl.parse_no_sep value (by rw [hv])).1
    have hl : name ++ ascii ":" ++ value ++ ascii "|" ++ statType
        = name ++ 58 :: (value ++ 124 :: statType) := by
      rw [ascii_colon, ascii_bar]; simp
    have hrest : 58 ∉ value ++ 124 :: statType := by
      simp only [List.mem_append, List.mem_cons, not_or]
      exact ⟨hv1, by decide, ht1⟩
    rw [hl] at hutf ⊢
    rw [lineToEvents_single fl name _ hname hcolon hutf hrest,
      sampleToEvents_plain fl name value statType v hv ht2]
    simp only [stringsIndexByte_eq_zero, Bool.decide_or]
  have hg : ∀ (name value : GoString) (v : F) (r : Bool),
      emitEvents (ascii "g") name v r [] 1 = [Event.gauge name v r []] := by
    intro name value v r
    have hne : ascii "g" ≠ ascii "c" := by decide
    simp [emitEvents, NewEvent, hne]
  refine ⟨?_, ?_, ?_, ?_, ?_⟩
  · intro name value v hname hcolon hutf hv
    refine ⟨decide (value.head? = some 43 ∨ value.head? = some 45), ?_, by simp⟩
    have h := key name value (ascii "g") v hname hcolon
      (by rw [show ascii "|g" = ascii "|" ++ ascii "g" from rfl, ← List.append_assoc] at hutf
          exact hutf) hv (by decide) (by decide)
    rw [show ascii "|g" = ascii "|" ++ ascii "g" from rfl, ← List.append_assoc, h,
      hg name value]
  · intro v hv
    have h := key (ascii "foo") (ascii "-3") (ascii "g") v (by decide) (by decide) (by decide)
      hv (by decide) (by decide)
    rw [show ascii "foo:-3|g" = ascii "foo" ++ ascii ":" ++ ascii "-3" ++ ascii "|" ++ ascii "g"
      from by decide, h, hg _ (ascii "-3")]
    rfl
  · intro v hv
    have h := key (ascii "foo") (ascii "+3") (ascii "g") v (by decide) (by decide) (by decide)
      hv (by decide) (by decide)
    rw [show ascii "foo:+3|g" = ascii "foo" ++ ascii ":" ++ ascii "+3" ++ ascii "|" ++ ascii "g"
      from by decide, h, hg _ (ascii "+3")]
    rfl
  · intro v hv
    have h := key (ascii "foo") (ascii "3") (ascii "g") v (by decide) (by decide) (by decide)
      hv (by decide) (by decide)
    rw [show ascii "foo:3|g" = ascii "foo" ++ ascii ":" ++ ascii "3" ++ ascii "|" ++ ascii "g"
      from by decide, h, hg _ (ascii "3")]
    rfl
  · intro v hv
    have h := key (ascii "foo") (ascii "-5") (ascii "c") v (by decide) (by decide) (by decide)
      hv (by decide) (by decide)
    rw [show ascii "foo:-5|c" = ascii "foo" ++ ascii ":" ++ ascii "-5" ++ ascii "|" ++ ascii "c"
      from by decide, h]
    simp [emitEvents, NewEvent]

theorem gauge_relative_sign_witness :
    lineToEvents decOps (ascii "foo:-3|g") = some [Event.gauge (ascii "foo") ⟨-3, 1⟩ true []] ∧
      lineToEvents decOps (ascii "foo:+3|g") = some [Event.gauge (ascii "foo") ⟨3, 1⟩ true []] ∧
      lineToEvents decOps (ascii "foo:3|g") = some [Event.gauge (ascii "foo") ⟨3, 1⟩ false []] ∧
      lineToEvents decOps (ascii "foo:-5|c") = some [Event.counter (ascii "foo") ⟨-5, 1⟩ []] :=
  ⟨(gauge_relative_sign decOps).2.1 ⟨-3, 1⟩ (by decide),
   (gauge_relative_sign decOps).2.2.1 ⟨3, 1⟩ (by decide),
   (gauge_relative_sign decOps).2.2.2.1 ⟨3, 1⟩ (by decide),
   (gauge_relative_sign decOps).2.2.2.2 ⟨-5, 1⟩ (by decide)⟩

/-! ### C12 -/

/-- A line with nothing before its first colon gives no event. -/
theorem lineToEvents_empty_name (rest : GoString) :
    lineToEvents fl (58 :: rest) = some [] := by
  simp [lineToEvents, splitN2, stringsCut]

/-- C12: a valid UTF-8 line `name:s1:...:sn` whose text after the first colon does not hold
`|#` gives the concatenation, in the order of the samples, of the events of the lines
`name:s1`, ..., `name:sn`; so the events of a sampled timer `value|ms|@f`, all equal, come
together and directly after the events of the sample before it. -/
theorem line_is_concatenation (name : GoString) (hcolon : 58 ∉ name) :
    (∀ samples : List GoString, samples ≠ [] → (∀ s ∈ samples, 58 ∉ s) →
      stringsContains (List.intercalate (ascii ":") samples) (ascii "|#") = false →
      utf8ValidString (name ++ ascii ":" ++ List.intercalate (ascii ":") samples) = true →
      ∃ evs, List.Forall₂ (fun s e => lineToEvents fl (name ++ ascii ":" ++ s) = some e)
          samples evs ∧
        lineToEvents fl (name ++ ascii ":" ++ List.intercalate (ascii ":") samples)
          = some evs.flatten) ∧
    (∀ (s1 value f : GoString) (v : F), name ≠ [] → 58 ∉ s1 →
      stringsContains (s1 ++ ascii ":" ++ value ++ ascii "|ms|@" ++ f) (ascii "|#") = false →
      utf8ValidString (name ++ ascii ":" ++ s1 ++ ascii ":" ++ value ++ ascii "|ms|@" ++ f)
        = true →
      fl.parseFloat value = (v, true) → 58 ∉ f ∧ 124 ∉ f →
      ∃ e1 n, lineToEvents fl (name ++ ascii ":" ++ s1) = some e1 ∧
        lineToEvents fl (name ++ ascii ":" ++ s1 ++ ascii ":" ++ value ++ ascii "|ms|@" ++ f)
          = some (e1 ++ List.replicate n (Event.timer name v []))) := by
  have part1 : ∀ samples : List GoString, samples ≠ [] → (∀ s ∈ samples, 58 ∉ s) →
      stringsContains (List.intercalate (ascii ":") samples) (ascii "|#") = false →
      utf8ValidString (name ++ ascii ":" ++ List.intercalate (ascii ":") samples) = true →
      ∃ evs, List.Forall₂ (fun s e => lineToEvents fl (name ++ ascii ":" ++ s) = some e)
          samples evs ∧
        lineToEvents fl (name ++ ascii ":" ++ List.intercalate (ascii ":") samples)
          = some evs.flatten := by
    intro samples hne hs hno hutf
    by_cases hname : name = []
    · subst hname
      refine ⟨samples.map (fun _ => []), ?_, ?_⟩
      · rw [List.forall₂_map_right_iff]
        exact List.forall₂_same.2 (fun s _ => by
          rw [ascii_colon]; exact lineToEvents_empty_name fl s)
      · rw [ascii_colon]
        simp only [List.nil_append, List.singleton_append]
        rw [lineToEvents_empty_name]
        simp
    · exact lineToEvents_samples fl name samples hname hcolon hne hs hno hutf
  refine ⟨part1, ?_⟩
  intro s1 value f v hname hs1 hno hutf hv hf
  have hv1 : 58 ∉ value := (fl.parse_no_sep value (by rw [hv])).1
  have hs2 : 58 ∉ value ++ ascii "|ms|@" ++ f := by
    simp only [List.mem_append, not_or]
    exact ⟨⟨hv1, by decide⟩, hf.1⟩
  have hjoin : List.intercalate (ascii ":") [s1, value ++ ascii "|ms|@" ++ f]
      = s1 ++ ascii ":" ++ value ++ ascii "|ms|@" ++ f := by
    simp [intercalate_cons_cons, intercalate_singleton]
  have hline : name ++ ascii ":" ++ List.intercalate (ascii ":") [s1, value ++ ascii "|ms|@" ++ f]
      = name ++ ascii ":" ++ s1 ++ ascii ":" ++ value ++ ascii "|ms|@" ++ f := by
    rw [hjoin]; simp
  obtain ⟨evs, hevs, hl⟩ := part1 [s1, value ++ ascii "|ms|@" ++ f] (by simp)
    (by
      intro s hs
      simp only [List.mem_cons, List.mem_singleton, List.not_mem_nil, or_false] at hs
      rcases hs with h | h
      · rw [h]; exact hs1
      · rw [h]; exact hs2)
    (by rw [hjoin]; exact hno) (by rw [hline]; exact hutf)
  have hval : utf8ValidString (name ++ ascii ":" ++ value ++ ascii "|ms|@" ++ f) = true := by
    have h1 : name ++ ascii ":" ++ s1 ++ ascii ":" ++ value ++ ascii "|ms|@" ++ f
        = name ++ 58 :: (s1 ++ 58 :: (value ++ ascii "|ms|@" ++ f)) := by
      rw [ascii_colon]; simp
    have h2 : name ++ ascii ":" ++ value ++ ascii "|ms|@" ++ f
        = name ++ 58 :: (value ++ ascii "|ms|@" ++ f) := by
      rw [ascii_colon]; simp
    rw [h1, utf8ValidString_append_ascii _ _ _ (by decide), Bool.and_eq_true,
      utf8ValidString_append_ascii _ _ _ (by decide), Bool.and_eq_true] at hutf
    rw [h2, utf8ValidString_append_ascii _ _ _ (by decide), hutf.1, hutf.2.2]
    rfl
  have htimer := lineToEvents_sampled_timer fl name value f v hname hcolon hval hv hf
  cases hevs with
  | cons h1 hrest =>
    cases hrest with
    | cons h2 hnil =>
      cases hnil
      rename_i e1 e2
      have h2b : lineToEvents fl (name ++ ascii ":" ++ value ++ ascii "|ms|@" ++ f) = some e2 := by
        rw [← h2]; simp
      rw [htimer] at h2b
      refine ⟨e1, (fl.toInt (fl.div fl.one (if fl.isZero (fl.parseFloat f).1 = true then fl.one else (fl.parseFloat f).1))).toNat, h1, ?_⟩
      rw [← hline, hl, ← Option.some.inj h2b]
      simp

theorem line_is_concatenation_witness :
    58 ∉ ascii "foo" ∧
    ∃ e1 n, lineToEvents decOps (ascii "foo" ++ ascii ":" ++ ascii "1|c") = some e1 ∧
      lineToEvents decOps
          (ascii "foo" ++ ascii ":" ++ ascii "1|c" ++ ascii ":" ++ ascii "2" ++ ascii "|ms|@"
            ++ ascii "0.5")
        = some (e1 ++ List.replicate n (Event.timer (ascii "foo") ⟨2, 1⟩ [])) :=
  ⟨by decide, (line_is_concatenation decOps (ascii "foo") (by decide)).2 (ascii "1|c") (ascii "2")
    (ascii "0.5") ⟨2, 1⟩ (by decide) (by decide) (by decide) (by decide) (by decide)
    (by decide)⟩

/-! ### C13 -/

/-- C13: the line `foo:1|c|#:v`, whose one tag has an empty key, does not give an event list:
the tag passes the check of `parseDogStatsDTagsToLabels` (two parts, the second not empty), and
`EscapeMetricName` then reads byte 0 of the empty key, which is a run-time error. -/
theorem empty_tag_key_panics (v : F) (hv : fl.parseFloat (ascii "1") = (v, true)) :
    lineToEvents fl (ascii "foo:1|c|#:v") = none := by
  have hline : ascii "foo:1|c|#:v" = ascii "foo" ++ 58 :: ascii "1|c|#:v" := by decide
  rw [hline, lineToEvents_tagged fl _ _ (by decide) (by decide) (by decide) (by decide)]
  have hsplit : splitByte 124 (ascii "1|c|#:v") = [ascii "1", ascii "c", ascii "#:v"] := by
    decide
  have hmod : applyModifier fl (ascii "c")
      { value := v, multiplyEvents := 1, labels := [] } (ascii "#:v") = none := by
    have htags : parseDogStatsDTagsToLabels (ascii "#:v") = none := by decide
    have h : ascii "#:v" = 35 :: ascii ":v" := by decide
    rw [h, applyModifier, if_neg (by decide), if_pos rfl, ← h, htags]
    rfl
  unfold sampleToEvents
  rw [hsplit]
  simp [hv, hmod]
  decide

theorem empty_tag_key_panics_witness :
    lineToEvents decOps (ascii "foo:1|c|#:v") = none :=
  empty_tag_key_panics decOps ⟨1, 1⟩ (by decide)

end Parser



/-! ### The mapping engine -/

/-- The three patterns of the package are in the fragment and compile. -/
theorem package_patterns_compile :
    (regexpCompile (ascii "^(\\*\\.|" ++ statsdMetricRE ++ ascii "\\.)+(\\*|" ++ statsdMetricRE
        ++ ascii ")$")).isSome = true ∧
      (regexpCompile (ascii "^([a-zA-Z_]|" ++ templateReplaceRE ++ ascii ")([a-zA-Z0-9_]|"
        ++ templateReplaceRE ++ ascii ")*$")).isSome = true ∧
      (regexpCompile (ascii "^[a-zA-Z_][a-zA-Z0-9_]+$")).isSome = true := by
  decide

/-- The glob `app.*.latency` is translated to `^app\.([^.]*)\.latency$`, which compiles to
`latencyRegexp`. -/
theorem latency_glob_compiles :
    ascii "^" ++ replaceByte 42 (ascii "([^.]*)") (replaceByte 46 (ascii "\\.")
        (ascii "app.*.latency")) ++ ascii "$" = ascii "^app\\.([^.]*)\\.latency$" ∧
      regexpCompile (ascii "^app\\.([^.]*)\\.latency$") = some latencyRegexp := by
  decide

theorem runeWidth_pos (b : Nat) (r : GoString) : 1 ≤ runeWidth (b :: r) := by
  simp only [runeWidth]
  split_ifs <;> omega

theorem classMatches_notDot {b : Nat} (h : b ≠ 46) : classMatches true [(46, 46)] b = true := by
  unfold classMatches
  split_ifs with hb
  · have : ¬ (46 ≤ b ∧ b ≤ 46) := by omega
    simp [this, h]
  · rfl

theorem run_notDot_cons (b : Nat) (rest : GoString) (pos : Nat) (caps : Caps)
    (k : MatchState → Option Caps) (h : b ≠ 46) :
    (Node.cls true [(46, 46)]).run ⟨pos, b :: rest, caps⟩ k
      = k ⟨pos + runeWidth (b :: rest), (b :: rest).drop (runeWidth (b :: rest)), caps⟩ := by
  simp only [Node.run, stepRune, classMatches_notDot h, if_true]

theorem run_notDot_dot (rest : GoString) (pos : Nat) (caps : Caps)
    (k : MatchState → Option Caps) :
    (Node.cls true [(46, 46)]).run ⟨pos, 46 :: rest, caps⟩ k = none := by
  simp [Node.run, stepRune, classMatches]

/-- The greedy `[^.]*` passes a whole dot-free stretch that is followed by a dot, when what
comes after it in the pattern matches from there. -/
theorem starLoop_notDot (t : GoString) (k : MatchState → Option Caps) (r : Caps) :
    ∀ (n : Nat) (s : GoString), s.length = n → 46 ∉ s →
    ∀ (fuel pos : Nat) (caps : Caps), s.length < fuel →
      k ⟨pos + s.length, 46 :: t, caps⟩ = some r →
      starLoop (fun st k2 => (Node.cls true [(46, 46)]).run st k2) fuel
        ⟨pos, s ++ 46 :: t, caps⟩ k = some r := by
  intro n
  induction n using Nat.strong_induction_on with
  | _ n ih =>
    intro s hn hs fuel pos caps hfuel hk
    obtain ⟨fuel, rfl⟩ : ∃ f, fuel = f + 1 := ⟨fuel - 1, by omega⟩
    cases s with
    | nil =>
      simp only [List.length_nil, Nat.add_zero] at hk
      rw [starLoop]
      simp only [List.nil_append, run_notDot_dot, hk]
    | cons b s2 =>
      simp only [List.mem_cons, not_or] at hs
      have hb : b ≠ 46 := fun e => hs.1 e.symm
      have hw : runeWidth (b :: (s2 ++ 46 :: t)) = runeWidth (b :: s2) :=
        runeWidth_append_ascii b s2 t 46 (by decide)
      have hw1 := runeWidth_pos b s2
      have hw2 := runeWidth_le b s2
      have hdrop : (b :: (s2 ++ 46 :: t)).drop (runeWidth (b :: s2))
          = (b :: s2).drop (runeWidth (b :: s2)) ++ 46 :: t := by
        rw [← List.cons_append, List.drop_append_of_le_length (by simpa using hw2)]
      have hlen : ((b :: s2).drop (runeWidth (b :: s2))).length < (b :: s2).length := by
        simp only [List.length_drop, List.length_cons]; omega
      have hmem : 46 ∉ (b :: s2).drop (runeWidth (b :: s2)) := by
        intro hm
        have := List.mem_of_mem_drop hm
        simp only [List.mem_cons] at this
        rcases this with h | h
        · exact hb h.symm
        · exact hs.2 h
      have hrec := ih _ (hn ▸ hlen) ((b :: s2).drop (runeWidth (b :: s2))) rfl hmem fuel
        (pos + runeWidth (b :: s2)) caps (by simp only [List.length_cons] at hfuel hlen; omega)
        (by
          rw [← hk]
          congr 2
          simp only [List.length_drop, List.length_cons]
          omega)
      rw [starLoop]
      simp only [List.cons_append, run_notDot_cons _ _ _ _ _ hb, hw, hdrop]
      rw [if_pos (by simp only [List.length_append, List.length_drop, List.length_cons]; omega),
        hrec]


theorem latencyLine_eq (s : GoString) :
    ascii "app." ++ s ++ ascii ".latency"
      = 97 :: 112 :: 112 :: 46 :: (s ++ 46 :: [108, 97, 116, 101, 110, 99, 121]) := by
  rw [show ascii "app." = [97, 112, 112, 46] from rfl,
    show ascii ".latency" = 46 :: [108, 97, 116, 101, 110, 99, 121] from rfl]
  simp

theorem run_lit_cons (b : Nat) (rest : GoString) (pos : Nat) (caps : Caps)
    (k : MatchState → Option Caps) (hb : b < 128) :
    (Node.lit b).run ⟨pos, b :: rest, caps⟩ k = k ⟨pos + 1, rest, caps⟩ := by
  simp [Node.run, stepRune, runeWidth, hb]

/-- The one match of `^app\.([^.]*)\.latency$` in `app.<s>.latency`: group 1 is `<s>`. -/
theorem latency_matchAt (s : GoString) (hs : 46 ∉ s) :
    latencyRegexp.matchAt 0 (ascii "app." ++ s ++ ascii ".latency")
      = some [some (0, s.length + 12), some (4, 4 + s.length)] := by
  rw [latencyLine_eq]
  simp only [Regexp.matchAt, latencyRegexp, Node.seq]
  rw [Node.run, Node.run, if_pos rfl, Node.run, run_lit_cons _ _ _ _ _ (by decide),
    Node.run, run_lit_cons _ _ _ _ _ (by decide), Node.run, run_lit_cons _ _ _ _ _ (by decide),
    Node.run, run_lit_cons _ _ _ _ _ (by decide), Node.run, Node.run, Node.run]
  apply starLoop_notDot _ _ _ s.length s rfl hs
  · simp only [List.length_append, List.length_cons, List.length_nil]
    omega
  · simp [Node.run, stepRune, runeWidth, List.set]
    omega


theorem latency_find (s : GoString) (hs : 46 ∉ s) :
    latencyRegexp.FindStringSubmatchIndex (ascii "app." ++ s ++ ascii ".latency")
      = [0, ((s.length + 12 : Nat) : Int), 4, ((4 + s.length : Nat) : Int)] := by
  have h := latency_matchAt s hs
  unfold Regexp.FindStringSubmatchIndex
  rw [latencyLine_eq] at h ⊢
  rw [Regexp.search, h]
  rfl

theorem latency_submatch (s : GoString) :
    submatch (ascii "app." ++ s ++ ascii ".latency")
      [0, ((s.length + 12 : Nat) : Int), 4, ((4 + s.length : Nat) : Int)] 1 = s := by
  rw [latencyLine_eq]
  have h : (4 + (s.length : Int)).toNat - 4 = s.length := by omega
  simp [submatch, h]

theorem expand_braced (src : GoString) (m : List Int) (re : Regexp) :
    re.ExpandString (ascii "app_$\x7b1\x7d_latency") src m
      = ascii "app_" ++ submatch src m 1 ++ ascii "_latency" := by
  rfl

theorem expand_unbraced (src : GoString) (m : List Int) (re : Regexp) :
    re.ExpandString (ascii "app_$1_latency") src m = ascii "app_" := by
  rfl


/-! ### C2 -/

/-- C2, as stated, fails: with the name template `app_$1_latency` the lookup of
`app.checkout.latency` matches, but it resolves to the name `app_`, not to
`app_checkout_latency`. -/
theorem dollar_one_underscore_not_expanded :
    (GetMapping (loadDocument ⟨⟨[], []⟩, []⟩ (latencyDocument (ascii "app_$1_latency"))).1
        (ascii "app.checkout.latency") metricTypeTimer).map
          (fun r => (r.1.map MetricMapping.Name, r.2.2))
      = some (some (ascii "app_"), true) ∧
    ascii "app_" ≠ ascii "app_checkout_latency" := by
  decide

/-- C2, amended: the document with the one glob rule `app.*.latency` loads, whatever mapper was
installed before; for every dot-free segment `s` and every metric type, the lookup of
`app.<s>.latency` matches with `<s>` as capture group 1; with the name template
`app_${1}_latency` it resolves to the name `app_<s>_latency`, and with the name template
`app_$1_latency` to the name `app_`, the variable of that template being `1_latency`. -/
theorem latency_rule_lookup (m0 : MetricMapper) (s : GoString) (t : MetricType)
    (hs : 46 ∉ s) :
    (∀ nameTemplate, nameTemplate = ascii "app_$\x7b1\x7d_latency" ∨
        nameTemplate = ascii "app_$1_latency" →
      loadDocument m0 (latencyDocument nameTemplate)
        = (⟨⟨[], matchTypeGlob⟩, [latencyRule nameTemplate]⟩, none)) ∧
    submatch (ascii "app." ++ s ++ ascii ".latency")
      (latencyRegexp.FindStringSubmatchIndex (ascii "app." ++ s ++ ascii ".latency")) 1 = s ∧
    GetMapping (loadDocument m0 (latencyDocument (ascii "app_$\x7b1\x7d_latency"))).1
        (ascii "app." ++ s ++ ascii ".latency") t
      = some (some (latencyRule (ascii "app_" ++ s ++ ascii "_latency")), [], true) ∧
    GetMapping (loadDocument m0 (latencyDocument (ascii "app_$1_latency"))).1
        (ascii "app." ++ s ++ ascii ".latency") t
      = some (some (latencyRule (ascii "app_")), [], true) := by
  have hload : ∀ nameTemplate, nameTemplate = ascii "app_$\x7b1\x7d_latency" ∨
        nameTemplate = ascii "app_$1_latency" →
      loadDocument m0 (latencyDocument nameTemplate)
        = (⟨⟨[], matchTypeGlob⟩, [latencyRule nameTemplate]⟩, none) := by
    intro nameTemplate h
    have h1 : compileMappings ⟨[], matchTypeGlob⟩ 0 (latencyDocument nameTemplate).Mappings
        = .ok [latencyRule nameTemplate] := by
      rcases h with h | h <;> subst h <;> decide
    unfold loadDocument
    rw [show (latencyDocument nameTemplate).Defaults = ⟨[], []⟩ from rfl]
    simp only [matchTypeDefault, if_true]
    rw [h1]
  have hfind := latency_find s hs
  have hlen : (latencyRegexp.FindStringSubmatchIndex
      (ascii "app." ++ s ++ ascii ".latency")).length ≠ 0 := by
    rw [hfind]; simp
  refine ⟨hload, ?_, ?_, ?_⟩
  · rw [hfind, latency_submatch]
  · rw [hload _ (Or.inl rfl)]
    simp only [GetMapping, getMappingLoop, latencyRule, hlen, if_false, expand_braced, hfind,
      latency_submatch, expandLabels, List.foldl_nil]
    simp
  · rw [hload _ (Or.inr rfl)]
    simp only [GetMapping, getMappingLoop, latencyRule, hlen, if_false, expand_unbraced,
      expandLabels, List.foldl_nil]
    simp

theorem latency_rule_lookup_witness :
    GetMapping (loadDocument ⟨⟨[], []⟩, []⟩ (latencyDocument (ascii "app_$\x7b1\x7d_latency"))).1
        (ascii "app." ++ ascii "checkout" ++ ascii ".latency") metricTypeTimer
      = some (some (latencyRule (ascii "app_" ++ ascii "checkout" ++ ascii "_latency")), [],
          true) :=
  (latency_rule_lookup ⟨⟨[], []⟩, []⟩ (ascii "checkout") metricTypeTimer (by decide)).2.2.1

/-! ### Loading a document -/

/-- What a rule that the loop of `InitFromYAMLString` accepts looks like afterwards. -/
theorem compileMapping_ok {d : mapperConfigDefaults} {i : Nat} {r c : MetricMapping}
    (h : compileMapping d i r = .ok c) :
    (∀ k ∈ r.Labels.keys, labelNameRE.MatchString k = true) ∧ r.Name ≠ [] ∧
    metricNameRE.MatchString r.Name = true ∧
    c.MatchType = (if r.MatchType = [] then d.MatchType else r.MatchType) ∧
    c.Action = (if r.Action = [] then ActionTypeMap else r.Action) ∧
    c.TimerType = (if r.TimerType = [] then d.TimerType else r.TimerType) ∧
    c.Match = r.Match ∧ c.Name = r.Name ∧ c.Labels = r.Labels ∧ c.HelpText = r.HelpText ∧
    c.MatchMetricType = r.MatchMetricType ∧
    (c.MatchType = matchTypeGlob → metricLineRE.MatchString r.Match = true) ∧
    (∃ re, c.regex = some re ∧
      re ∈ regexpCompile (if c.MatchType = matchTypeGlob then
        ascii "^" ++ replaceByte 42 (ascii "([^.]*)") (replaceByte 46 (ascii "\\.") r.Match)
          ++ ascii "$" else r.Match)) := by
  unfold compileMapping at h
  split at h
  · exact absurd h (by simp)
  · rename_i hfind
    have hkeys : ∀ k ∈ r.Labels.keys, labelNameRE.MatchString k = true := by
      intro k hk
      have := List.find?_eq_none.1 hfind k hk
      simpa using this
    by_cases h1 : r.Name = []
    · rw [if_pos h1] at h
      exact absurd h (by simp)
    rw [if_neg h1] at h
    by_cases h2 : (!metricNameRE.MatchString r.Name) = true
    · rw [if_pos h2] at h
      exact absurd h (by simp)
    rw [if_neg h2] at h
    simp only [] at h
    by_cases h3 : (if r.MatchType = [] then d.MatchType else r.MatchType) = matchTypeGlob
    · rw [if_pos h3] at h
      by_cases h4 : (!metricLineRE.MatchString r.Match) = true
      · rw [if_pos h4] at h
        exact absurd h (by simp)
      rw [if_neg h4] at h
      split at h
      · exact absurd h (by simp)
      · rename_i re hre
        injection h with h
        subst h
        refine ⟨hkeys, h1, by simpa using h2, rfl, rfl, rfl, rfl, rfl, rfl, rfl, rfl,
          fun _ => by simpa using h4, re, rfl, ?_⟩
        simp only [h3, if_true]
        rw [hre]
        exact rfl
    · rw [if_neg h3] at h
      split at h
      · exact absurd h (by simp)
      · rename_i re hre
        injection h with h
        subst h
        refine ⟨hkeys, h1, by simpa using h2, rfl, rfl, rfl, rfl, rfl, rfl, rfl, rfl,
          fun hg => absurd hg h3, re, rfl, ?_⟩
        simp only [h3, if_false]
        simp [hre]

/-- A rule the loop of `InitFromYAMLString` rejects at one index is rejected at every index. -/
theorem compileMapping_error_index {d : mapperConfigDefaults} {i : Nat} {r : MetricMapping}
    {e : InitError} (h : compileMapping d i r = .error e) (j : Nat) :
    ∃ e2, compileMapping d j r = .error e2 := by
  cases hj : compileMapping d j r with
  | error e2 => exact ⟨e2, rfl⟩
  | ok c =>
    exfalso
    unfold compileMapping at h hj
    split at hj
    · exact absurd hj (by simp)
    · rename_i hfind
      rw [hfind] at h
      simp only [] at h hj
      by_cases h1 : r.Name = []
      · rw [if_pos h1] at hj
        exact absurd hj (by simp)
      rw [if_neg h1] at h hj
      by_cases h2 : (!metricNameRE.MatchString r.Name) = true
      · rw [if_pos h2] at hj
        exact absurd hj (by simp)
      rw [if_neg h2] at h hj
      rw [hj] at h
      exact absurd h (by simp)

/-- The causes for which the loop of `InitFromYAMLString` rejects a rule. -/
theorem compileMapping_error (d : mapperConfigDefaults) (i : Nat) (r : MetricMapping)
    (h : (∃ k ∈ r.Labels.keys, labelNameRE.MatchString k = false) ∨ r.Name = [] ∨
      metricNameRE.MatchString r.Name = false ∨
      ((if r.MatchType = [] then d.MatchType else r.MatchType) = matchTypeGlob ∧
        metricLineRE.MatchString r.Match = false) ∨
      ((if r.MatchType = [] then d.MatchType else r.MatchType) ≠ matchTypeGlob ∧
        regexpCompile r.Match = none)) :
    ∃ e, compileMapping d i r = .error e := by
  cases hc : compileMapping d i r with
  | error e => exact ⟨e, rfl⟩
  | ok c =>
    obtain ⟨hk, hn, hm, hmt, -, -, -, -, -, -, -, hg, re, -, hre⟩ := compileMapping_ok hc
    rw [hmt] at hg hre
    rcases h with ⟨k, hk1, hk2⟩ | h | h | ⟨h1, h2⟩ | ⟨h1, h2⟩
    · rw [hk k hk1] at hk2
      exact absurd hk2 (by simp)
    · exact absurd h hn
    · rw [hm] at h
      exact absurd h (by simp)
    · rw [hg h1] at h2
      exact absurd h2 (by simp)
    · rw [if_neg h1, h2] at hre
      exact absurd hre (by simp)

/-- The rules the loop of `InitFromYAMLString` accepts, one by one. -/
theorem compileMappings_ok {d : mapperConfigDefaults} :
    ∀ {l : List MetricMapping} {i : Nat} {cs : List MetricMapping},
      compileMappings d i l = .ok cs →
      List.Forall₂ (fun r c => ∃ j, compileMapping d j r = .ok c) l cs
  | [], _, cs, h => by
    simp only [compileMappings] at h
    injection h with h
    subst h
    exact List.Forall₂.nil
  | r :: rest, i, cs, h => by
    simp only [compileMappings] at h
    split at h
    · exact absurd h (by simp)
    · rename_i c hc
      split at h
      · exact absurd h (by simp)
      · rename_i others ho
        injection h with h
        subst h
        exact List.Forall₂.cons ⟨i, hc⟩ (compileMappings_ok ho)

/-- One rejected rule makes the whole loop of `InitFromYAMLString` fail. -/
theorem compileMappings_error_of_mem {d : mapperConfigDefaults} {r : MetricMapping} :
    ∀ {l : List MetricMapping} (i : Nat), r ∈ l → (∀ j, ∃ e, compileMapping d j r = .error e) →
      ∃ e, compileMappings d i l = .error e
  | [], _, h, _ => absurd h (by simp)
  | x :: rest, i, h, hr => by
    simp only [compileMappings]
    cases hx : compileMapping d i x with
    | error e => exact ⟨e, rfl⟩
    | ok c =>
      rcases List.mem_cons.1 h with h | h
      · subst h
        obtain ⟨e, he⟩ := hr i
        rw [he] at hx
        exact absurd hx (by simp)
      · obtain ⟨e, he⟩ := compileMappings_error_of_mem (i + 1) h hr
        rw [he]
        exact ⟨e, rfl⟩

theorem loadDocument_eq (m n : MetricMapper) :
    loadDocument m n = match compileMappings (effectiveDefaults n) 0 n.Mappings with
      | .error e => (m, some e)
      | .ok mappings => ({ Defaults := effectiveDefaults n, Mappings := mappings }, none) :=
  rfl

/-- A load that fails leaves the mapper as it was. -/
theorem loadDocument_error {m n : MetricMapper} {e : InitError}
    (h : (loadDocument m n).2 = some e) : (loadDocument m n).1 = m := by
  rw [loadDocument_eq] at h ⊢
  split at h
  · rfl
  · exact absurd h (by simp)

/-- A load that succeeds installs the compiled rules, whatever the mapper held. -/
theorem loadDocument_ok {m n : MetricMapper} (h : (loadDocument m n).2 = none) :
    ∃ mappings, compileMappings (effectiveDefaults n) 0 n.Mappings = .ok mappings ∧
      (loadDocument m n).1 = { Defaults := effectiveDefaults n, Mappings := mappings } := by
  rw [loadDocument_eq] at h
  rw [loadDocument_eq]
  split at h
  · exact absurd h (by simp)
  · rename_i mappings hm
    exact ⟨mappings, hm, rfl⟩

/-- Whether a load succeeds does not depend on the mapper. -/
theorem loadDocument_error_indep (m m2 n : MetricMapper) :
    (loadDocument m n).2 = (loadDocument m2 n).2 := by
  rw [loadDocument_eq, loadDocument_eq]
  cases compileMappings (effectiveDefaults n) 0 n.Mappings <;> rfl

/-- A failed `InitFromYAMLString` leaves the mapper as it was. -/
theorem InitFromYAMLString_error {unmarshal : GoString → Except GoString MetricMapper}
    {m : MetricMapper} {fileContents : GoString} {e : InitError}
    (h : (InitFromYAMLString unmarshal m fileContents).2 = some e) :
    (InitFromYAMLString unmarshal m fileContents).1 = m := by
  unfold InitFromYAMLString at h ⊢
  cases hu : unmarshal fileContents with
  | error msg => rfl
  | ok n =>
    rw [hu] at h
    exact loadDocument_error h

/-- Every installed rule is the compiled form of a rule of the document. -/
theorem forall₂_mem_right {α β : Type} {R : α → β → Prop} {l : List α} {cs : List β}
    (h : List.Forall₂ R l cs) {c : β} (hc : c ∈ cs) : ∃ r ∈ l, R r c := by
  induction h with
  | nil => exact absurd hc (by simp)
  | cons hab _ ih =>
    rcases List.mem_cons.1 hc with hc | hc
    · subst hc
      exact ⟨_, List.mem_cons_self _ _, hab⟩
    · obtain ⟨r, hr, hR⟩ := ih hc
      exact ⟨r, List.mem_cons_of_mem _ hr, hR⟩

/-- The rules a successful load installs have a compiled matcher. -/
theorem loadDocument_regex {m n : MetricMapper} (h : (loadDocument m n).2 = none) :
    ∀ r ∈ (loadDocument m n).1.Mappings, r.regex.isSome = true := by
  obtain ⟨mappings, hc, hm⟩ := loadDocument_ok h
  rw [hm]
  intro r hr
  obtain ⟨doc, -, j, hj⟩ := forall₂_mem_right (compileMappings_ok hc) hr
  obtain ⟨-, -, -, -, -, -, -, -, -, -, -, -, re, hre, -⟩ := compileMapping_ok hj
  rw [hre]
  rfl

/-! ### C17 -/

/-- C17: when `InitFromYAMLString` returns an error, the mapper is what it was before the call,
its `Defaults` and its `Mappings`, so every `GetMapping` returns what it returned before; and
the call returns an error when the document does not unmarshal and when one rule of it has a
label key that does not match `labelNameRE`, has no name, has a name that does not match
`metricNameRE`, is a glob rule whose pattern does not match `metricLineRE`, or is a regex rule
whose pattern does not compile. -/
theorem failed_reload_keeps_rules (unmarshal : GoString → Except GoString MetricMapper)
    (m : MetricMapper) (fileContents : GoString) :
    (∀ e, (InitFromYAMLString unmarshal m fileContents).2 = some e →
      (InitFromYAMLString unmarshal m fileContents).1.Defaults = m.Defaults ∧
      (InitFromYAMLString unmarshal m fileContents).1.Mappings = m.Mappings ∧
      ∀ statsdMetric statsdMetricType,
        GetMapping (InitFromYAMLString unmarshal m fileContents).1 statsdMetric statsdMetricType
          = GetMapping m statsdMetric statsdMetricType) ∧
    (∀ msg, unmarshal fileContents = .error msg →
      (InitFromYAMLString unmarshal m fileContents).2 = some (.yaml msg)) ∧
    (∀ n r, unmarshal fileContents = .ok n → r ∈ n.Mappings →
      ((∃ k ∈ r.Labels.keys, labelNameRE.MatchString k = false) ∨ r.Name = [] ∨
        metricNameRE.MatchString r.Name = false ∨
        ((if r.MatchType = [] then (effectiveDefaults n).MatchType else r.MatchType)
            = matchTypeGlob ∧ metricLineRE.MatchString r.Match = false) ∨
        ((if r.MatchType = [] then (effectiveDefaults n).MatchType else r.MatchType)
            ≠ matchTypeGlob ∧ regexpCompile r.Match = none)) →
      ∃ e, (InitFromYAMLString unmarshal m fileContents).2 = some e) := by
  refine ⟨?_, ?_, ?_⟩
  · intro e he
    rw [InitFromYAMLString_error he]
    exact ⟨rfl, rfl, fun _ _ => rfl⟩
  · intro msg hmsg
    unfold InitFromYAMLString
    rw [hmsg]
  · intro n r hn hr hbad
    unfold InitFromYAMLString
    rw [hn]
    simp only []
    obtain ⟨e, he⟩ := compileMappings_error_of_mem 0 hr
      (fun j => compileMapping_error (effectiveDefaults n) j r hbad)
    rw [loadDocument_eq, he]
    exact ⟨e, rfl⟩

theorem failed_reload_keeps_rules_witness :
    (InitFromYAMLString (fun _ => .ok (latencyDocument []))
        ⟨⟨[], matchTypeGlob⟩, [latencyRule (ascii "app_latency")]⟩ (ascii "mappings:")).1.Mappings
      = [latencyRule (ascii "app_latency")] :=
  ((failed_reload_keeps_rules (fun _ => .ok (latencyDocument []))
    ⟨⟨[], matchTypeGlob⟩, [latencyRule (ascii "app_latency")]⟩ (ascii "mappings:")).1
      (.noMetricName 0) (by decide)).2.1

/-! ### C18 -/

/-- C18: after a successful `InitFromYAMLString` the installed defaults are those of the
document, with glob for an unset default match type, and the installed rules are the rules of
the document, in order, each with: the action `map` when the document left it unset and the
action of the document otherwise, which is `map` or `drop` when `actionType.UnmarshalYAML` read
it; its own match type when set and the installed default otherwise; its own timer type when set
and the installed default otherwise; label keys that all match `labelNameRE`; a name that is not
empty and matches `metricNameRE`; a compiled matcher; and the other fields as in the document. -/
theorem installed_rules_well_formed (unmarshal : GoString → Except GoString MetricMapper)
    (m : MetricMapper) (fileContents : GoString) (n : MetricMapper)
    (hdoc : unmarshal fileContents = .ok n)
    (hok : (InitFromYAMLString unmarshal m fileContents).2 = none) :
    (InitFromYAMLString unmarshal m fileContents).1.Defaults.TimerType = n.Defaults.TimerType ∧
    (InitFromYAMLString unmarshal m fileContents).1.Defaults.MatchType
      = (if n.Defaults.MatchType = matchTypeDefault then matchTypeGlob
          else n.Defaults.MatchType) ∧
    List.Forall₂ (fun doc rule =>
        rule.Action = (if doc.Action = ActionTypeDefault then ActionTypeMap else doc.Action) ∧
        (doc.Action = ActionTypeDefault ∨
            (∃ v, actionType.UnmarshalYAML (.ok v) = .ok doc.Action) →
          rule.Action = ActionTypeMap ∨ rule.Action = ActionTypeDrop) ∧
        rule.MatchType = (if doc.MatchType = matchTypeDefault
          then (InitFromYAMLString unmarshal m fileContents).1.Defaults.MatchType
          else doc.MatchType) ∧
        rule.TimerType = (if doc.TimerType = []
          then (InitFromYAMLString unmarshal m fileContents).1.Defaults.TimerType
          else doc.TimerType) ∧
        (∀ k ∈ rule.Labels.keys, labelNameRE.MatchString k = true) ∧
        rule.Name ≠ [] ∧ metricNameRE.MatchString rule.Name = true ∧
        rule.regex.isSome = true ∧
        rule.Match = doc.Match ∧ rule.Name = doc.Name ∧ rule.Labels = doc.Labels ∧
        rule.HelpText = doc.HelpText ∧ rule.MatchMetricType = doc.MatchMetricType)
      n.Mappings (InitFromYAMLString unmarshal m fileContents).1.Mappings := by
  have hinit : InitFromYAMLString unmarshal m fileContents = loadDocument m n := by
    unfold InitFromYAMLString
    rw [hdoc]
  rw [hinit] at hok ⊢
  obtain ⟨mappings, hc, hm⟩ := loadDocument_ok hok
  rw [hm]
  refine ⟨rfl, rfl, ?_⟩
  refine (compileMappings_ok hc).imp ?_
  intro doc rule hrule
  obtain ⟨j, hj⟩ := hrule
  obtain ⟨hk, hn, hmn, hmt, ha, htt, hmatch, hname, hlab, hhelp, hmmt, -, re, hre, -⟩ :=
    compileMapping_ok hj
  refine ⟨ha, ?_, hmt, htt, ?_, ?_, ?_, ?_, hmatch, hname, hlab, hhelp, hmmt⟩
  · intro hdocAction
    rw [ha]
    rcases hdocAction with h | ⟨v, hv⟩
    · left
      exact if_pos h
    · simp only [actionType.UnmarshalYAML] at hv
      split_ifs at hv with h1 h2
      · injection hv with hv
        rw [← hv]
        right
        decide
      · injection hv with hv
        rw [← hv]
        left
        decide
  · rw [hlab]; exact hk
  · rw [hname]; exact hn
  · rw [hname]; exact hmn
  · rw [hre]; rfl

theorem installed_rules_well_formed_witness :
    (InitFromYAMLString (fun _ => .ok (latencyDocument (ascii "app_latency")))
        ⟨⟨[], []⟩, []⟩ (ascii "mappings:")).1.Defaults.MatchType = matchTypeGlob :=
  (installed_rules_well_formed (fun _ => .ok (latencyDocument (ascii "app_latency")))
    ⟨⟨[], []⟩, []⟩ (ascii "mappings:") (latencyDocument (ascii "app_latency")) rfl
    (by decide)).2.1

/-! ### Lookups and reloads -/

/-- The loop of `GetMapping` returns the mapper it was given, with the result of
`getMappingLoop`. -/
theorem getMappingRange_eq (m : MetricMapper) (statsdMetric : GoString)
    (statsdMetricType : MetricType) (l : List MetricMapping) :
    getMappingRange m statsdMetric statsdMetricType l
      = (getMappingLoop statsdMetric statsdMetricType l).map (fun r => (m, r)) := by
  induction l with
  | nil => rfl
  | cons mapping rest ih =>
    simp only [getMappingRange, getMappingLoop]
    cases mapping.regex with
    | none => rfl
    | some re =>
      simp only []
      split_ifs
      · exact ih
      · exact ih
      · rfl

/-- A lookup among rules that all have a compiled matcher returns. -/
theorem getMappingLoop_isSome (statsdMetric : GoString) (statsdMetricType : MetricType)
    (l : List MetricMapping) (h : ∀ r ∈ l, r.regex.isSome = true) :
    (getMappingLoop statsdMetric statsdMetricType l).isSome = true := by
  induction l with
  | nil => rfl
  | cons mapping rest ih =>
    have hrest := ih (fun r hr => h r (List.mem_cons_of_mem _ hr))
    have hm := h mapping (List.mem_cons_self _ _)
    simp only [getMappingLoop]
    cases hre : mapping.regex with
    | none => rw [hre] at hm; exact absurd hm (by simp)
    | some re =>
      simp only []
      split_ifs
      · exact hrest
      · exact hrest
      · rfl

/-- Lookups and failing loads leave the mapper as it is. -/
theorem runOps_keep (unmarshal : GoString → Except GoString MetricMapper) (m : MetricMapper)
    (ops : List MapperOp)
    (hops : ∀ op ∈ ops, (∃ name t, op = MapperOp.lookup name t) ∨
      ∃ c e, op = MapperOp.load c ∧ (InitFromYAMLString unmarshal m c).2 = some e)
    (hm : ∀ r ∈ m.Mappings, r.regex.isSome = true) : runOps unmarshal m ops = some m := by
  induction ops with
  | nil => rfl
  | cons op rest ih =>
    have hrest := ih (fun op h => hops op (List.mem_cons_of_mem _ h))
    unfold runOps at hrest ⊢
    rw [List.foldlM_cons]
    rcases hops op (List.mem_cons_self _ _) with ⟨name, t, hop⟩ | ⟨c, e, hop, he⟩
    · subst hop
      simp only [MapperOp.run, getMappingRange_eq]
      obtain ⟨r, hr⟩ := Option.isSome_iff_exists.1 (getMappingLoop_isSome name t m.Mappings hm)
      rw [hr]
      exact hrest
    · subst hop
      simp only [MapperOp.run, InitFromYAMLString_error he]
      exact hrest

theorem runOps_append (unmarshal : GoString → Except GoString MetricMapper) (m : MetricMapper)
    (pre post : List MapperOp) :
    runOps unmarshal m (pre ++ post)
      = (runOps unmarshal m pre).bind (fun m1 => runOps unmarshal m1 post) := by
  unfold runOps
  rw [List.foldlM_append]
  rfl

/-! ### C19 -/

/-- C19: `GetMapping` returns with the mapper it was called on, `Defaults` and `Mappings` (so
the stored name template of the matched rule is the template still), and with the result that
depends on the rules and the query alone; after any sequence of lookups the mapper, and so the
result of every lookup, is what it was before; loading one document twice gives the mapper and
the outcome of loading it once; and after a successful load followed by lookups and by loads
that fail, the mapper is the one that load installed, which does not depend on what the mapper
held before. -/
theorem lookup_leaves_mapper (unmarshal : GoString → Except GoString MetricMapper)
    (m : MetricMapper) :
    (∀ statsdMetric statsdMetricType,
      getMappingRange m statsdMetric statsdMetricType m.Mappings
        = (GetMapping m statsdMetric statsdMetricType).map (fun r => (m, r))) ∧
    (∀ ops m2, (∀ op ∈ ops, ∃ name t, op = MapperOp.lookup name t) →
      runOps unmarshal m ops = some m2 →
      m2 = m ∧ ∀ statsdMetric statsdMetricType,
        GetMapping m2 statsdMetric statsdMetricType
          = GetMapping m statsdMetric statsdMetricType) ∧
    (∀ fileContents,
      InitFromYAMLString unmarshal (InitFromYAMLString unmarshal m fileContents).1 fileContents
        = InitFromYAMLString unmarshal m fileContents) ∧
    (∀ fileContents n pre post m1, unmarshal fileContents = .ok n →
      (loadDocument m n).2 = none → runOps unmarshal m pre = some m1 →
      (∀ op ∈ post, (∃ name t, op = MapperOp.lookup name t) ∨
        ∃ c e, op = MapperOp.load c ∧ ∀ m0, (InitFromYAMLString unmarshal m0 c).2 = some e) →
      runOps unmarshal m (pre ++ MapperOp.load fileContents :: post)
          = some (loadDocument m n).1 ∧
        (∀ m0, (loadDocument m0 n).1 = (loadDocument m n).1) ∧
        ∀ statsdMetric statsdMetricType,
          (GetMapping (loadDocument m n).1 statsdMetric statsdMetricType).isSome = true) := by
  refine ⟨?_, ?_, ?_, ?_⟩
  · intro statsdMetric statsdMetricType
    rw [getMappingRange_eq]
    rfl
  · intro ops m2 hops hrun
    have hkeep : ∀ (ops : List MapperOp) (m2 : MetricMapper),
        (∀ op ∈ ops, ∃ name t, op = MapperOp.lookup name t) →
        runOps unmarshal m ops = some m2 → m2 = m := by
      intro ops
      induction ops with
      | nil =>
        intro m2 _ h
        exact (Option.some.inj h).symm
      | cons op rest ih =>
        intro m2 hops h
        obtain ⟨name, t, hop⟩ := hops op (List.mem_cons_self _ _)
        subst hop
        unfold runOps at h ih
        rw [List.foldlM_cons] at h
        simp only [MapperOp.run, getMappingRange_eq] at h
        cases hl : getMappingLoop name t m.Mappings with
        | none => rw [hl] at h; exact absurd h (by simp)
        | some r =>
          rw [hl] at h
          exact ih m2 (fun op h => hops op (List.mem_cons_of_mem _ h)) h
    have := hkeep ops m2 hops hrun
    subst this
    exact ⟨rfl, fun _ _ => rfl⟩
  · intro fileContents
    cases he : (InitFromYAMLString unmarshal m fileContents).2 with
    | some e =>
      rw [InitFromYAMLString_error he]
    | none =>
      unfold InitFromYAMLString at he ⊢
      cases hu : unmarshal fileContents with
      | error msg => rw [hu] at he
      | ok n =>
        rw [hu] at he
        simp only [] at he ⊢
        obtain ⟨mappings, hc, hm⟩ := loadDocument_ok he
        rw [loadDocument_eq (loadDocument m n).1 n, loadDocument_eq m n, hc]
  · intro fileContents n pre post m1 hdoc hok hpre hpost
    have hindep : ∀ m0, (loadDocument m0 n).1 = (loadDocument m n).1 := by
      intro m0
      have h0 : (loadDocument m0 n).2 = none := by rw [loadDocument_error_indep m0 m, hok]
      obtain ⟨mappings, hc, hm⟩ := loadDocument_ok hok
      obtain ⟨mappings0, hc0, hm0⟩ := loadDocument_ok h0
      rw [hm, hm0]
      rw [hc] at hc0
      injection hc0 with hc0
      rw [hc0]
    have hregex := loadDocument_regex hok
    refine ⟨?_, hindep, fun statsdMetric statsdMetricType =>
      getMappingLoop_isSome statsdMetric statsdMetricType _ hregex⟩
    rw [runOps_append, hpre]
    simp only [Option.bind]
    unfold runOps
    rw [List.foldlM_cons]
    have hstep : MapperOp.run unmarshal m1 (MapperOp.load fileContents)
        = some (loadDocument m n).1 := by
      simp only [MapperOp.run, InitFromYAMLString, hdoc, hindep m1]
    rw [hstep]
    exact runOps_keep unmarshal _ post
      (fun op hop => (hpost op hop).imp id (fun ⟨c, e, h1, h2⟩ => ⟨c, e, h1, h2 _⟩)) hregex

theorem lookup_leaves_mapper_witness :
    getMappingRange ⟨⟨[], matchTypeGlob⟩, [latencyRule (ascii "app_$\x7b1\x7d_latency")]⟩
        (ascii "app.checkout.latency") metricTypeTimer
        [latencyRule (ascii "app_$\x7b1\x7d_latency")]
      = (GetMapping ⟨⟨[], matchTypeGlob⟩, [latencyRule (ascii "app_$\x7b1\x7d_latency")]⟩
          (ascii "app.checkout.latency") metricTypeTimer).map
        (fun r => (⟨⟨[], matchTypeGlob⟩, [latencyRule (ascii "app_$\x7b1\x7d_latency")]⟩, r)) :=
  (lookup_leaves_mapper (fun _ => .ok (latencyDocument (ascii "app_$\x7b1\x7d_latency")))
    ⟨⟨[], matchTypeGlob⟩, [latencyRule (ascii "app_$\x7b1\x7d_latency")]⟩).1
    (ascii "app.checkout.latency") metricTypeTimer

/-! ### The submatches of a match -/

theorem starLoop_caps_length (n : Nat)
    (step : MatchState → (MatchState → Option Caps) → Option Caps)
    (hstep : ∀ (st : MatchState) (k : MatchState → Option Caps) (c : Caps),
      st.caps.length = n →
      (∀ st2 c2, st2.caps.length = n → k st2 = some c2 → c2.length = n) →
      step st k = some c → c.length = n) :
    ∀ (fuel : Nat) (st : MatchState) (k : MatchState → Option Caps) (c : Caps),
      st.caps.length = n →
      (∀ st2 c2, st2.caps.length = n → k st2 = some c2 → c2.length = n) →
      starLoop step fuel st k = some c → c.length = n := by
  intro fuel
  induction fuel with
  | zero =>
    intro st k c hst hk h
    exact hk st c hst h
  | succ fuel ih =>
    intro st k c hst hk h
    rw [starLoop] at h
    split at h
    · rename_i r hr
      injection h with h
      subst h
      refine hstep st _ r hst ?_ hr
      intro st2 c2 hst2 h2
      split_ifs at h2
      exact ih st2 k c2 hst2 hk h2
    · exact hk st c hst h

/-- The matcher keeps the number of submatch slots. -/
theorem run_caps_length (n : Nat) :
    ∀ (a : Node) (st : MatchState) (k : MatchState → Option Caps) (c : Caps),
      st.caps.length = n →
      (∀ st2 c2, st2.caps.length = n → k st2 = some c2 → c2.length = n) →
      a.run st k = some c → c.length = n := by
  have hrune : ∀ (p : Nat → Bool) (st : MatchState) (k : MatchState → Option Caps) (c : Caps),
      st.caps.length = n →
      (∀ st2 c2, st2.caps.length = n → k st2 = some c2 → c2.length = n) →
      stepRune p st k = some c → c.length = n := by
    intro p st k c hst hk h
    unfold stepRune at h
    split at h
    · exact absurd h (by simp)
    · split_ifs at h
      exact hk _ c (by exact hst) h
  intro a
  induction a with
  | empty => intro st k c hst hk h; exact hk st c hst h
  | lit b => intro st k c hst hk h; exact hrune _ st k c hst hk h
  | cls neg ranges => intro st k c hst hk h; exact hrune _ st k c hst hk h
  | any => intro st k c hst hk h; exact hrune _ st k c hst hk h
  | bol =>
    intro st k c hst hk h
    simp only [Node.run] at h
    split_ifs at h
    exact hk st c hst h
  | eol =>
    intro st k c hst hk h
    simp only [Node.run] at h
    split_ifs at h
    exact hk st c hst h
  | cat a b iha ihb =>
    intro st k c hst hk h
    simp only [Node.run] at h
    exact iha st _ c hst (fun st2 c2 hst2 h2 => ihb st2 k c2 hst2 hk h2) h
  | alt a b iha ihb =>
    intro st k c hst hk h
    simp only [Node.run] at h
    split at h
    · rename_i r hr
      injection h with h
      subst h
      exact iha st k r hst hk hr
    · exact ihb st k c hst hk h
  | star a iha =>
    intro st k c hst hk h
    simp only [Node.run] at h
    exact starLoop_caps_length n _ (fun s k2 c2 hs hk2 h2 => iha s k2 c2 hs hk2 h2) _ st k c
      hst hk h
  | plus a iha =>
    intro st k c hst hk h
    simp only [Node.run] at h
    exact iha st _ c hst (fun st2 c2 hst2 h2 =>
      starLoop_caps_length n _ (fun s k2 c3 hs hk2 h3 => iha s k2 c3 hs hk2 h3) _ st2 k c2
        hst2 hk h2) h
  | quest a iha =>
    intro st k c hst hk h
    simp only [Node.run] at h
    split at h
    · rename_i r hr
      injection h with h
      subst h
      exact iha st k r hst hk hr
    · exact hk st c hst h
  | cap i a iha =>
    intro st k c hst hk h
    simp only [Node.run] at h
    exact iha st _ c hst (fun st2 c2 hst2 h2 => hk _ c2 (by simp [hst2]) h2) h

theorem matchAt_caps_length (re : Regexp) (pos : Nat) (rest : GoString) (c : Caps)
    (h : re.matchAt pos rest = some c) : c.length = re.numSubexp + 1 := by
  unfold Regexp.matchAt at h
  refine run_caps_length _ re.expr _ _ c (by simp) ?_ h
  intro st2 c2 hst2 h2
  injection h2 with h2
  rw [← h2]
  simp [hst2]

theorem search_caps_length (re : Regexp) :
    ∀ (s : GoString) (skip pos : Nat) (c : Caps),
      re.search skip pos s = some c → c.length = re.numSubexp + 1
  | [], skip, pos, c, h => by
    rw [Regexp.search] at h
    exact matchAt_caps_length re pos [] c h
  | b :: rest, skip + 1, pos, c, h => by
    rw [Regexp.search] at h
    exact search_caps_length re rest skip (pos + 1) c h
  | b :: rest, 0, pos, c, h => by
    rw [Regexp.search] at h
    split at h
    · rename_i caps hcaps
      injection h with h
      subst h
      exact matchAt_caps_length re pos _ _ hcaps
    · exact search_caps_length re rest _ (pos + 1) c h

/-- The call `FindStringSubmatchIndex` gives the empty slice exactly when `MatchString` gives
false. -/
theorem find_length_eq_zero (re : Regexp) (s : GoString) :
    (re.FindStringSubmatchIndex s).length = 0 ↔ re.MatchString s = false := by
  unfold Regexp.FindStringSubmatchIndex Regexp.MatchString
  cases h : re.search 0 0 s with
  | none => simp
  | some caps =>
    have hlen := search_caps_length re s 0 0 caps h
    cases caps with
    | nil => simp at hlen
    | cons c rest =>
      cases c with
      | none => simp
      | some ab => simp

/-! ### The labels of a lookup -/

theorem Labels.set_of_not_mem_keys {m : Labels} {k : GoString} (v : GoString)
    (h : k ∉ m.keys) : m.set k v = m ++ [(k, v)] := by
  induction m with
  | nil => rfl
  | cons p rest ih =>
    obtain ⟨k2, v2⟩ := p
    simp only [Labels.keys, List.map_cons, List.mem_cons, not_or] at h
    have hne : ¬ k2 = k := fun e => h.1 e.symm
    simp only [Labels.set, hne, if_false, List.cons_append]
    rw [ih h.2]

theorem Labels.keys_set (m : Labels) (k v k2 : GoString) :
    k2 ∈ (m.set k v).keys ↔ k2 = k ∨ k2 ∈ m.keys := by
  induction m with
  | nil => simp [Labels.set, Labels.keys]
  | cons p rest ih =>
    obtain ⟨k3, v3⟩ := p
    simp only [Labels.set]
    split_ifs with h
    · subst h
      simp [Labels.keys]
    · simp only [Labels.keys, List.map_cons, List.mem_cons] at ih ⊢
      rw [ih]
      tauto

theorem foldl_set_keys (f : GoString → GoString) (l acc : Labels) (k : GoString) :
    k ∈ (l.foldl (fun labels p => labels.set p.1 (f p.2)) acc).keys
      ↔ k ∈ acc.keys ∨ k ∈ l.keys := by
  induction l generalizing acc with
  | nil => simp [Labels.keys]
  | cons p rest ih =>
    rw [List.foldl_cons, ih, Labels.keys_set]
    simp only [Labels.keys, List.map_cons, List.mem_cons]
    tauto

theorem foldl_set_nodup (f : GoString → GoString) (l acc : Labels)
    (hl : l.keys.Nodup) (hacc : ∀ k ∈ l.keys, k ∉ acc.keys) :
    l.foldl (fun labels p => labels.set p.1 (f p.2)) acc
      = acc ++ l.map (fun p => (p.1, f p.2)) := by
  induction l generalizing acc with
  | nil => simp
  | cons p rest ih =>
    simp only [Labels.keys, List.map_cons, List.nodup_cons] at hl
    have hp : p.1 ∉ acc.keys := hacc p.1 (by simp [Labels.keys])
    rw [List.foldl_cons, Labels.set_of_not_mem_keys _ hp, ih _ hl.2]
    · simp
    · intro k hk
      simp only [Labels.keys, List.map_append, List.map_cons, List.map_nil, List.mem_append,
        List.mem_singleton, not_or]
      refine ⟨hacc k (by simp only [Labels.keys, List.map_cons]; exact List.mem_cons_of_mem _ hk),
        ?_⟩
      intro e
      subst e
      exact hl.1 hk

/-- The labels of a lookup have the keys of the rule. -/
theorem expandLabels_keys (re : Regexp) (statsdMetric : GoString) (m : List Int)
    (ruleLabels : Labels) (k : GoString) :
    k ∈ (expandLabels re statsdMetric m ruleLabels).keys ↔ k ∈ ruleLabels.keys := by
  unfold expandLabels
  rw [foldl_set_keys (fun v => re.ExpandString v statsdMetric m)]
  simp [Labels.keys]

/-- The labels of a lookup are the labels of the rule with every value expanded. -/
theorem expandLabels_nodup (re : Regexp) (statsdMetric : GoString) (m : List Int)
    (ruleLabels : Labels) (h : ruleLabels.NodupKeys) :
    expandLabels re statsdMetric m ruleLabels
      = ruleLabels.map (fun p => (p.1, re.ExpandString p.2 statsdMetric m)) := by
  unfold expandLabels
  rw [foldl_set_nodup (fun v => re.ExpandString v statsdMetric m) _ _ h (by simp [Labels.keys])]
  simp

/-! ### The rule of a lookup -/

/-- A rule that does not apply is passed over. -/
theorem getMappingLoop_skip (statsdMetric : GoString) (statsdMetricType : MetricType)
    (mapping : MetricMapping) (rest : List MetricMapping) (hre : mapping.regex.isSome = true)
    (h : ruleApplies mapping statsdMetric statsdMetricType = false) :
    getMappingLoop statsdMetric statsdMetricType (mapping :: rest)
      = getMappingLoop statsdMetric statsdMetricType rest := by
  obtain ⟨re, hre⟩ := Option.isSome_iff_exists.1 hre
  simp only [ruleApplies, hre, Bool.and_eq_false_iff, Bool.or_eq_false_iff,
    decide_eq_false_iff_not] at h
  simp only [getMappingLoop, hre]
  rcases h with h | h
  · rw [if_pos ((find_length_eq_zero re statsdMetric).2 h)]
  · split_ifs <;> rfl

/-- A rule that applies ends the lookup. -/
theorem getMappingLoop_hit (statsdMetric : GoString) (statsdMetricType : MetricType)
    (mapping : MetricMapping) (rest : List MetricMapping) (re : Regexp)
    (hre : mapping.regex = some re)
    (h : ruleApplies mapping statsdMetric statsdMetricType = true) :
    getMappingLoop statsdMetric statsdMetricType (mapping :: rest)
      = some (some { mapping with
                Name := re.ExpandString mapping.Name statsdMetric
                  (re.FindStringSubmatchIndex statsdMetric) },
              expandLabels re statsdMetric (re.FindStringSubmatchIndex statsdMetric)
                mapping.Labels,
              true) := by
  simp only [ruleApplies, hre, Bool.and_eq_true, Bool.or_eq_true, decide_eq_true_eq] at h
  have h1 : ¬ (re.FindStringSubmatchIndex statsdMetric).length = 0 := by
    rw [find_length_eq_zero, h.1]
    simp
  have h2 : ¬ (mapping.MatchMetricType ≠ [] ∧ mapping.MatchMetricType ≠ statsdMetricType) := by
    tauto
  simp only [getMappingLoop, hre, if_neg h1, if_neg h2]

/-- A lookup finds nothing exactly when no rule applies. -/
theorem getMappingLoop_none (statsdMetric : GoString) (statsdMetricType : MetricType)
    (l : List MetricMapping) (hl : ∀ r ∈ l, r.regex.isSome = true) :
    getMappingLoop statsdMetric statsdMetricType l = some (none, [], false)
      ↔ ∀ r ∈ l, ruleApplies r statsdMetric statsdMetricType = false := by
  induction l with
  | nil => simp [getMappingLoop]
  | cons mapping rest ih =>
    have hrest := ih (fun r hr => hl r (List.mem_cons_of_mem _ hr))
    have hm := hl mapping (List.mem_cons_self _ _)
    cases ha : ruleApplies mapping statsdMetric statsdMetricType with
    | false =>
      rw [getMappingLoop_skip _ _ _ _ hm ha, hrest]
      simp [ha]
    | true =>
      obtain ⟨re, hre⟩ := Option.isSome_iff_exists.1 hm
      rw [getMappingLoop_hit _ _ _ _ re hre ha]
      simp [ha]

/-! ### The event pipeline -/

section Pipeline

variable {F : Type} (fl : FloatArith F)

/-- No round of `processHierarchicalEvents` writes the mapper. -/
theorem processHierarchicalEvent_mapper {b b2 : Exporter F} {ev : Event F}
    (h : processHierarchicalEvent fl b ev = some b2) : b2.mapper = b.mapper := by
  unfold processHierarchicalEvent at h
  split at h
  · exact absurd h (by simp)
  · simp only [] at h
    split_ifs at h
    all_goals try split at h
    all_goals try split at h
    all_goals try split_ifs at h
    all_goals first
      | (injection h with h; rw [← h])
      | exact absurd h (by simp)

/-- No batch writes the mapper. -/
theorem processHierarchicalEvents_mapper {evs : List (Event F)} :
    ∀ {b b2 : Exporter F}, processHierarchicalEvents fl b evs = some b2 →
      b2.mapper = b.mapper := by
  induction evs with
  | nil =>
    intro b b2 h
    injection h with h
    rw [← h]
  | cons ev rest ih =>
    intro b b2 h
    unfold processHierarchicalEvents at h ih
    rw [List.foldlM_cons] at h
    cases h1 : processHierarchicalEvent fl b ev with
    | none => rw [h1] at h; exact absurd h (by simp)
    | some b1 =>
      rw [h1] at h
      rw [ih h, processHierarchicalEvent_mapper fl h1]

theorem processHierarchicalEvents_append (b : Exporter F) (pre post : List (Event F)) :
    processHierarchicalEvents fl b (pre ++ post)
      = (processHierarchicalEvents fl b pre).bind
          (fun b1 => processHierarchicalEvents fl b1 post) := by
  unfold processHierarchicalEvents
  rw [List.foldlM_append]
  rfl

/-! ### C20 -/

/-- C20: an event whose lookup returns a rule with the action `drop` leaves the exporter as it
is, so no document is added and the counter, gauge and histogram containers are what they were;
and the batch goes on: a batch with such an event has the outcome of the batch without it. -/
theorem dropped_event_no_effect (b : Exporter F) (ev : Event F) (mapping : MetricMapping)
    (labels : Labels) (present : Bool)
    (hget : GetMapping b.mapper ev.MetricName ev.MetricType
      = some (some mapping, labels, present))
    (hdrop : mapping.Action = ActionTypeDrop) :
    processHierarchicalEvent fl b ev = some b ∧
    (∀ b2, processHierarchicalEvent fl b ev = some b2 →
      b2.elasticBulkProcessor = b.elasticBulkProcessor ∧ b2.Counters = b.Counters ∧
        b2.Gauges = b.Gauges ∧ b2.Histograms = b.Histograms) ∧
    ∀ before after : List (Event F),
      processHierarchicalEvents fl b (before ++ ev :: after)
        = processHierarchicalEvents fl b (before ++ after) := by
  have hstep : ∀ b1 : Exporter F, b1.mapper = b.mapper →
      processHierarchicalEvent fl b1 ev = some b1 := by
    intro b1 hb1
    unfold processHierarchicalEvent
    rw [hb1, hget]
    simp only [Option.getD_some, hdrop, if_true]
  refine ⟨hstep b rfl, ?_, ?_⟩
  · intro b2 h2
    rw [hstep b rfl] at h2
    injection h2 with h2
    rw [← h2]
    exact ⟨rfl, rfl, rfl, rfl⟩
  · intro before after
    rw [processHierarchicalEvents_append, processHierarchicalEvents_append]
    cases h1 : processHierarchicalEvents fl b before with
    | none => rfl
    | some b1 =>
      simp only [Option.bind]
      unfold processHierarchicalEvents
      rw [List.foldlM_cons, hstep b1 (processHierarchicalEvents_mapper fl h1)]
      rfl

theorem dropped_event_no_effect_witness :
    processHierarchicalEvent decArith
        ⟨⟨[]⟩, ⟨[]⟩, ⟨[]⟩,
          ⟨⟨[], matchTypeGlob⟩, [{ latencyRule (ascii "x") with Action := ActionTypeDrop }]⟩,
          [], ascii "statsd"⟩
        (Event.timer (ascii "app.a.latency") ⟨1, 1⟩ [])
      = some ⟨⟨[]⟩, ⟨[]⟩, ⟨[]⟩,
          ⟨⟨[], matchTypeGlob⟩, [{ latencyRule (ascii "x") with Action := ActionTypeDrop }]⟩,
          [], ascii "statsd"⟩ :=
  (dropped_event_no_effect decArith
    ⟨⟨[]⟩, ⟨[]⟩, ⟨[]⟩,
      ⟨⟨[], matchTypeGlob⟩, [{ latencyRule (ascii "x") with Action := ActionTypeDrop }]⟩,
      [], ascii "statsd"⟩
    (Event.timer (ascii "app.a.latency") ⟨1, 1⟩ [])
    { latencyRule (ascii "x") with Action := ActionTypeDrop } [] true
    (by decide) (by decide)).1

end Pipeline

/-! ### The matcher and the language of a pattern -/

theorem StarL.cases_head {R : GoString → GoString → Prop} {r r2 : GoString}
    (h : StarL R r r2) :
    r2 = r ∨ ∃ m, R r m ∧ m.length < r.length ∧ StarL R m r2 := by
  cases h with
  | refl => exact Or.inl rfl
  | step hR hlt hS => exact Or.inr ⟨_, hR, hlt, hS⟩

theorem stepRune_isSome (p : Nat → Bool) (st : MatchState) (k : MatchState → Option Caps)
    (hk : RestOnly k) :
    (stepRune p st k).isSome = true ↔
      ∃ st2 : MatchState, ((∃ c, st.rest.head? = some c ∧ p c = true) ∧
        st2.rest = st.rest.drop (runeWidth st.rest)) ∧ (k st2).isSome = true := by
  unfold stepRune
  cases hr : st.rest with
  | nil => simp
  | cons b t =>
    simp only [List.head?_cons, Option.some.injEq, exists_eq_left']
    by_cases hp : p b = true
    · rw [if_pos hp]
      constructor
      · intro h
        exact ⟨_, ⟨hp, rfl⟩, h⟩
      · rintro ⟨st2, ⟨-, h2⟩, h3⟩
        rw [← h3]
        exact hk _ _ h2.symm
    · rw [if_neg hp]
      simp [hp]

theorem starLoop_isSome (R : GoString → GoString → Prop)
    (step : MatchState → (MatchState → Option Caps) → Option Caps)
    (hstep : ∀ (st : MatchState) (k : MatchState → Option Caps), RestOnly k →
      ((step st k).isSome = true ↔
        ∃ st2 : MatchState, R st.rest st2.rest ∧ (k st2).isSome = true)) :
    ∀ (fuel : Nat) (st : MatchState) (k : MatchState → Option Caps),
      st.rest.length < fuel → RestOnly k →
      ((starLoop step fuel st k).isSome = true ↔
        ∃ st2 : MatchState, StarL R st.rest st2.rest ∧ (k st2).isSome = true) := by
  intro fuel
  induction fuel with
  | zero => intro st k h; exact absurd h (by omega)
  | succ fuel ih =>
    intro st k hfuel hk
    have hK : RestOnly (fun st2 : MatchState =>
        if st2.rest.length < st.rest.length then starLoop step fuel st2 k else none) := by
      intro s1 s2 hs
      simp only [hs]
      split_ifs with hlt
      · have h1 := ih s1 k (by rw [hs]; omega) hk
        have h2 := ih s2 k (by omega) hk
        rw [hs] at h1
        exact Bool.eq_iff_iff.2 (h1.trans h2.symm)
      · rfl
    have hstep2 := hstep st _ hK
    rw [starLoop]
    constructor
    · intro h
      split at h
      · rename_i r hr
        obtain ⟨st1, hR, h1⟩ := hstep2.1 (by rw [hr]; rfl)
        split_ifs at h1 with hlt
        · obtain ⟨st2, hS, h2⟩ := (ih st1 k (by omega) hk).1 h1
          exact ⟨st2, StarL.step hR hlt hS, h2⟩
        · exact absurd h1 (by simp)
      · exact ⟨st, StarL.refl _, h⟩
    · rintro ⟨st2, hS, h2⟩
      rcases StarL.cases_head hS with hS | ⟨m, hR, hlt, hS⟩
      · split
        · rfl
        · rw [← h2]
          exact hk _ _ hS.symm
      · have : (step st (fun st2 : MatchState =>
            if st2.rest.length < st.rest.length then starLoop step fuel st2 k
            else none)).isSome = true := by
          refine hstep2.2 ⟨⟨0, m, []⟩, hR, ?_⟩
          simp only [hlt, if_true]
          exact (ih ⟨0, m, []⟩ k (by simp only; omega) hk).2 ⟨st2, hS, h2⟩
        split
        · rfl
        · rename_i hnone
          rw [hnone] at this
          exact absurd this (by simp)

/-- The matcher succeeds on a pattern without `^` exactly when the pattern, read as a language,
matches a front part of the text and the continuation succeeds on what is left. -/
theorem run_isSome (a : Node) :
    a.noBol = true → ∀ (st : MatchState) (k : MatchState → Option Caps), RestOnly k →
      ((a.run st k).isSome = true ↔
        ∃ st2 : MatchState, a.lang st.rest st2.rest ∧ (k st2).isSome = true) := by
  induction a with
  | empty =>
    intro _ st k hk
    simp only [Node.run, Node.lang]
    constructor
    · intro h; exact ⟨st, rfl, h⟩
    · rintro ⟨st2, h1, h2⟩
      rw [← h2]; exact hk _ _ h1.symm
  | lit b =>
    intro _ st k hk
    simp only [Node.run, Node.lang]
    rw [stepRune_isSome _ _ _ hk]
    simp
  | cls neg ranges =>
    intro _ st k hk
    simp only [Node.run, Node.lang]
    rw [stepRune_isSome _ _ _ hk]
  | any =>
    intro _ st k hk
    simp only [Node.run, Node.lang]
    rw [stepRune_isSome _ _ _ hk]
    simp
  | bol => intro h; exact absurd h (by simp [Node.noBol])
  | eol =>
    intro _ st k hk
    simp only [Node.run, Node.lang]
    cases hr : st.rest with
    | nil =>
      simp only [List.isEmpty_nil, if_true, true_and]
      constructor
      · intro h; exact ⟨st, hr, h⟩
      · rintro ⟨st2, h1, h2⟩
        rw [← h2]; exact hk _ _ (by rw [hr, h1])
    | cons b t => simp
  | cat a b iha ihb =>
    intro hnb st k hk
    simp only [Node.noBol, Bool.and_eq_true] at hnb
    simp only [Node.run, Node.lang]
    have hK : RestOnly (fun st2 => b.run st2 k) := by
      intro s1 s2 hs
      have h1 := ihb hnb.2 s1 k hk
      have h2 := ihb hnb.2 s2 k hk
      rw [hs] at h1
      exact Bool.eq_iff_iff.2 (h1.trans h2.symm)
    rw [iha hnb.1 st _ hK]
    constructor
    · rintro ⟨st1, h1, h2⟩
      obtain ⟨st2, h3, h4⟩ := (ihb hnb.2 st1 k hk).1 h2
      exact ⟨st2, ⟨st1.rest, h1, h3⟩, h4⟩
    · rintro ⟨st2, ⟨m, h1, h3⟩, h4⟩
      exact ⟨⟨0, m, []⟩, h1, (ihb hnb.2 ⟨0, m, []⟩ k hk).2 ⟨st2, h3, h4⟩⟩
  | alt a b iha ihb =>
    intro hnb st k hk
    simp only [Node.noBol, Bool.and_eq_true] at hnb
    simp only [Node.run, Node.lang]
    have ha := iha hnb.1 st k hk
    have hb := ihb hnb.2 st k hk
    constructor
    · intro h
      split at h
      · rename_i r hr
        obtain ⟨st2, h1, h2⟩ := ha.1 (by rw [hr]; rfl)
        exact ⟨st2, Or.inl h1, h2⟩
      · obtain ⟨st2, h1, h2⟩ := hb.1 h
        exact ⟨st2, Or.inr h1, h2⟩
    · rintro ⟨st2, h1 | h1, h2⟩
      · have := ha.2 ⟨st2, h1, h2⟩
        split
        · rfl
        · rename_i hnone
          rw [hnone] at this
          exact absurd this (by simp)
      · have := hb.2 ⟨st2, h1, h2⟩
        split
        · rfl
        · exact this
  | star a iha =>
    intro hnb st k hk
    simp only [Node.noBol] at hnb
    simp only [Node.run, Node.lang]
    exact starLoop_isSome a.lang _ (fun s k2 hk2 => iha hnb s k2 hk2) _ st k (by omega) hk
  | plus a iha =>
    intro hnb st k hk
    simp only [Node.noBol] at hnb
    simp only [Node.run, Node.lang]
    have hloop := fun (s : MatchState) =>
      starLoop_isSome a.lang _ (fun s k2 hk2 => iha hnb s k2 hk2) (s.rest.length + 1) s k
        (by omega) hk
    have hK : RestOnly (fun st2 : MatchState =>
        starLoop (fun s k2 => a.run s k2) (st2.rest.length + 1) st2 k) := by
      intro s1 s2 hs
      have h1 := hloop s1
      have h2 := hloop s2
      rw [hs] at h1
      simp only [hs]
      exact Bool.eq_iff_iff.2 (h1.trans h2.symm)
    rw [iha hnb st _ hK]
    constructor
    · rintro ⟨st1, h1, h2⟩
      obtain ⟨st2, h3, h4⟩ := (hloop st1).1 h2
      exact ⟨st2, ⟨st1.rest, h1, h3⟩, h4⟩
    · rintro ⟨st2, ⟨m, h1, h3⟩, h4⟩
      exact ⟨⟨0, m, []⟩, h1, (hloop ⟨0, m, []⟩).2 ⟨st2, h3, h4⟩⟩
  | quest a iha =>
    intro hnb st k hk
    simp only [Node.noBol] at hnb
    simp only [Node.run, Node.lang]
    have ha := iha hnb st k hk
    constructor
    · intro h
      split at h
      · rename_i r hr
        obtain ⟨st2, h1, h2⟩ := ha.1 (by rw [hr]; rfl)
        exact ⟨st2, Or.inl h1, h2⟩
      · exact ⟨st, Or.inr rfl, h⟩
    · rintro ⟨st2, h1 | h1, h2⟩
      · have := ha.2 ⟨st2, h1, h2⟩
        split
        · rfl
        · rename_i hnone
          rw [hnone] at this
          exact absurd this (by simp)
      · split
        · rfl
        · rw [← h2]
          exact hk _ _ h1.symm
  | cap i a iha =>
    intro hnb st k hk
    simp only [Node.noBol] at hnb
    simp only [Node.run, Node.lang]
    have hK : RestOnly (fun st2 : MatchState =>
        k { st2 with caps := st2.caps.set i (some (st.pos, st2.pos)) }) := by
      intro s1 s2 hs
      exact hk _ _ hs
    rw [iha hnb st _ hK]
    constructor
    · rintro ⟨st2, h1, h2⟩
      exact ⟨{ st2 with caps := st2.caps.set i (some (st.pos, st2.pos)) }, h1, h2⟩
    · rintro ⟨st2, h1, h2⟩
      refine ⟨st2, h1, ?_⟩
      rw [← h2]
      exact hk _ _ rfl

/-! ### The language of `metricLineRE` -/

theorem metricLineRE_eq : metricLineRE = ⟨.cat .bol metricLineBody, 4⟩ := by decide

theorem runeWidth_ascii {c : Nat} (t : GoString) (h : c < 128) : runeWidth (c :: t) = 1 := by
  simp [runeWidth, h]

theorem lang_lit {b : Nat} (hb : b < 128) (r r2 : GoString) :
    (Node.lit b).lang r r2 ↔ r = b :: r2 := by
  simp only [Node.lang]
  cases r with
  | nil => simp
  | cons c t =>
    simp only [List.head?_cons, Option.some.injEq, List.cons.injEq]
    constructor
    · rintro ⟨h1, h2⟩
      subst h1
      rw [runeWidth_ascii t hb] at h2
      exact ⟨rfl, by simpa using h2.symm⟩
    · rintro ⟨h1, h2⟩
      subst h1
      rw [runeWidth_ascii t hb]
      exact ⟨rfl, by simpa using h2.symm⟩

theorem classMatches_pos_lt {ranges : List (Nat × Nat)} {c : Nat}
    (h : classMatches false ranges c = true) : c < 128 := by
  unfold classMatches at h
  split_ifs at h with hc
  exact hc

theorem lang_cls (ranges : List (Nat × Nat)) (r r2 : GoString) :
    (Node.cls false ranges).lang r r2 ↔
      ∃ c, classMatches false ranges c = true ∧ r = c :: r2 := by
  simp only [Node.lang]
  cases r with
  | nil => simp
  | cons c t =>
    simp only [List.head?_cons, Option.some.injEq, List.cons.injEq, exists_eq_left']
    constructor
    · rintro ⟨h1, h2⟩
      rw [runeWidth_ascii t (classMatches_pos_lt h1)] at h2
      exact ⟨c, h1, rfl, by simpa using h2.symm⟩
    · rintro ⟨d, h1, h2, h3⟩
      subst h2
      rw [runeWidth_ascii t (classMatches_pos_lt h1)]
      exact ⟨h1, by simpa using h3.symm⟩

theorem classMatches_identStart (c : Nat) :
    classMatches false [(97, 122), (65, 90), (95, 95)] c = isIdentStart c := by
  unfold classMatches isIdentStart
  have h95 : (decide (95 ≤ c) && decide (c ≤ 95)) = decide (c = 95) := by
    rw [Bool.eq_iff_iff]
    simp only [Bool.and_eq_true, decide_eq_true_eq]
    omega
  by_cases hc : c < 128
  · simp [hc, h95, Bool.or_assoc]
  · simp only [hc, if_false]
    have h1 : ¬ c ≤ 122 := by omega
    have h2 : ¬ c ≤ 90 := by omega
    have h3 : ¬ c = 95 := by omega
    simp [h1, h2, h3]

theorem classMatches_identByte (c : Nat) :
    classMatches false [(97, 122), (65, 90), (48, 57), (95, 95)] c = isIdentByte c := by
  unfold classMatches isIdentByte
  have h95 : (decide (95 ≤ c) && decide (c ≤ 95)) = decide (c = 95) := by
    rw [Bool.eq_iff_iff]
    simp only [Bool.and_eq_true, decide_eq_true_eq]
    omega
  by_cases hc : c < 128
  · simp [hc, h95, Bool.or_assoc]
  · simp only [hc, if_false]
    have h1 : ¬ c ≤ 122 := by omega
    have h2 : ¬ c ≤ 90 := by omega
    have h3 : ¬ c = 95 := by omega
    have h4 : ¬ c ≤ 57 := by omega
    simp [h1, h2, h3, h4]

theorem lang_cat (a b : Node) (r r2 : GoString) :
    (Node.cat a b).lang r r2 ↔ ∃ m, a.lang r m ∧ b.lang m r2 := Iff.rfl

theorem lang_alt (a b : Node) (r r2 : GoString) :
    (Node.alt a b).lang r r2 ↔ a.lang r r2 ∨ b.lang r r2 := Iff.rfl

theorem lang_plus (a : Node) (r r2 : GoString) :
    (Node.plus a).lang r r2 ↔ ∃ m, a.lang r m ∧ StarL a.lang m r2 := Iff.rfl

theorem lang_quest (a : Node) (r r2 : GoString) :
    (Node.quest a).lang r r2 ↔ a.lang r r2 ∨ r2 = r := Iff.rfl

theorem lang_cap (i : Nat) (a : Node) (r r2 : GoString) :
    (Node.cap i a).lang r r2 ↔ a.lang r r2 := Iff.rfl

theorem lang_eol (r r2 : GoString) : Node.eol.lang r r2 ↔ r = [] ∧ r2 = [] := Iff.rfl

/-- The unit `-?[a-zA-Z0-9_]` of an identifier. -/
theorem lang_identUnit (i : Nat) (r r2 : GoString) :
    (Node.cap i (.cat (.quest (.lit 45))
        (.cls false [(97, 122), (65, 90), (48, 57), (95, 95)]))).lang r r2 ↔
      ∃ c, isIdentByte c = true ∧ (r = c :: r2 ∨ r = 45 :: c :: r2) := by
  simp only [lang_cap, lang_cat, lang_quest, lang_lit (show 45 < 128 by decide), lang_cls,
    classMatches_identByte]
  constructor
  · rintro ⟨m, h1 | h1, c, hc, h2⟩
    · exact ⟨c, hc, Or.inr (by rw [h1, h2])⟩
    · exact ⟨c, hc, Or.inl (by rw [← h1, h2])⟩
  · rintro ⟨c, hc, h | h⟩
    · exact ⟨r, Or.inr rfl, c, hc, h⟩
    · exact ⟨c :: r2, Or.inl h, c, hc, rfl⟩

theorem isIdentByte_ne_dash {c : Nat} (h : isIdentByte c = true) : c ≠ 45 := by
  intro e
  subst e
  exact absurd h (by decide)

theorem identUnits_cons {c : Nat} {u : GoString} (hc : isIdentByte c = true)
    (hu : identUnits u = true) : identUnits (c :: u) = true := by
  cases u with
  | nil => simpa [identUnits] using hc
  | cons d rest =>
    rw [identUnits, if_neg (isIdentByte_ne_dash hc), hc, hu]
    rfl

theorem identUnits_dash {c : Nat} {u : GoString} (hc : isIdentByte c = true)
    (hu : identUnits u = true) : identUnits (45 :: c :: u) = true := by
  rw [identUnits, if_pos rfl, hc, hu]
  rfl

/-- What `identUnits` accepts, by its first unit. -/
theorem identUnits_cases {u : GoString} (h : identUnits u = true) :
    u = [] ∨ ∃ c rest, isIdentByte c = true ∧ identUnits rest = true ∧
      (u = c :: rest ∨ u = 45 :: c :: rest) := by
  match u, h with
  | [], _ => exact Or.inl rfl
  | [c], h =>
    simp only [identUnits] at h
    exact Or.inr ⟨c, [], h, rfl, Or.inl rfl⟩
  | c :: d :: rest, h =>
    rw [identUnits] at h
    split_ifs at h with hc
    · simp only [Bool.and_eq_true] at h
      subst hc
      exact Or.inr ⟨d, rest, h.1, h.2, Or.inr rfl⟩
    · simp only [Bool.and_eq_true] at h
      exact Or.inr ⟨c, d :: rest, h.1, h.2, Or.inl rfl⟩

theorem starL_identUnit (i : Nat) (m r2 : GoString) :
    StarL (Node.cap i (.cat (.quest (.lit 45))
        (.cls false [(97, 122), (65, 90), (48, 57), (95, 95)]))).lang m r2 ↔
      ∃ u, identUnits u = true ∧ m = u ++ r2 := by
  constructor
  · intro h
    induction h with
    | refl r => exact ⟨[], rfl, rfl⟩
    | step hR _ _ ih =>
      obtain ⟨u, hu, hm⟩ := ih
      obtain ⟨c, hc, h | h⟩ := (lang_identUnit i _ _).1 hR
      · exact ⟨c :: u, identUnits_cons hc hu, by rw [h, hm]; rfl⟩
      · exact ⟨45 :: c :: u, identUnits_dash hc hu, by rw [h, hm]; rfl⟩
  · rintro ⟨u, hu, hm⟩
    subst hm
    have key : ∀ (n : Nat) (u : GoString), u.length = n → identUnits u = true →
        StarL (Node.cap i (.cat (.quest (.lit 45))
          (.cls false [(97, 122), (65, 90), (48, 57), (95, 95)]))).lang (u ++ r2) r2 := by
      intro n
      induction n using Nat.strong_induction_on with
      | _ n ih =>
        intro u hn hu
        rcases identUnits_cases hu with h | ⟨c, rest, hc, hrest, h | h⟩
        · subst h
          exact StarL.refl _
        · subst h
          exact StarL.step ((lang_identUnit i _ _).2 ⟨c, hc, Or.inl rfl⟩) (by simp)
            (ih rest.length (by rw [← hn]; simp) rest rfl hrest)
        · subst h
          exact StarL.step ((lang_identUnit i _ _).2 ⟨c, hc, Or.inr rfl⟩)
            (by
              show (rest ++ r2).length < (45 :: c :: (rest ++ r2)).length
              simp only [List.length_cons]
              omega)
            (ih rest.length (by rw [← hn]; simp only [List.length_cons]; omega) rest rfl hrest)
    exact key _ u rfl hu

/-- One or more units. -/
theorem lang_identTail (i : Nat) (m r2 : GoString) :
    (Node.plus (.cap i (.cat (.quest (.lit 45))
        (.cls false [(97, 122), (65, 90), (48, 57), (95, 95)])))).lang m r2 ↔
      ∃ u, u ≠ [] ∧ identUnits u = true ∧ m = u ++ r2 := by
  rw [lang_plus]
  constructor
  · rintro ⟨m2, h1, h2⟩
    obtain ⟨u, hu, hm⟩ := (starL_identUnit i _ _).1 h2
    obtain ⟨c, hc, h | h⟩ := (lang_identUnit i _ _).1 h1
    · exact ⟨c :: u, by simp, identUnits_cons hc hu, by rw [h, hm]; rfl⟩
    · exact ⟨45 :: c :: u, by simp, identUnits_dash hc hu, by rw [h, hm]; rfl⟩
  · rintro ⟨u, hne, hu, hm⟩
    rcases identUnits_cases hu with h | ⟨c, rest, hc, hrest, h | h⟩
    · exact absurd h hne
    · subst h
      exact ⟨rest ++ r2, (lang_identUnit i _ _).2 ⟨c, hc, Or.inl hm⟩,
        (starL_identUnit i _ _).2 ⟨rest, hrest, rfl⟩⟩
    · subst h
      exact ⟨rest ++ r2, (lang_identUnit i _ _).2 ⟨c, hc, Or.inr hm⟩,
        (starL_identUnit i _ _).2 ⟨rest, hrest, rfl⟩⟩

/-- The compiled `statsdMetricRE` matches the identifier tokens. -/
theorem lang_identNode (i : Nat) (r r2 : GoString) :
    (identNode i).lang r r2 ↔ ∃ s, isIdentToken s = true ∧ r = s ++ r2 := by
  unfold identNode
  rw [lang_cat]
  simp only [lang_cls, classMatches_identStart, lang_identTail]
  constructor
  · rintro ⟨m, ⟨c, hc, hr⟩, u, hne, hu, hm⟩
    refine ⟨c :: u, ?_, by rw [hr, hm]; rfl⟩
    cases u with
    | nil => exact absurd rfl hne
    | cons d rest => simp [isIdentToken, hc, hu]
  · rintro ⟨s, hs, hr⟩
    cases s with
    | nil => exact absurd hs (by simp [isIdentToken])
    | cons c u =>
      simp only [isIdentToken, Bool.and_eq_true, Bool.not_eq_true', List.isEmpty_eq_false] at hs
      exact ⟨u ++ r2, ⟨c, hs.1.1, hr⟩, u, hs.1.2, hs.2, rfl⟩

/-- The last segment of `metricLineRE`. -/
theorem lang_lastSegment (r r2 : GoString) :
    (Node.cap 3 (.alt (.lit 42) (identNode 4))).lang r r2 ↔
      ∃ s, isGlobSegment s = true ∧ r = s ++ r2 := by
  rw [lang_cap, lang_alt, lang_lit (show 42 < 128 by decide), lang_identNode]
  constructor
  · rintro (h | ⟨s, hs, h⟩)
    · exact ⟨[42], by decide, h⟩
    · exact ⟨s, by simp [isGlobSegment, hs], h⟩
  · rintro ⟨s, hs, h⟩
    simp only [isGlobSegment, Bool.or_eq_true, decide_eq_true_eq] at hs
    rcases hs with hs | hs
    · left
      rw [h, hs]
      rfl
    · exact Or.inr ⟨s, hs, h⟩

/-- A segment of `metricLineRE` with its dot. -/
theorem lang_dottedSegment (r r2 : GoString) :
    (Node.cap 1 (.alt (.cat (.lit 42) (.lit 46))
      (.cat (.cls false [(97, 122), (65, 90), (95, 95)])
        (.cat
          (.plus (.cap 2 (.cat (.quest (.lit 45))
            (.cls false [(97, 122), (65, 90), (48, 57), (95, 95)]))))
          (.lit 46))))).lang r r2 ↔
      ∃ s, isGlobSegment s = true ∧ r = s ++ 46 :: r2 := by
  simp only [lang_cap, lang_alt, lang_cat, lang_lit (show 42 < 128 by decide),
    lang_lit (show 46 < 128 by decide), lang_cls, classMatches_identStart, lang_identTail]
  constructor
  · rintro (⟨m, h1, h2⟩ | ⟨m, ⟨c, hc, hr⟩, m2, ⟨u, hne, hu, hm⟩, h3⟩)
    · exact ⟨[42], by decide, by rw [h1, h2]; rfl⟩
    · refine ⟨c :: u, ?_, by rw [hr, hm, h3]; rfl⟩
      cases u with
      | nil => exact absurd rfl hne
      | cons d rest => simp [isGlobSegment, isIdentToken, hc, hu]
  · rintro ⟨s, hs, h⟩
    simp only [isGlobSegment, Bool.or_eq_true, decide_eq_true_eq] at hs
    rcases hs with hs | hs
    · left
      exact ⟨46 :: r2, by rw [h, hs]; rfl, rfl⟩
    · right
      cases s with
      | nil => exact absurd hs (by simp [isIdentToken])
      | cons c u =>
        simp only [isIdentToken, Bool.and_eq_true, Bool.not_eq_true',
          List.isEmpty_eq_false] at hs
        exact ⟨u ++ 46 :: r2, ⟨c, hs.1.1, h⟩, 46 :: r2, ⟨u, hs.1.2, hs.2, rfl⟩, rfl⟩

/-- Segments, each with a dot after it. -/
theorem starL_dotted (R : GoString → GoString → Prop)
    (hR : ∀ r r2, R r r2 ↔ ∃ s, isGlobSegment s = true ∧ r = s ++ 46 :: r2)
    (m r2 : GoString) :
    StarL R m r2 ↔ ∃ segs : List GoString, (∀ s ∈ segs, isGlobSegment s = true) ∧
      m = (segs.map (fun s => s ++ [46])).flatten ++ r2 := by
  constructor
  · intro h
    induction h with
    | refl r => exact ⟨[], by simp, by simp⟩
    | step hstep _ _ ih =>
      obtain ⟨segs, hsegs, hm⟩ := ih
      obtain ⟨s, hs, hr⟩ := (hR _ _).1 hstep
      refine ⟨s :: segs, ?_, ?_⟩
      · intro x hx
        rcases List.mem_cons.1 hx with hx | hx
        · rw [hx]; exact hs
        · exact hsegs x hx
      · rw [hr, hm]
        simp
  · rintro ⟨segs, hsegs, hm⟩
    subst hm
    induction segs with
    | nil => exact StarL.refl _
    | cons s rest ih =>
      have h1 := ih (fun x hx => hsegs x (List.mem_cons_of_mem _ hx))
      refine StarL.step ((hR _ _).2 ⟨s, hsegs s (List.mem_cons_self _ _), ?_⟩) ?_ h1
      · simp
      · simp only [List.map_cons, List.flatten_cons, List.append_assoc, List.length_append,
          List.length_cons, List.length_nil]
        omega

/-- The texts `metricLineRE` matches after its `^`. -/
theorem lang_metricLineBody (g : GoString) :
    (∃ r2, metricLineBody.lang g r2) ↔
      ∃ (segs : List GoString) (last : GoString), segs ≠ [] ∧
        (∀ s ∈ segs, isGlobSegment s = true) ∧ isGlobSegment last = true ∧
        g = (segs.map (fun s => s ++ [46])).flatten ++ last := by
  unfold metricLineBody
  simp only [lang_cat, lang_plus, lang_eol, lang_lastSegment]
  constructor
  · rintro ⟨r2, m, ⟨m0, h0, hstar⟩, m2, ⟨last, hlast, hm⟩, hm2, -⟩
    obtain ⟨s, hs, hg⟩ := (lang_dottedSegment _ _).1 h0
    obtain ⟨segs, hsegs, hm0⟩ := (starL_dotted _ lang_dottedSegment _ _).1 hstar
    refine ⟨s :: segs, last, by simp, ?_, hlast, ?_⟩
    · intro x hx
      rcases List.mem_cons.1 hx with hx | hx
      · rw [hx]; exact hs
      · exact hsegs x hx
    · rw [hg, hm0, hm, hm2]
      simp
  · rintro ⟨segs, last, hne, hsegs, hlast, hg⟩
    cases segs with
    | nil => exact absurd rfl hne
    | cons s rest =>
      refine ⟨[], last, ⟨(rest.map (fun s => s ++ [46])).flatten ++ last, ?_, ?_⟩, [],
        ⟨last, hlast, by simp⟩, rfl, rfl⟩
      · exact (lang_dottedSegment _ _).2 ⟨s, hsegs s (List.mem_cons_self _ _), by
          rw [hg]; simp⟩
      · exact (starL_dotted _ lang_dottedSegment _ _).2
          ⟨rest, fun x hx => hsegs x (List.mem_cons_of_mem _ hx), rfl⟩

/-! ### Segments -/

/-- Joining the parts of a split gives the text back. -/
theorem intercalate_splitByte (sep : Nat) (s : GoString) :
    List.intercalate [sep] (splitByte sep s) = s := by
  induction s with
  | nil => rfl
  | cons b rest ih =>
    simp only [splitByte]
    split_ifs with hb
    · obtain ⟨h, t, ht⟩ := List.exists_cons_of_ne_nil (splitByte_ne_nil sep rest)
      rw [ht, intercalate_cons_cons, ← ht, ih, hb]
      rfl
    · split
      · rename_i hnil
        exact absurd hnil (splitByte_ne_nil sep rest)
      · rename_i h t ht
        rw [← cons_intercalate, ← ht, ih]

/-- No part of a split holds the separator. -/
theorem splitByte_no_sep (sep : Nat) (s : GoString) : ∀ p ∈ splitByte sep s, sep ∉ p := by
  induction s with
  | nil => simp [splitByte]
  | cons b rest ih =>
    simp only [splitByte]
    split_ifs with hb
    · intro p hp
      rcases List.mem_cons.1 hp with hp | hp
      · rw [hp]; simp
      · exact ih p hp
    · split
      · rename_i hnil
        exact absurd hnil (splitByte_ne_nil sep rest)
      · rename_i h t ht
        rw [ht] at ih
        intro p hp
        rcases List.mem_cons.1 hp with hp | hp
        · rw [hp]
          simp only [List.mem_cons, not_or]
          exact ⟨fun e => hb e.symm, ih h (List.mem_cons_self _ _)⟩
        · exact ih p (List.mem_cons_of_mem _ hp)

theorem intercalate_snoc (segs : List GoString) (last : GoString) :
    List.intercalate [46] (segs ++ [last])
      = (segs.map (fun s => s ++ [46])).flatten ++ last := by
  induction segs with
  | nil => simp [intercalate_singleton]
  | cons s rest ih =>
    cases rest with
    | nil => simp [intercalate_cons_cons, intercalate_singleton]
    | cons y zs =>
      rw [List.cons_append, List.cons_append, intercalate_cons_cons, ← List.cons_append, ih]
      simp

theorem identUnits_bytes : ∀ {u : GoString}, identUnits u = true →
    ∀ b ∈ u, b = 45 ∨ isIdentByte b = true
  | [], _, b, hb => absurd hb (by simp)
  | [c], h, b, hb => by
    simp only [identUnits] at h
    simp only [List.mem_singleton] at hb
    rw [hb]
    exact Or.inr h
  | c :: d :: rest, h, b, hb => by
    rw [identUnits] at h
    split_ifs at h with hc
    · simp only [Bool.and_eq_true] at h
      rcases List.mem_cons.1 hb with hb | hb
      · exact Or.inl (hb.trans hc)
      · rcases List.mem_cons.1 hb with hb | hb
        · rw [hb]; exact Or.inr h.1
        · exact identUnits_bytes h.2 b hb
    · simp only [Bool.and_eq_true] at h
      rcases List.mem_cons.1 hb with hb | hb
      · rw [hb]; exact Or.inr h.1
      · exact identUnits_bytes h.2 b hb

theorem isIdentStart_identByte {c : Nat} (h : isIdentStart c = true) :
    isIdentByte c = true := by
  simp only [isIdentStart, Bool.or_eq_true, Bool.and_eq_true, decide_eq_true_eq] at h
  simp only [isIdentByte, Bool.or_eq_true, Bool.and_eq_true, decide_eq_true_eq]
  omega

/-- The bytes of a glob segment. -/
theorem isGlobSegment_bytes {s : GoString} (h : isGlobSegment s = true) :
    ∀ b ∈ s, b = 42 ∨ b = 45 ∨ isIdentByte b = true := by
  simp only [isGlobSegment, Bool.or_eq_true, decide_eq_true_eq] at h
  rcases h with h | h
  · subst h
    intro b hb
    left
    simpa [ascii] using hb
  · cases s with
    | nil => exact absurd h (by simp [isIdentToken])
    | cons c u =>
      simp only [isIdentToken, Bool.and_eq_true] at h
      intro b hb
      right
      rcases List.mem_cons.1 hb with hb | hb
      · rw [hb]; exact Or.inr (isIdentStart_identByte h.1.1)
      · exact identUnits_bytes h.2 b hb

theorem isGlobSegment_no_dot {s : GoString} (h : isGlobSegment s = true) : 46 ∉ s := by
  intro hm
  rcases isGlobSegment_bytes h 46 hm with h1 | h1 | h1
  · exact absurd h1 (by decide)
  · exact absurd h1 (by decide)
  · exact absurd h1 (by decide)

/-- The glob patterns, by their segments. -/
theorem isGlobPattern_iff (g : GoString) :
    isGlobPattern g = true ↔
      ∃ (segs : List GoString) (last : GoString), segs ≠ [] ∧
        (∀ s ∈ segs, isGlobSegment s = true) ∧ isGlobSegment last = true ∧
        g = (segs.map (fun s => s ++ [46])).flatten ++ last := by
  unfold isGlobPattern
  simp only [Bool.and_eq_true, decide_eq_true_eq, List.all_eq_true]
  constructor
  · rintro ⟨hlen, hall⟩
    have hne := splitByte_ne_nil 46 g
    have hparts := List.dropLast_append_getLast hne
    refine ⟨(splitByte 46 g).dropLast, (splitByte 46 g).getLast hne, ?_,
      fun s hs => hall s (List.mem_of_mem_dropLast hs),
      hall _ (List.getLast_mem hne), ?_⟩
    · intro h
      have : ((splitByte 46 g).dropLast).length = 0 := by rw [h]; rfl
      rw [List.length_dropLast] at this
      omega
    · rw [← intercalate_snoc, hparts, intercalate_splitByte]
  · rintro ⟨segs, last, hne, hsegs, hlast, hg⟩
    have hsplit : splitByte 46 g = segs ++ [last] := by
      rw [hg, ← intercalate_snoc]
      refine splitByte_intercalate 46 _ (by simp) ?_
      intro c hc
      rcases List.mem_append.1 hc with hc | hc
      · exact isGlobSegment_no_dot (hsegs c hc)
      · rw [List.mem_singleton.1 hc]
        exact isGlobSegment_no_dot hlast
    rw [hsplit]
    constructor
    · cases segs with
      | nil => exact absurd rfl hne
      | cons s rest => simp
    · intro x hx
      rcases List.mem_append.1 hx with hx | hx
      · exact hsegs x hx
      · rw [List.mem_singleton.1 hx]
        exact hlast

/-! ### Anchored patterns -/

theorem search_bol_none (re : Regexp) (X : Node) (hre : re.expr = .cat .bol X) :
    ∀ (s : GoString) (skip pos : Nat), 0 < pos → re.search skip pos s = none
  | [], skip, pos, h => by
    rw [Regexp.search, Regexp.matchAt, hre]
    simp only [Node.run]
    rw [if_neg (by omega)]
  | b :: rest, skip + 1, pos, h => by
    rw [Regexp.search]
    exact search_bol_none re X hre rest skip (pos + 1) (by omega)
  | b :: rest, 0, pos, h => by
    rw [Regexp.search, Regexp.matchAt, hre]
    simp only [Node.run]
    rw [if_neg (by omega)]
    exact search_bol_none re X hre rest _ (pos + 1) (by omega)

/-- A pattern `^X` matches a text exactly when `X`, read as a language, matches a front part
of it. -/
theorem matchString_anchored (re : Regexp) (X : Node) (hre : re.expr = .cat .bol X)
    (hX : X.noBol = true) (s : GoString) :
    re.MatchString s = true ↔ ∃ r2, X.lang s r2 := by
  have hk : RestOnly (fun st : MatchState => some (st.caps.set 0 (some (0, st.pos)))) := by
    intro s1 s2 _
    rfl
  have hat : (re.matchAt 0 s).isSome = true ↔ ∃ r2, X.lang s r2 := by
    rw [Regexp.matchAt, hre]
    simp only [Node.run, if_true]
    rw [run_isSome X hX _ _ hk]
    constructor
    · rintro ⟨st2, h, -⟩
      exact ⟨st2.rest, h⟩
    · rintro ⟨r2, h⟩
      exact ⟨⟨0, r2, []⟩, h, rfl⟩
  rw [← hat]
  unfold Regexp.MatchString
  cases s with
  | nil => rw [Regexp.search]
  | cons b rest =>
    rw [Regexp.search]
    cases re.matchAt 0 (b :: rest) with
    | some c => rfl
    | none =>
      simp only []
      rw [search_bol_none re X hre rest _ (0 + 1) (by omega)]

/-- The pattern `metricLineRE` matches the glob patterns of two or more segments. -/
theorem metricLineRE_matchString (g : GoString) :
    metricLineRE.MatchString g = isGlobPattern g := by
  rw [Bool.eq_iff_iff, isGlobPattern_iff, ← lang_metricLineBody]
  exact matchString_anchored metricLineRE metricLineBody (by rw [metricLineRE_eq]) (by decide) g

/-! ### Compiling a glob -/

theorem replaceByte_append (old : Nat) (new a b : GoString) :
    replaceByte old new (a ++ b) = replaceByte old new a ++ replaceByte old new b := by
  simp [replaceByte]

theorem replaceByte_cons (old : Nat) (new : GoString) (c : Nat) (s : GoString) :
    replaceByte old new (c :: s) = (if c = old then new else [c]) ++ replaceByte old new s := by
  simp [replaceByte]

/-- The translation of a glob, byte by byte. -/
theorem translate_cons (c : Nat) (g : GoString) :
    replaceByte 42 (ascii "([^.]*)") (replaceByte 46 (ascii "\\.") (c :: g))
      = (if c = 46 then ascii "\\." else if c = 42 then ascii "([^.]*)" else [c])
        ++ replaceByte 42 (ascii "([^.]*)") (replaceByte 46 (ascii "\\.") g) := by
  rw [replaceByte_cons, replaceByte_append]
  congr 1
  split_ifs with h1 h2
  · rfl
  · subst h2
    rfl
  · simp [replaceByte, h2]

theorem parse_escaped_dot (p : ParserState) (hp : p.mode = .normal) :
    (ascii "\\.").foldlM parseStep p = some (pushAll p [.lit 46] 0) := by
  obtain ⟨stack, cur, ncap, mode⟩ := p
  simp only at hp
  subst hp
  rfl

theorem parse_star_group (p : ParserState) (hp : p.mode = .normal) :
    (ascii "([^.]*)").foldlM parseStep p
      = some (pushAll p [.cap (p.ncap + 1) (.star (.cls true [(46, 46)]))] 1) := by
  obtain ⟨stack, cur, ncap, mode⟩ := p
  simp only at hp
  subst hp
  rfl

theorem parse_plain (p : ParserState) (hp : p.mode = .normal) (c : Nat)
    (hc : c = 45 ∨ isIdentByte c = true) :
    parseStep p c = some (pushAll p [.lit c] 0) := by
  obtain ⟨stack, cur, ncap, mode⟩ := p
  simp only at hp
  subst hp
  have hr : c = 45 ∨ (97 ≤ c ∧ c ≤ 122) ∨ (65 ≤ c ∧ c ≤ 90) ∨ (48 ≤ c ∧ c ≤ 57) ∨ c = 95 := by
    rcases hc with hc | hc
    · exact Or.inl hc
    · simp only [isIdentByte, Bool.or_eq_true, Bool.and_eq_true, decide_eq_true_eq] at hc
      omega
  simp only [parseStep, normalStep]
  rw [if_neg (by omega), if_neg (by omega), if_neg (by omega), if_neg (by omega),
    if_neg (by omega), if_neg (by omega), if_neg (by omega), if_neg (by omega),
    if_neg (by omega), if_neg (by omega)]
  rfl

theorem pushAll_nil (p : ParserState) (hp : p.mode = .normal) : pushAll p [] 0 = p := by
  obtain ⟨stack, cur, ncap, mode⟩ := p
  simp only at hp
  subst hp
  rfl

theorem pushAll_pushAll (p : ParserState) (a : Node) (j : Nat) (nodes : List Node) (n : Nat) :
    pushAll (pushAll p [a] j) nodes n = pushAll p (a :: nodes) (j + n) := by
  simp [pushAll, Nat.add_assoc]

/-- The parser reads the translation of a glob as one piece for each byte of the glob. -/
theorem parse_translation :
    ∀ (g : GoString) (p : ParserState), p.mode = .normal →
      (∀ b ∈ g, b = 42 ∨ b = 46 ∨ b = 45 ∨ isIdentByte b = true) →
      (replaceByte 42 (ascii "([^.]*)") (replaceByte 46 (ascii "\\.") g)).foldlM parseStep p
        = some (pushAll p (globNodes p.ncap g) (g.count 42))
  | [], p, hp, _ => by
    rw [show replaceByte 42 (ascii "([^.]*)") (replaceByte 46 (ascii "\\.") []) = [] from rfl]
    simp only [List.foldlM_nil, globNodes, List.count_nil]
    rw [pushAll_nil p hp]
    rfl
  | c :: rest, p, hp, hg => by
    have hrest : ∀ b ∈ rest, b = 42 ∨ b = 46 ∨ b = 45 ∨ isIdentByte b = true :=
      fun b hb => hg b (List.mem_cons_of_mem _ hb)
    rw [translate_cons, List.foldlM_append]
    by_cases h46 : c = 46
    · subst h46
      rw [if_pos rfl, parse_escaped_dot p hp]
      simp only [Option.bind_eq_bind, Option.some_bind]
      rw [parse_translation rest _ rfl hrest, pushAll_pushAll]
      simp [globNodes, pushAll]
    · rw [if_neg h46]
      by_cases h42 : c = 42
      · subst h42
        rw [if_pos rfl, parse_star_group p hp]
        simp only [Option.bind_eq_bind, Option.some_bind]
        rw [parse_translation rest _ rfl hrest, pushAll_pushAll]
        simp [globNodes, pushAll, Nat.add_comm]
      · rw [if_neg h42]
        have hc : c = 45 ∨ isIdentByte c = true := by
          rcases hg c (List.mem_cons_self _ _) with h | h | h | h
          · exact absurd h h42
          · exact absurd h h46
          · exact Or.inl h
          · exact Or.inr h
        rw [List.foldlM_cons, parse_plain p hp c hc]
        simp only [Option.bind_eq_bind, Option.some_bind, List.foldlM_nil]
        have : (pure (pushAll p [Node.lit c] 0) : Option ParserState)
            = some (pushAll p [Node.lit c] 0) := rfl
        rw [this]
        simp only [Option.some_bind]
        rw [parse_translation rest _ rfl hrest, pushAll_pushAll]
        have hne : ¬ (42 = c) := fun e => h42 e.symm
        simp [globNodes, pushAll, h42, hne]

/-- The translation of a glob over the bytes of glob patterns compiles, to `globRegexp`. -/
theorem glob_compiles (g : GoString)
    (hg : ∀ b ∈ g, b = 42 ∨ b = 46 ∨ b = 45 ∨ isIdentByte b = true) :
    regexpCompile (ascii "^" ++
        replaceByte 42 (ascii "([^.]*)") (replaceByte 46 (ascii "\\.") g) ++ ascii "$")
      = some (globRegexp g) := by
  unfold regexpCompile
  rw [List.foldlM_append, List.foldlM_append]
  have h1 : (ascii "^").foldlM parseStep ⟨[], ⟨0, [], []⟩, 0, .normal⟩
      = some (pushAll ⟨[], ⟨0, [], []⟩, 0, .normal⟩ [.bol] 0) := rfl
  rw [h1]
  simp only [Option.bind_eq_bind, Option.some_bind]
  rw [parse_translation g _ rfl hg]
  simp only [Option.some_bind]
  have h2 : ∀ p : ParserState, p.mode = .normal →
      (ascii "$").foldlM parseStep p = some (pushAll p [.eol] 0) := by
    intro p hp
    obtain ⟨stack, cur, ncap, mode⟩ := p
    simp only at hp
    subst hp
    rfl
  rw [h2 _ rfl]
  simp only [Option.some_bind, pushAll_pushAll]
  simp [pushAll, parseFinish, Frame.node, Frame.seq, Node.alts, globRegexp, Function.comp_def]

/-- The bytes of a glob pattern. -/
theorem isGlobPattern_bytes {g : GoString} (h : isGlobPattern g = true) :
    ∀ b ∈ g, b = 42 ∨ b = 46 ∨ b = 45 ∨ isIdentByte b = true := by
  obtain ⟨segs, last, -, hsegs, hlast, hg⟩ := (isGlobPattern_iff g).1 h
  intro b hb
  rw [hg] at hb
  rcases List.mem_append.1 hb with hb | hb
  · obtain ⟨l, hl, hbl⟩ := List.mem_flatten.1 hb
    obtain ⟨s, hs, rfl⟩ := List.mem_map.1 hl
    rcases List.mem_append.1 hbl with hbs | hbs
    · rcases isGlobSegment_bytes (hsegs s hs) b hbs with h1 | h1 | h1
      · exact Or.inl h1
      · exact Or.inr (Or.inr (Or.inl h1))
      · exact Or.inr (Or.inr (Or.inr h1))
    · exact Or.inr (Or.inl (List.mem_singleton.1 hbs))
  · rcases isGlobSegment_bytes hlast b hb with h1 | h1 | h1
    · exact Or.inl h1
    · exact Or.inr (Or.inr (Or.inl h1))
    · exact Or.inr (Or.inr (Or.inr h1))

/-- The round of the loop of `InitFromYAMLString` for a glob rule that passes the checks of its
labels and its name. -/
theorem compileMapping_glob (d : mapperConfigDefaults) (i : Nat) (r : MetricMapping)
    (hlabels : ∀ k ∈ r.Labels.keys, labelNameRE.MatchString k = true)
    (hname : r.Name ≠ []) (hnameRE : metricNameRE.MatchString r.Name = true)
    (hglob : (if r.MatchType = [] then d.MatchType else r.MatchType) = matchTypeGlob) :
    compileMapping d i r =
      if isGlobPattern r.Match = true then
        .ok { r with
          MatchType := matchTypeGlob,
          Action := (if r.Action = [] then ActionTypeMap else r.Action),
          regex := some (globRegexp r.Match),
          TimerType := (if r.TimerType = [] then d.TimerType else r.TimerType) }
      else .error (.invalidMatch r.Match) := by
  have hfind : r.Labels.keys.find? (fun k => !labelNameRE.MatchString k) = none := by
    rw [List.find?_eq_none]
    intro k hk
    simp [hlabels k hk]
  unfold compileMapping
  rw [hfind]
  simp only [hname, if_false, hnameRE, Bool.not_true, Bool.false_eq_true, hglob, if_true,
    metricLineRE_matchString]
  by_cases hg : isGlobPattern r.Match = true
  · rw [hg, glob_compiles _ (isGlobPattern_bytes hg)]
    simp
  · simp only [Bool.not_eq_true] at hg
    rw [hg]
    simp

/-! ### C16 -/

/-- C16, as stated, fails: `foo` and `*` are patterns of one segment, an identifier token and
`*`, and a glob rule with either of them as its match pattern is rejected with the error
`invalid match`. -/
theorem single_segment_glob_rejected :
    claimedGlobPattern (ascii "foo") = true ∧ isIdentToken (ascii "foo") = true ∧
    compileMapping ⟨[], matchTypeGlob⟩ 0
        { Match := ascii "foo", Name := ascii "foo", regex := none, Labels := [],
          TimerType := [], MatchType := [], HelpText := [], Action := [],
          MatchMetricType := [] }
      = .error (.invalidMatch (ascii "foo")) ∧
    claimedGlobPattern (ascii "*") = true ∧
    compileMapping ⟨[], matchTypeGlob⟩ 0
        { Match := ascii "*", Name := ascii "foo", regex := none, Labels := [],
          TimerType := [], MatchType := [], HelpText := [], Action := [],
          MatchMetricType := [] }
      = .error (.invalidMatch (ascii "*")) := by
  decide

/-- C16, amended: `metricLineRE` matches exactly the patterns of two or more segments with dots
between them, each segment `*` or an identifier token (a letter or an underscore, then one or
more letters, digits and underscores, each of which may have one hyphen before it); so for a
glob rule that passes the checks of its label keys and of its name, the round of the loop of
`InitFromYAMLString` accepts the rule exactly when its match pattern is such a pattern, and it
returns the error `invalid match` for every other pattern, which makes `InitFromYAMLString`
return an error for a document that holds the rule. -/
theorem glob_pattern_accepted_iff (d : mapperConfigDefaults) (i : Nat) (r : MetricMapping)
    (hlabels : ∀ k ∈ r.Labels.keys, labelNameRE.MatchString k = true)
    (hname : r.Name ≠ []) (hnameRE : metricNameRE.MatchString r.Name = true)
    (hglob : (if r.MatchType = [] then d.MatchType else r.MatchType) = matchTypeGlob) :
    metricLineRE.MatchString r.Match = isGlobPattern r.Match ∧
    ((∃ c, compileMapping d i r = .ok c) ↔ isGlobPattern r.Match = true) ∧
    (isGlobPattern r.Match = false →
      compileMapping d i r = .error (.invalidMatch r.Match) ∧
      ∀ (unmarshal : GoString → Except GoString MetricMapper) (m n : MetricMapper)
        (fileContents : GoString),
        unmarshal fileContents = .ok n → effectiveDefaults n = d → r ∈ n.Mappings →
        ∃ e, (InitFromYAMLString unmarshal m fileContents).2 = some e) := by
  have hc := compileMapping_glob d i r hlabels hname hnameRE hglob
  refine ⟨metricLineRE_matchString r.Match, ?_, ?_⟩
  · by_cases hg : isGlobPattern r.Match = true
    · rw [hc, if_pos hg]
      exact ⟨fun _ => hg, fun _ => ⟨_, rfl⟩⟩
    · rw [hc, if_neg hg]
      exact ⟨fun ⟨c, h⟩ => absurd h (by simp), fun h => absurd h hg⟩
  · intro hg
    have hg2 : ¬ isGlobPattern r.Match = true := by rw [hg]; simp
    refine ⟨by rw [hc, if_neg hg2], ?_⟩
    intro unmarshal m n fileContents hn hd hr
    unfold InitFromYAMLString
    rw [hn]
    simp only []
    obtain ⟨e, he⟩ := compileMappings_error_of_mem (d := d) 0 hr (fun j => by
      rw [compileMapping_glob d j r hlabels hname hnameRE hglob, if_neg hg2]
      exact ⟨_, rfl⟩)
    rw [loadDocument_eq, hd, he]
    exact ⟨e, rfl⟩

theorem glob_pattern_accepted_iff_witness :
    (∃ c, compileMapping ⟨[], matchTypeGlob⟩ 0
        { Match := ascii "app.*.latency", Name := ascii "app_latency", regex := none,
          Labels := [], TimerType := [], MatchType := [], HelpText := [], Action := [],
          MatchMetricType := [] }
        = .ok c) ↔ isGlobPattern (ascii "app.*.latency") = true :=
  (glob_pattern_accepted_iff ⟨[], matchTypeGlob⟩ 0
    { Match := ascii "app.*.latency", Name := ascii "app_latency", regex := none,
      Labels := [], TimerType := [], MatchType := [], HelpText := [], Action := [],
      MatchMetricType := [] }
    (by decide) (by decide) (by decide) (by decide)).2.1

/-! ### Matching a glob -/

theorem run_seq_cons (a : Node) (rest : List Node) (st : MatchState)
    (K : MatchState → Option Caps) :
    (Node.seq (a :: rest)).run st K = a.run st (fun st2 => (Node.seq rest).run st2 K) := by
  cases rest with
  | nil => rfl
  | cons b more => rfl

theorem seq_cons_of_ne_nil (a : Node) {rest : List Node} (h : rest ≠ []) :
    Node.seq (a :: rest) = .cat a (Node.seq rest) := by
  cases rest with
  | nil => exact absurd rfl h
  | cons b more => rfl

theorem globNodes_append (a b : GoString) :
    ∀ k, globNodes k (a ++ b) = globNodes k a ++ globNodes (k + a.count 42) b := by
  induction a with
  | nil => intro k; simp [globNodes]
  | cons c rest ih =>
    intro k
    show globNodes k (c :: (rest ++ b)) = globNodes k (c :: rest) ++ _
    by_cases hc : c = 42
    · subst hc
      rw [globNodes, globNodes, if_pos rfl, if_pos rfl, ih]
      simp [Nat.add_assoc, Nat.add_comm]
    · rw [globNodes, globNodes, if_neg hc, if_neg hc, ih]
      have : ¬ (42 = c) := fun e => hc e.symm
      simp [List.count_cons, this]

theorem globNodes_lits {w : GoString} (h : 42 ∉ w) (k : Nat) :
    globNodes k w = w.map Node.lit := by
  induction w with
  | nil => rfl
  | cons c rest ih =>
    simp only [List.mem_cons, not_or] at h
    have hc : ¬ c = 42 := fun e => h.1 e.symm
    simp [globNodes, hc, ih h.2]

/-- A literal text is matched byte by byte. -/
theorem run_lits_append (w : GoString) (hw : ∀ b ∈ w, b < 128) (more : List Node)
    (K : MatchState → Option Caps) :
    ∀ (pos : Nat) (t : GoString) (caps : Caps),
      (Node.seq (w.map Node.lit ++ more)).run ⟨pos, w ++ t, caps⟩ K
        = (Node.seq more).run ⟨pos + w.length, t, caps⟩ K := by
  induction w with
  | nil => intro pos t caps; rfl
  | cons c rest ih =>
    intro pos t caps
    have hc := hw c (List.mem_cons_self _ _)
    rw [List.map_cons, List.cons_append, run_seq_cons, List.cons_append,
      run_lit_cons _ _ _ _ _ hc, ih (fun b hb => hw b (List.mem_cons_of_mem _ hb))]
    simp only [List.length_cons]
    congr 2
    omega

theorem run_lits_none (w : GoString) (more : List Node) (K : MatchState → Option Caps) :
    ∀ (pos : Nat) (n : GoString) (caps : Caps), (∀ b ∈ w, b < 128) → ¬ w <+: n →
      (Node.seq (w.map Node.lit ++ more)).run ⟨pos, n, caps⟩ K = none := by
  induction w with
  | nil => intro pos n caps _ h; exact absurd (List.nil_prefix) h
  | cons c rest ih =>
    intro pos n caps hw h
    have hc := hw c (List.mem_cons_self _ _)
    rw [List.map_cons, List.cons_append, run_seq_cons]
    cases n with
    | nil => simp [Node.run, stepRune]
    | cons b t =>
      by_cases hb : b = c
      · subst hb
        rw [run_lit_cons _ _ _ _ _ hc]
        refine ih _ _ _ (fun x hx => hw x (List.mem_cons_of_mem _ hx)) ?_
        intro hp
        exact h ((List.prefix_cons_inj b).2 hp)
      · simp [Node.run, stepRune, hb]

/-- The greedy `[^.]*` passes a whole dot-free stretch that ends at a dot or at the end of the
text, when what comes after it in the pattern fails in front of every other byte. -/
theorem starLoop_notDot_eq (T : GoString) (hT : T = [] ∨ ∃ T2, T = 46 :: T2)
    (K : MatchState → Option Caps)
    (hK : ∀ st : MatchState, (∃ b t, st.rest = b :: t ∧ b ≠ 46) → K st = none) :
    ∀ (n : Nat) (s : GoString), s.length = n → 46 ∉ s →
    ∀ (fuel pos : Nat) (caps : Caps), s.length < fuel →
      starLoop (fun st k2 => (Node.cls true [(46, 46)]).run st k2) fuel
        ⟨pos, s ++ T, caps⟩ K = K ⟨pos + s.length, T, caps⟩ := by
  intro n
  induction n using Nat.strong_induction_on with
  | _ n ih =>
    intro s hn hs fuel pos caps hfuel
    obtain ⟨fuel, rfl⟩ : ∃ f, fuel = f + 1 := ⟨fuel - 1, by omega⟩
    cases s with
    | nil =>
      rw [starLoop]
      rcases hT with hT | ⟨T2, hT⟩
      · subst hT
        simp [Node.run, stepRune]
      · subst hT
        simp only [List.nil_append, run_notDot_dot, List.length_nil, Nat.add_zero]
    | cons b s2 =>
      simp only [List.mem_cons, not_or] at hs
      have hb : b ≠ 46 := fun e => hs.1 e.symm
      have hw : runeWidth (b :: (s2 ++ T)) = runeWidth (b :: s2) := by
        rcases hT with hT | ⟨T2, hT⟩
        · subst hT
          simp
        · subst hT
          exact runeWidth_append_ascii b s2 T2 46 (by decide)
      have hw1 := runeWidth_pos b s2
      have hw2 := runeWidth_le b s2
      have hdrop : (b :: (s2 ++ T)).drop (runeWidth (b :: s2))
          = (b :: s2).drop (runeWidth (b :: s2)) ++ T := by
        rw [← List.cons_append, List.drop_append_of_le_length (by simpa using hw2)]
      have hlen : ((b :: s2).drop (runeWidth (b :: s2))).length < (b :: s2).length := by
        simp only [List.length_drop, List.length_cons]; omega
      have hmem : 46 ∉ (b :: s2).drop (runeWidth (b :: s2)) := by
        intro hm
        have := List.mem_of_mem_drop hm
        simp only [List.mem_cons] at this
        rcases this with h | h
        · exact hb h.symm
        · exact hs.2 h
      have hrec := ih _ (hn ▸ hlen) ((b :: s2).drop (runeWidth (b :: s2))) rfl hmem fuel
        (pos + runeWidth (b :: s2)) caps (by simp only [List.length_cons] at hfuel hlen; omega)
      have hpos : pos + runeWidth (b :: s2) + ((b :: s2).drop (runeWidth (b :: s2))).length
          = pos + (b :: s2).length := by
        simp only [List.length_drop, List.length_cons]
        omega
      rw [hpos] at hrec
      rw [starLoop]
      simp only [List.cons_append, run_notDot_cons _ _ _ _ _ hb, hw, hdrop]
      rw [if_pos (by simp only [List.length_append, List.length_drop, List.length_cons]; omega),
        hrec]
      cases hres : K ⟨pos + (b :: s2).length, T, caps⟩ with
      | some r => rfl
      | none => exact hK _ ⟨b, s2 ++ T, rfl, hb⟩

/-- Every text is a dot-free stretch followed by nothing or by a dot and more. -/
theorem split_at_dot (n : GoString) :
    ∃ s T, n = s ++ T ∧ 46 ∉ s ∧ (T = [] ∨ ∃ T2, T = 46 :: T2) := by
  induction n with
  | nil => exact ⟨[], [], rfl, by simp, Or.inl rfl⟩
  | cons b rest ih =>
    by_cases hb : b = 46
    · exact ⟨[], b :: rest, rfl, by simp, Or.inr ⟨rest, by rw [hb]⟩⟩
    · obtain ⟨s, T, h1, h2, h3⟩ := ih
      refine ⟨b :: s, T, by rw [h1]; rfl, ?_, h3⟩
      simp only [List.mem_cons, not_or]
      exact ⟨fun e => hb e.symm, h2⟩

theorem isGlobSegment_lt {g : GoString} (hg : isGlobSegment g = true) : ∀ b ∈ g, b < 128 := by
  intro b hb
  rcases isGlobSegment_bytes hg b hb with h | h | h
  · omega
  · omega
  · simp only [isIdentByte, Bool.or_eq_true, Bool.and_eq_true, decide_eq_true_eq] at h
    omega

theorem isIdentToken_no_star {g : GoString} (hg : isGlobSegment g = true)
    (hne : g ≠ ascii "*") : 42 ∉ g := by
  simp only [isGlobSegment, Bool.or_eq_true, decide_eq_true_eq] at hg
  rcases hg with hg | hg
  · exact absurd hg hne
  · cases g with
    | nil => exact absurd hg (by simp [isIdentToken])
    | cons c u =>
      simp only [isIdentToken, Bool.and_eq_true] at hg
      intro hm
      rcases List.mem_cons.1 hm with hm | hm
      · rw [← hm] at hg
        exact absurd hg.1.1 (by decide)
      · rcases identUnits_bytes hg.2 42 hm with h | h
        · exact absurd h (by decide)
        · exact absurd h (by decide)

/-- One segment of a glob against the first dot-free stretch of the text. -/
theorem run_segment (g : GoString) (hg : isGlobSegment g = true) (more : List Node)
    (k pos : Nat) (caps : Caps) (s T : GoString) (K : MatchState → Option Caps)
    (hs : 46 ∉ s) (hT : T = [] ∨ ∃ T2, T = 46 :: T2)
    (hmore : ∀ st : MatchState, (∃ b t, st.rest = b :: t ∧ b ≠ 46) →
      (Node.seq more).run st K = none) :
    (Node.seq (globNodes k g ++ more)).run ⟨pos, s ++ T, caps⟩ K =
      if g = ascii "*" then
        (Node.seq more).run ⟨pos + s.length, T, caps.set (k + 1) (some (pos, pos + s.length))⟩ K
      else if g = s then (Node.seq more).run ⟨pos + s.length, T, caps⟩ K
      else none := by
  by_cases hstar : g = ascii "*"
  · rw [if_pos hstar, hstar]
    show (Node.seq (Node.cap (k + 1) (.star (.cls true [(46, 46)])) :: more)).run _ K = _
    rw [run_seq_cons, Node.run, Node.run]
    rw [starLoop_notDot_eq T hT _ ?_ s.length s rfl hs _ pos caps
      (by simp only [List.length_append]; omega)]
    intro st hst
    exact hmore _ hst
  · rw [if_neg hstar, globNodes_lits (isIdentToken_no_star hg hstar)]
    have hlt := isGlobSegment_lt hg
    by_cases hgs : g = s
    · rw [if_pos hgs, hgs, run_lits_append s (hgs ▸ hlt)]
    · rw [if_neg hgs]
      by_cases hpre : g <+: s ++ T
      · obtain ⟨t, ht⟩ := hpre
        rw [← ht, run_lits_append g hlt]
        apply hmore
        rcases List.append_eq_append_iff.1 ht with ⟨a, h1, h2⟩ | ⟨a, h1, h2⟩
        · cases a with
          | nil =>
            simp only [List.append_nil] at h1
            exact absurd h1.symm hgs
          | cons b a2 =>
            refine ⟨b, a2 ++ T, by rw [h2]; rfl, ?_⟩
            intro hb
            subst hb
            exact hs (by rw [h1]; simp)
        · cases a with
          | nil =>
            simp only [List.append_nil] at h1
            exact absurd h1 hgs
          | cons b a2 =>
            exfalso
            rcases hT with hT | ⟨T2, hT⟩
            · rw [hT] at h2
              exact absurd h2 (by simp)
            · rw [hT] at h2
              simp only [List.cons_append, List.cons.injEq] at h2
              apply isGlobSegment_no_dot hg
              rw [h1, ← h2.1]
              simp
      · exact run_lits_none g more K pos _ caps hlt hpre

theorem run_eol (st : MatchState) (K : MatchState → Option Caps) :
    (Node.seq [Node.eol]).run st K = if st.rest = [] then K st else none := by
  show Node.eol.run st K = _
  rw [Node.run]
  cases st.rest <;> simp

/-- A glob against a text: the pieces of the glob match exactly when the segments do, and leave
the spans of the `*` segments in their groups. -/
theorem run_glob :
    ∀ (gs : List GoString), gs ≠ [] → (∀ g ∈ gs, isGlobSegment g = true) →
    ∀ (k pos : Nat) (n : GoString) (caps : Caps) (K : MatchState → Option Caps),
      (Node.seq (globNodes k (List.intercalate [46] gs) ++ [.eol])).run ⟨pos, n, caps⟩ K =
        if globSegmentsMatch gs (splitByte 46 n) = true then
          K ⟨pos + n.length, [], globCaps k pos gs (splitByte 46 n) caps⟩
        else none
  | [], h, _, _, _, _, _, _ => absurd rfl h
  | [g], _, hgs, k, pos, n, caps, K => by
    have hg := hgs g (List.mem_cons_self _ _)
    obtain ⟨s, T, hn, hs, hT⟩ := split_at_dot n
    subst hn
    rw [intercalate_singleton, run_segment g hg [.eol] k pos caps s T K hs hT (by
      rintro st ⟨b, t, hst, -⟩
      rw [run_eol, if_neg (by rw [hst]; simp)])]
    simp only [run_eol]
    rcases hT with hT | ⟨T2, hT⟩
    · subst hT
      simp only [List.append_nil, if_true, splitByte_of_not_mem hs]
      by_cases hstar : g = ascii "*"
      · simp [hstar, globSegmentsMatch, globCaps]
      · by_cases hgs2 : g = s
        · subst hgs2
          simp [hstar, globSegmentsMatch, globCaps]
        · simp [hstar, hgs2, globSegmentsMatch]
    · subst hT
      obtain ⟨x, xs, hx⟩ := List.exists_cons_of_ne_nil (splitByte_ne_nil 46 T2)
      simp only [splitByte_append T2 hs, hx, globSegmentsMatch, Bool.and_false,
        Bool.false_eq_true, if_false]
      simp
  | g :: g2 :: rest, _, hgs, k, pos, n, caps, K => by
    have hg := hgs g (List.mem_cons_self _ _)
    have hrest : ∀ x ∈ g2 :: rest, isGlobSegment x = true :=
      fun x hx => hgs x (List.mem_cons_of_mem _ hx)
    obtain ⟨s, T, hn, hs, hT⟩ := split_at_dot n
    subst hn
    have hnodes : globNodes k (List.intercalate [46] (g :: g2 :: rest)) ++ [Node.eol]
        = globNodes k g ++ (Node.lit 46 ::
            (globNodes (k + g.count 42) (List.intercalate [46] (g2 :: rest)) ++ [Node.eol])) := by
      rw [intercalate_cons_cons, globNodes_append, List.singleton_append, globNodes]
      simp
    have hdot : ∀ (X : List Node) (st : MatchState),
        (Node.seq (Node.lit 46 :: X)).run st K
          = match st.rest with
            | [] => none
            | b :: t =>
              if b = 46 then (Node.seq X).run ⟨st.pos + 1, t, st.caps⟩ K else none := by
      intro X st
      rw [run_seq_cons]
      obtain ⟨p, r, c⟩ := st
      cases r with
      | nil => simp [Node.run, stepRune]
      | cons b t =>
        by_cases hb : b = 46
        · subst hb
          rw [run_lit_cons _ _ _ _ _ (by decide)]
          simp
        · simp [Node.run, stepRune, hb]
    rw [hnodes, run_segment g hg _ k pos caps s T K hs hT (by
      rintro st ⟨b, t, hst, hb⟩
      rw [hdot, hst]
      simp [hb])]
    simp only [hdot]
    rcases hT with hT | ⟨T2, hT⟩
    · subst hT
      simp only [List.append_nil, splitByte_of_not_mem hs, globSegmentsMatch, Bool.and_false,
        Bool.false_eq_true, if_false]
      simp
    · subst hT
      simp only [if_true, splitByte_append T2 hs]
      have ih := fun k2 caps2 =>
        run_glob (g2 :: rest) (by simp) hrest k2 (pos + s.length + 1) T2 caps2 K
      by_cases hstar : g = ascii "*"
      · have hcount : g.count 42 = 1 := by rw [hstar]; rfl
        rw [if_pos hstar, hcount, ih]
        simp only [globSegmentsMatch, globCaps, hstar, decide_True, Bool.true_or, Bool.true_and,
          if_true, List.length_append, List.length_cons]
        congr 3
        omega
      · have hcount : g.count 42 = 0 :=
          List.count_eq_zero_of_not_mem (isIdentToken_no_star hg hstar)
        rw [if_neg hstar, hcount, Nat.add_zero]
        by_cases hgs2 : g = s
        · rw [if_pos hgs2, ih]
          simp only [globSegmentsMatch, globCaps, hstar, hgs2, decide_True, Bool.or_true,
            Bool.true_and, if_false, List.length_append, List.length_cons]
          have : ¬ s = ascii "*" := fun e => hstar (hgs2.trans e)
          simp only [this, if_false]
          congr 3
          omega
        · rw [if_neg hgs2]
          simp [globSegmentsMatch, hstar, hgs2]

theorem search_anchored (re : Regexp) (X : Node) (hre : re.expr = .cat .bol X)
    (s : GoString) : re.search 0 0 s = re.matchAt 0 s := by
  cases s with
  | nil => rw [Regexp.search]
  | cons b rest =>
    rw [Regexp.search]
    cases re.matchAt 0 (b :: rest) with
    | some c => rfl
    | none =>
      simp only []
      exact search_bol_none re X hre rest _ (0 + 1) (by omega)

theorem isGlobPattern_segments {g : GoString} (h : isGlobPattern g = true) :
    splitByte 46 g ≠ [] ∧ (∀ s ∈ splitByte 46 g, isGlobSegment s = true) := by
  unfold isGlobPattern at h
  simp only [Bool.and_eq_true, decide_eq_true_eq, List.all_eq_true] at h
  exact ⟨splitByte_ne_nil 46 g, h.2⟩

/-- The one match of a compiled glob in a name. -/
theorem glob_matchAt (g : GoString) (hg : isGlobPattern g = true) (n : GoString) :
    (globRegexp g).search 0 0 n =
      if globSegmentsMatch (splitByte 46 g) (splitByte 46 n) = true then
        some ((globCaps 0 0 (splitByte 46 g) (splitByte 46 n)
          (List.replicate (g.count 42 + 1) none)).set 0 (some (0, n.length)))
      else none := by
  obtain ⟨hne, hsegs⟩ := isGlobPattern_segments hg
  have hexpr : (globRegexp g).expr = .cat .bol (Node.seq (globNodes 0 g ++ [.eol])) := by
    unfold globRegexp
    exact seq_cons_of_ne_nil _ (by simp)
  rw [search_anchored _ _ hexpr, Regexp.matchAt, hexpr, Node.run, Node.run, if_pos rfl]
  have hrun := run_glob (splitByte 46 g) hne hsegs 0 0 n
    (List.replicate ((globRegexp g).numSubexp + 1) none)
    (fun st => some (st.caps.set 0 (some (0, st.pos))))
  rw [intercalate_splitByte] at hrun
  rw [hrun]
  simp [globRegexp]

theorem glob_matchString (g : GoString) (hg : isGlobPattern g = true) (n : GoString) :
    (globRegexp g).MatchString n = globSegmentsMatch (splitByte 46 g) (splitByte 46 n) := by
  unfold Regexp.MatchString
  rw [glob_matchAt g hg]
  cases globSegmentsMatch (splitByte 46 g) (splitByte 46 n) <;> rfl

/-! ### The text of a submatch -/

theorem submatch_flatten (src : GoString) :
    ∀ (caps : Caps) (j : Nat),
      submatch src ((caps.map (fun c => match c with
          | some (a, b) => [(a : Int), (b : Int)]
          | none => [-1, -1])).flatten) j = capText src (caps.getD j none)
  | [], j => by
    simp [submatch, capText]
  | c :: rest, 0 => by
    cases c with
    | none => simp [submatch, capText]
    | some ab =>
      obtain ⟨a, b⟩ := ab
      simp [submatch, capText]
  | c :: rest, j + 1 => by
    have ih := submatch_flatten src rest j
    have hlen : ∀ c : Option (Nat × Nat), (match c with
          | some (a, b) => [(a : Int), (b : Int)]
          | none => [(-1 : Int), -1]).length = 2 := by
      intro c
      cases c with
      | none => rfl
      | some ab => rfl
    obtain ⟨x, y, hxy⟩ : ∃ x y : Int, (match c with
          | some (a, b) => [(a : Int), (b : Int)]
          | none => [(-1 : Int), -1]) = [x, y] := by
      cases c with
      | none => exact ⟨_, _, rfl⟩
      | some ab => exact ⟨_, _, rfl⟩
    simp only [List.map_cons, List.flatten_cons, hxy, List.getD_cons_succ] at ih ⊢
    rw [← ih]
    simp only [submatch, List.cons_append, List.nil_append, List.length_cons]
    have h1 : 2 * (j + 1) = 2 * j + 1 + 1 := by omega
    have h2 : 2 * (j + 1) + 1 = 2 * j + 1 + 1 + 1 := by omega
    simp only [h1, List.getD_cons_succ]
    have h3 : (2 * j + 1 + 1 + 1 < (List.map (fun c => match c with
          | some (a, b) => [(a : Int), (b : Int)]
          | none => [(-1 : Int), -1]) rest).flatten.length + 1 + 1)
        ↔ (2 * j + 1 < (List.map (fun c => match c with
          | some (a, b) => [(a : Int), (b : Int)]
          | none => [(-1 : Int), -1]) rest).flatten.length) := by omega
    simp only [h3]

theorem globCaps_length :
    ∀ (gs ns : List GoString) (k pos : Nat) (caps : Caps),
      (globCaps k pos gs ns caps).length = caps.length
  | [], _, _, _, _ => by simp [globCaps]
  | _ :: _, [], _, _, _ => by simp [globCaps]
  | g :: gs, s :: ns, k, pos, caps => by
    rw [globCaps]
    split_ifs
    · rw [globCaps_length gs ns]
      simp
    · rw [globCaps_length gs ns]

/-- The groups up to `k` are left as they are. -/
theorem globCaps_getD_le :
    ∀ (gs ns : List GoString) (k pos : Nat) (caps : Caps) (j : Nat), j ≤ k →
      (globCaps k pos gs ns caps).getD j none = caps.getD j none
  | [], _, _, _, _, _, _ => by simp [globCaps]
  | _ :: _, [], _, _, _, _, _ => by simp [globCaps]
  | g :: gs, s :: ns, k, pos, caps, j, hj => by
    rw [globCaps]
    split_ifs
    · rw [globCaps_getD_le gs ns (k + 1) _ _ j (by omega)]
      simp only [List.getD_eq_getElem?_getD]
      rw [List.getElem?_set_ne (by omega)]
    · rw [globCaps_getD_le gs ns k _ _ j hj]

theorem intercalate_cons_eq (s : GoString) (ns : List GoString) :
    ∃ t, List.intercalate [46] (s :: ns) = s ++ t ∧
      (ns ≠ [] → t = 46 :: List.intercalate [46] ns) := by
  cases ns with
  | nil => exact ⟨[], by simp [intercalate_singleton], fun h => absurd rfl h⟩
  | cons y zs => exact ⟨46 :: List.intercalate [46] (y :: zs), by
      rw [intercalate_cons_cons]; rfl, fun _ => rfl⟩

theorem globSegmentsMatch_nil_right {gs : List GoString}
    (h : globSegmentsMatch gs [] = true) : gs = [] := by
  cases gs with
  | nil => rfl
  | cons g rest => simp [globSegmentsMatch] at h

/-- The group of each `*` holds the text of the segment at its place. -/
theorem globCaps_text (N : GoString) :
    ∀ (gs ns : List GoString) (k pos : Nat) (caps : Caps) (i : Nat),
      globSegmentsMatch gs ns = true → N.drop pos = List.intercalate [46] ns →
      k + (starSegments gs ns).length < caps.length → i < (starSegments gs ns).length →
      capText N ((globCaps k pos gs ns caps).getD (k + 1 + i) none)
        = (starSegments gs ns).getD i []
  | [], ns, _, _, _, i, _, _, _, hi => by
    simp [starSegments] at hi
  | _ :: _, [], _, _, _, i, hm, _, _, _ => by
    simp [globSegmentsMatch] at hm
  | g :: gs, s :: ns, k, pos, caps, i, hm, hdrop, hlen, hi => by
    simp only [globSegmentsMatch, Bool.and_eq_true] at hm
    obtain ⟨t, ht, htail⟩ := intercalate_cons_eq s ns
    have hnext : ns ≠ [] → N.drop (pos + s.length + 1) = List.intercalate [46] ns := by
      intro hne
      rw [Nat.add_assoc, ← List.drop_drop, hdrop, ht, htail hne]
      simp
    have hempty : ns = [] → (starSegments gs ns).length = 0 := by
      intro h
      rw [h] at hm
      rw [globSegmentsMatch_nil_right hm.2]
      rfl
    by_cases hstar : g = ascii "*"
    · subst hstar
      simp only [starSegments, if_true, List.length_cons] at hlen hi ⊢
      rw [globCaps, if_pos rfl]
      cases i with
      | zero =>
        rw [Nat.add_zero, globCaps_getD_le gs ns (k + 1) _ _ (k + 1) (Nat.le_refl _)]
        simp only [List.getD_eq_getElem?_getD]
        rw [List.getElem?_set_self (by omega)]
        simp only [Option.getD_some, capText, List.getD_cons_zero]
        rw [hdrop, ht]
        simp
      | succ i2 =>
        have hne : ns ≠ [] := by
          intro h
          have := hempty h
          omega
        have ih := globCaps_text N gs ns (k + 1) (pos + s.length + 1)
          (caps.set (k + 1) (some (pos, pos + s.length))) i2 hm.2 (hnext hne)
          (by simp only [List.length_set]; omega) (by omega)
        rw [show k + 1 + (i2 + 1) = k + 1 + 1 + i2 from by omega, ih]
        simp
    · simp only [starSegments, hstar, if_false] at hlen hi ⊢
      rw [globCaps, if_neg hstar]
      have hne : ns ≠ [] := by
        intro h
        have := hempty h
        omega
      exact globCaps_text N gs ns k (pos + s.length + 1) caps i hm.2 (hnext hne) hlen hi

theorem count_intercalate (g : GoString) (gs : List GoString) :
    (List.intercalate [46] (g :: gs)).count 42
      = g.count 42 + (if gs = [] then 0 else (List.intercalate [46] gs).count 42) := by
  cases gs with
  | nil => simp [intercalate_singleton]
  | cons y zs =>
    rw [intercalate_cons_cons, List.count_append, List.count_append]
    simp

/-- There are as many `*` segments as groups. -/
theorem starSegments_length :
    ∀ (gs ns : List GoString), (∀ g ∈ gs, isGlobSegment g = true) →
      globSegmentsMatch gs ns = true →
      (starSegments gs ns).length = (List.intercalate [46] gs).count 42
  | [], _, _, _ => by simp [starSegments, List.intercalate]
  | _ :: _, [], _, hm => by simp [globSegmentsMatch] at hm
  | g :: gs, s :: ns, hgs, hm => by
    simp only [globSegmentsMatch, Bool.and_eq_true] at hm
    have ih := starSegments_length gs ns (fun x hx => hgs x (List.mem_cons_of_mem _ hx)) hm.2
    rw [count_intercalate]
    have htail : (if gs = [] then 0 else (List.intercalate [46] gs).count 42)
        = (List.intercalate [46] gs).count 42 := by
      split_ifs with h
      · rw [h]; rfl
      · rfl
    rw [htail, ← ih]
    by_cases hstar : g = ascii "*"
    · simp only [starSegments, hstar, if_true, List.length_cons]
      rw [show (ascii "*").count 42 = 1 from rfl]
      omega
    · simp only [starSegments, hstar, if_false]
      rw [List.count_eq_zero_of_not_mem
        (isIdentToken_no_star (hgs g (List.mem_cons_self _ _)) hstar)]
      omega

/-! ### C15 -/

/-- C15: the matcher of an accepted glob rule is the compiled pattern `^` + the glob with every
`.` replaced by `\.` and every `*` by `([^.]*)` + `$`; it matches a name exactly when the name
and the glob have as many segments between dots and each segment of the glob is `*` or equal to
the segment of the name at its place (a segment of a name holds no dot and may be empty); and
after a match the groups are as many as the `*` segments, group `j + 1` being the segment of the
name at the place of the `*` number `j`, counted from 0. -/
theorem glob_matcher (d : mapperConfigDefaults) (i : Nat) (r c : MetricMapping)
    (hc : compileMapping d i r = .ok c) (hglob : c.MatchType = matchTypeGlob) :
    c.regex = regexpCompile (ascii "^" ++
      replaceByte 42 (ascii "([^.]*)") (replaceByte 46 (ascii "\\.") r.Match) ++ ascii "$") ∧
    ∃ re, c.regex = some re ∧
      ∀ n : GoString,
        (∀ s ∈ splitByte 46 n, 46 ∉ s) ∧
        re.MatchString n = globSegmentsMatch (splitByte 46 r.Match) (splitByte 46 n) ∧
        (re.MatchString n = true →
          (starSegments (splitByte 46 r.Match) (splitByte 46 n)).length = re.numSubexp ∧
          ∀ j, j < re.numSubexp →
            submatch n (re.FindStringSubmatchIndex n) (j + 1)
              = (starSegments (splitByte 46 r.Match) (splitByte 46 n)).getD j []) := by
  obtain ⟨-, -, -, -, -, -, -, -, -, -, -, hline, re, hre, hmem⟩ := compileMapping_ok hc
  have hg : isGlobPattern r.Match = true := by
    rw [← metricLineRE_matchString]
    exact hline hglob
  have hcomp := glob_compiles r.Match (isGlobPattern_bytes hg)
  rw [if_pos hglob, hcomp] at hmem
  have hre2 : re = globRegexp r.Match := (Option.some.inj hmem).symm
  subst hre2
  refine ⟨by rw [hre, hcomp], globRegexp r.Match, hre, ?_⟩
  intro n
  obtain ⟨hne, hsegs⟩ := isGlobPattern_segments hg
  refine ⟨splitByte_no_sep 46 n, glob_matchString r.Match hg n, ?_⟩
  intro hmatch
  rw [glob_matchString r.Match hg n] at hmatch
  have hlen := starSegments_length (splitByte 46 r.Match) (splitByte 46 n) hsegs hmatch
  rw [intercalate_splitByte] at hlen
  refine ⟨hlen, ?_⟩
  intro j hj
  have hj2 : j < r.Match.count 42 := hj
  unfold Regexp.FindStringSubmatchIndex
  rw [glob_matchAt r.Match hg n, if_pos hmatch]
  simp only []
  rw [submatch_flatten]
  simp only [List.getD_eq_getElem?_getD]
  rw [List.getElem?_set_ne (by omega)]
  have htext := globCaps_text n (splitByte 46 r.Match) (splitByte 46 n) 0 0
    (List.replicate (r.Match.count 42 + 1) none) j hmatch
    (by rw [intercalate_splitByte]; rfl)
    (by rw [hlen, List.length_replicate]; omega) (by rw [hlen]; exact hj2)
  simp only [List.getD_eq_getElem?_getD] at htext
  rw [show j + 1 = 0 + 1 + j from by omega]
  exact htext

theorem glob_matcher_witness :
    (latencyRule (ascii "app_latency")).regex = regexpCompile (ascii "^" ++
      replaceByte 42 (ascii "([^.]*)") (replaceByte 46 (ascii "\\.") (ascii "app.*.latency"))
        ++ ascii "$") :=
  (glob_matcher ⟨[], matchTypeGlob⟩ 0
    { Match := ascii "app.*.latency", Name := ascii "app_latency", regex := none,
      Labels := [], TimerType := [], MatchType := [], HelpText := [], Action := [],
      MatchMetricType := [] }
    (latencyRule (ascii "app_latency")) (by decide) (by decide)).1

/-! ### Escaping a metric name -/

/-- Passing `skip` bytes and then replacing is replacing in what is left. -/
theorem replaceIllegalChars_skip :
    ∀ (s : GoString) (skip : Nat),
      replaceIllegalChars skip s = replaceIllegalChars 0 (s.drop skip)
  | [], skip => by simp [replaceIllegalChars]
  | _ :: _, 0 => rfl
  | b :: rest, skip + 1 => by
    rw [replaceIllegalChars, List.drop_succ_cons]
    exact replaceIllegalChars_skip rest skip

/-- Every byte of the result is a legal character. -/
theorem replaceIllegalChars_legal :
    ∀ (s : GoString) (skip : Nat), ∀ b ∈ replaceIllegalChars skip s, isLegalChar b = true
  | [], skip, b, hb => by simp [replaceIllegalChars] at hb
  | c :: rest, skip + 1, b, hb => by
    rw [replaceIllegalChars] at hb
    exact replaceIllegalChars_legal rest skip b hb
  | c :: rest, 0, b, hb => by
    rw [replaceIllegalChars] at hb
    split_ifs at hb with hc
    · rcases List.mem_cons.1 hb with h | h
      · rw [h]; exact hc
      · exact replaceIllegalChars_legal rest 0 b h
    · rcases List.mem_cons.1 hb with h | h
      · rw [h]; decide
      · exact replaceIllegalChars_legal rest _ b h

/-- A text of legal characters is left as it is. -/
theorem replaceIllegalChars_of_legal :
    ∀ (s : GoString), (∀ b ∈ s, isLegalChar b = true) → replaceIllegalChars 0 s = s
  | [], _ => rfl
  | c :: rest, h => by
    rw [replaceIllegalChars, if_pos (h c (List.mem_cons_self _ _)),
      replaceIllegalChars_of_legal rest (fun b hb => h b (List.mem_cons_of_mem _ hb))]

/-- In an ASCII text every illegal byte becomes an underscore, in place. -/
theorem replaceIllegalChars_ascii :
    ∀ (s : GoString), (∀ b ∈ s, b < 128) →
      replaceIllegalChars 0 s = s.map (fun b => if isLegalChar b = true then b else 95)
  | [], _ => rfl
  | c :: rest, h => by
    have hrest := replaceIllegalChars_ascii rest (fun b hb => h b (List.mem_cons_of_mem _ hb))
    rw [replaceIllegalChars, List.map_cons]
    split_ifs with hc
    · rw [hrest]
    · rw [runeWidth_ascii rest (h c (List.mem_cons_self _ _)), hrest]

/-- An illegal rune, of one byte or more, becomes one underscore. -/
theorem replaceIllegalChars_rune (c : Nat) (rest : GoString) (hc : isLegalChar c = false) :
    replaceIllegalChars 0 (c :: rest)
      = 95 :: replaceIllegalChars 0 ((c :: rest).drop (runeWidth (c :: rest))) := by
  rw [replaceIllegalChars, if_neg (by rw [hc]; simp), replaceIllegalChars_skip]
  have hw := runeWidth_pos c rest
  obtain ⟨w, hw2⟩ : ∃ w, runeWidth (c :: rest) = w + 1 := ⟨runeWidth (c :: rest) - 1, by omega⟩
  rw [hw2]
  simp

theorem isLegalChar_lt {b : Nat} (h : isLegalChar b = true) : b < 128 := by
  simp only [isLegalChar, Bool.or_eq_true, Bool.and_eq_true, decide_eq_true_eq] at h
  omega

/-! ### C29 -/

/-- C29: for a name that is not empty `EscapeMetricName` returns, and what it returns holds
legal characters only (`a-z`, `A-Z`, `0-9`, `_`) and does not begin with a digit; it is the name,
with an underscore before it when the name begins with a digit, in which every legal character
stays in place and every illegal rune, of one byte or more, is one underscore (in an ASCII name
each illegal byte); a name of legal characters that does not begin with a digit is returned as it
is, and so is every returned name when it is escaped again. -/
theorem escapeMetricName_legal (metricName : GoString) (hne : metricName ≠ []) :
    ∃ escaped, EscapeMetricName metricName = some escaped ∧
      (∀ b ∈ escaped, isLegalChar b = true) ∧ startsWithDigit escaped = false ∧
      escaped = (if startsWithDigit metricName = true then [95] else [])
        ++ replaceIllegalChars 0 metricName ∧
      (∀ c rest, isLegalChar c = true →
        replaceIllegalChars 0 (c :: rest) = c :: replaceIllegalChars 0 rest) ∧
      (∀ c rest, isLegalChar c = false →
        replaceIllegalChars 0 (c :: rest)
          = 95 :: replaceIllegalChars 0 ((c :: rest).drop (runeWidth (c :: rest)))) ∧
      ((∀ b ∈ metricName, b < 128) →
        replaceIllegalChars 0 metricName
          = metricName.map (fun b => if isLegalChar b = true then b else 95)) ∧
      ((∀ b ∈ metricName, isLegalChar b = true) → startsWithDigit metricName = false →
        escaped = metricName) ∧
      EscapeMetricName escaped = some escaped := by
  have hkeep : ∀ c rest, isLegalChar c = true →
      replaceIllegalChars 0 (c :: rest) = c :: replaceIllegalChars 0 rest := by
    intro c rest hc
    rw [replaceIllegalChars, if_pos hc]
  have hidem : ∀ e : GoString, e ≠ [] → (∀ b ∈ e, isLegalChar b = true) →
      startsWithDigit e = false → EscapeMetricName e = some e := by
    intro e he hl hd
    cases e with
    | nil => exact absurd rfl he
    | cons d rest =>
      have hd2 : ¬ (48 ≤ d ∧ d ≤ 57) := by
        simpa [startsWithDigit] using hd
      rw [EscapeMetricName, if_neg hd2, replaceIllegalChars_of_legal _ hl]
  cases metricName with
  | nil => exact absurd rfl hne
  | cons c rest =>
    by_cases hd : 48 ≤ c ∧ c ≤ 57
    · have hs : startsWithDigit (c :: rest) = true := by
        simp [startsWithDigit, hd.1, hd.2]
      have he : replaceIllegalChars 0 (95 :: c :: rest)
          = 95 :: replaceIllegalChars 0 (c :: rest) := hkeep 95 _ (by decide)
      refine ⟨95 :: replaceIllegalChars 0 (c :: rest), ?_, ?_, rfl, ?_, hkeep,
        replaceIllegalChars_rune, replaceIllegalChars_ascii _, ?_, ?_⟩
      · rw [EscapeMetricName, if_pos hd, he]
      · rw [← he]
        exact replaceIllegalChars_legal _ 0
      · rw [hs]; rfl
      · intro _ h
        rw [hs] at h
        exact absurd h (by simp)
      · refine hidem _ (by simp) ?_ rfl
        rw [← he]
        exact replaceIllegalChars_legal _ 0
    · have hs : startsWithDigit (c :: rest) = false := by
        simpa [startsWithDigit] using hd
      have hhead : startsWithDigit (replaceIllegalChars 0 (c :: rest)) = false := by
        by_cases hc : isLegalChar c = true
        · rw [hkeep c rest hc]
          exact hs
        · rw [replaceIllegalChars, if_neg hc]
          rfl
      have hnil : replaceIllegalChars 0 (c :: rest) ≠ [] := by
        rw [replaceIllegalChars]
        split_ifs <;> simp
      refine ⟨replaceIllegalChars 0 (c :: rest), ?_, replaceIllegalChars_legal _ 0, hhead, ?_,
        hkeep, replaceIllegalChars_rune, replaceIllegalChars_ascii _, ?_, ?_⟩
      · rw [EscapeMetricName, if_neg hd]
      · rw [hs]; rfl
      · intro hl _
        exact replaceIllegalChars_of_legal _ hl
      · exact hidem _ hnil (replaceIllegalChars_legal _ 0) hhead

theorem escapeMetricName_legal_witness :
    ∃ escaped, EscapeMetricName (ascii "1a.b") = some escaped ∧
      (∀ b ∈ escaped, isLegalChar b = true) ∧ startsWithDigit escaped = false ∧
      escaped = (if startsWithDigit (ascii "1a.b") = true then [95] else [])
        ++ replaceIllegalChars 0 (ascii "1a.b") :=
  (escapeMetricName_legal (ascii "1a.b") (by decide)).imp
    (fun _ h => ⟨h.1, h.2.1, h.2.2.1, h.2.2.2.1⟩)

/-! ### The identity hash -/

theorem hashAdd_eq_fnv64aWrite (h : Nat) (s : GoString) : hashAdd h s = fnv64aWrite h s := rfl

theorem fnv64aWrite_append (h : Nat) (a b : GoString) :
    fnv64aWrite h (a ++ b) = fnv64aWrite (fnv64aWrite h a) b := by
  simp [fnv64aWrite, List.foldl_append]

theorem fnv64aWrite_lt : ∀ (data : GoString) (h : Nat), h < 2 ^ 64 →
    fnv64aWrite h data < 2 ^ 64
  | [], h, hh => hh
  | b :: rest, h, _ => by
    show fnv64aWrite (((h ^^^ b) * prime64) % 2 ^ 64) rest < 2 ^ 64
    exact fnv64aWrite_lt rest _ (Nat.mod_lt _ (by decide))

theorem fnv1a64_eq (data : GoString) : fnv1a64 data = fnv64aWrite offset64 data := rfl

/-- One round of the loop of `labelsToSignature` hashes the key, 255, the value, 255. -/
theorem signatureStep_eq (labels : Labels) (sum : Nat) (k : GoString) :
    signatureStep labels sum k = fnv64aWrite sum (k ++ [255] ++ labels.get k ++ [255]) := by
  simp only [signatureStep, hashAdd_eq_fnv64aWrite, fnv64aWrite_append]
  rfl

theorem foldl_signatureStep (labels : Labels) :
    ∀ (keys : List GoString) (sum : Nat),
      keys.foldl (signatureStep labels) sum = fnv64aWrite sum (signatureText labels keys)
  | [], sum => rfl
  | k :: rest, sum => by
    rw [List.foldl_cons, foldl_signatureStep labels rest, signatureStep_eq]
    simp only [signatureText, List.map_cons, List.flatten_cons]
    exact (fnv64aWrite_append sum _ _).symm

theorem labelsToSignature_lt (labels : Labels) : labelsToSignature labels < 2 ^ 64 := by
  unfold labelsToSignature
  split_ifs
  · decide
  · rw [foldl_signatureStep]
    exact fnv64aWrite_lt _ _ (by decide)

theorem bigEndianValue_put (v : Nat) (hv : v < 2 ^ 64) :
    bigEndianValue (bigEndianPutUint64 v) = v := by
  simp only [bigEndianValue, bigEndianPutUint64, List.foldl_cons, List.foldl_nil]
  norm_num
  omega

/-! ### C25 -/

/-- C25: the signature of the empty label set is the constant 14695981039346656037, whatever the
metric name; the signature of any other label set is the FNV-1a hash, from that constant with the
step `(h xor b) * 1099511628211 mod 2^64`, of the text that holds for each key, in ascending
order of the keys, the bytes of the key, 255, the bytes of the value, 255; and the identity
hash of a name and a label set is the FNV-1a hash of the bytes of the name followed by the eight
bytes that denote the signature most significant first. -/
theorem identity_hash_is_fnv1a (name : GoString) (L : Labels) :
    labelsToSignature [] = 14695981039346656037 ∧
    (L ≠ [] → labelsToSignature L = fnv1a64 (signatureText L (sortStrings L.keys))) ∧
    (sortStrings L.keys).Sorted (fun a b => strLe a b = true) ∧
    (sortStrings L.keys).Perm L.keys ∧
    hashNameAndLabels name L = fnv1a64 (name ++ bigEndianPutUint64 (labelsToSignature L)) ∧
    (bigEndianPutUint64 (labelsToSignature L)).length = 8 ∧
    (∀ b ∈ bigEndianPutUint64 (labelsToSignature L), b < 256) ∧
    bigEndianValue (bigEndianPutUint64 (labelsToSignature L)) = labelsToSignature L := by
  haveI : IsTotal GoString (fun a b => strLe a b = true) := ⟨strLe_total⟩
  haveI : IsTrans GoString (fun a b => strLe a b = true) := ⟨strLe_trans⟩
  refine ⟨rfl, ?_, List.sorted_insertionSort _ _, List.perm_insertionSort _ _, ?_, rfl, ?_,
    bigEndianValue_put _ (labelsToSignature_lt L)⟩
  · intro hne
    have hlen : ¬ L.length = 0 := fun h => hne (List.length_eq_zero.1 h)
    unfold labelsToSignature
    rw [if_neg hlen, foldl_signatureStep]
    rfl
  · unfold hashNameAndLabels
    rw [fnv1a64_eq, fnv64aWrite_append]
  · intro b hb
    simp only [bigEndianPutUint64, List.mem_cons, List.mem_singleton, List.not_mem_nil,
      or_false] at hb
    rcases hb with h | h | h | h | h | h | h | h <;> rw [h] <;> exact Nat.mod_lt _ (by decide)

theorem identity_hash_is_fnv1a_witness :
    labelsToSignature [(ascii "host", ascii "web-1")]
      = fnv1a64 (signatureText [(ascii "host", ascii "web-1")] (sortStrings [ascii "host"])) :=
  (identity_hash_is_fnv1a (ascii "foo") [(ascii "host", ascii "web-1")]).2.1 (by simp)

/-! ### Maps with `uint64` keys -/

theorem mapGet_mapSet_self {α : Type} (m : List (Nat × α)) (k : Nat) (v : α) :
    mapGet (mapSet m k v) k = some v := by
  induction m with
  | nil => simp [mapSet, mapGet]
  | cons p rest ih =>
    obtain ⟨k2, v2⟩ := p
    simp only [mapSet]
    split_ifs with h
    · simp [mapGet, h]
    · simp [mapGet, h, ih]

theorem mapGet_mapSet_ne {α : Type} (m : List (Nat × α)) (k k2 : Nat) (v : α) (h : k2 ≠ k) :
    mapGet (mapSet m k v) k2 = mapGet m k2 := by
  induction m with
  | nil =>
    have : ¬ k = k2 := fun e => h e.symm
    simp [mapSet, mapGet, this]
  | cons p rest ih =>
    obtain ⟨k3, v3⟩ := p
    simp only [mapSet]
    split_ifs with h3
    · subst h3
      have : ¬ k3 = k2 := fun e => h e.symm
      simp [mapGet, this]
    · simp only [mapGet, ih]

theorem mapGet_eq_none {α : Type} (m : List (Nat × α)) (k : Nat) :
    mapGet m k = none ↔ k ∉ m.map Prod.fst := by
  induction m with
  | nil => simp [mapGet]
  | cons p rest ih =>
    obtain ⟨k2, v2⟩ := p
    simp only [mapGet, List.map_cons, List.mem_cons, not_or]
    split_ifs with h
    · simp [h]
    · rw [ih]
      exact ⟨fun hr => ⟨fun e => h e.symm, hr⟩, fun hr => hr.2⟩

theorem mapSet_of_absent {α : Type} (m : List (Nat × α)) (k : Nat) (v : α)
    (h : mapGet m k = none) : mapSet m k v = m ++ [(k, v)] := by
  induction m with
  | nil => rfl
  | cons p rest ih =>
    obtain ⟨k2, v2⟩ := p
    simp only [mapGet] at h
    split_ifs at h with h2
    simp only [mapSet, h2, if_false, List.cons_append, ih h]

theorem mapSet_keys {α : Type} (m : List (Nat × α)) (k : Nat) (v : α) :
    (mapSet m k v).map Prod.fst
      = if k ∈ m.map Prod.fst then m.map Prod.fst else m.map Prod.fst ++ [k] := by
  induction m with
  | nil => simp [mapSet]
  | cons p rest ih =>
    obtain ⟨k2, v2⟩ := p
    simp only [mapSet]
    by_cases h : k2 = k
    · subst h
      simp
    · have h2 : ¬ k = k2 := fun e => h e.symm
      simp only [h, if_false, List.map_cons, ih, List.mem_cons, h2, false_or]
      split_ifs <;> simp

theorem mapSet_nodup {α : Type} (m : List (Nat × α)) (k : Nat) (v : α)
    (h : (m.map Prod.fst).Nodup) : ((mapSet m k v).map Prod.fst).Nodup := by
  rw [mapSet_keys]
  split_ifs with hk
  · exact h
  · rw [List.nodup_append]
    refine ⟨h, by simp, ?_⟩
    intro a ha hb
    simp only [List.mem_singleton] at hb
    subst hb
    exact hk ha

/-- The get-or-create of a map: what every `Get` of a container does. -/
theorem getContract_of_eq {α : Type} (elements : List (Nat × α)) (h : Nat) (new : α)
    (after : List (Nat × α)) (returned : α)
    (hnone : mapGet elements h = none → after = mapSet elements h new ∧ returned = new)
    (hsome : ∀ g, mapGet elements h = some g → after = elements ∧ returned = g) :
    GetContract elements h new after returned := by
  cases hg : mapGet elements h with
  | none =>
    obtain ⟨h1, h2⟩ := hnone hg
    rw [h1, h2]
    exact ⟨fun _ => ⟨mapSet_of_absent _ _ _ hg, rfl⟩,
      fun g hg2 => absurd (hg.symm.trans hg2) (by simp),
      mapGet_mapSet_self _ _ _, fun h2 hne => mapGet_mapSet_ne _ _ _ _ hne,
      mapSet_nodup _ _ _⟩
  | some g =>
    obtain ⟨h1, h2⟩ := hsome g hg
    rw [h1, h2]
    exact ⟨fun h0 => absurd (hg.symm.trans h0) (by simp),
      fun g2 hg2 => ⟨rfl, Option.some.inj (hg.symm.trans hg2)⟩,
      hg, fun _ _ => rfl, fun hn => hn⟩

theorem counterGet_absent {F : Type} (fl : FloatArith F) (c : CounterContainer F)
    (metricName : GoString) (labels : Labels) (help : GoString)
    (h : mapGet c.Elements (hashNameAndLabels metricName labels) = none) :
    c.Get fl metricName labels help
      = (⟨mapSet c.Elements (hashNameAndLabels metricName labels)
          (NewCounter fl metricName help labels)⟩, NewCounter fl metricName help labels) := by
  unfold CounterContainer.Get
  rw [h]

theorem gaugeGet_absent {F : Type} (fl : FloatArith F) (c : GaugeContainer F)
    (metricName : GoString) (labels : Labels) (help : GoString)
    (h : mapGet c.Elements (hashNameAndLabels metricName labels) = none) :
    c.Get fl metricName labels help
      = (⟨mapSet c.Elements (hashNameAndLabels metricName labels)
          (NewGauge fl metricName help labels)⟩, NewGauge fl metricName help labels) := by
  unfold GaugeContainer.Get
  rw [h]

theorem histogramGet_absent {F : Type} (c : HistogramContainer F)
    (metricName : GoString) (labels : Labels) (help : GoString)
    (h : mapGet c.Elements (hashNameAndLabels metricName labels) = none) :
    c.Get metricName labels help
      = (⟨mapSet c.Elements (hashNameAndLabels metricName labels)
          (NewHistogram metricName help labels)⟩, NewHistogram metricName help labels) := by
  unfold HistogramContainer.Get
  rw [h]

/-- The entries after a sequence of `Get` calls: for each identity the accumulator it had, or
else the one the first call with that identity created. -/
theorem foldl_get {C A α : Type} (elems : C → List (Nat × α)) (get : C → A → C)
    (hash : A → Nat) (new : A → α)
    (hnone : ∀ c a, mapGet (elems c) (hash a) = none →
      elems (get c a) = mapSet (elems c) (hash a) (new a))
    (hsome : ∀ c a g, mapGet (elems c) (hash a) = some g → elems (get c a) = elems c) :
    ∀ (calls : List A) (c : C),
      (((elems c).map Prod.fst).Nodup → ((elems (calls.foldl get c)).map Prod.fst).Nodup) ∧
      ∀ h, (∀ g, mapGet (elems c) h = some g → mapGet (elems (calls.foldl get c)) h = some g) ∧
        (mapGet (elems c) h = none → mapGet (elems (calls.foldl get c)) h
          = (calls.find? (fun a => decide (hash a = h))).map new) := by
  intro calls
  induction calls with
  | nil =>
    intro c
    exact ⟨fun h => h, fun h => ⟨fun g hg => hg, fun hn => hn⟩⟩
  | cons a rest ih =>
    intro c
    obtain ⟨ihn, ihl⟩ := ih (get c a)
    rw [List.foldl_cons]
    cases hg : mapGet (elems c) (hash a) with
    | some g =>
      have he : elems (get c a) = elems c := hsome c a g hg
      rw [he] at ihn ihl
      refine ⟨ihn, fun h => ⟨(ihl h).1, fun hh => ?_⟩⟩
      rw [(ihl h).2 hh]
      have hne : ¬ hash a = h := by
        intro e
        rw [e, hh] at hg
        exact absurd hg (by simp)
      simp [List.find?_cons, hne]
    | none =>
      have he : elems (get c a) = mapSet (elems c) (hash a) (new a) := hnone c a hg
      rw [he] at ihn ihl
      refine ⟨fun hn => ihn (mapSet_nodup _ _ _ hn), fun h => ?_⟩
      by_cases hah : hash a = h
      · subst hah
        refine ⟨fun g2 hg2 => absurd (hg.symm.trans hg2) (by simp), fun _ => ?_⟩
        rw [(ihl (hash a)).1 _ (mapGet_mapSet_self _ _ _)]
        simp [List.find?_cons]
      · have hm := mapGet_mapSet_ne (elems c) (hash a) h (new a) (fun e => hah e.symm)
        refine ⟨fun g2 hg2 => (ihl h).1 g2 (hm.trans hg2), fun hh => ?_⟩
        rw [(ihl h).2 (hm.trans hh)]
        simp [List.find?_cons, hah]

/-- The identity of a name and labels does not depend on the order of the labels. -/
theorem hashNameAndLabels_perm (name : GoString) {L1 L2 : Labels} (nd : L1.NodupKeys)
    (h : L1.Perm L2) : hashNameAndLabels name L1 = hashNameAndLabels name L2 := by
  have hsig : labelsToSignature L1 = labelsToSignature L2 := by
    unfold labelsToSignature
    rw [h.length_eq, signatureStep_perm h nd,
      sortStrings_perm_eq (show L1.keys.Perm L2.keys from h.map Prod.fst)]
  unfold hashNameAndLabels
  rw [hsig]

theorem counterGet_present {F : Type} (fl : FloatArith F) (c : CounterContainer F)
    (metricName : GoString) (labels : Labels) (help : GoString) (g : counter F)
    (h : mapGet c.Elements (hashNameAndLabels metricName labels) = some g) :
    c.Get fl metricName labels help = (c, g) := by
  unfold CounterContainer.Get
  rw [h]

theorem gaugeGet_present {F : Type} (fl : FloatArith F) (c : GaugeContainer F)
    (metricName : GoString) (labels : Labels) (help : GoString) (g : gauge F)
    (h : mapGet c.Elements (hashNameAndLabels metricName labels) = some g) :
    c.Get fl metricName labels help = (c, g) := by
  unfold GaugeContainer.Get
  rw [h]

theorem histogramGet_present {F : Type} (c : HistogramContainer F)
    (metricName : GoString) (labels : Labels) (help : GoString) (g : histogram F)
    (h : mapGet c.Elements (hashNameAndLabels metricName labels) = some g) :
    c.Get metricName labels help = (c, g) := by
  unfold HistogramContainer.Get
  rw [h]

/-! ### C27 -/

/-- C27: for each of the three containers, `Get` meets the get-or-create contract
`GetContract` (an absent identity gets exactly one new entry, a present one is returned and the
container is left as it was, no other entry changes, the keys stay distinct); the new accumulator
has the name, labels and help text of the call; after any sequence of `Get` calls on an empty
container the keys are distinct and each identity holds the accumulator of the first call with
that identity; and a second `Get` with the same name and the same pairs in another order, with
any help text, returns the accumulator of the first and leaves the container unchanged. -/
theorem container_get_or_create {F : Type} (fl : FloatArith F) (metricName : GoString)
    (labels : Labels) (help : GoString) :
    ((∀ c : CounterContainer F, GetContract c.Elements (hashNameAndLabels metricName labels)
        (NewCounter fl metricName help labels) (c.Get fl metricName labels help).1.Elements
        (c.Get fl metricName labels help).2) ∧
      (∀ c : GaugeContainer F, GetContract c.Elements (hashNameAndLabels metricName labels)
        (NewGauge fl metricName help labels) (c.Get fl metricName labels help).1.Elements
        (c.Get fl metricName labels help).2) ∧
      (∀ c : HistogramContainer F, GetContract c.Elements (hashNameAndLabels metricName labels)
        (NewHistogram metricName help labels) (c.Get metricName labels help).1.Elements
        (c.Get metricName labels help).2)) ∧
    (((NewCounter fl metricName help labels).name = metricName ∧
        (NewCounter fl metricName help labels).labels = labels ∧
        (NewCounter fl metricName help labels).description = help) ∧
      ((NewGauge fl metricName help labels).name = metricName ∧
        (NewGauge fl metricName help labels).labels = labels ∧
        (NewGauge fl metricName help labels).description = help) ∧
      ((NewHistogram metricName help labels : histogram F).name = metricName ∧
        (NewHistogram metricName help labels : histogram F).labels = labels ∧
        (NewHistogram metricName help labels : histogram F).description = help)) ∧
    (∀ calls : List GetArgs,
      ((((calls.foldl (fun c x => (c.Get fl x.1 x.2.1 x.2.2).1)
            (⟨[]⟩ : CounterContainer F)).Elements.map Prod.fst).Nodup) ∧
        ∀ h, mapGet (calls.foldl (fun c x => (c.Get fl x.1 x.2.1 x.2.2).1)
            (⟨[]⟩ : CounterContainer F)).Elements h
          = (calls.find? (fun x => decide (x.hash = h))).map
              (fun x => NewCounter fl x.1 x.2.2 x.2.1)) ∧
      ((((calls.foldl (fun c x => (c.Get fl x.1 x.2.1 x.2.2).1)
            (⟨[]⟩ : GaugeContainer F)).Elements.map Prod.fst).Nodup) ∧
        ∀ h, mapGet (calls.foldl (fun c x => (c.Get fl x.1 x.2.1 x.2.2).1)
            (⟨[]⟩ : GaugeContainer F)).Elements h
          = (calls.find? (fun x => decide (x.hash = h))).map
              (fun x => NewGauge fl x.1 x.2.2 x.2.1)) ∧
      ((((calls.foldl (fun c x => (c.Get x.1 x.2.1 x.2.2).1)
            (⟨[]⟩ : HistogramContainer F)).Elements.map Prod.fst).Nodup) ∧
        ∀ h, mapGet (calls.foldl (fun c x => (c.Get x.1 x.2.1 x.2.2).1)
            (⟨[]⟩ : HistogramContainer F)).Elements h
          = (calls.find? (fun x => decide (x.hash = h))).map
              (fun x => NewHistogram x.1 x.2.2 x.2.1))) ∧
    (∀ (labels2 : Labels) (help2 : GoString), labels.NodupKeys → labels.Perm labels2 →
      (∀ c : CounterContainer F,
        (c.Get fl metricName labels help).1.Get fl metricName labels2 help2
          = c.Get fl metricName labels help) ∧
      (∀ c : GaugeContainer F,
        (c.Get fl metricName labels help).1.Get fl metricName labels2 help2
          = c.Get fl metricName labels help) ∧
      (∀ c : HistogramContainer F,
        (c.Get metricName labels help).1.Get metricName labels2 help2
          = c.Get metricName labels help)) := by
  have hc : ∀ c : CounterContainer F, GetContract c.Elements (hashNameAndLabels metricName labels)
      (NewCounter fl metricName help labels) (c.Get fl metricName labels help).1.Elements
      (c.Get fl metricName labels help).2 :=
    fun c => getContract_of_eq _ _ _ _ _
      (fun h => by rw [counterGet_absent fl c metricName labels help h]; exact ⟨rfl, rfl⟩)
      (fun g h => by
        rw [counterGet_present fl c metricName labels help g h]; exact ⟨rfl, rfl⟩)
  have hg : ∀ c : GaugeContainer F, GetContract c.Elements (hashNameAndLabels metricName labels)
      (NewGauge fl metricName help labels) (c.Get fl metricName labels help).1.Elements
      (c.Get fl metricName labels help).2 :=
    fun c => getContract_of_eq _ _ _ _ _
      (fun h => by rw [gaugeGet_absent fl c metricName labels help h]; exact ⟨rfl, rfl⟩)
      (fun g h => by
        rw [gaugeGet_present fl c metricName labels help g h]; exact ⟨rfl, rfl⟩)
  have hh : ∀ c : HistogramContainer F,
      GetContract c.Elements (hashNameAndLabels metricName labels)
      (NewHistogram metricName help labels) (c.Get metricName labels help).1.Elements
      (c.Get metricName labels help).2 :=
    fun c => getContract_of_eq _ _ _ _ _
      (fun h => by rw [histogramGet_absent c metricName labels help h]; exact ⟨rfl, rfl⟩)
      (fun g h => by
        rw [histogramGet_present c metricName labels help g h]; exact ⟨rfl, rfl⟩)
  refine ⟨⟨hc, hg, hh⟩, ⟨⟨rfl, rfl, rfl⟩, ⟨rfl, rfl, rfl⟩, ⟨rfl, rfl, rfl⟩⟩, ?_, ?_⟩
  · intro calls
    refine ⟨?_, ?_, ?_⟩
    · have key := foldl_get (fun c : CounterContainer F => c.Elements)
        (fun c (x : GetArgs) => (c.Get fl x.1 x.2.1 x.2.2).1) GetArgs.hash
        (fun x => NewCounter fl x.1 x.2.2 x.2.1)
        (fun c a h =>
          congrArg (fun p => p.1.Elements) (counterGet_absent fl c a.1 a.2.1 a.2.2 h))
        (fun c a g h =>
          congrArg (fun p => p.1.Elements) (counterGet_present fl c a.1 a.2.1 a.2.2 g h))
        calls ⟨[]⟩
      exact ⟨key.1 List.nodup_nil, fun h => (key.2 h).2 rfl⟩
    · have key := foldl_get (fun c : GaugeContainer F => c.Elements)
        (fun c (x : GetArgs) => (c.Get fl x.1 x.2.1 x.2.2).1) GetArgs.hash
        (fun x => NewGauge fl x.1 x.2.2 x.2.1)
        (fun c a h =>
          congrArg (fun p => p.1.Elements) (gaugeGet_absent fl c a.1 a.2.1 a.2.2 h))
        (fun c a g h =>
          congrArg (fun p => p.1.Elements) (gaugeGet_present fl c a.1 a.2.1 a.2.2 g h))
        calls ⟨[]⟩
      exact ⟨key.1 List.nodup_nil, fun h => (key.2 h).2 rfl⟩
    · have key := foldl_get (fun c : HistogramContainer F => c.Elements)
        (fun c (x : GetArgs) => (c.Get x.1 x.2.1 x.2.2).1) GetArgs.hash
        (fun x => NewHistogram x.1 x.2.2 x.2.1)
        (fun c a h =>
          congrArg (fun p => p.1.Elements) (histogramGet_absent c a.1 a.2.1 a.2.2 h))
        (fun c a g h =>
          congrArg (fun p => p.1.Elements) (histogramGet_present c a.1 a.2.1 a.2.2 g h))
        calls ⟨[]⟩
      exact ⟨key.1 List.nodup_nil, fun h => (key.2 h).2 rfl⟩
  · intro labels2 help2 nd hp
    have hash := hashNameAndLabels_perm metricName nd hp
    refine ⟨fun c => ?_, fun c => ?_, fun c => ?_⟩
    · have hm : mapGet (CounterContainer.Get fl c metricName labels help).1.Elements
          (hashNameAndLabels metricName labels2)
            = some (CounterContainer.Get fl c metricName labels help).2 := by
        rw [← hash]
        exact (hc c).2.2.1
      exact counterGet_present fl (CounterContainer.Get fl c metricName labels help).1 metricName labels2
        help2 (CounterContainer.Get fl c metricName labels help).2 hm
    · have hm : mapGet (GaugeContainer.Get fl c metricName labels help).1.Elements
          (hashNameAndLabels metricName labels2)
            = some (GaugeContainer.Get fl c metricName labels help).2 := by
        rw [← hash]
        exact (hg c).2.2.1
      exact gaugeGet_present fl (GaugeContainer.Get fl c metricName labels help).1 metricName labels2
        help2 (GaugeContainer.Get fl c metricName labels help).2 hm
    · have hm : mapGet (HistogramContainer.Get c metricName labels help).1.Elements
          (hashNameAndLabels metricName labels2)
            = some (HistogramContainer.Get c metricName labels help).2 := by
        rw [← hash]
        exact (hh c).2.2.1
      exact histogramGet_present (HistogramContainer.Get c metricName labels help).1 metricName labels2
        help2 (HistogramContainer.Get c metricName labels help).2 hm

theorem container_get_or_create_witness :
    (Labels.NodupKeys [(ascii "a", ascii "1"), (ascii "b", ascii "2")] ∧
      List.Perm [(ascii "a", ascii "1"), (ascii "b", ascii "2")]
        [(ascii "b", ascii "2"), (ascii "a", ascii "1")]) ∧
    ((⟨[]⟩ : GaugeContainer Dec).Get decArith (ascii "foo")
        [(ascii "a", ascii "1"), (ascii "b", ascii "2")] (ascii "first")).1.Get decArith
        (ascii "foo") [(ascii "b", ascii "2"), (ascii "a", ascii "1")] (ascii "second")
      = (⟨[]⟩ : GaugeContainer Dec).Get decArith (ascii "foo")
        [(ascii "a", ascii "1"), (ascii "b", ascii "2")] (ascii "first") :=
  have nd : Labels.NodupKeys [(ascii "a", ascii "1"), (ascii "b", ascii "2")] := by
    unfold Labels.NodupKeys; decide
  ⟨⟨nd, List.Perm.swap _ _ _⟩,
    ((container_get_or_create decArith (ascii "foo")
      [(ascii "a", ascii "1"), (ascii "b", ascii "2")] (ascii "first")).2.2.2
      [(ascii "b", ascii "2"), (ascii "a", ascii "1")] (ascii "second") nd
      (List.Perm.swap _ _ _)).2.1 ⟨[]⟩⟩

/-! ### One round of the pipeline -/

theorem Labels.get_set (m : Labels) (k v k2 : GoString) :
    (m.set k v).get k2 = if k = k2 then v else m.get k2 := by
  induction m with
  | nil => simp [Labels.set, Labels.get]
  | cons p rest ih =>
    obtain ⟨k3, v3⟩ := p
    simp only [Labels.set]
    by_cases h : k3 = k
    · subst h
      rw [if_pos rfl]
      simp only [Labels.get]
      by_cases h2 : k3 = k2
      · rw [if_pos h2, if_pos h2]
      · rw [if_neg h2, if_neg h2, if_neg h2]
    · rw [if_neg h]
      simp only [Labels.get, ih]
      by_cases h2 : k3 = k2
      · subst h2
        rw [if_pos rfl, if_neg (fun e => h e.symm), if_pos rfl]
      · rw [if_neg h2, if_neg h2]

/-- What the merge loop leaves under each key: the value of the rule where the rule has the key,
the value of the event elsewhere. -/
theorem mergeLabels_get (labels : Labels) (nd : labels.NodupKeys) :
    ∀ (eventLabels : Labels) (k : GoString),
      (mergeLabels eventLabels labels).get k
        = if k ∈ labels.keys then labels.get k else eventLabels.get k := by
  induction labels with
  | nil => intro eventLabels k; simp [mergeLabels, Labels.keys]
  | cons p rest ih =>
    obtain ⟨k1, v1⟩ := p
    intro eventLabels k
    simp only [Labels.NodupKeys, Labels.keys, List.map_cons, List.nodup_cons] at nd
    have hih := ih nd.2 (eventLabels.set k1 v1) k
    unfold mergeLabels at hih ⊢
    rw [List.foldl_cons, hih, Labels.get_set]
    simp only [Labels.keys, List.map_cons, List.mem_cons, Labels.get]
    by_cases hk : k1 = k
    · subst hk
      rw [if_neg nd.1, if_pos rfl, if_pos (Or.inl rfl), if_pos rfl]
    · rw [if_neg hk, if_neg hk]
      by_cases hr : k ∈ List.map Prod.fst rest
      · rw [if_pos hr, if_pos (Or.inr hr)]
      · rw [if_neg hr, if_neg (by rintro (e | e); exact hk e.symm; exact hr e)]

theorem mergeLabels_keys (eventLabels labels : Labels) (k : GoString) :
    k ∈ (mergeLabels eventLabels labels).keys ↔ k ∈ eventLabels.keys ∨ k ∈ labels.keys := by
  have h := foldl_set_keys (fun v => v) labels eventLabels k
  exact h

theorem Labels.set_nodupKeys (m : Labels) (k v : GoString) (nd : m.NodupKeys) :
    (m.set k v).NodupKeys := by
  induction m with
  | nil => simp [Labels.set, Labels.NodupKeys, Labels.keys]
  | cons p rest ih =>
    obtain ⟨k3, v3⟩ := p
    simp only [Labels.NodupKeys, Labels.keys, List.map_cons, List.nodup_cons] at nd
    simp only [Labels.set]
    by_cases h : k3 = k
    · rw [if_pos h]
      simp only [Labels.NodupKeys, Labels.keys, List.map_cons, List.nodup_cons]
      exact nd
    · rw [if_neg h]
      simp only [Labels.NodupKeys, Labels.keys, List.map_cons, List.nodup_cons]
      refine ⟨fun hm => ?_, ih nd.2⟩
      rcases (Labels.keys_set rest k v k3).1 hm with e | e
      · exact h e
      · exact nd.1 e

theorem mergeLabels_nodupKeys (labels : Labels) :
    ∀ eventLabels : Labels, eventLabels.NodupKeys → (mergeLabels eventLabels labels).NodupKeys := by
  induction labels with
  | nil => intro eventLabels h; exact h
  | cons p rest ih =>
    intro eventLabels h
    exact ih _ (Labels.set_nodupKeys _ _ _ h)

/-- The round of a counter event that is not dropped and whose name resolves. -/
theorem round_counter {F : Type} (fl : FloatArith F) (b : Exporter F) (name : GoString)
    (value : F) (eventLabels : Labels) (found : Option MetricMapping) (labels : Labels)
    (present : Bool) (metricName : GoString)
    (hget : GetMapping b.mapper name metricTypeCounter = some (found, labels, present))
    (hact : (found.getD zeroMapping).Action ≠ ActionTypeDrop)
    (hname : (if present = true then EscapeMetricName (found.getD zeroMapping).Name
      else EscapeMetricName name) = some metricName) :
    processHierarchicalEvent fl b (.counter name value eventLabels)
      = if fl.ltZero value = true then some b
        else some { b with elasticBulkProcessor := b.elasticBulkProcessor ++
          [{ Name := metricName,
             Description := if (found.getD zeroMapping).HelpText = [] then defaultHelp
               else (found.getD zeroMapping).HelpText,
             MetricType := ascii "counter", Value := value,
             Labels := if present = true then mergeLabels eventLabels labels
               else eventLabels }] } := by
  unfold processHierarchicalEvent
  simp only [Event.MetricName, Event.MetricType, Event.Labels, hget, if_neg hact, hname]

/-- The round of a gauge event that is not dropped and whose name resolves. -/
theorem round_gauge {F : Type} (fl : FloatArith F) (b : Exporter F) (name : GoString)
    (value : F) (relative : Bool) (eventLabels : Labels) (found : Option MetricMapping)
    (labels : Labels) (present : Bool) (metricName : GoString)
    (hget : GetMapping b.mapper name metricTypeGauge = some (found, labels, present))
    (hact : (found.getD zeroMapping).Action ≠ ActionTypeDrop)
    (hname : (if present = true then EscapeMetricName (found.getD zeroMapping).Name
      else EscapeMetricName name) = some metricName) :
    processHierarchicalEvent fl b (.gauge name value relative eventLabels)
      = some { b with
          Gauges := ⟨mapSet (b.Gauges.Get fl metricName labels
              (if (found.getD zeroMapping).HelpText = [] then defaultHelp
                else (found.getD zeroMapping).HelpText)).1.Elements
            (hashNameAndLabels metricName labels)
            (if relative = true then
              (b.Gauges.Get fl metricName labels
                (if (found.getD zeroMapping).HelpText = [] then defaultHelp
                  else (found.getD zeroMapping).HelpText)).2.Add fl value
             else (b.Gauges.Get fl metricName labels
                (if (found.getD zeroMapping).HelpText = [] then defaultHelp
                  else (found.getD zeroMapping).HelpText)).2.Set value)⟩,
          elasticBulkProcessor := b.elasticBulkProcessor ++
            [{ Name := metricName,
               Description := if (found.getD zeroMapping).HelpText = [] then defaultHelp
                 else (found.getD zeroMapping).HelpText,
               MetricType := ascii "gauge",
               Value := (if relative = true then
                 (b.Gauges.Get fl metricName labels
                   (if (found.getD zeroMapping).HelpText = [] then defaultHelp
                     else (found.getD zeroMapping).HelpText)).2.Add fl value
                 else (b.Gauges.Get fl metricName labels
                   (if (found.getD zeroMapping).HelpText = [] then defaultHelp
                     else (found.getD zeroMapping).HelpText)).2.Set value).Value,
               Labels := if present = true then mergeLabels eventLabels labels
                 else eventLabels }] } := by
  unfold processHierarchicalEvent
  simp only [Event.MetricName, Event.MetricType, Event.Labels, hget, if_neg hact, hname]

/-- A round that leaves the exporter as it is can be left out of a batch, when it does so on
every exporter with the same mapper. -/
theorem batch_skip {F : Type} (fl : FloatArith F) (b : Exporter F) (ev : Event F)
    (hstep : ∀ b1 : Exporter F, b1.mapper = b.mapper →
      processHierarchicalEvent fl b1 ev = some b1)
    (before after : List (Event F)) :
    processHierarchicalEvents fl b (before ++ ev :: after)
      = processHierarchicalEvents fl b (before ++ after) := by
  rw [processHierarchicalEvents_append, processHierarchicalEvents_append]
  cases h1 : processHierarchicalEvents fl b before with
  | none => rfl
  | some b1 =>
    simp only [Option.bind]
    unfold processHierarchicalEvents
    rw [List.foldlM_cons, hstep b1 (processHierarchicalEvents_mapper fl h1)]
    rfl

/-! ### C21 -/

/-- C21: with the rule `match: app.*.latency`, `name: $1`, which loads, the line
`app..latency:-5|c` parses to one counter event of value -5, and the round of that event does
not return: the resolved name is empty and `EscapeMetricName` reads its byte 0 before the value
is looked at.  Apart from that: a counter event with a negative value whose lookup returns and
whose name, when the event is not dropped, resolves leaves the exporter as it is (no document, no
change of a container) and the batch with the event has the outcome of the batch without it. -/
theorem negative_counter_round {F : Type} (fl : FloatArith F) (b : Exporter F)
    (name : GoString) (value : F) (eventLabels : Labels) (hneg : fl.ltZero value = true) :
    (loadDocument ⟨⟨[], []⟩, []⟩ (latencyDocument (ascii "$1"))
        = (⟨⟨[], matchTypeGlob⟩, [latencyRule (ascii "$1")]⟩, none) ∧
      lineToEvents decOps (ascii "app..latency:-5|c")
        = some [Event.counter (ascii "app..latency") ⟨-5, 1⟩ []] ∧
      decArith.ltZero ⟨-5, 1⟩ = true ∧
      processHierarchicalEvents decArith
          ⟨⟨[]⟩, ⟨[]⟩, ⟨[]⟩, ⟨⟨[], matchTypeGlob⟩, [latencyRule (ascii "$1")]⟩, [],
            ascii "statsd"⟩
          [Event.counter (ascii "app..latency") ⟨-5, 1⟩ []] = none) ∧
    ∀ (found : Option MetricMapping) (labels : Labels) (present : Bool),
      GetMapping b.mapper name metricTypeCounter = some (found, labels, present) →
      ((found.getD zeroMapping).Action ≠ ActionTypeDrop →
        (if present = true then EscapeMetricName (found.getD zeroMapping).Name
          else EscapeMetricName name) ≠ none) →
      processHierarchicalEvent fl b (.counter name value eventLabels) = some b ∧
      ∀ before after : List (Event F),
        processHierarchicalEvents fl b (before ++ .counter name value eventLabels :: after)
          = processHierarchicalEvents fl b (before ++ after) := by
  refine ⟨⟨by decide, by decide, by decide, by decide⟩, ?_⟩
  intro found labels present hget hname
  have hstep : ∀ b1 : Exporter F, b1.mapper = b.mapper →
      processHierarchicalEvent fl b1 (.counter name value eventLabels) = some b1 := by
    intro b1 hb1
    by_cases hact : (found.getD zeroMapping).Action = ActionTypeDrop
    · unfold processHierarchicalEvent
      simp only [Event.MetricName, Event.MetricType, hb1, hget, hact, if_true]
    · obtain ⟨metricName, hm⟩ := Option.ne_none_iff_exists'.1 (hname hact)
      rw [round_counter fl b1 name value eventLabels found labels present metricName
        (by rw [hb1]; exact hget) hact hm, if_pos hneg]
  exact ⟨hstep b rfl, batch_skip fl b _ hstep⟩

theorem negative_counter_round_witness :
    decArith.ltZero ⟨-5, 1⟩ = true ∧
    processHierarchicalEvent decArith
        ⟨⟨[]⟩, ⟨[]⟩, ⟨[]⟩, ⟨⟨[], matchTypeGlob⟩, [latencyRule (ascii "x")]⟩, [], ascii "statsd"⟩
        (.counter (ascii "foo") ⟨-5, 1⟩ [])
      = some ⟨⟨[]⟩, ⟨[]⟩, ⟨[]⟩, ⟨⟨[], matchTypeGlob⟩, [latencyRule (ascii "x")]⟩, [],
          ascii "statsd"⟩ :=
  ⟨by decide,
    ((negative_counter_round decArith
      ⟨⟨[]⟩, ⟨[]⟩, ⟨[]⟩, ⟨⟨[], matchTypeGlob⟩, [latencyRule (ascii "x")]⟩, [], ascii "statsd"⟩
      (ascii "foo") ⟨-5, 1⟩ [] (by decide)).2 none [] false (by decide)
      (fun _ => by decide)).1⟩

/-! ### C22 -/

/-- C22, counterexample: the round of the counter event of the line `foo:1|c`, on an exporter
with no rules and empty containers, adds the document and stores no counter: afterwards the
`Counters` container has no entry under the identity of the name `foo` with no labels. -/
theorem counter_event_stores_no_counter :
    lineToEvents decOps (ascii "foo:1|c") = some [Event.counter (ascii "foo") ⟨1, 1⟩ []] ∧
    processHierarchicalEvent decArith
        ⟨⟨[]⟩, ⟨[]⟩, ⟨[]⟩, ⟨⟨[], matchTypeGlob⟩, []⟩, [], ascii "statsd"⟩
        (.counter (ascii "foo") ⟨1, 1⟩ [])
      = some ⟨⟨[]⟩, ⟨[]⟩, ⟨[]⟩, ⟨⟨[], matchTypeGlob⟩, []⟩,
          [{ Name := ascii "foo", Description := defaultHelp, MetricType := ascii "counter",
             Value := ⟨1, 1⟩, Labels := [] }], ascii "statsd"⟩ ∧
    (processHierarchicalEvent decArith
        ⟨⟨[]⟩, ⟨[]⟩, ⟨[]⟩, ⟨⟨[], matchTypeGlob⟩, []⟩, [], ascii "statsd"⟩
        (.counter (ascii "foo") ⟨1, 1⟩ [])).map
          (fun b2 => mapGet b2.Counters.Elements (hashNameAndLabels (ascii "foo") []))
      = some none := by
  decide

/-- C22, amended: a counter event with a non-negative value that is not dropped and whose name
resolves adds exactly one document, of metric type `counter`, with the resolved name, the
value of the event, the help text of the rule or the default one, and the merged labels; the
round changes nothing else: the `Counters` container, like the other two, is what it was. -/
theorem counter_event_document {F : Type} (fl : FloatArith F) (b : Exporter F)
    (name : GoString) (value : F) (eventLabels : Labels) (found : Option MetricMapping)
    (labels : Labels) (present : Bool) (metricName : GoString)
    (hget : GetMapping b.mapper name metricTypeCounter = some (found, labels, present))
    (hact : (found.getD zeroMapping).Action ≠ ActionTypeDrop)
    (hname : (if present = true then EscapeMetricName (found.getD zeroMapping).Name
      else EscapeMetricName name) = some metricName)
    (hval : fl.ltZero value = false) :
    ∃ b2, processHierarchicalEvent fl b (.counter name value eventLabels) = some b2 ∧
      b2.elasticBulkProcessor = b.elasticBulkProcessor ++
        [{ Name := metricName,
           Description := if (found.getD zeroMapping).HelpText = [] then defaultHelp
             else (found.getD zeroMapping).HelpText,
           MetricType := ascii "counter", Value := value,
           Labels := if present = true then mergeLabels eventLabels labels
             else eventLabels }] ∧
      b2.Counters = b.Counters ∧ b2.Gauges = b.Gauges ∧ b2.Histograms = b.Histograms ∧
      b2.mapper = b.mapper ∧ b2.elasticIndex = b.elasticIndex := by
  rw [round_counter fl b name value eventLabels found labels present metricName hget hact hname,
    if_neg (by rw [hval]; simp)]
  exact ⟨_, rfl, rfl, rfl, rfl, rfl, rfl, rfl⟩

theorem counter_event_document_witness :
    ∃ b2, processHierarchicalEvent decArith
        ⟨⟨[]⟩, ⟨[]⟩, ⟨[]⟩, ⟨⟨[], matchTypeGlob⟩, []⟩, [], ascii "statsd"⟩
        (.counter (ascii "foo") ⟨1, 1⟩ []) = some b2 ∧
      b2.elasticBulkProcessor = [] ++
        [{ Name := ascii "foo",
           Description := if (Option.getD none zeroMapping).HelpText = [] then defaultHelp
             else (Option.getD none zeroMapping).HelpText,
           MetricType := ascii "counter", Value := ⟨1, 1⟩,
           Labels := if false = true then mergeLabels [] [] else [] }] ∧
      b2.Counters = ⟨[]⟩ ∧ b2.Gauges = ⟨[]⟩ ∧ b2.Histograms = ⟨[]⟩ ∧
      b2.mapper = ⟨⟨[], matchTypeGlob⟩, []⟩ ∧ b2.elasticIndex = ascii "statsd" :=
  counter_event_document decArith
    ⟨⟨[]⟩, ⟨[]⟩, ⟨[]⟩, ⟨⟨[], matchTypeGlob⟩, []⟩, [], ascii "statsd"⟩
    (ascii "foo") ⟨1, 1⟩ [] none [] false (ascii "foo") (by decide) (by decide) (by decide)
    (by decide)

/-- The round of a timer event that is not dropped and whose name resolves. -/
theorem round_timer {F : Type} (fl : FloatArith F) (b : Exporter F) (name : GoString)
    (value : F) (eventLabels : Labels) (found : Option MetricMapping) (labels : Labels)
    (present : Bool) (metricName : GoString)
    (hget : GetMapping b.mapper name metricTypeTimer = some (found, labels, present))
    (hact : (found.getD zeroMapping).Action ≠ ActionTypeDrop)
    (hname : (if present = true then EscapeMetricName (found.getD zeroMapping).Name
      else EscapeMetricName name) = some metricName) :
    processHierarchicalEvent fl b (.timer name value eventLabels)
      = if (if (found.getD zeroMapping).TimerType = TimerTypeDefault
              then b.mapper.Defaults.TimerType else (found.getD zeroMapping).TimerType)
            = TimerTypeDefault ∨
          (if (found.getD zeroMapping).TimerType = TimerTypeDefault
              then b.mapper.Defaults.TimerType else (found.getD zeroMapping).TimerType)
            = TimerTypeRaw then
          some { b with elasticBulkProcessor := b.elasticBulkProcessor ++
            [{ Name := metricName,
               Description := if (found.getD zeroMapping).HelpText = [] then defaultHelp
                 else (found.getD zeroMapping).HelpText,
               MetricType := ascii "raw_timer", Value := value,
               Labels := if present = true then mergeLabels eventLabels labels
                 else eventLabels }] }
        else none := by
  unfold processHierarchicalEvent
  simp only [Event.MetricName, Event.MetricType, Event.Labels, hget, if_neg hact, hname]

/-- Every document a round adds carries the merged labels of its event. -/
theorem round_documents {F : Type} (fl : FloatArith F) (b b2 : Exporter F) (ev : Event F)
    (found : Option MetricMapping) (labels : Labels) (present : Bool)
    (hget : GetMapping b.mapper ev.MetricName ev.MetricType = some (found, labels, present))
    (h : processHierarchicalEvent fl b ev = some b2) :
    ∃ docs, b2.elasticBulkProcessor = b.elasticBulkProcessor ++ docs ∧ docs.length ≤ 1 ∧
      ∀ d ∈ docs, d.Labels
        = if present = true then mergeLabels ev.Labels labels else ev.Labels := by
  by_cases hact : (found.getD zeroMapping).Action = ActionTypeDrop
  · have h0 : processHierarchicalEvent fl b ev = some b := by
      unfold processHierarchicalEvent
      simp only [hget, hact, if_true]
    rw [h0] at h
    injection h with h
    exact ⟨[], by rw [← h, List.append_nil], by simp, by simp⟩
  · cases hn : (if present = true then EscapeMetricName (found.getD zeroMapping).Name
        else EscapeMetricName ev.MetricName) with
    | none =>
      have h0 : processHierarchicalEvent fl b ev = none := by
        unfold processHierarchicalEvent
        simp only [hget, if_neg hact, hn]
      rw [h0] at h
      exact absurd h (by simp)
    | some metricName =>
      cases ev with
      | counter name value eventLabels =>
        rw [round_counter fl b name value eventLabels found labels present metricName hget hact
          hn] at h
        by_cases hv : fl.ltZero value = true
        · rw [if_pos hv] at h
          injection h with h
          exact ⟨[], by rw [← h, List.append_nil], by simp, by simp⟩
        · rw [if_neg hv] at h
          injection h with h
          refine ⟨_, by rw [← h], by simp, ?_⟩
          intro d hd
          rw [List.mem_singleton.1 hd]
          rfl
      | gauge name value relative eventLabels =>
        rw [round_gauge fl b name value relative eventLabels found labels present metricName
          hget hact hn] at h
        injection h with h
        refine ⟨_, by rw [← h], by simp, ?_⟩
        intro d hd
        rw [List.mem_singleton.1 hd]
        rfl
      | timer name value eventLabels =>
        rw [round_timer fl b name value eventLabels found labels present metricName hget hact
          hn] at h
        by_cases ht : (if (found.getD zeroMapping).TimerType = TimerTypeDefault
              then b.mapper.Defaults.TimerType else (found.getD zeroMapping).TimerType)
            = TimerTypeDefault ∨
          (if (found.getD zeroMapping).TimerType = TimerTypeDefault
              then b.mapper.Defaults.TimerType else (found.getD zeroMapping).TimerType)
            = TimerTypeRaw
        · rw [if_pos ht] at h
          injection h with h
          refine ⟨_, by rw [← h], by simp, ?_⟩
          intro d hd
          rw [List.mem_singleton.1 hd]
          rfl
        · rw [if_neg ht] at h
          exact absurd h (by simp)

/-! ### C23 -/

/-- C23: every document a round adds for an event carries, when the lookup reports a match, the
labels of the event overridden by the labels of the rule, and otherwise the labels of the event;
the round of a gauge event that is not dropped and whose name resolves does add one document.
In the overridden label set every key of the rule has the value of the rule, every other key
has the value of the event, and the keys are those of the event and of the rule, each once. -/
theorem document_labels_merged {F : Type} (fl : FloatArith F) (b : Exporter F) (ev : Event F)
    (found : Option MetricMapping) (labels : Labels) (present : Bool)
    (hget : GetMapping b.mapper ev.MetricName ev.MetricType = some (found, labels, present))
    (hlabels : labels.NodupKeys) :
    (∀ b2, processHierarchicalEvent fl b ev = some b2 →
      ∃ docs, b2.elasticBulkProcessor = b.elasticBulkProcessor ++ docs ∧ docs.length ≤ 1 ∧
        ∀ d ∈ docs, d.Labels
          = if present = true then mergeLabels ev.Labels labels else ev.Labels) ∧
    (∀ (name : GoString) (value : F) (relative : Bool) (eventLabels : Labels),
      ev = .gauge name value relative eventLabels →
      (found.getD zeroMapping).Action ≠ ActionTypeDrop →
      (if present = true then EscapeMetricName (found.getD zeroMapping).Name
        else EscapeMetricName name) ≠ none →
      ∃ b2 d, processHierarchicalEvent fl b ev = some b2 ∧
        b2.elasticBulkProcessor = b.elasticBulkProcessor ++ [d] ∧
        d.Labels = if present = true then mergeLabels eventLabels labels else eventLabels) ∧
    (∀ k, k ∈ labels.keys → (mergeLabels ev.Labels labels).get k = labels.get k) ∧
    (∀ k, k ∉ labels.keys → (mergeLabels ev.Labels labels).get k = ev.Labels.get k) ∧
    (∀ k, k ∈ (mergeLabels ev.Labels labels).keys ↔ k ∈ ev.Labels.keys ∨ k ∈ labels.keys) ∧
    (ev.Labels.NodupKeys → (mergeLabels ev.Labels labels).NodupKeys) := by
  refine ⟨fun b2 h => round_documents fl b b2 ev found labels present hget h, ?_, ?_, ?_,
    mergeLabels_keys _ _, mergeLabels_nodupKeys _ _⟩
  · intro name value relative eventLabels hev hact hname
    subst hev
    obtain ⟨metricName, hm⟩ := Option.ne_none_iff_exists'.1 hname
    rw [round_gauge fl b name value relative eventLabels found labels present metricName
      hget hact hm]
    exact ⟨_, _, rfl, rfl, rfl⟩
  · intro k hk
    rw [mergeLabels_get labels hlabels, if_pos hk]
  · intro k hk
    rw [mergeLabels_get labels hlabels, if_neg hk]

theorem document_labels_merged_witness :
    (GetMapping (⟨⟨[], matchTypeGlob⟩,
        [{ latencyRule (ascii "x") with Labels := [(ascii "env", ascii "prod")] }]⟩ : MetricMapper)
        (ascii "app.a.latency") metricTypeGauge
      = some (some { latencyRule (ascii "x") with Labels := [(ascii "env", ascii "prod")] },
          [(ascii "env", ascii "prod")], true) ∧
      Labels.NodupKeys [(ascii "env", ascii "prod")]) ∧
    (mergeLabels [(ascii "env", ascii "dev"), (ascii "host", ascii "h")]
        [(ascii "env", ascii "prod")]).get (ascii "env")
      = Labels.get [(ascii "env", ascii "prod")] (ascii "env") :=
  have nd : Labels.NodupKeys [(ascii "env", ascii "prod")] := by
    unfold Labels.NodupKeys; decide
  ⟨⟨by decide, nd⟩,
    (document_labels_merged decArith
      ⟨⟨[]⟩, ⟨[]⟩, ⟨[]⟩, ⟨⟨[], matchTypeGlob⟩,
        [{ latencyRule (ascii "x") with Labels := [(ascii "env", ascii "prod")] }]⟩, [],
        ascii "statsd"⟩
      (.gauge (ascii "app.a.latency") ⟨1, 1⟩ false
        [(ascii "env", ascii "dev"), (ascii "host", ascii "h")])
      (some { latencyRule (ascii "x") with Labels := [(ascii "env", ascii "prod")] })
      [(ascii "env", ascii "prod")] true (by decide) nd).2.2.1 (ascii "env") (by decide)⟩

/-- The round of a gauge event that is not dropped and whose name resolves, by its effects:
one document with the new value, which is also the value of the gauge stored afterwards under
the identity of the resolved name and the labels of the rule; nothing else changes. -/
theorem round_gauge_value {F : Type} (fl : FloatArith F) (b : Exporter F) (name : GoString)
    (value : F) (relative : Bool) (eventLabels : Labels) (found : Option MetricMapping)
    (labels : Labels) (present : Bool) (metricName : GoString)
    (hget : GetMapping b.mapper name metricTypeGauge = some (found, labels, present))
    (hact : (found.getD zeroMapping).Action ≠ ActionTypeDrop)
    (hname : (if present = true then EscapeMetricName (found.getD zeroMapping).Name
      else EscapeMetricName name) = some metricName) :
    ∃ (b2 : Exporter F) (stored : gauge F),
      processHierarchicalEvent fl b (.gauge name value relative eventLabels) = some b2 ∧
      b2.elasticBulkProcessor = b.elasticBulkProcessor ++
        [{ Name := metricName,
           Description := if (found.getD zeroMapping).HelpText = [] then defaultHelp
             else (found.getD zeroMapping).HelpText,
           MetricType := ascii "gauge",
           Value := if relative = true then
               fl.add (((mapGet b.Gauges.Elements (hashNameAndLabels metricName labels)).map
                 gauge.Value).getD fl.zero) value
             else value,
           Labels := if present = true then mergeLabels eventLabels labels
             else eventLabels }] ∧
      mapGet b2.Gauges.Elements (hashNameAndLabels metricName labels) = some stored ∧
      stored.Value = (if relative = true then
          fl.add (((mapGet b.Gauges.Elements (hashNameAndLabels metricName labels)).map
            gauge.Value).getD fl.zero) value
        else value) ∧
      (∀ h2, h2 ≠ hashNameAndLabels metricName labels →
        mapGet b2.Gauges.Elements h2 = mapGet b.Gauges.Elements h2) ∧
      b2.Counters = b.Counters ∧ b2.Histograms = b.Histograms ∧ b2.mapper = b.mapper ∧
      b2.elasticIndex = b.elasticIndex := by
  rw [round_gauge fl b name value relative eventLabels found labels present metricName hget
    hact hname]
  cases hm : mapGet b.Gauges.Elements (hashNameAndLabels metricName labels) with
  | none =>
    rw [gaugeGet_absent fl b.Gauges metricName labels _ hm]
    refine ⟨_, _, rfl, ?_, mapGet_mapSet_self _ _ _, ?_, ?_, rfl, rfl, rfl, rfl⟩
    · cases relative <;> rfl
    · cases relative <;> rfl
    · intro h2 hne
      simp only []
      rw [mapGet_mapSet_ne _ _ _ _ hne, mapGet_mapSet_ne _ _ _ _ hne]
  | some g =>
    rw [gaugeGet_present fl b.Gauges metricName labels _ g hm]
    refine ⟨_, _, rfl, ?_, mapGet_mapSet_self _ _ _, ?_, ?_, rfl, rfl, rfl, rfl⟩
    · cases relative <;> rfl
    · cases relative <;> rfl
    · intro h2 hne
      simp only []
      rw [mapGet_mapSet_ne _ _ _ _ hne]

/-! ### C24 -/

/-- C24: the round of a gauge event that is not dropped and whose name resolves adds one
`gauge` document whose value is the value of the stored gauge after the update: the value of the
event when the event is absolute, and when it is relative the sum of the value the gauge stored
under that identity had before, or of `0` when there was none, and the value of the event.
`Set` followed by `Value` returns the value set, `Add` followed by `Value` the sum, and a new
gauge has the value `0`. -/
theorem gauge_document_value {F : Type} (fl : FloatArith F) (b : Exporter F) (name : GoString)
    (value : F) (relative : Bool) (eventLabels : Labels) (found : Option MetricMapping)
    (labels : Labels) (present : Bool) (metricName : GoString)
    (hget : GetMapping b.mapper name metricTypeGauge = some (found, labels, present))
    (hact : (found.getD zeroMapping).Action ≠ ActionTypeDrop)
    (hname : (if present = true then EscapeMetricName (found.getD zeroMapping).Name
      else EscapeMetricName name) = some metricName) :
    (∃ (b2 : Exporter F) (d : MetricDocument F) (stored : gauge F),
      processHierarchicalEvent fl b (.gauge name value relative eventLabels) = some b2 ∧
      b2.elasticBulkProcessor = b.elasticBulkProcessor ++ [d] ∧
      d.MetricType = ascii "gauge" ∧ d.Name = metricName ∧
      mapGet b2.Gauges.Elements (hashNameAndLabels metricName labels) = some stored ∧
      d.Value = stored.Value ∧
      (relative = false → d.Value = value) ∧
      (relative = true → ∀ g,
        mapGet b.Gauges.Elements (hashNameAndLabels metricName labels) = some g →
        d.Value = fl.add g.Value value) ∧
      (relative = true →
        mapGet b.Gauges.Elements (hashNameAndLabels metricName labels) = none →
        d.Value = fl.add fl.zero value)) ∧
    (∀ g : gauge F, (g.Set value).Value = value ∧
      (g.Add fl value).Value = fl.add g.Value value) ∧
    (NewGauge fl metricName defaultHelp labels).Value = fl.zero := by
  refine ⟨?_, fun g => ⟨rfl, rfl⟩, rfl⟩
  obtain ⟨b2, stored, h1, h2, h3, h4, -⟩ := round_gauge_value fl b name value relative
    eventLabels found labels present metricName hget hact hname
  refine ⟨b2, _, stored, h1, h2, rfl, rfl, h3, h4.symm, ?_, ?_, ?_⟩
  · intro hr
    simp only [hr, Bool.false_eq_true, if_false]
  · intro hr g hg
    simp only [hr, if_true, hg, Option.map_some', Option.getD_some]
  · intro hr hg
    simp only [hr, if_true, hg, Option.map_none', Option.getD_none]

theorem gauge_document_value_witness :
    ∃ (b2 : Exporter Dec) (d : MetricDocument Dec),
      processHierarchicalEvent decArith
        ⟨⟨[]⟩, ⟨[(hashNameAndLabels (ascii "foo") [], NewGauge decArith (ascii "foo") [] [])]⟩,
          ⟨[]⟩, ⟨⟨[], matchTypeGlob⟩, []⟩, [], ascii "statsd"⟩
        (.gauge (ascii "foo") ⟨-3, 1⟩ true []) = some b2 ∧
      b2.elasticBulkProcessor = [] ++ [d] ∧
      d.Value = decArith.add (NewGauge decArith (ascii "foo") [] []).Value ⟨-3, 1⟩ :=
  match (gauge_document_value decArith
    ⟨⟨[]⟩, ⟨[(hashNameAndLabels (ascii "foo") [], NewGauge decArith (ascii "foo") [] [])]⟩,
      ⟨[]⟩, ⟨⟨[], matchTypeGlob⟩, []⟩, [], ascii "statsd"⟩
    (ascii "foo") ⟨-3, 1⟩ true [] none [] false (ascii "foo") (by decide) (by decide)
    (by decide)).1 with
  | ⟨b2, d, _, h1, h2, _, _, _, _, _, h8, _⟩ =>
    ⟨b2, d, h1, h2, h8 rfl _ (by simp [mapGet])⟩

/-! ### C30 -/

/-- C30: two gauge events with the same raw name, whatever their own label sets, the first
absolute with value `a` and the second relative with delta `d`, processed one after the other:
both rounds read and write the one gauge stored under the identity of the resolved name and the
labels the lookup returned, so the second document has the value `a + d`, while each document
has the merged labels of its own event; afterwards that identity holds the value `a + d` and
every other identity holds what it held before. -/
theorem gauge_selected_by_rule_labels {F : Type} (fl : FloatArith F) (b : Exporter F)
    (name : GoString) (a d : F) (tags1 tags2 : Labels) (found : Option MetricMapping)
    (labels : Labels) (present : Bool) (metricName : GoString)
    (hget : GetMapping b.mapper name metricTypeGauge = some (found, labels, present))
    (hact : (found.getD zeroMapping).Action ≠ ActionTypeDrop)
    (hname : (if present = true then EscapeMetricName (found.getD zeroMapping).Name
      else EscapeMetricName name) = some metricName) :
    ∃ (b2 : Exporter F) (d1 d2 : MetricDocument F) (stored : gauge F),
      processHierarchicalEvents fl b [.gauge name a false tags1, .gauge name d true tags2]
        = some b2 ∧
      b2.elasticBulkProcessor = b.elasticBulkProcessor ++ [d1, d2] ∧
      d1.Name = metricName ∧ d2.Name = metricName ∧
      d1.Value = a ∧ d2.Value = fl.add a d ∧
      d1.Labels = (if present = true then mergeLabels tags1 labels else tags1) ∧
      d2.Labels = (if present = true then mergeLabels tags2 labels else tags2) ∧
      mapGet b2.Gauges.Elements (hashNameAndLabels metricName labels) = some stored ∧
      stored.Value = fl.add a d ∧
      ∀ h2, h2 ≠ hashNameAndLabels metricName labels →
        mapGet b2.Gauges.Elements h2 = mapGet b.Gauges.Elements h2 := by
  obtain ⟨b1, s1, r1, hdoc1, hs1, hv1, hother1, -, -, hmap1, -⟩ :=
    round_gauge_value fl b name a false tags1 found labels present metricName hget hact hname
  obtain ⟨b2, s2, r2, hdoc2, hs2, hv2, hother2, -⟩ :=
    round_gauge_value fl b1 name d true tags2 found labels present metricName
      (by rw [hmap1]; exact hget) hact hname
  simp only [Bool.false_eq_true, if_false] at hdoc1 hv1
  simp only [if_true, hs1, Option.map_some', Option.getD_some, hv1] at hdoc2 hv2
  refine ⟨b2,
    { Name := metricName,
      Description := if (found.getD zeroMapping).HelpText = [] then defaultHelp
        else (found.getD zeroMapping).HelpText,
      MetricType := ascii "gauge", Value := a,
      Labels := if present = true then mergeLabels tags1 labels else tags1 },
    { Name := metricName,
      Description := if (found.getD zeroMapping).HelpText = [] then defaultHelp
        else (found.getD zeroMapping).HelpText,
      MetricType := ascii "gauge", Value := fl.add a d,
      Labels := if present = true then mergeLabels tags2 labels else tags2 },
    s2, ?_, ?_, rfl, rfl, rfl, rfl, rfl, rfl, hs2, hv2, ?_⟩
  · unfold processHierarchicalEvents
    rw [List.foldlM_cons, r1]
    simp only [Option.bind_eq_bind, Option.some_bind, List.foldlM_cons, r2, List.foldlM_nil]
    rfl
  · rw [hdoc2, hdoc1, List.append_assoc]
    rfl
  · intro h2 hne
    rw [hother2 h2 hne, hother1 h2 hne]

theorem gauge_selected_by_rule_labels_witness :
    ∃ (b2 : Exporter Dec) (d1 d2 : MetricDocument Dec),
      processHierarchicalEvents decArith
          ⟨⟨[]⟩, ⟨[]⟩, ⟨[]⟩, ⟨⟨[], matchTypeGlob⟩, []⟩, [], ascii "statsd"⟩
          [.gauge (ascii "foo") ⟨7, 1⟩ false [(ascii "host", ascii "a")],
            .gauge (ascii "foo") ⟨-3, 1⟩ true [(ascii "host", ascii "b")]]
        = some b2 ∧
      b2.elasticBulkProcessor = [] ++ [d1, d2] ∧
      d2.Value = decArith.add ⟨7, 1⟩ ⟨-3, 1⟩ ∧
      d1.Labels = (if false = true then mergeLabels [(ascii "host", ascii "a")] []
        else [(ascii "host", ascii "a")]) ∧
      d2.Labels = (if false = true then mergeLabels [(ascii "host", ascii "b")] []
        else [(ascii "host", ascii "b")]) :=
  match gauge_selected_by_rule_labels decArith
    ⟨⟨[]⟩, ⟨[]⟩, ⟨[]⟩, ⟨⟨[], matchTypeGlob⟩, []⟩, [], ascii "statsd"⟩
    (ascii "foo") ⟨7, 1⟩ ⟨-3, 1⟩ [(ascii "host", ascii "a")] [(ascii "host", ascii "b")]
    none [] false (ascii "foo") (by decide) (by decide) (by decide) with
  | ⟨b2, d1, d2, _, h1, h2, _, _, _, h6, h7, h8, _⟩ => ⟨b2, d1, d2, h1, h2, h6, h7, h8⟩

/-! ### The counter -/

theorem droppedBits_small (fuel n : Nat) (h : n < 2 ^ 53) : droppedBits fuel n = 0 := by
  cases fuel with
  | zero => rfl
  | succ f => simp only [droppedBits, if_pos h]

/-- Below `2 ^ 53` the conversion to `float64` is exact. -/
theorem float64OfNat_small (n : Nat) (h : n < 2 ^ 53) : float64OfNat n = n := by
  unfold float64OfNat
  simp only [droppedBits_small 11 n h, pow_zero, Nat.div_one, Nat.mod_one, mul_zero,
    Nat.lt_one_iff, true_or, if_true, mul_one]

/-- An integral call adds its amount to the integer part and leaves the rest as it is. -/
theorem counter_call_integral {F : Type} (fl : FloatCount F) (c : counter F)
    (call : CounterCall F) (h : call.isIntegral fl = true) :
    counter.call fl c call = some { c with valInt := (c.valInt + call.amount fl) % 2 ^ 64 } := by
  cases call with
  | Inc => rfl
  | Add v =>
    simp only [CounterCall.isIntegral, Bool.and_eq_true, Bool.not_eq_true'] at h
    simp only [counter.call, counter.Add, h.1, Bool.false_eq_true, if_false, h.2, if_true,
      CounterCall.amount]

/-- After integral calls the integer part holds the total modulo `2 ^ 64`. -/
theorem counter_calls_integral {F : Type} (fl : FloatCount F) (calls : List (CounterCall F)) :
    ∀ c : counter F, c.valInt < 2 ^ 64 → (∀ call ∈ calls, call.isIntegral fl = true) →
      calls.foldlM (counter.call fl) c
        = some { c with
            valInt := (c.valInt + (calls.map (CounterCall.amount fl)).sum) % 2 ^ 64 } := by
  induction calls with
  | nil =>
    intro c hc _
    simp only [List.foldlM_nil, List.map_nil, List.sum_nil, Nat.add_zero, Nat.mod_eq_of_lt hc]
    rfl
  | cons call rest ih =>
    intro c hc h
    rw [List.foldlM_cons, counter_call_integral fl c call (h call (List.mem_cons_self _ _))]
    simp only [Option.bind_eq_bind, Option.some_bind]
    rw [ih _ (Nat.mod_lt _ (by decide)) (fun x hx => h x (List.mem_cons_of_mem _ hx))]
    simp only [List.map_cons, List.sum_cons, Nat.mod_add_mod, Nat.add_assoc]

/-! ### C26 -/

/-- C26, counterexample: on a new counter, `Add(2^53)` and then `Inc()` are integral calls with
the total `2^53 + 1`, which the integer part of the state then holds, and `Value()` returns
`2^53`: the conversion of the integer part to `float64` rounds. -/
theorem counter_value_rounds :
    (∀ call ∈ [CounterCall.Add (⟨2 ^ 53, 1⟩ : Dec), CounterCall.Inc],
      call.isIntegral decCount = true) ∧
    ([CounterCall.Add (⟨2 ^ 53, 1⟩ : Dec), CounterCall.Inc].map
      (CounterCall.amount decCount)).sum = 2 ^ 53 + 1 ∧
    ([CounterCall.Add (⟨2 ^ 53, 1⟩ : Dec), CounterCall.Inc].foldlM (counter.call decCount)
        (NewCounter decArith (ascii "c") [] [])).map
          (fun c => (c.valInt, c.valBits, c.Value decCount))
      = some (2 ^ 53 + 1, ⟨0, 1⟩, ⟨2 ^ 53, 1⟩) ∧
    decCount.eq ⟨2 ^ 53, 1⟩ ⟨2 ^ 53 + 1, 1⟩ = false := by
  decide

/-- C26, amended: `Add(1)` gives the state `Inc()` gives; after calls of `Inc()` and of `Add(v)`
with non-negative integer-valued `v`, on a new counter and with a total below `2^64`, the
integer part of the state is the total, the floating part is still `0`, and `Value()` returns
`0 + float64(total)`; an `Add` of a non-negative value that is not integer-valued changes the
floating part only, to its sum with the value.  In the decimal instance `float64(n)` is `n`
itself for `n < 2^53`, so there `Value()` is the total when the total is below `2^53`. -/
theorem counter_integer_path {F : Type} (fl : FloatCount F) (name description : GoString)
    (labels : Labels) (calls : List (CounterCall F))
    (hint : ∀ call ∈ calls, call.isIntegral fl = true)
    (htotal : (calls.map (CounterCall.amount fl)).sum < 2 ^ 64) :
    (∀ c : counter F, c.Add fl fl.one = some c.Inc) ∧
    (∃ c, calls.foldlM (counter.call fl) (NewCounter fl.toFloatArith name description labels)
        = some c ∧
      c.valInt = (calls.map (CounterCall.amount fl)).sum ∧ c.valBits = fl.zero ∧
      c.Value fl = fl.add fl.zero (fl.ofUint64 (calls.map (CounterCall.amount fl)).sum) ∧
      c.name = name ∧ c.description = description ∧ c.labels = labels) ∧
    (∀ (c : counter F) (v : F), fl.ltZero v = false →
      fl.eq (fl.ofUint64 (fl.toUint64 v)) v = false →
      c.Add fl v = some { c with valBits := fl.add c.valBits v }) ∧
    (∀ n : Nat, n < 2 ^ 53 →
      (CounterCall.Add (⟨n, 1⟩ : Dec)).isIntegral decCount = true ∧
      (CounterCall.Add (⟨n, 1⟩ : Dec)).amount decCount = n ∧
      decCount.add decCount.zero (decCount.ofUint64 n) = ⟨n, 1⟩) := by
  refine ⟨?_, ?_, ?_, ?_⟩
  · intro c
    simp only [counter.Add, fl.one_nonneg, Bool.false_eq_true, if_false, fl.toUint64_one,
      fl.ofUint64_one, if_true]
    rfl
  · refine ⟨_, counter_calls_integral fl calls _ (by simp [NewCounter]) hint, ?_, rfl, ?_, rfl,
      rfl, rfl⟩
    · simp only [NewCounter, Nat.zero_add, Nat.mod_eq_of_lt htotal]
    · simp only [counter.Value, NewCounter, Nat.zero_add, Nat.mod_eq_of_lt htotal]
  · intro c v h1 h2
    simp only [counter.Add, h1, Bool.false_eq_true, if_false, h2]
  · intro n hn
    have hf : float64OfNat n = n := float64OfNat_small n hn
    have h64 : n < 2 ^ 64 := lt_trans hn (by decide)
    have hu : decCount.toUint64 ⟨n, 1⟩ = n := by
      show (Dec.toInt ⟨n, 1⟩).toNat % 2 ^ 64 = n
      simp only [Dec.toInt, Nat.cast_one, Int.tdiv_one, Int.toNat_ofNat, Nat.mod_eq_of_lt h64]
    refine ⟨?_, hu, ?_⟩
    · simp only [CounterCall.isIntegral, hu]
      show (!decide (((n : Int)) < 0) && decide (_ = _)) = true
      simp only [Int.natCast_nonneg, not_lt_of_ge, decide_False, Bool.not_false, Bool.true_and,
        decide_eq_true_eq]
      show ((float64OfNat n : Nat) : Int) * ((1 : Nat) : Int) = (n : Int) * ((1 : Nat) : Int)
      rw [hf]
    · show Dec.add ⟨0, 1⟩ ⟨float64OfNat n, 1⟩ = ⟨n, 1⟩
      simp [Dec.add, hf]

theorem counter_integer_path_witness :
    ∃ c, [CounterCall.Add (⟨2, 1⟩ : Dec), CounterCall.Inc].foldlM (counter.call decCount)
        (NewCounter decCount.toFloatArith (ascii "c") [] []) = some c ∧
      c.valInt = ([CounterCall.Add (⟨2, 1⟩ : Dec), CounterCall.Inc].map
        (CounterCall.amount decCount)).sum ∧
      c.valBits = decCount.zero :=
  match (counter_integer_path decCount (ascii "c") [] []
    [CounterCall.Add (⟨2, 1⟩ : Dec), CounterCall.Inc] (by decide) (by decide)).2.1 with
  | ⟨c, h1, h2, h3, _⟩ => ⟨c, h1, h2, h3⟩

/-! ### The rules of which the lookup is stated -/

theorem loopsConsume_seq (a : Node) (l : List Node) :
    (Node.seq (a :: l)).loopsConsume = (a.loopsConsume && l.all Node.loopsConsume) := by
  induction l generalizing a with
  | nil => simp [Node.seq]
  | cons b rest ih =>
    rw [Node.seq, Node.loopsConsume, ih b, List.all_cons]
    intro h
    cases h

theorem loopsConsume_globNodes (g : GoString) :
    ∀ k, (globNodes k g).all Node.loopsConsume = true := by
  induction g with
  | nil => intro k; rfl
  | cons c rest ih =>
    intro k
    unfold globNodes
    split_ifs
    · rw [List.all_cons, ih]
      rfl
    · rw [List.all_cons, ih]
      rfl

/-- In the pattern a glob is translated to, the one repetition, `[^.]*`, passes a byte in every
round. -/
theorem loopsConsume_globRegexp (g : GoString) : (globRegexp g).expr.loopsConsume = true := by
  unfold globRegexp
  simp only [List.cons_append]
  rw [loopsConsume_seq, List.all_append, loopsConsume_globNodes]
  rfl

/-- A rule that `InitFromYAMLString` installs with the match type glob has the compiled
translation of its glob. -/
theorem loadDocument_glob {m n : MetricMapper} (h : (loadDocument m n).2 = none) :
    ∀ r ∈ (loadDocument m n).1.Mappings, r.MatchType = matchTypeGlob →
      r.regex = some (globRegexp r.Match) := by
  obtain ⟨mappings, hc, hm⟩ := loadDocument_ok h
  rw [hm]
  intro r hr hglob
  obtain ⟨doc, -, j, hj⟩ := forall₂_mem_right (compileMappings_ok hc) hr
  obtain ⟨-, -, -, -, -, -, hmatch, -, -, -, -, hline, re, hre, hmem⟩ := compileMapping_ok hj
  rw [if_pos hglob] at hmem
  have hpat : isGlobPattern doc.Match = true := by
    rw [← metricLineRE_matchString]
    exact hline hglob
  rw [glob_compiles doc.Match (isGlobPattern_bytes hpat)] at hmem
  rw [hre, hmatch, Option.mem_def.1 hmem]

/-! ### C14 -/

/-- C14: for the rule list a document installs, each rule being one of which the lookup is
stated (`MetricMapping.inFragment`), `GetMapping` returns the first rule, in the order of the
list, that applies to the lookup (its pattern matches the name, and its metric-type filter is
unset or equal to the type), with the name template expanded against the submatches of that
rule and with the labels of the rule, every value template expanded against them: the returned
label set has the keys of the rule; and it returns `nil, nil, false` exactly when no rule
applies.  Every installed rule of match type glob has the pattern of its glob, in which every
round of the repetition passes a byte. -/
theorem getMapping_first_match (m0 doc : MetricMapper) (statsdMetric : GoString)
    (statsdMetricType : MetricType) (hload : (loadDocument m0 doc).2 = none)
    (hrules : ∀ r ∈ (loadDocument m0 doc).1.Mappings, r.inFragment = true) :
    (∀ before rule after re, (loadDocument m0 doc).1.Mappings = before ++ rule :: after →
      rule.regex = some re →
      (∀ r ∈ before, ruleApplies r statsdMetric statsdMetricType = false) →
      ruleApplies rule statsdMetric statsdMetricType = true →
      ∃ labels,
        GetMapping (loadDocument m0 doc).1 statsdMetric statsdMetricType
          = some (some { rule with
                    Name := re.ExpandString rule.Name statsdMetric
                      (re.FindStringSubmatchIndex statsdMetric) },
                  labels, true) ∧
        (∀ k, k ∈ labels.keys ↔ k ∈ rule.Labels.keys) ∧
        (rule.Labels.NodupKeys →
          labels = rule.Labels.map (fun p =>
            (p.1, re.ExpandString p.2 statsdMetric
              (re.FindStringSubmatchIndex statsdMetric))))) ∧
    (GetMapping (loadDocument m0 doc).1 statsdMetric statsdMetricType = some (none, [], false)
      ↔ ∀ r ∈ (loadDocument m0 doc).1.Mappings,
          ruleApplies r statsdMetric statsdMetricType = false) ∧
    (∀ r ∈ (loadDocument m0 doc).1.Mappings, r.MatchType = matchTypeGlob →
      r.regex = some (globRegexp r.Match) ∧ (globRegexp r.Match).expr.loopsConsume = true) := by
  have hcompiled : ∀ r ∈ (loadDocument m0 doc).1.Mappings, r.regex.isSome = true := by
    intro r hr
    have h := hrules r hr
    unfold MetricMapping.inFragment at h
    cases hre : r.regex with
    | none => rw [hre] at h; exact absurd h (by simp)
    | some re => rfl
  refine ⟨?_, getMappingLoop_none statsdMetric statsdMetricType _ hcompiled,
    fun r hr hglob => ⟨loadDocument_glob hload r hr hglob, loopsConsume_globRegexp _⟩⟩
  intro before rule after re hsplit hre hbefore hrule
  refine ⟨expandLabels re statsdMetric (re.FindStringSubmatchIndex statsdMetric) rule.Labels,
    ?_, expandLabels_keys _ _ _ _, expandLabels_nodup _ _ _ _⟩
  unfold GetMapping
  rw [hsplit] at hcompiled ⊢
  clear hsplit
  induction before with
  | nil => exact getMappingLoop_hit _ _ _ _ re hre hrule
  | cons p rest ih =>
    rw [List.cons_append, getMappingLoop_skip _ _ _ _
      (hcompiled p (by simp)) (hbefore p (List.mem_cons_self _ _))]
    exact ih (fun r hr => hcompiled r (by
        rw [List.cons_append]
        exact List.mem_cons_of_mem _ hr))
      (fun r hr => hbefore r (List.mem_cons_of_mem _ hr))

theorem getMapping_first_match_witness :
    ((loadDocument ⟨⟨[], []⟩, []⟩ lookupDocument).2 = none ∧
      (∀ r ∈ (loadDocument ⟨⟨[], []⟩, []⟩ lookupDocument).1.Mappings, r.inFragment = true) ∧
      (∀ r ∈ (loadDocument ⟨⟨[], []⟩, []⟩ lookupDocument).1.Mappings.take 2,
        ruleApplies r (ascii "app.checkout.latency") metricTypeTimer = false) ∧
      ((loadDocument ⟨⟨[], []⟩, []⟩ lookupDocument).1.Mappings.drop 2).map
          (fun r => ruleApplies r (ascii "app.checkout.latency") metricTypeTimer)
        = [true, true]) ∧
    GetMapping (loadDocument ⟨⟨[], []⟩, []⟩ lookupDocument).1 (ascii "app.checkout.latency")
        metricTypeTimer
      = some (some { Match := ascii "app.*.*", Name := ascii "app_checkout",
                     regex := some (globRegexp (ascii "app.*.*")),
                     Labels := [(ascii "op", ascii "$2"), (ascii "svc", ascii "$\x7b1\x7d_svc")],
                     TimerType := [], MatchType := matchTypeGlob, HelpText := [],
                     Action := ActionTypeMap, MatchMetricType := [] },
          [(ascii "op", ascii "latency"), (ascii "svc", ascii "checkout_svc")], true) :=
  have hload : (loadDocument ⟨⟨[], []⟩, []⟩ lookupDocument).2 = none := by decide
  have hrules : ∀ r ∈ (loadDocument ⟨⟨[], []⟩, []⟩ lookupDocument).1.Mappings,
      r.inFragment = true := by decide
  have hbefore : ∀ r ∈ (loadDocument ⟨⟨[], []⟩, []⟩ lookupDocument).1.Mappings.take 2,
      ruleApplies r (ascii "app.checkout.latency") metricTypeTimer = false := by decide
  have hnodup : Labels.NodupKeys
      [(ascii "op", ascii "$2"), (ascii "svc", ascii "$\x7b1\x7d_svc")] := by
    unfold Labels.NodupKeys; decide
  match (getMapping_first_match ⟨⟨[], []⟩, []⟩ lookupDocument (ascii "app.checkout.latency")
    metricTypeTimer hload hrules).1
    ((loadDocument ⟨⟨[], []⟩, []⟩ lookupDocument).1.Mappings.take 2)
    { Match := ascii "app.*.*", Name := ascii "app_$\x7b1\x7d",
      regex := some (globRegexp (ascii "app.*.*")),
      Labels := [(ascii "op", ascii "$2"), (ascii "svc", ascii "$\x7b1\x7d_svc")],
      TimerType := [], MatchType := matchTypeGlob, HelpText := [],
      Action := ActionTypeMap, MatchMetricType := [] }
    ((loadDocument ⟨⟨[], []⟩, []⟩ lookupDocument).1.Mappings.drop 3)
    (globRegexp (ascii "app.*.*")) (by decide) rfl hbefore (by decide) with
  | ⟨labels, h1, _, h3⟩ =>
    ⟨⟨hload, hrules, hbefore, by decide⟩, by
      rw [h3 hnodup] at h1
      exact h1.trans (by decide)⟩

end StatsdExporter
